import Mathlib

/-!
# PINTOS storage core: buffer cache and multilevel inode layer

A shallow embedding of `src/filesys/cache.c` and `src/filesys/inode.c`
(the `PR_FS` configuration) together with theorems about them.

Conventions of the embedding

* A byte buffer is a function `Nat → Nat` from byte offset to byte value;
  a disk sector and a cache buffer are such buffers of which the offsets
  below `DISK_SECTOR_SIZE` are meaningful.
* `disk_sector_t` and `unsigned` are natural numbers below `2 ^ 32`; a
  32-bit object stored in memory is four little-endian bytes (x86).
* `off_t` arguments (sizes and offsets) are natural numbers.
* A C function that can hit an assertion, run off the end of a buffer or
  dereference a dangling pointer returns `Option`; `none` is that failure.
-/

namespace Pintos

/-! ## Constants -/

/-- The sector size `DISK_SECTOR_SIZE` of `devices/disk.h`. -/
@[simp] def DISK_SECTOR_SIZE : Nat := 512

/-- The sentinel `UNUSED_SECTOR`, that is `(disk_sector_t)-1` (inode.h). -/
@[simp] def UNUSED_SECTOR : Nat := 4294967295

/-- The number `DIRECT_MAX` of direct block pointers in an inode (inode.h). -/
@[simp] def DIRECT_MAX : Nat := 12

/-- The number `SECTOR_MAX` of sector numbers held by one sector (inode.h). -/
@[simp] def SECTOR_MAX : Nat := 128

/-- The capacity `CACHE_TABLE_MAX_SIZE` of the buffer cache (cache.h). -/
@[simp] def CACHE_TABLE_MAX_SIZE : Nat := 64

/-- The constant `INODE_MAGIC` (inode.c). -/
@[simp] def INODE_MAGIC : Nat := 0x494e4f44

/-! ## Bytes and 32-bit words -/

/-- The C library `memcpy (dst + dofs, src + sofs, size)`. -/
def memcpy (dst : Nat → Nat) (dofs : Nat) (src : Nat → Nat) (sofs size : Nat) : Nat → Nat :=
  fun i => if dofs ≤ i ∧ i < dofs + size then src (sofs + (i - dofs)) else dst i

/-- The 32-bit little-endian word at word index `i` of a byte buffer. -/
def get32 (b : Nat → Nat) (i : Nat) : Nat :=
  b (4 * i) % 256 + 256 * (b (4 * i + 1) % 256) + 65536 * (b (4 * i + 2) % 256)
    + 16777216 * (b (4 * i + 3) % 256)

/-- The four bytes of a 32-bit object holding `v`, as `(uint8_t *)&v` sees them. -/
def bytes32 (v : Nat) : Nat → Nat :=
  fun k => if k = 0 then v % 256 else if k = 1 then v / 256 % 256
    else if k = 2 then v / 65536 % 256 else v / 16777216 % 256

/-- Store the 32-bit value `v` at word index `i` of a byte buffer. -/
def set32 (b : Nat → Nat) (i v : Nat) : Nat → Nat :=
  memcpy b (4 * i) (bytes32 v) 0 4

/-- The static array `zeros` of `allocate_block`: a sector of zero bytes. -/
def zeros : Nat → Nat := fun _ => 0

/-- The global array `unused` seen as bytes: `filesys_init` sets each of its
32-bit elements to `UNUSED_SECTOR`, so every byte is `0xff`. -/
def unused : Nat → Nat := fun _ => 255

/-! ## Data model -/

/-- The `struct cache_table_entry` of cache.h: a sector number and its buffer. -/
structure cache_table_entry where
  block : Nat
  vaddr : Nat → Nat

/-- The `struct cache_table` of cache.h, its lock left out: the FIFO list (head
first), the entry counter and the shutdown flag. -/
structure cache_table where
  list : List cache_table_entry
  size : Nat
  destroyed : Bool

/-- Modelled from the spec: the free-sector map of `filesys/free-map.c`, which is
not under src/ ("allocates/releases individual disk sectors").  `size` is the
number of sectors of the device and `used s` tells whether sector `s` is
allocated; `released` logs the sectors handed to `free_map_release`, oldest
first, and influences no operation. -/
structure free_map where
  size : Nat
  used : Nat → Bool
  released : List Nat

/-- The `struct inode_disk` of inode.h as the 512 bytes it occupies: 128
little-endian 32-bit words, `direct[0..11]` in words 0-11, then `indirect`,
`double_indirect`, `is_dir`, `parent_dir`, `length`, `magic` in words 12-17 and
`unused[110]` in words 18-127. -/
structure inode_disk where
  bytes : Nat → Nat

/-- The in-memory `struct inode` of inode.h, its list element left out. -/
structure inode where
  sector : Nat
  open_cnt : Int
  removed : Bool
  deny_write_cnt : Int
  data : inode_disk

/-- The mutable state of the file system: the device `filesys_disk` (sector
number to sector contents), the global `cache_table`, the free map and the
list `open_inodes` (head first), which holds the in-memory inodes. -/
structure filesys where
  filesys_disk : Nat → Nat → Nat
  cache_table : cache_table
  free_map : free_map
  open_inodes : List inode

/-! ### Fields of `struct inode_disk` -/

/-- Field `direct[i]`. -/
def inode_disk.direct (d : inode_disk) (i : Nat) : Nat := get32 d.bytes i
/-- Field `indirect`. -/
def inode_disk.indirect (d : inode_disk) : Nat := get32 d.bytes 12
/-- Field `double_indirect`. -/
def inode_disk.double_indirect (d : inode_disk) : Nat := get32 d.bytes 13
/-- Field `is_dir`. -/
def inode_disk.is_dir (d : inode_disk) : Nat := get32 d.bytes 14
/-- Field `parent_dir`. -/
def inode_disk.parent_dir (d : inode_disk) : Nat := get32 d.bytes 15
/-- Field `length`, the stored 32-bit word. -/
def inode_disk.length (d : inode_disk) : Nat := get32 d.bytes 16
/-- Field `magic`. -/
def inode_disk.magic (d : inode_disk) : Nat := get32 d.bytes 17

/-- Assignment `d->direct[i] = v`. -/
def inode_disk.set_direct (d : inode_disk) (i v : Nat) : inode_disk := ⟨set32 d.bytes i v⟩
/-- Assignment `d->indirect = v`. -/
def inode_disk.set_indirect (d : inode_disk) (v : Nat) : inode_disk := ⟨set32 d.bytes 12 v⟩
/-- Assignment `d->double_indirect = v`. -/
def inode_disk.set_double_indirect (d : inode_disk) (v : Nat) : inode_disk :=
  ⟨set32 d.bytes 13 v⟩
/-- Assignment `d->is_dir = v`. -/
def inode_disk.set_is_dir (d : inode_disk) (v : Nat) : inode_disk := ⟨set32 d.bytes 14 v⟩
/-- Assignment `d->parent_dir = v`. -/
def inode_disk.set_parent_dir (d : inode_disk) (v : Nat) : inode_disk := ⟨set32 d.bytes 15 v⟩
/-- Assignment `d->length = v`. -/
def inode_disk.set_length (d : inode_disk) (v : Nat) : inode_disk := ⟨set32 d.bytes 16 v⟩
/-- Assignment `d->magic = v`. -/
def inode_disk.set_magic (d : inode_disk) (v : Nat) : inode_disk := ⟨set32 d.bytes 17 v⟩

/-- The signed value of a 32-bit word read as `off_t` (a 32-bit `int`). -/
def off_t_val (w : Nat) : Int := if w % 4294967296 < 2147483648 then (w % 4294967296 : Nat)
  else ((w % 4294967296 : Nat) : Int) - 4294967296

/-! ## Device and free map -/

/-- The driver call `disk_write (filesys_disk, sec, buf)`. -/
def disk_write (st : filesys) (sec : Nat) (buf : Nat → Nat) : filesys :=
  { st with filesys_disk := Function.update st.filesys_disk sec buf }

/-- The driver call `disk_read (filesys_disk, sec, _)`: the sector contents. -/
def disk_read (st : filesys) (sec : Nat) : Nat → Nat := st.filesys_disk sec

/-- Modelled from the spec: `free_map_allocate (1, &sector)` of free-map.c, which
is not under src/; every call in src/ asks for one sector.  The lowest free
sector is marked used and returned; `none` is the call returning false, which
leaves `*sectorp` as it was. -/
def free_map_allocate (fm : free_map) : Option (Nat × free_map) :=
  match (List.range fm.size).find? (fun s => !fm.used s) with
  | none => none
  | some s => some (s, { fm with used := Function.update fm.used s true })

/-- Modelled from the spec: `free_map_release (sector, 1)` of free-map.c, which is
not under src/: the sector is marked free (and the call is logged).  The
write of the map to its file is left out here; `free_map_release_file` has
it. -/
def free_map_release (fm : free_map) (sector : Nat) : free_map :=
  { fm with used := Function.update fm.used sector false,
            released := fm.released ++ [sector] }

/-- Number of free sectors of the free map. -/
def free_count (fm : free_map) : Nat :=
  ((List.range fm.size).filter (fun s => !fm.used s)).length

/-! ## Buffer cache (cache.c) -/

/-- The function `cache_table_find`: the first entry of the list for `block`. -/
def cache_table_find (ct : cache_table) (block : Nat) : Option cache_table_entry :=
  ct.list.find? (fun cte => cte.block == block)

/-- Replace the buffer of the first entry for `block` (a store through the
pointer that `cache_table_find` or `allocate_cache` returned). -/
def cache_store : List cache_table_entry → Nat → (Nat → Nat) → List cache_table_entry
  | [], _, _ => []
  | cte :: rest, block, buf =>
    if cte.block = block then { cte with vaddr := buf } :: rest
    else cte :: cache_store rest block buf

/-- The function `allocate_cache`: a new entry for `block` is appended to the
list; when the counter has reached `CACHE_TABLE_MAX_SIZE` the head of the list
is popped first and written to the device.  The new buffer is fresh `malloc`
memory (zero here; both callers overwrite it at once).  `none` when the
assertion `size <= CACHE_TABLE_MAX_SIZE` fails or `list_pop_front` meets an
empty list. -/
def allocate_cache (st : filesys) (block : Nat) : Option filesys :=
  let cte : cache_table_entry := { block := block, vaddr := zeros }
  if st.cache_table.size ≤ CACHE_TABLE_MAX_SIZE then
    if st.cache_table.size = CACHE_TABLE_MAX_SIZE then
      match st.cache_table.list with
      | [] => none
      | victim :: rest =>
        let st1 := disk_write st victim.block victim.vaddr
        some { st1 with cache_table :=
          { st1.cache_table with list := rest ++ [cte],
                                 size := st1.cache_table.size - 1 + 1 } }
    else
      some { st with cache_table :=
        { st.cache_table with list := st.cache_table.list ++ [cte],
                              size := st.cache_table.size + 1 } }
  else none

/-- The function `free_cache`: the first entry for `block`, if any, is unlinked;
the counter `size` is not touched. -/
def free_cache (st : filesys) (block : Nat) : filesys :=
  { st with cache_table :=
    { st.cache_table with list := st.cache_table.list.eraseP (fun cte => cte.block == block) } }

/-- The function `cache_table_read`: copies `size` bytes at `offset` of the cached
sector to `buffer + bofs`, loading the sector on a miss.  `none` when the copy
would leave the 512-byte cache buffer or `allocate_cache` fails. -/
def cache_table_read (st : filesys) (buffer : Nat → Nat) (bofs : Nat)
    (sector offset size : Nat) : Option (filesys × (Nat → Nat)) :=
  if offset + size ≤ DISK_SECTOR_SIZE then
    match cache_table_find st.cache_table sector with
    | some cte => some (st, memcpy buffer bofs cte.vaddr offset size)
    | none =>
      match allocate_cache st sector with
      | none => none
      | some st1 =>
        let vaddr := disk_read st1 sector
        some ({ st1 with cache_table :=
                  { st1.cache_table with list := cache_store st1.cache_table.list sector vaddr } },
              memcpy buffer bofs vaddr offset size)
  else none

/-- The function `cache_table_write`: copies `size` bytes from `buffer + bofs` to
`offset` of the cached sector, loading the sector on a miss; nothing is written
to the device.  `none` as for `cache_table_read`. -/
def cache_table_write (st : filesys) (buffer : Nat → Nat) (bofs : Nat)
    (sector offset size : Nat) : Option filesys :=
  if offset + size ≤ DISK_SECTOR_SIZE then
    match cache_table_find st.cache_table sector with
    | some cte =>
      some { st with cache_table :=
        { st.cache_table with
            list := cache_store st.cache_table.list sector
                      (memcpy cte.vaddr offset buffer bofs size) } }
    | none =>
      match allocate_cache st sector with
      | none => none
      | some st1 =>
        let vaddr := disk_read st1 sector
        some { st1 with cache_table :=
          { st1.cache_table with
              list := cache_store st1.cache_table.list sector
                        (memcpy vaddr offset buffer bofs size) } }
  else none

/-- The loop of `cache_table_flush`: every entry is written to the device. -/
def flush_entries (st : filesys) : List cache_table_entry → filesys
  | [] => st
  | cte :: rest => flush_entries (disk_write st cte.block cte.vaddr) rest

/-- The function `cache_table_flush`. -/
def cache_table_flush (st : filesys) : filesys := flush_entries st st.cache_table.list

/-- The function `cache_table_destroy`: flush, drop every entry, set `destroyed`;
the counter `size` is not touched. -/
def cache_table_destroy (st : filesys) : filesys :=
  let st1 := cache_table_flush st
  { st1 with cache_table := { st1.cache_table with list := [], destroyed := true } }

/-- The function `cache_table_init`, the flusher thread apart. -/
def cache_table_init (st : filesys) : filesys :=
  { st with cache_table := { list := [], size := 0, destroyed := false } }

/-! ## Inode layer (inode.c) -/

/-- The function `bytes_to_sectors`: `DIV_ROUND_UP (size, DISK_SECTOR_SIZE)`.  For a
negative `size` the C value is zero or wraps to a negative `int`; the loops
that use it then run no iteration, which the value `0` here gives as well. -/
def bytes_to_sectors (size : Int) : Nat :=
  ((size + DISK_SECTOR_SIZE - 1) / DISK_SECTOR_SIZE).toNat

/-- The step that `allocate_block` takes on one slot of an index block (lines
83-90, 104-111 and 113-120): read the sector number at index `idx` of index
block `sector`; if it is `UNUSED_SECTOR` allocate a sector, store its number in
the slot and fill the new sector with `fill`.  The result is the slot value,
`UNUSED_SECTOR` when the allocation failed. -/
def ensure_slot (st : filesys) (sector idx : Nat) (fill : Nat → Nat) : Option (Nat × filesys) :=
  match cache_table_read st zeros 0 sector (idx * 4) 4 with
  | none => none
  | some (st1, buf) =>
    let block := get32 buf 0
    if block = UNUSED_SECTOR then
      match free_map_allocate st1.free_map with
      | none => some (UNUSED_SECTOR, st1)
      | some (s, fm) =>
        match cache_table_write { st1 with free_map := fm } (bytes32 s) 0 sector (idx * 4) 4 with
        | none => none
        | some st2 =>
          match cache_table_write st2 fill 0 s 0 DISK_SECTOR_SIZE with
          | none => none
          | some st3 => some (s, st3)
    else some (block, st1)

/-- Lines 81-90 of `allocate_block`: the indirect branch from `int doffset` on,
entered when the inode has an indirect block. -/
def allocate_indirect (st : filesys) (data : inode_disk) (pos : Nat) :
    Option (Nat × inode_disk × filesys) :=
  let doffset := pos - DIRECT_MAX
  match ensure_slot st data.indirect doffset zeros with
  | none => none
  | some (block, st1) => some (block, data, st1)

/-- Lines 101-120 of `allocate_block`: the double-indirect branch from
`int ioffset` on, entered when the inode has a double-indirect block. -/
def allocate_double (st : filesys) (data : inode_disk) (pos : Nat) :
    Option (Nat × inode_disk × filesys) :=
  let ioffset := (pos - DIRECT_MAX - SECTOR_MAX) / SECTOR_MAX
  let doffset := (pos - DIRECT_MAX - SECTOR_MAX) % SECTOR_MAX
  match ensure_slot st data.double_indirect ioffset unused with
  | none => none
  | some (indirect, st1) =>
    if indirect = UNUSED_SECTOR then some (UNUSED_SECTOR, data, st1)
    else
      match ensure_slot st1 indirect doffset zeros with
      | none => none
      | some (block, st2) => some (block, data, st2)

/-- The function `allocate_block`: the sector of logical block `pos` of the inode,
allocated (with the index blocks on its path) when missing.  The result is the
sector, `UNUSED_SECTOR` when an allocation failed, with the inode and the state
as the call leaves them. -/
def allocate_block (st : filesys) (data : inode_disk) (pos : Nat) :
    Option (Nat × inode_disk × filesys) :=
  if pos < DIRECT_MAX then
    if data.direct pos = UNUSED_SECTOR then
      match free_map_allocate st.free_map with
      | none => some (UNUSED_SECTOR, data, st)
      | some (s, fm) =>
        let data1 := data.set_direct pos s
        match cache_table_write { st with free_map := fm } zeros 0 (data1.direct pos) 0
            DISK_SECTOR_SIZE with
        | none => none
        | some st1 => some (data1.direct pos, data1, st1)
    else some (data.direct pos, data, st)
  else if pos < DIRECT_MAX + SECTOR_MAX then
    if data.indirect = UNUSED_SECTOR then
      match free_map_allocate st.free_map with
      | none => some (UNUSED_SECTOR, data, st)
      | some (s, fm) =>
        let data1 := data.set_indirect s
        match cache_table_write { st with free_map := fm } unused 0 data1.indirect 0
            DISK_SECTOR_SIZE with
        | none => none
        | some st1 => allocate_indirect st1 data1 pos
    else allocate_indirect st data pos
  else
    if data.double_indirect = UNUSED_SECTOR then
      match free_map_allocate st.free_map with
      | none => some (UNUSED_SECTOR, data, st)
      | some (s, fm) =>
        let data1 := data.set_double_indirect s
        match cache_table_write { st with free_map := fm } unused 0 data1.double_indirect 0
            DISK_SECTOR_SIZE with
        | none => none
        | some st1 => allocate_double st1 data1 pos
    else allocate_double st data pos

/-- The pair `free_map_release (s, 1); free_cache (s);` of `free_blocks`, the write
of the free map to its file left out (`release_block_file` has it). -/
def release_block (st : filesys) (s : Nat) : filesys :=
  free_cache { st with free_map := free_map_release st.free_map s } s

/-- One iteration of the loop of `free_blocks`, for logical block `pos`. -/
def free_blocks_step (st : filesys) (data : inode_disk) (pos : Nat) : Option filesys :=
  if pos < DIRECT_MAX then
    some (release_block st (data.direct pos))
  else if pos < DIRECT_MAX + SECTOR_MAX then
    let doffset := pos - DIRECT_MAX
    match cache_table_read st zeros 0 data.indirect (doffset * 4) 4 with
    | none => none
    | some (st1, buf) =>
      let block := get32 buf 0
      let st2 := if block ≠ UNUSED_SECTOR then release_block st1 block else st1
      some (if doffset = 0 then release_block st2 data.indirect else st2)
  else
    let ioffset := (pos - DIRECT_MAX - SECTOR_MAX) / SECTOR_MAX
    let doffset := (pos - DIRECT_MAX - SECTOR_MAX) % SECTOR_MAX
    match cache_table_read st zeros 0 data.double_indirect (ioffset * 4) 4 with
    | none => none
    | some (st1, buf) =>
      let indirect := get32 buf 0
      let inner : Option filesys :=
        if indirect ≠ UNUSED_SECTOR then
          match cache_table_read st1 zeros 0 indirect (doffset * 4) 4 with
          | none => none
          | some (st2, buf2) =>
            let block := get32 buf2 0
            let st3 := if block ≠ UNUSED_SECTOR then release_block st2 block else st2
            some (if doffset = 0 then release_block st3 indirect else st3)
        else some st1
      match inner with
      | none => none
      | some st4 =>
        some (if ioffset = 0 ∧ doffset = 0 then release_block st4 data.double_indirect else st4)

/-- The loop `for (pos = sectors - 1; pos >= 0; pos--)` of `free_blocks`, entered
with `pos + 1 = n`. -/
def free_blocks_loop (data : inode_disk) : Nat → filesys → Option filesys
  | 0, st => some st
  | n + 1, st =>
    match free_blocks_step st data n with
    | none => none
    | some st1 => free_blocks_loop data n st1

/-- The function `free_blocks`. -/
def free_blocks (st : filesys) (data : inode_disk) : Option filesys :=
  free_blocks_loop data (bytes_to_sectors (off_t_val data.length)) st

/-- The loop `for (i = 0; i < sectors; i++)` of `inode_create`, with `n` iterations
left: a failed allocation clears `success` and the loop goes on. -/
def inode_create_loop : Nat → Nat → filesys → inode_disk → Bool →
    Option (inode_disk × filesys × Bool)
  | 0, _, st, data, success => some (data, st, success)
  | n + 1, i, st, data, success =>
    match allocate_block st data i with
    | none => none
    | some (block, data1, st1) =>
      inode_create_loop n (i + 1) st1 data1 (if block = UNUSED_SECTOR then false else success)

/-- The on-disk inode that `inode_create` sets up before it allocates blocks: a
zeroed image (`calloc`) with `length`, `magic`, the index fields set to
`UNUSED_SECTOR`, `is_dir` and `parent_dir`. -/
def inode_create_image (length : Nat) ( is_dir : Bool) (parent_dir : Nat) : inode_disk :=
  let d0 : inode_disk := ⟨zeros⟩
  let d1 := (d0.set_length length).set_magic INODE_MAGIC
  let d2 := (List.range DIRECT_MAX).foldl (fun d i => d.set_direct i UNUSED_SECTOR) d1
  let d3 := (d2.set_indirect UNUSED_SECTOR).set_double_indirect UNUSED_SECTOR
  (d3.set_is_dir (if is_dir then 1 else 0)).set_parent_dir parent_dir

/-- The function `inode_create` (memory allocation taken to succeed): the result is
the state and the returned `success`. -/
def inode_create (st : filesys) (sector length : Nat) ( is_dir : Bool) (parent_dir : Nat) :
    Option (filesys × Bool) :=
  let sectors := bytes_to_sectors length
  match inode_create_loop sectors 0 st (inode_create_image length is_dir parent_dir) true with
  | none => none
  | some (disk_inode, st1, success) =>
    if success then some (disk_write st1 sector disk_inode.bytes, true)
    else some (st1, false)

/-- The in-memory inode a pointer refers to.  A pointer to a `struct inode` is
modelled by the sector number of the inode, the key under which `inode_open`
looks the list up; `none` is a dangling pointer. -/
def inode_deref (st : filesys) (p : Nat) : Option inode :=
  st.open_inodes.find? (fun i => i.sector == p)

/-- Replace the first list entry for sector `p` (a store through the pointer). -/
def inode_list_store : List inode → Nat → inode → List inode
  | [], _, _ => []
  | i :: rest, p, v => if i.sector = p then v :: rest else i :: inode_list_store rest p v

/-- Store `v` through the pointer `p`. -/
def inode_store (st : filesys) (p : Nat) (v : inode) : filesys :=
  { st with open_inodes := inode_list_store st.open_inodes p v }

/-- The function `inode_init`. -/
def inode_init (st : filesys) : filesys := { st with open_inodes := [] }

/-- The function `inode_open` (memory allocation taken to succeed): the state and
the inode returned. -/
def inode_open (st : filesys) (sector : Nat) : filesys × inode :=
  match inode_deref st sector with
  | some i =>
    let i1 := { i with open_cnt := i.open_cnt + 1 }
    (inode_store st sector i1, i1)
  | none =>
    let i1 : inode := { sector := sector, open_cnt := 1, deny_write_cnt := 0, removed := false,
                        data := ⟨disk_read st sector⟩ }
    ({ st with open_inodes := i1 :: st.open_inodes }, i1)

/-- The function `inode_reopen`; `none` as argument is the null pointer. -/
def inode_reopen (st : filesys) (p : Option Nat) : Option filesys :=
  match p with
  | none => some st
  | some p =>
    match inode_deref st p with
    | none => none
    | some i => some (inode_store st p { i with open_cnt := i.open_cnt + 1 })

/-- The function `inode_close`; `none` as argument is the null pointer. -/
def inode_close (st : filesys) (p : Option Nat) : Option filesys :=
  match p with
  | none => some st
  | some p =>
    match inode_deref st p with
    | none => none
    | some i =>
      let i1 := { i with open_cnt := i.open_cnt - 1 }
      if i1.open_cnt = 0 then
        let st1 := { st with open_inodes := st.open_inodes.eraseP (fun j => j.sector == p) }
        if i1.removed then
          free_blocks { st1 with free_map := free_map_release st1.free_map i1.sector } i1.data
        else some (disk_write st1 i1.sector i1.data.bytes)
      else some (inode_store st p i1)

/-- The function `inode_remove`. -/
def inode_remove (st : filesys) (p : Nat) : Option filesys :=
  match inode_deref st p with
  | none => none
  | some i => some (inode_store st p { i with removed := true })

/-- The function `inode_length`: the `length` field as `off_t`. -/
def inode_length (data : inode_disk) : Int := off_t_val data.length

/-- The `while (size > 0)` loop of `inode_read_at` on the inode's `data`, run for at
most `fuel` iterations; the result is the state, the inode data, the buffer and
`bytes_read`. -/
def inode_read_loop : Nat → filesys → inode_disk → (Nat → Nat) → Nat → Nat → Nat →
    Option (filesys × inode_disk × (Nat → Nat) × Nat)
  | 0, st, data, buffer, _, _, bytes_read => some (st, data, buffer, bytes_read)
  | fuel + 1, st, data, buffer, size, offset, bytes_read =>
    if size > 0 then
      match allocate_block st data (offset / DISK_SECTOR_SIZE) with
      | none => none
      | some (sector_idx, data1, st1) =>
        let sector_ofs := offset % DISK_SECTOR_SIZE
        let inode_left : Int := inode_length data1 - offset
        let sector_left : Int := DISK_SECTOR_SIZE - sector_ofs
        let min_left : Int := if inode_left < sector_left then inode_left else sector_left
        let chunk_size : Int := if (size : Int) < min_left then size else min_left
        if chunk_size ≤ 0 then some (st1, data1, buffer, bytes_read)
        else
          match cache_table_read st1 buffer bytes_read sector_idx sector_ofs chunk_size.toNat with
          | none => none
          | some (st2, buffer1) =>
            inode_read_loop fuel st2 data1 buffer1 (size - chunk_size.toNat)
              (offset + chunk_size.toNat) (bytes_read + chunk_size.toNat)
    else some (st, data, buffer, bytes_read)

/-- The function `inode_read_at`: the state, the caller's buffer and the number of
bytes read.  Every iteration of the loop consumes at least one byte of `size`,
so `size` iterations are enough. -/
def inode_read_at (st : filesys) (p : Nat) (buffer : Nat → Nat) (size offset : Nat) :
    Option (filesys × (Nat → Nat) × Nat) :=
  match inode_deref st p with
  | none => none
  | some i =>
    match inode_read_loop size st i.data buffer size offset 0 with
    | none => none
    | some (st1, data1, buffer1, bytes_read) =>
      some (inode_store st1 p { i with data := data1 }, buffer1, bytes_read)

/-- The `while (size > 0)` loop of `inode_write_at` on the inode's `data`, run for
at most `fuel` iterations; the result is the state, the inode data and
`bytes_written`. -/
def inode_write_loop : Nat → filesys → inode_disk → (Nat → Nat) → Nat → Nat → Nat →
    Option (filesys × inode_disk × Nat)
  | 0, st, data, _, _, _, bytes_written => some (st, data, bytes_written)
  | fuel + 1, st, data, buffer, size, offset, bytes_written =>
    if size > 0 then
      match allocate_block st data (offset / DISK_SECTOR_SIZE) with
      | none => none
      | some (sector_idx, data1, st1) =>
        let sector_ofs := offset % DISK_SECTOR_SIZE
        let sector_left := DISK_SECTOR_SIZE - sector_ofs
        let chunk_size := if size < sector_left then size else sector_left
        if chunk_size ≤ 0 then some (st1, data1, bytes_written)
        else
          match cache_table_write st1 buffer bytes_written sector_idx sector_ofs chunk_size with
          | none => none
          | some st2 =>
            inode_write_loop fuel st2 data1 buffer (size - chunk_size) (offset + chunk_size)
              (bytes_written + chunk_size)
    else some (st, data, bytes_written)

/-- The function `inode_write_at`: the state and the number of bytes written. -/
def inode_write_at (st : filesys) (p : Nat) (buffer : Nat → Nat) (size offset : Nat) :
    Option (filesys × Nat) :=
  match inode_deref st p with
  | none => none
  | some i =>
    if i.deny_write_cnt ≠ 0 then some (st, 0)
    else
      let data0 := if inode_length i.data < ((offset + size : Nat) : Int)
        then i.data.set_length (offset + size) else i.data
      match inode_write_loop size st data0 buffer size offset 0 with
      | none => none
      | some (st1, data1, bytes_written) =>
        some (inode_store st1 p { i with data := data1 }, bytes_written)

/-! ## Abstractions used by the theorems -/

/-- The contents of sector `s` as the file system sees them: the buffer of the
cache entry that `cache_table_find` yields, the device contents otherwise. -/
def sector_view (st : filesys) (s : Nat) : Nat → Nat :=
  match cache_table_find st.cache_table s with
  | some cte => cte.vaddr
  | none => st.filesys_disk s

/-- Consistency of the cache table: the counter bounds the length of the list and
is at most `CACHE_TABLE_MAX_SIZE`, no sector has two entries, and a full counter
comes with a non-empty list (so that `allocate_cache` finds a victim). -/
def cache_ok (ct : cache_table) : Prop :=
  ct.list.length ≤ ct.size ∧ ct.size ≤ CACHE_TABLE_MAX_SIZE ∧
  (ct.list.map (fun cte => cte.block)).Nodup ∧
  (ct.size = CACHE_TABLE_MAX_SIZE → ct.list ≠ [])

/-- Sector `t` has an entry in the cache list. -/
def cached (st : filesys) (t : Nat) : Prop :=
  t ∈ st.cache_table.list.map (fun cte => cte.block)

/-- Number of logical blocks an inode can address: `DIRECT_MAX + SECTOR_MAX +
SECTOR_MAX * SECTOR_MAX`. -/
@[simp] def MAX_BLOCKS : Nat := 16524

/-- Entry `k` of index block `X`, `UNUSED_SECTOR` when there is no index block. -/
def child_slot (st : filesys) (X k : Nat) : Nat :=
  if X = UNUSED_SECTOR then UNUSED_SECTOR else get32 (sector_view st X) k

/-- Entry `i` of the double-indirect block. -/
def indirect_slot (st : filesys) (data : inode_disk) (i : Nat) : Nat :=
  child_slot st data.double_indirect i

/-- The index slot of logical block `pos`: `direct[pos]` for `pos < 12`, entry
`pos - 12` of the indirect block for `pos < 140`, otherwise entry
`(pos - 140) % 128` of the indirect block named by entry `(pos - 140) / 128` of the
double-indirect block; `UNUSED_SECTOR` when an index block on the way is
missing. -/
def block_slot (st : filesys) (data : inode_disk) (pos : Nat) : Nat :=
  if pos < DIRECT_MAX then data.direct pos
  else if pos < DIRECT_MAX + SECTOR_MAX then child_slot st data.indirect (pos - DIRECT_MAX)
  else child_slot st (indirect_slot st data ((pos - DIRECT_MAX - SECTOR_MAX) / SECTOR_MAX))
    ((pos - DIRECT_MAX - SECTOR_MAX) % SECTOR_MAX)

/-- The places that hold a sector number of an inode: the inode's own sector, the
slot of a logical block, the fields `indirect` and `double_indirect`, and the
entries of the double-indirect block. -/
inductive slot_id where
  | self
  | data (p : Nat)
  | ind
  | dbl
  | dind (i : Nat)
  deriving DecidableEq

/-- The slots that exist: logical blocks below `MAX_BLOCKS`, entries below
`SECTOR_MAX`. -/
def slot_id.valid : slot_id → Prop
  | slot_id.data p => p < MAX_BLOCKS
  | slot_id.dind i => i < SECTOR_MAX
  | _ => True

/-- The sector number held by a slot of the inode stored at sector `isec`. -/
def slot_sector (st : filesys) (isec : Nat) (data : inode_disk) : slot_id → Nat
  | slot_id.self => isec
  | slot_id.data p => block_slot st data p
  | slot_id.ind => data.indirect
  | slot_id.dbl => data.double_indirect
  | slot_id.dind i => indirect_slot st data i

/-- Well-formedness of an inode in a state: the device has fewer than `2 ^ 32 - 1`
sectors, every sector the inode refers to is marked used in the free map, and
no sector is referred to twice. -/
structure inode_wf (st : filesys) (isec : Nat) (data : inode_disk) : Prop where
  size_le : st.free_map.size ≤ UNUSED_SECTOR
  used : ∀ r : slot_id, r.valid → slot_sector st isec data r ≠ UNUSED_SECTOR →
    slot_sector st isec data r < st.free_map.size ∧
      st.free_map.used (slot_sector st isec data r) = true
  inj : ∀ r1 r2 : slot_id, r1.valid → r2.valid → slot_sector st isec data r1 ≠ UNUSED_SECTOR →
    slot_sector st isec data r1 = slot_sector st isec data r2 → r1 = r2

/-- The slots on the path to logical block `pos`. -/
def block_path (pos : Nat) : List slot_id :=
  if pos < DIRECT_MAX then [slot_id.data pos]
  else if pos < DIRECT_MAX + SECTOR_MAX then [slot_id.ind, slot_id.data pos]
  else [slot_id.dbl, slot_id.dind ((pos - DIRECT_MAX - SECTOR_MAX) / SECTOR_MAX), slot_id.data pos]

/-- Number of slots on the path to `pos` that hold `UNUSED_SECTOR`. -/
def missing_levels (st : filesys) (data : inode_disk) (pos : Nat) : Nat :=
  ((block_path pos).filter (fun r => slot_sector st 0 data r == UNUSED_SECTOR)).length

/-- Byte `j` of the file as a read returns it: offset `j % 512` of the sector of
logical block `j / 512`, and zero where that block is not allocated (a read
allocates a zeroed block there). -/
def file_content (st : filesys) (data : inode_disk) (j : Nat) : Nat :=
  if block_slot st data (j / DISK_SECTOR_SIZE) = UNUSED_SECTOR then 0
  else sector_view st (block_slot st data (j / DISK_SECTOR_SIZE)) (j % DISK_SECTOR_SIZE)

/-- The slots that hold the sector of an index block. -/
def slot_id.index : slot_id → Prop
  | slot_id.ind => True
  | slot_id.dbl => True
  | slot_id.dind _ => True
  | _ => False

/-- What a run of block allocations does to an inode and the state (`touched`
tells which slots the run may set): the inode stays well-formed, a slot that
is set keeps its sector, an untouched slot keeps its value, a sector that was
in use and is not an index block of the inode keeps its contents, the free map
only gains sectors, a slot that gets set receives a sector that was free, a
logical block that gets allocated reads as zeros, nothing else of the inode
changes, and a used sector outside the inode's blocks that is not in the cache
stays out of it and keeps its contents on the device. -/
structure grows (touched : slot_id → Prop) (isec : Nat) (st : filesys) (data : inode_disk)
    (st1 : filesys) (data1 : inode_disk) : Prop where
  wf : inode_wf st1 isec data1
  keep : ∀ r : slot_id, r.valid → slot_sector st isec data r ≠ UNUSED_SECTOR →
    slot_sector st1 isec data1 r = slot_sector st isec data r
  untouched : ∀ r : slot_id, r.valid → ¬ touched r →
    slot_sector st1 isec data1 r = slot_sector st isec data r
  view : ∀ t, t < st.free_map.size → st.free_map.used t = true →
    (∀ r : slot_id, r.valid → r.index → slot_sector st isec data r ≠ t) →
    sector_view st1 t = sector_view st t
  fm_size : st1.free_map.size = st.free_map.size
  fm_used : ∀ t, st.free_map.used t = true → st1.free_map.used t = true
  fm_released : st1.free_map.released = st.free_map.released
  fm_count : free_count st1.free_map ≤ free_count st.free_map
  fresh : ∀ r : slot_id, r.valid → slot_sector st isec data r = UNUSED_SECTOR →
    slot_sector st1 isec data1 r ≠ UNUSED_SECTOR →
    st.free_map.used (slot_sector st1 isec data1 r) = false
  zero : ∀ p, p < MAX_BLOCKS → block_slot st data p = UNUSED_SECTOR →
    block_slot st1 data1 p ≠ UNUSED_SECTOR →
    ∀ i, i < DISK_SECTOR_SIZE → sector_view st1 (block_slot st1 data1 p) i = 0
  fields : ∀ j, 14 ≤ j → get32 data1.bytes j = get32 data.bytes j
  open_inodes : st1.open_inodes = st.open_inodes
  quiet : ∀ t, ¬ cached st t → t < st.free_map.size → st.free_map.used t = true →
    (∀ r : slot_id, r.valid → r ≠ slot_id.self → slot_sector st isec data r ≠ t) →
    st1.filesys_disk t = st.filesys_disk t ∧ ¬ cached st1 t

/-- What a run of block allocations and data writes does to an inode and the
state: as `grows`, but the contents of the file are described byte by byte,
`W j = some v` telling that byte `j` was written with `v`. -/
structure evolves (touched : slot_id → Prop) (W : Nat → Option Nat) (isec : Nat)
    (st : filesys) (data : inode_disk) (st1 : filesys) (data1 : inode_disk) : Prop where
  wf : inode_wf st1 isec data1
  keep : ∀ r : slot_id, r.valid → slot_sector st isec data r ≠ UNUSED_SECTOR →
    slot_sector st1 isec data1 r = slot_sector st isec data r
  untouched : ∀ r : slot_id, r.valid → ¬ touched r →
    slot_sector st1 isec data1 r = slot_sector st isec data r
  fm_size : st1.free_map.size = st.free_map.size
  fm_used : ∀ t, st.free_map.used t = true → st1.free_map.used t = true
  fm_released : st1.free_map.released = st.free_map.released
  fm_count : free_count st1.free_map ≤ free_count st.free_map
  fresh : ∀ r : slot_id, r.valid → slot_sector st isec data r = UNUSED_SECTOR →
    slot_sector st1 isec data1 r ≠ UNUSED_SECTOR →
    st.free_map.used (slot_sector st1 isec data1 r) = false
  content : ∀ j, j / DISK_SECTOR_SIZE < MAX_BLOCKS →
    file_content st1 data1 j = (match W j with
      | some v => v
      | none => file_content st data j)
  fields : ∀ j, 14 ≤ j → get32 data1.bytes j = get32 data.bytes j
  open_inodes : st1.open_inodes = st.open_inodes
  quiet : ∀ t, ¬ cached st t → t < st.free_map.size → st.free_map.used t = true →
    (∀ r : slot_id, r.valid → r ≠ slot_id.self → slot_sector st isec data r ≠ t) →
    st1.filesys_disk t = st.filesys_disk t ∧ ¬ cached st1 t

/-- The registry holds at most one inode per sector. -/
def registry_ok (st : filesys) : Prop := (st.open_inodes.map (fun i => i.sector)).Nodup

/-- A call of the interface of the buffer cache. -/
inductive cache_call where
  | read (sector offset size : Nat)
  | write (buffer : Nat → Nat) (sector offset size : Nat)
  | flush

/-- The copy of the call stays within the 512 bytes of the sector. -/
def cache_call.in_range : cache_call → Bool
  | cache_call.read _ offset size => decide (offset + size ≤ DISK_SECTOR_SIZE)
  | cache_call.write _ _ offset size => decide (offset + size ≤ DISK_SECTOR_SIZE)
  | cache_call.flush => true

/-- Run a sequence of calls through the buffer cache; the result is the final
state with, in order, the buffers that the reads filled (each read copies
into a zeroed buffer). -/
def run_cache : filesys → List cache_call → Option (filesys × List (Nat → Nat))
  | st, [] => some (st, [])
  | st, cache_call.read sector offset size :: cs =>
    match cache_table_read st zeros 0 sector offset size with
    | none => none
    | some (st1, buf) =>
      match run_cache st1 cs with
      | none => none
      | some (st2, out) => some (st2, buf :: out)
  | st, cache_call.write buffer sector offset size :: cs =>
    match cache_table_write st buffer 0 sector offset size with
    | none => none
    | some st1 => run_cache st1 cs
  | st, cache_call.flush :: cs => run_cache (cache_table_flush st) cs

/-- The plain byte-addressed store of the specification: a read copies `size`
bytes at `offset` of the sector; `none` when the range leaves the sector. -/
def plain_read (store : Nat → Nat → Nat) (sector offset size : Nat) : Option (Nat → Nat) :=
  if offset + size ≤ DISK_SECTOR_SIZE then some (memcpy zeros 0 (store sector) offset size)
  else none

/-- The plain byte-addressed store of the specification: a write replaces `size`
bytes at `offset` of the sector. -/
def plain_write (store : Nat → Nat → Nat) (buffer : Nat → Nat) (sector offset size : Nat) :
    Option (Nat → Nat → Nat) :=
  if offset + size ≤ DISK_SECTOR_SIZE then
    some (Function.update store sector (memcpy (store sector) offset buffer 0 size))
  else none

/-- Run a sequence of calls on the plain store; a flush does nothing to it. -/
def run_plain : (Nat → Nat → Nat) → List cache_call → Option ((Nat → Nat → Nat) × List (Nat → Nat))
  | store, [] => some (store, [])
  | store, cache_call.read sector offset size :: cs =>
    match plain_read store sector offset size with
    | none => none
    | some buf =>
      match run_plain store cs with
      | none => none
      | some (store1, out) => some (store1, buf :: out)
  | store, cache_call.write buffer sector offset size :: cs =>
    match plain_write store buffer sector offset size with
    | none => none
    | some store1 => run_plain store1 cs
  | store, cache_call.flush :: cs => run_plain store cs

/-- The inode data with which the loop of `inode_write_at` starts: the length is
raised to `offset + size` when it is below. -/
def write_start (data : inode_disk) (size offset : Nat) : inode_disk :=
  if inode_length data < ((offset + size : Nat) : Int) then data.set_length (offset + size)
  else data

/-- The state after `inode_close` by the last opener of an inode that is not
removed. -/
def closed_state (st : filesys) (p : Nat) (data : inode_disk) : filesys :=
  disk_write { st with open_inodes := st.open_inodes.eraseP (fun j => j.sector == p) } p data.bytes

/-- The inode that `inode_open` loads from the device. -/
def loaded_inode (st : filesys) (sector : Nat) : inode :=
  { sector := sector, open_cnt := 1, deny_write_cnt := 0, removed := false,
    data := ⟨disk_read st sector⟩ }

/-- Every byte of the file at or beyond its length reads as zero. -/
def zero_tail (st : filesys) (data : inode_disk) : Prop :=
  ∀ j : Nat, inode_length data ≤ (j : Int) → j / DISK_SECTOR_SIZE < MAX_BLOCKS →
    file_content st data j = 0

/-- Each logical block `0 .. bytes_to_sectors length - 1` of the inode resolves to a
sector that is not `UNUSED_SECTOR` and is marked in use in the free map. -/
def blocks_allocated (st : filesys) (data : inode_disk) : Prop :=
  ∀ q, q < bytes_to_sectors (inode_length data) →
    block_slot st data q ≠ UNUSED_SECTOR ∧ st.free_map.used (block_slot st data q) = true

/-- The states in which the inode at sector `p` is open after it was created by
`inode_create`, opened, and then only written by `inode_write_at` and read by
`inode_read_at`, every call staying within the maximum file size with three
free sectors per block it touches.  With `holes = false` every write starts
at or before the end of the file. -/
inductive file_reach ( holes : Bool) : filesys → Nat → Prop
  | create (st : filesys) (sector length : Nat) ( is_dir : Bool) (parent_dir : Nat)
      (st1 : filesys) :
      cache_ok st.cache_table → st.free_map.size ≤ UNUSED_SECTOR →
      sector < st.free_map.size → st.free_map.used sector = true → length ≤ 8460288 →
      inode_deref st sector = none →
      inode_create st sector length is_dir parent_dir = some (st1, true) →
      file_reach holes (inode_open st1 sector).1 sector
  | write (st : filesys) (p : Nat) (i : inode) (buffer : Nat → Nat) (size offset : Nat)
      (st1 : filesys) (n : Nat) :
      file_reach holes st p → inode_deref st p = some i → offset + size ≤ 8460288 →
      (0 < size → 3 * ((offset + size + 511) / 512 - offset / 512) ≤ free_count st.free_map) →
      (holes = false → (offset : Int) ≤ inode_length i.data) →
      inode_write_at st p buffer size offset = some (st1, n) → file_reach holes st1 p
  | read (st : filesys) (p : Nat) (i : inode) (buffer : Nat → Nat) (size offset : Nat)
      (st1 : filesys) (buffer1 : Nat → Nat) (n : Nat) :
      file_reach holes st p → inode_deref st p = some i →
      (0 < size → offset < 8460288 ∧
        (offset + size ≤ 8460288 ∨ inode_length i.data < 8460288)) →
      3 * (min size ((inode_length i.data).toNat - offset) / 512 + 2) ≤ free_count st.free_map →
      inode_read_at st p buffer size offset = some (st1, buffer1, n) → file_reach holes st1 p

/-- What holds of an inode in the states of `file_reach`. -/
structure file_inv ( holes : Bool) (st : filesys) (p : Nat) (i : inode) : Prop where
  deref : inode_deref st p = some i
  cache : cache_ok st.cache_table
  wf : inode_wf st p i.data
  len_nonneg : 0 ≤ inode_length i.data
  len_le : inode_length i.data ≤ 8460288
  tail : zero_tail st i.data
  dense : holes = false → blocks_allocated st i.data

/-- A free map of 40 sectors with sectors 0, 1 and 2 in use. -/
def sample_free_map : free_map := { size := 40, used := fun s => decide (s < 3), released := [] }

/-- A state with a zeroed device, an empty cache and no open inode. -/
def sample_disk : filesys :=
  { filesys_disk := fun _ => zeros,
    cache_table := { list := [], size := 0, destroyed := false },
    free_map := sample_free_map,
    open_inodes := [] }

/-- An open inode at sector 2 of an empty file. -/
def sample_inode : inode :=
  { sector := 2, open_cnt := 1, removed := false, deny_write_cnt := 0,
    data := inode_create_image 0 false 1 }

/-- The state `sample_disk` with `sample_inode` open. -/
def sample_open : filesys := { sample_disk with open_inodes := [sample_inode] }

/-- The run of the round trip on an inode that is marked removed: an empty inode
is created at sector 2 of `sample_disk`, opened and marked removed; then 600
bytes of value 7 are written at offset 0, the inode is closed by its only
opener and opened again, and 600 bytes are read at offset 0.  The result is
the number of bytes that the read returns. -/
def removed_round_trip : Option Nat := do
  let (st1, _) ← inode_create sample_disk 2 0 false 1
  let st2 ← inode_remove (inode_open st1 2).1 2
  let (st3, _) ← inode_write_at st2 2 (fun _ => 7) 600 0
  let st4 ← inode_close st3 (some 2)
  let (_, _, n) ← inode_read_at (inode_open st4 2).1 2 zeros 600 0
  pure n

/-- The values that `allocate_block` returns in the iterations of the loop of
`inode_create`, in order. -/
def inode_create_blocks : Nat → Nat → filesys → inode_disk → Option (List Nat)
  | 0, _, _, _ => some []
  | n + 1, i, st, data =>
    match allocate_block st data i with
    | none => none
    | some (block, data1, st1) =>
      match inode_create_blocks n (i + 1) st1 data1 with
      | none => none
      | some l => some (block :: l)

/-- A state as `sample_disk` with a free map of 60000 sectors. -/
def sample_huge : filesys :=
  { sample_disk with
    free_map := { size := 60000, used := fun s => decide (s < 3), released := [] } }

/-- The log of released sectors of `st1` extends that of `st`, the registry of open
inodes being the same. -/
def log_extends (st st1 : filesys) : Prop :=
  st1.open_inodes = st.open_inodes ∧ ∃ l, st1.free_map.released = st.free_map.released ++ l

/-- The state after `inode_create (2, 600, false, 1)` on `sample_disk`. -/
def sample_created : filesys :=
  match inode_create sample_disk 2 600 false 1 with
  | some (st1, _) => st1
  | none => sample_disk

/-- The state `sample_disk` with a free map that has no free sector. -/
def sample_full : filesys :=
  { sample_disk with free_map := { size := 3, used := fun _ => true, released := [] } }

/-- The run on a full device: an empty inode is created at sector 2 of `sample_full`
and opened, one byte of value 7 is written at offset 1024, and one byte is read
at offset 0.  The result is the number of bytes read and the byte read. -/
def gap_read_full : Option (Nat × Nat) := do
  let (st1, _) ← inode_create sample_full 2 0 false 1
  let (st2, _) ← inode_write_at (inode_open st1 2).1 2 (fun _ => 7) 1 1024
  let (_, out, n) ← inode_read_at st2 2 zeros 1 0
  pure (n, out 0)

/-- The run beyond the maximum file size: an empty inode is created at sector 2 of
`sample_disk` and opened, a write of no bytes at offset 9000000 raises the length,
and one byte is read at offset 8460288.  The result is what the read returns,
`none` when it does not return. -/
def gap_read_far : Option (Option Nat) := do
  let (st1, _) ← inode_create sample_disk 2 0 false 1
  let (st2, _) ← inode_write_at (inode_open st1 2).1 2 (fun _ => 7) 0 9000000
  pure ((inode_read_at st2 2 zeros 1 8460288).map (fun r => r.2.2))

/-- The run with a write beyond the end of the file: an empty inode is created at
sector 2 of `sample_disk` and opened, and one byte is written at offset 71680.
The result is the slot of logical block 0 after the write and the number of
blocks that the length of the inode covers. -/
def sparse_write : Option (Nat × Nat) := do
  let (st1, _) ← inode_create sample_disk 2 0 false 1
  let (st2, _) ← inode_write_at (inode_open st1 2).1 2 (fun _ => 7) 1 71680
  let i ← inode_deref st2 2
  pure (block_slot st2 i.data 0, bytes_to_sectors (inode_length i.data))

/-- The run of a write on a full device: an empty inode is created at sector 2 of
`sample_full` and opened, and one byte is written at offset 0.  The result is
the slot of logical block 0 after the write and the number of blocks that the
length of the inode covers. -/
def full_write : Option (Nat × Nat) := do
  let (st1, _) ← inode_create sample_full 2 0 false 1
  let (st2, _) ← inode_write_at (inode_open st1 2).1 2 (fun _ => 7) 1 0
  let i ← inode_deref st2 2
  pure (block_slot st2 i.data 0, bytes_to_sectors (inode_length i.data))

/-- Seventy writes of a whole sector, to the sectors 0 to 69 (six more than the
cache holds), followed by a read of the first four bytes of sector 0 and of
sector 69. -/
def sample_calls : List cache_call :=
  (List.range 70).map (fun k => cache_call.write (fun _ => k + 1) k 0 512)
    ++ [cache_call.read 0 0 4, cache_call.read 69 0 4]

/-- The part of `cache_ok` that `free_cache` keeps: the counter bounds the length
of the list and is at most `CACHE_TABLE_MAX_SIZE`, and no sector has two
entries. -/
def cache_weak (ct : cache_table) : Prop :=
  ct.list.length ≤ ct.size ∧ ct.size ≤ CACHE_TABLE_MAX_SIZE ∧
  (ct.list.map (fun cte => cte.block)).Nodup

/-- The states of the buffer cache that calls of its interface reach from
`cache_table_init`: `cache_table_read` and `cache_table_write` where they
return, `free_cache`, `cache_table_flush` and `cache_table_destroy`. -/
inductive cache_reach : filesys → Prop
  | init (st : filesys) : cache_reach (cache_table_init st)
  | read (st st1 : filesys) (buffer out : Nat → Nat) (bofs sector offset size : Nat) :
      cache_reach st → cache_table_read st buffer bofs sector offset size = some (st1, out) →
      cache_reach st1
  | write (st st1 : filesys) (buffer : Nat → Nat) (bofs sector offset size : Nat) :
      cache_reach st → cache_table_write st buffer bofs sector offset size = some st1 →
      cache_reach st1
  | free (st : filesys) (s : Nat) : cache_reach st → cache_reach (free_cache st s)
  | flush (st : filesys) : cache_reach st → cache_reach (cache_table_flush st)
  | destroy (st : filesys) : cache_reach st → cache_reach (cache_table_destroy st)

/-- The state after `cache_table_init` on `sample_disk`, a write of sector 5, a
write of sector 9 and `free_cache (5)`. -/
def sample_cache : filesys :=
  match cache_table_write (cache_table_init sample_disk) zeros 0 5 0 512 with
  | none => sample_disk
  | some st1 =>
    match cache_table_write st1 unused 0 9 0 512 with
    | none => sample_disk
    | some st2 => free_cache st2 5

/-- The state after `cache_table_init` on `sample_disk`, writes of the sectors 0 to
63 (sector `k` filled with the byte `k + 1`) and `free_cache (63)`: the list
holds 63 entries and the counter `size` stands at 64. -/
def drifted_cache : Option filesys :=
  (run_cache (cache_table_init sample_disk)
    ((List.range 64).map (fun k => cache_call.write (fun _ => k + 1) k 0 512))).map
    (fun r => free_cache r.1 63)

/-- The state after `cache_table_init` on `sample_disk`, a write of the bytes 7 to
sector 5 and a write of the bytes 255 to sector 9. -/
def sample_resident : filesys :=
  match cache_table_write (cache_table_init sample_disk) (fun _ => 7) 0 5 0 512 with
  | none => sample_disk
  | some st1 => (cache_table_write st1 unused 0 9 0 512).getD sample_disk

/-- What a miss on sector 64 does in the state `drifted_cache`: the length of the
list and the counter before the call, whether sector 64 is resident before
it, the sectors of the list after the call, and byte 0 of sector 0 on the
device before and after the call. -/
def drifted_miss : Option (Nat × Nat × Bool × List Nat × Nat × Nat) :=
  drifted_cache.bind (fun st =>
    (cache_table_read st zeros 0 64 0 4).map (fun r =>
      (st.cache_table.list.length, st.cache_table.size,
        (cache_table_find st.cache_table 64).isSome,
        r.1.cache_table.list.map (fun cte => cte.block),
        st.filesys_disk 0 0, r.1.filesys_disk 0 0)))

/-- The function `inode_deny_write`; `none` when the assertion
`deny_write_cnt <= open_cnt` fails or the pointer is dangling. -/
def inode_deny_write (st : filesys) (p : Nat) : Option filesys :=
  match inode_deref st p with
  | none => none
  | some i =>
    let i1 := { i with deny_write_cnt := i.deny_write_cnt + 1 }
    if i1.deny_write_cnt ≤ i1.open_cnt then some (inode_store st p i1) else none

/-- The function `inode_allow_write`; `none` when one of the assertions
`deny_write_cnt > 0` and `deny_write_cnt <= open_cnt` fails or the pointer is
dangling. -/
def inode_allow_write (st : filesys) (p : Nat) : Option filesys :=
  match inode_deref st p with
  | none => none
  | some i =>
    if 0 < i.deny_write_cnt then
      if i.deny_write_cnt ≤ i.open_cnt then
        some (inode_store st p { i with deny_write_cnt := i.deny_write_cnt - 1 })
      else none
    else none

/-- The condition on `inode_close` of the amended C17: the pointer is null, or the
inode has `deny_write_cnt < open_cnt`, or the caller is the last opener. -/
def close_allowed (st : filesys) (p : Option Nat) : Bool :=
  match p with
  | none => true
  | some q =>
    match inode_deref st q with
    | none => true
    | some i => decide (i.deny_write_cnt < i.open_cnt) || decide (i.open_cnt = 1)

/-- The states that calls of the inode interface reach from `inode_init`:
`inode_open`, and `inode_reopen`, `inode_close`, `inode_remove`,
`inode_deny_write` and `inode_allow_write` where they return (for the last two:
where their assertions hold).  With `guarded`, `inode_close` is called only on
an inode with `deny_write_cnt < open_cnt` or by the last opener
(`close_allowed`). -/
inductive inode_reach ( guarded : Bool) : filesys → Prop
  | init (st : filesys) : inode_reach guarded (inode_init st)
  | opened (st : filesys) (sector : Nat) :
      inode_reach guarded st → inode_reach guarded (inode_open st sector).1
  | reopened (st st1 : filesys) (p : Option Nat) :
      inode_reach guarded st → inode_reopen st p = some st1 → inode_reach guarded st1
  | closed (st st1 : filesys) (p : Option Nat) :
      inode_reach guarded st → inode_close st p = some st1 →
      (guarded = true → close_allowed st p = true) → inode_reach guarded st1
  | removed (st st1 : filesys) (p : Nat) :
      inode_reach guarded st → inode_remove st p = some st1 → inode_reach guarded st1
  | denied (st st1 : filesys) (p : Nat) :
      inode_reach guarded st → inode_deny_write st p = some st1 → inode_reach guarded st1
  | allowed (st st1 : filesys) (p : Nat) :
      inode_reach guarded st → inode_allow_write st p = some st1 → inode_reach guarded st1

/-- What holds of the registry in the reachable states: one inode per sector, every
`open_cnt` at least 1, every `deny_write_cnt` at least 0, and, with `guarded`,
`deny_write_cnt <= open_cnt`. -/
def registry_inv ( guarded : Bool) (st : filesys) : Prop :=
  registry_ok st ∧ ∀ i ∈ st.open_inodes,
    1 ≤ i.open_cnt ∧ 0 ≤ i.deny_write_cnt ∧ (guarded = true → i.deny_write_cnt ≤ i.open_cnt)

/-- The state after `inode_open (2)`, `inode_reopen`, `inode_deny_write` twice and
`inode_close`, from the empty registry on `sample_disk`. -/
def sample_denied : filesys :=
  ((inode_reopen (inode_open (inode_init sample_disk) 2).1 (some 2)).bind (fun st2 =>
    (inode_deny_write st2 2).bind (fun st3 =>
      (inode_deny_write st3 2).bind (fun st4 => inode_close st4 (some 2))))).getD sample_disk

/-- The state after `inode_open (2)`, `inode_reopen`, `inode_deny_write` once and
`inode_close`, from the empty registry on `sample_disk`. -/
def sample_shared : filesys :=
  ((inode_reopen (inode_open (inode_init sample_disk) 2).1 (some 2)).bind (fun st2 =>
    (inode_deny_write st2 2).bind (fun st3 => inode_close st3 (some 2)))).getD sample_disk

/-- The state `sample_disk` with the inode of sector 2 open and its writes denied
once. -/
def sample_deny : filesys :=
  { sample_disk with open_inodes := [{ sample_inode with deny_write_cnt := 1 }] }

/-- The state `sample_disk` with a free map of four sectors, of which sector 3 alone
is free. -/
def sample_tight : filesys :=
  { sample_disk with free_map := { size := 4, used := fun s => decide (s < 3), released := [] } }

/-- The run on a device that a file with a hole has filled: an empty inode is
created at sector 2 of `sample_tight` and opened, and one byte is written at
offset 512, which takes the last free sector for block 1 and leaves block 0
unallocated.  In that state a write of one byte at offset 0 and, apart from
it, a read of one byte at offset 0 are run.  The result is, as numbers, the
count of free sectors, what `allocate_block` returns for block 0, what the
write returns and what the read returns, and, as flags, whether
`UNUSED_SECTOR` has a cache entry before the calls, after the write and after
the read. -/
def unused_sector_calls : Option (List Nat × List Bool) := do
  let (st1, _) ← inode_create sample_tight 2 0 false 1
  let (st2, _) ← inode_write_at (inode_open st1 2).1 2 (fun _ => 7) 1 512
  let i ← inode_deref st2 2
  let (block, _, _) ← allocate_block st2 i.data 0
  let (stw, n) ← inode_write_at st2 2 (fun _ => 9) 1 0
  let (str, _, m) ← inode_read_at st2 2 zeros 1 0
  pure ([free_count st2.free_map, block, n, m],
    [(cache_table_find st2.cache_table UNUSED_SECTOR).isSome,
     (cache_table_find stw.cache_table UNUSED_SECTOR).isSome,
     (cache_table_find str.cache_table UNUSED_SECTOR).isSome])

/-- The calls of `allocate_block` at logical block 16524, the first index beyond
the range of an inode, on the empty inode of `sample_open` (37 free sectors),
step by step: `free_map_allocate` gives the sector of the double-indirect block,
which `cache_table_write` fills with `unused`; then the slot `ioffset` of that
block is read.  The result is, as numbers, `ioffset`, the byte offset
`ioffset * sizeof (disk_sector_t)` handed to `cache_table_read` and the sector
of the double-indirect block, and, as flags, whether the read of slot 127 of
that block stays within the 512-byte cache buffer, whether the read of slot
`ioffset` does, and whether the whole call of `allocate_block` stays within
it. -/
def beyond_range_calls : Option (List Nat × List Bool) := do
  let ioffset := (16524 - DIRECT_MAX - SECTOR_MAX) / SECTOR_MAX
  let (s, fm) ← free_map_allocate sample_open.free_map
  let st1 ← cache_table_write { sample_open with free_map := fm } unused 0 s 0 DISK_SECTOR_SIZE
  pure ([ioffset, ioffset * 4, s],
    [(cache_table_read st1 zeros 0 s (127 * 4) 4).isSome,
     (cache_table_read st1 zeros 0 s (ioffset * 4) 4).isSome,
     (allocate_block sample_open sample_inode.data 16524).isSome])

/-- Modelled from the spec: the constant `PGSIZE` of threads/vaddr.h, which is not
under src/ ("Page - atomic unit of virtual memory (4096 bytes)"). -/
@[simp] def PGSIZE : Nat := 4096

/-- The constant `block_size` of swap.c: `PGSIZE / DISK_SECTOR_SIZE` sectors per
swap slot. -/
def block_size : Nat := PGSIZE / DISK_SECTOR_SIZE

/-- Modelled from the spec: the value `BITMAP_ERROR` of lib/kernel/bitmap.h, which
is not under src/, returned by the scan when the "bitmap is full": `SIZE_MAX`
of the 32-bit kernel. -/
def BITMAP_ERROR : Nat := 4294967295

/-- The state of swap.c: the swap device (sector number to sector contents) with
its number of sectors `disk_size (swap_device)`, and the bitmap `swap_table`
with one bit per slot, `true` for a slot in use.  `written` logs the sectors
handed to `disk_write`, oldest first, and influences no operation. -/
structure swap where
  swap_device : Nat → Nat → Nat
  disk_size : Nat
  swap_table : List Bool
  written : List Nat

/-- Modelled from the spec: the call `bitmap_scan_and_flip (b, 0, 1, false)` of
lib/kernel/bitmap.c, which is not under src/ ("scan the bitmap for a clear
bit, set it").  The scan goes up from bit 0: the result is the index of the
first clear bit with the bitmap in which that bit is set, `none` (the value
`BITMAP_ERROR`) when every bit is set. -/
def bitmap_scan_and_flip : List Bool → Option (Nat × List Bool)
  | [] => none
  | b :: rest =>
    if b = false then some (0, true :: rest)
    else
      match bitmap_scan_and_flip rest with
      | none => none
      | some (i, rest1) => some (i + 1, b :: rest1)

/-- The function `swap_table_init`: `bitmap_create` (lib/kernel/bitmap.c) gives
`disk_size (swap_device) / block_size` clear bits. -/
def swap_table_init (device : Nat → Nat → Nat) (size : Nat) : swap :=
  { swap_device := device, disk_size := size,
    swap_table := List.replicate (size / block_size) false, written := [] }

/-- The loop of `swap_out`: `disk_write (swap_device, block + i, frame + i *
DISK_SECTOR_SIZE)` for the values of `i` in the list, the sector number in
`disk_sector_t` arithmetic.  The driver's test of the sector number against the
size of the device is left out here; `swap_write_loop_checked` has it. -/
def swap_write_loop (frame : Nat → Nat) (block : Nat) : List Nat → swap → swap
  | [], st => st
  | i :: rest, st =>
    let sector := (block + i) % 4294967296
    swap_write_loop frame block rest
      { st with swap_device := Function.update st.swap_device sector
                  (fun k => frame (i * DISK_SECTOR_SIZE + k)),
                written := st.written ++ [sector] }

/-- The function `swap_out`: the state and the sector returned.  When the bitmap
has no clear bit, `temp` is `BITMAP_ERROR` and the function goes on (the branch
for it is empty). -/
def swap_out (st : swap) (frame : Nat → Nat) : swap × Nat :=
  let r : Nat × List Bool :=
    match bitmap_scan_and_flip st.swap_table with
    | some (i, table) => (i, table)
    | none => (BITMAP_ERROR, st.swap_table)
  let temp := r.1
  let block := (temp * block_size) % 4294967296
  (swap_write_loop frame block (List.range block_size) { st with swap_table := r.2 }, block)

/-- The bitmap has at most one bit per slot of the device, whose number of sectors
is a `disk_sector_t`. -/
def swap_wf (st : swap) : Prop :=
  st.swap_table.length * block_size ≤ st.disk_size ∧ st.disk_size < 4294967296

/-- A swap device of 40 sectors after `swap_table_init` and two calls of
`swap_out`, the second with a frame of bytes 7: slots 0 and 1 are in use. -/
def sample_swap : swap :=
  (swap_out (swap_out (swap_table_init (fun _ => zeros) 40) zeros).1 (fun _ => 7)).1

/-- Modelled from the spec: `bitmap_set (b, idx, value)` of lib/kernel/bitmap.c,
which is not under src/ ("clear the corresponding bit"): bit `idx` takes the
value, the other bits stay; `none` when `idx` is not an index of the bitmap
(its assertion). -/
def bitmap_set (b : List Bool) (idx : Nat) (value : Bool) : Option (List Bool) :=
  if idx < b.length then some (b.set idx value) else none

/-- The loop of `swap_in`: `disk_read (swap_device, block + i, frame + i *
DISK_SECTOR_SIZE)` for the values of `i` in the list. -/
def swap_read_loop (st : swap) (block : Nat) : List Nat → (Nat → Nat) → (Nat → Nat)
  | [], frame => frame
  | i :: rest, frame =>
    swap_read_loop st block rest
      (memcpy frame (i * DISK_SECTOR_SIZE) (st.swap_device ((block + i) % 4294967296)) 0
        DISK_SECTOR_SIZE)

/-- The function `swap_in`: the state and the frame as the call leaves them. -/
def swap_in (st : swap) (block : Nat) (frame : Nat → Nat) : Option (swap × (Nat → Nat)) :=
  let frame1 := swap_read_loop st block (List.range block_size) frame
  match bitmap_set st.swap_table (block / block_size) false with
  | none => none
  | some table => some ({ st with swap_table := table }, frame1)

/-- A swap device of 16 sectors whose two slots are in use. -/
def sample_swap_full : swap :=
  (swap_out (swap_out (swap_table_init (fun _ => zeros) 16) zeros).1 (fun _ => 7)).1

/-- Modelled from the spec: the constant `PHYS_BASE` of threads/vaddr.h, which is
not under src/ (the "kernel base"): user addresses lie below it. -/
def PHYS_BASE : Nat := 3221225472

/-- The constant `PID_ERROR` of process.h. -/
def PID_ERROR : Int := -1

/-- Modelled from the spec: the flag `PAL_ZERO` of threads/palloc.h, which is not
under src/ ("zero-filled frame"); `PAL_ASSERT` is 1 and `PAL_USER` is 4. -/
def PAL_ZERO : Nat := 2

/-- The address of `frame_table.list.head`; 0 is the null pointer. -/
def LIST_HEAD : Nat := 1

/-- The address of `frame_table.list.tail`. -/
def LIST_TAIL : Nat := 2

/-- The `struct page_table_entry` of page.h, its hash element left out; a null
`frame` or `file` is `none`. -/
structure page_table_entry where
  page : Nat
  frame : Option Nat
  block : Nat
  file : Option Nat
  offset : Int
  disk : Bool
  deriving DecidableEq

/-- The `struct frame_table_entry` of frame.h, its hash and list elements left out;
`owner` is the process. -/
structure frame_table_entry where
  frame : Nat
  owner : Nat
  page : Nat
  deriving DecidableEq

/-- The `struct frame_table` of frame.h, its lock left out, with the memory of its
entries: `entries p` is the entry that `malloc` placed at address `p` (`none`
when nothing is allocated there), `brk` is the address that the next `malloc`
returns, `hash` holds the addresses of the entries in the hash table, and
`next` and `prev` are the fields of the list elements, of the entries and of
the head and tail of `frame_table.list`. -/
structure frame_table where
  entries : Nat → Option frame_table_entry
  brk : Nat
  hash : List Nat
  next : Nat → Nat
  prev : Nat → Nat

/-- The part of `struct process` (process.h) and of its thread that the virtual
memory uses: the supplementary page table (one entry per page), the hardware
page directory (page to frame and writable bit), the saved `esp`, the exit
status, and whether the thread has exited. -/
structure process where
  page_table : List page_table_entry
  pagedir : Nat → Option (Nat × Bool)
  esp : Nat
  status : Int
  exited : Bool

/-- The state of the virtual memory: the frame table, the swap area, the
processes, the current process, the contents of the frames, the free pages
of the user pool and the contents of the open files. -/
structure vm where
  frame_table : frame_table
  swap : swap
  procs : Nat → process
  cur : Nat
  mem : Nat → Nat → Nat
  pool : List Nat
  files : Nat → Nat → Nat

/-- The part of `struct intr_frame` that `page_fault` reads: `esp`, the three bits
of `error_code` as `page_fault` decodes them, and whether `cs` is the kernel
code segment. -/
structure intr_frame where
  esp : Nat
  not_present : Bool
  write : Bool
  user : Bool
  kernel_cs : Bool

/-- The address `p` may be dereferenced as a list element: it is the head or the
tail of the list or the address of an allocated entry. -/
def elem_live (ft : frame_table) (p : Nat) : Bool :=
  p != 0 && (p == LIST_HEAD || p == LIST_TAIL || (ft.entries p).isSome)

/-- Modelled from the spec: `list_insert (before, elem)` of lib/kernel/list.c, which
is not under src/ (a "FIFO list"): the four pointer stores that link `elem`
in front of `before`, whatever the links of `elem` were.  `none` when the
assertion on `before` fails or a pointer that is followed is null or
dangling. -/
def list_insert (ft : frame_table) (before elem : Nat) : Option frame_table :=
  if elem_live ft before ∧ elem_live ft elem ∧ ft.prev before ≠ 0 then
    let prev1 := Function.update ft.prev elem (ft.prev before)
    let next1 := Function.update ft.next elem before
    if elem_live ft (prev1 before) then
      let next2 := Function.update next1 (prev1 before) elem
      let prev2 := Function.update prev1 before elem
      some { ft with next := next2, prev := prev2 }
    else none
  else none

/-- Modelled from the spec: `list_push_back` of lib/kernel/list.c. -/
def list_push_back (ft : frame_table) (elem : Nat) : Option frame_table :=
  list_insert ft LIST_TAIL elem

/-- Modelled from the spec: `list_remove (elem)` of lib/kernel/list.c: the two
pointer stores that unlink `elem`.  `none` when the assertion that `elem` is
interior fails or a pointer that is followed is dangling. -/
def list_remove (ft : frame_table) (elem : Nat) : Option frame_table :=
  if elem_live ft elem ∧ ft.prev elem ≠ 0 ∧ ft.next elem ≠ 0 then
    if elem_live ft (ft.prev elem) then
      let next1 := Function.update ft.next (ft.prev elem) (ft.next elem)
      if elem_live ft (next1 elem) then
        some { ft with next := next1,
                       prev := Function.update ft.prev (next1 elem) (ft.prev elem) }
      else none
    else none
  else none

/-- Modelled from the spec: `list_pop_front` of lib/kernel/list.c: the front element
and the list without it; `none` when the list is empty (its assertion). -/
def list_pop_front (ft : frame_table) : Option (Nat × frame_table) :=
  let front := ft.next LIST_HEAD
  if front = LIST_TAIL then none
  else
    match list_remove ft front with
    | none => none
    | some ft1 => some (front, ft1)

/-- The function `frame_table_init`: an empty hash and an empty list. -/
def frame_table_init : frame_table :=
  { entries := fun _ => none, brk := 3, hash := [],
    next := fun p => if p = LIST_HEAD then LIST_TAIL else 0,
    prev := fun p => if p = LIST_TAIL then LIST_HEAD else 0 }

/-- The function `frame_table_find`: the address of the entry that `hash_find`
yields for `frame`, `none` for the null pointer. -/
def frame_table_find (ft : frame_table) (frame : Nat) : Option Nat :=
  ft.hash.find? (fun p =>
    match ft.entries p with
    | some e => e.frame == frame
    | none => false)

/-- The function `frame_table_insert`: the entry found for `frame`, or else a newly
allocated one, takes the three fields, replaces in the hash the entry with
that frame, and is pushed to the back of the list. -/
def frame_table_insert (ft : frame_table) (proc frame page : Nat) : Option frame_table :=
  let r : Nat × frame_table :=
    match frame_table_find ft frame with
    | some p => (p, ft)
    | none => (ft.brk, { ft with brk := ft.brk + 1 })
  let fte := r.1
  let ft1 := { r.2 with entries := Function.update r.2.entries fte
                          (some { frame := frame, owner := proc, page := page }) }
  let ft2 :=
    match frame_table_find ft1 frame with
    | some old => { ft1 with hash := ft1.hash.erase old ++ [fte] }
    | none => { ft1 with hash := ft1.hash ++ [fte] }
  list_push_back ft2 fte

/-- The function `frame_table_remove`; `none` when no entry is found (the null
pointer is dereferenced) or the list operation fails. -/
def frame_table_remove (ft : frame_table) (frame : Nat) : Option frame_table :=
  match frame_table_find ft frame with
  | none => none
  | some fte =>
    match list_remove { ft with hash := ft.hash.erase fte } fte with
    | none => none
    | some ft1 => some { ft1 with entries := Function.update ft1.entries fte none }

/-- The function `frame_table_select_victim`: the frame of the front entry, which
is pushed to the back.  `none` when the list is empty, the front element is
not an allocated entry or a list operation fails. -/
def frame_table_select_victim (ft : frame_table) : Option (Nat × frame_table) :=
  match list_pop_front ft with
  | none => none
  | some (e, ft1) =>
    match ft1.entries e with
    | none => none
    | some fte =>
      match list_push_back ft1 e with
      | none => none
      | some ft2 => some (fte.frame, ft2)

/-- The elements met on the way from the head of the list along `next`, up to the
tail or for `fuel` steps. -/
def list_walk (ft : frame_table) : Nat → Nat → List Nat
  | 0, _ => []
  | fuel + 1, p =>
    if ft.next p = LIST_TAIL then [] else ft.next p :: list_walk ft fuel (ft.next p)

/-- The function `page_table_find` on the table of one process; `none` is the null
pointer. -/
def page_table_find (pt : List page_table_entry) (page : Nat) : Option page_table_entry :=
  pt.find? (fun e => e.page == page)

/-- The store of `hash_replace` (lib/kernel/hash.c) in a page table: the entry with
the page of `e` is replaced by `e`, which is added when there is none. -/
def page_table_store : List page_table_entry → page_table_entry → List page_table_entry
  | [], e => [e]
  | x :: rest, e => if x.page = e.page then e :: rest else x :: page_table_store rest e

/-- The entry that the three insert functions start from: the entry found, or a
newly allocated one with `frame`, `disk` and `file` cleared (the fields `block`
and `offset` of new memory are taken as 0). -/
def page_table_entry_for (pt : List page_table_entry) (page : Nat) : page_table_entry :=
  match page_table_find pt page with
  | some pte => pte
  | none => { page := page, frame := none, block := 0, file := none, offset := 0, disk := false }

/-- The function `page_table_insert_file`. -/
def page_table_insert_file (pt : List page_table_entry) (page file : Nat) (offset : Int) :
    List page_table_entry :=
  let pte := page_table_entry_for pt page
  page_table_store pt { pte with page := page, frame := none, block := 0, disk := false,
                                 file := some file, offset := offset }

/-- The function `page_table_insert_block`. -/
def page_table_insert_block (pt : List page_table_entry) (page block : Nat) :
    List page_table_entry :=
  let pte := page_table_entry_for pt page
  page_table_store pt { pte with page := page, frame := none, block := block, disk := true }

/-- The function `page_table_insert_frame`. -/
def page_table_insert_frame (pt : List page_table_entry) (page frame : Nat) :
    List page_table_entry :=
  let pte := page_table_entry_for pt page
  page_table_store pt { pte with page := page, frame := some frame, block := 0, disk := false }

/-- Replace the process `pid`. -/
def set_proc (st : vm) (pid : Nat) (p : process) : vm :=
  { st with procs := Function.update st.procs pid p }

/-- Replace the supplementary page table of process `pid`. -/
def set_page_table (st : vm) (pid : Nat) (pt : List page_table_entry) : vm :=
  set_proc st pid { st.procs pid with page_table := pt }

/-- Modelled from the spec: `pagedir_clear_page` of userprog/pagedir.c, which is not
under src/: the page is marked not present ("hardware mapping is cleared"). -/
def pagedir_clear_page (st : vm) (pid page : Nat) : vm :=
  set_proc st pid { st.procs pid with pagedir := Function.update (st.procs pid).pagedir page none }

/-- Modelled from the spec: `pagedir_set_page` of userprog/pagedir.c, which is not
under src/: the page is mapped to the frame ("mapped writable"). -/
def pagedir_set_page (st : vm) (pid page frame : Nat) (writable : Bool) : vm :=
  set_proc st pid { st.procs pid with
    pagedir := Function.update (st.procs pid).pagedir page (some (frame, writable)) }

/-- Modelled from the spec: `palloc_get_page (PAL_USER | flag)` of threads/palloc.c,
which is not under src/: the first free page of the user pool, filled with
zeros when `flag` has `PAL_ZERO`; the outer `none` is the panic of `PAL_ASSERT`
and the inner one the null pointer. -/
def palloc_get_page (st : vm) (flag : Nat) : Option (Option Nat × vm) :=
  match st.pool with
  | [] => if flag % 2 = 1 then none else some (none, st)
  | frame :: rest =>
    some (some frame,
      { st with pool := rest,
                mem := if flag / 2 % 2 = 1 then Function.update st.mem frame zeros else st.mem })

/-- Modelled from the spec: `file_write_at` of filesys/file.c, which is not under
src/ ("write the page out at (file, offset)"): `size` bytes of the buffer
replace the bytes of the file from `offset` on. -/
def file_write_at (st : vm) (file : Nat) (buffer : Nat → Nat) (size : Nat) (offset : Int) : vm :=
  { st with files := Function.update st.files file
              (memcpy (st.files file) offset.toNat buffer 0 size) }

/-- Modelled from the spec: `file_read_at` of filesys/file.c, which is not under
src/: `size` bytes of the file from `offset` on are copied to the frame (the
end of the file is not modelled). -/
def file_read_at (st : vm) (file frame size : Nat) (offset : Int) : vm :=
  { st with mem := Function.update st.mem frame
              (memcpy (st.mem frame) 0 (st.files file) offset.toNat size) }

/-- The macro `pg_round_down` of threads/vaddr.h. -/
def pg_round_down (va : Nat) : Nat := va / PGSIZE * PGSIZE

/-- The macro `is_user_vaddr` of threads/vaddr.h. -/
def is_user_vaddr (va : Nat) : Bool := decide (va < PHYS_BASE)

/-- The comparison `(uint8_t *) esp - 32 <= fault_addr` of `page_fault`, in 32-bit
pointer arithmetic. -/
def stack_access (esp fault_addr : Nat) : Bool :=
  decide ((esp + 4294967296 - 32) % 4294967296 ≤ fault_addr)

/-- The block that `allocate_frame` and the two paths of `page_fault` share (lines
145-162 of frame.c, 230-247 and 287-304 of exception.c): the victim frame is
written to its file or to swap, the supplementary entry of the victim is
updated, and the hardware mapping of the victim's page is cleared.  `none`
when a null pointer is dereferenced (`vfte` or `vpte`, or the frame of `vpte`
as the buffer of `file_write_at`). -/
def write_out_victim (st : vm) (frame : Nat) (vfte : Option frame_table_entry) : Option vm :=
  match vfte with
  | none => none
  | some vfte =>
    match page_table_find (st.procs vfte.owner).page_table vfte.page with
    | none => none
    | some vpte =>
      let r : Option vm :=
        match vpte.file with
        | some file =>
          match vpte.frame with
          | none => none
          | some src =>
            let st1 := file_write_at st file (st.mem src) PGSIZE vpte.offset
            some (set_page_table st1 vfte.owner
              (page_table_insert_file (st1.procs vfte.owner).page_table vfte.page file
                vpte.offset))
        | none =>
          let r := swap_out st.swap (st.mem frame)
          let st1 := { st with swap := r.1 }
          some (set_page_table st1 vfte.owner
            (page_table_insert_block (st1.procs vfte.owner).page_table vfte.page r.2))
      r.map (fun s => pagedir_clear_page s vfte.owner vfte.page)

/-- The entry that `frame_table_find (frame)` points to, `none` for the null
pointer. -/
def frame_table_entry_of (ft : frame_table) (frame : Nat) : Option frame_table_entry :=
  (frame_table_find ft frame).bind ft.entries

/-- The last two calls of every path: `frame_table_insert (process_current (),
frame, page)` and `page_table_insert_frame`. -/
def register_frame (st : vm) (page frame : Nat) : Option vm :=
  match frame_table_insert st.frame_table st.cur frame page with
  | none => none
  | some ft =>
    let st1 := { st with frame_table := ft }
    some (set_page_table st1 st1.cur
      (page_table_insert_frame (st1.procs st1.cur).page_table page frame))

/-- The function `allocate_frame`: the state and the frame returned. -/
def allocate_frame (st : vm) (page : Nat) (writable : Bool) (flag : Nat) : Option (vm × Nat) :=
  match palloc_get_page st flag with
  | none => none
  | some (none, st0) =>
    match frame_table_select_victim st0.frame_table with
    | none => none
    | some (frame, ft) =>
      let st1 := { st0 with frame_table := ft }
      let st2 := pagedir_set_page (pagedir_clear_page st1 st1.cur page) st1.cur page frame writable
      match write_out_victim st2 frame (frame_table_entry_of st2.frame_table frame) with
      | none => none
      | some st3 => (register_frame st3 page frame).map (fun s => (s, frame))
  | some (some frame, st0) =>
    let st2 := pagedir_set_page (pagedir_clear_page st0 st0.cur page) st0.cur page frame writable
    (register_frame st2 page frame).map (fun s => (s, frame))

/-- The exit of the current process through `thread_exit`. -/
def thread_exit (st : vm) : vm :=
  set_proc st st.cur { st.procs st.cur with exited := true }

/-- The pair `process_current ()->status = PID_ERROR; thread_exit ();`. -/
def exit_error (st : vm) : vm :=
  thread_exit (set_proc st st.cur { st.procs st.cur with status := PID_ERROR })

/-- The frame that the swap and file paths of `page_fault` obtain, with the victim
written out when there is no free page (lines 216-247 and 273-304 of
exception.c, up to the clearing of the victim's mapping). -/
def obtain_frame (st : vm) (page : Nat) : Option (vm × Nat) :=
  match palloc_get_page st 0 with
  | none => none
  | some (none, st0) =>
    match frame_table_select_victim st0.frame_table with
    | none => none
    | some (frame, ft) =>
      let st1 := { st0 with frame_table := ft }
      let vfte := frame_table_entry_of st1.frame_table frame
      match vfte with
      | none => none
      | some _ =>
        let st2 := pagedir_set_page (pagedir_clear_page st1 st1.cur page) st1.cur page frame true
        (write_out_victim st2 frame vfte).map (fun s => (s, frame))
  | some (some frame, st0) =>
    some (pagedir_set_page (pagedir_clear_page st0 st0.cur page) st0.cur page frame true, frame)

/-- The function `page_fault` from the test of `not_present` on, for the fault
address `fault_addr` (the register CR2).  `none` is a kernel panic or a
dereference of a null or dangling pointer. -/
def page_fault (st : vm) (f : intr_frame) (fault_addr : Nat) : Option vm :=
  if f.not_present = false then some (exit_error st)
  else
    let page := pg_round_down fault_addr
    match page_table_find (st.procs st.cur).page_table page with
    | none =>
      if f.user then
        if is_user_vaddr fault_addr && stack_access f.esp fault_addr then
          (allocate_frame st page true PAL_ZERO).map Prod.fst
        else some (exit_error st)
      else
        if stack_access (st.procs st.cur).esp fault_addr then
          (allocate_frame st page true PAL_ZERO).map Prod.fst
        else some (exit_error st)
    | some pte =>
      if pte.disk then
        match obtain_frame st page with
        | none => none
        | some (st1, frame) =>
          match page_table_find (st1.procs st1.cur).page_table page with
          | none => none
          | some pte1 =>
            match swap_in st1.swap pte1.block (st1.mem frame) with
            | none => none
            | some (sw, bytes) =>
              register_frame { st1 with swap := sw, mem := Function.update st1.mem frame bytes }
                page frame
      else if pte.file.isSome then
        match obtain_frame st page with
        | none => none
        | some (st1, frame) =>
          match page_table_find (st1.procs st1.cur).page_table page with
          | none => none
          | some pte1 =>
            match pte1.file with
            | none => none
            | some file => register_frame (file_read_at st1 file frame PGSIZE pte1.offset) page frame
      else if f.kernel_cs then none
      else some (thread_exit st)

/-- The links from `a` through the elements of `l` to `b`: every `next` leads to the
following element and every `prev` back. -/
def chain (next prev : Nat → Nat) : Nat → List Nat → Nat → Prop
  | a, [], b => next a = b ∧ prev b = a
  | a, x :: l, b => next a = x ∧ prev x = a ∧ chain next prev x l b

/-- The list of the frame table is well formed and holds, head first, the allocated
entries at the addresses `l`, each once. -/
structure fifo (ft : frame_table) (l : List Nat) : Prop where
  links : chain ft.next ft.prev LIST_HEAD l LIST_TAIL
  nodup : l.Nodup
  live : ∀ p ∈ l, 3 ≤ p ∧ (ft.entries p).isSome

/-- The frames of the entries at the addresses `l` (0 for an address without
entry). -/
def frames_of (ft : frame_table) (l : List Nat) : List Nat :=
  l.map (fun p => match ft.entries p with | some e => e.frame | none => 0)

/-- The calls `frame_table_insert (proc, frame, page)` for the triples of the list, in
order. -/
def insert_all : frame_table → List (Nat × Nat × Nat) → Option frame_table
  | ft, [] => some ft
  | ft, (proc, frame, page) :: rest =>
    match frame_table_insert ft proc frame page with
    | none => none
    | some ft1 => insert_all ft1 rest

/-- The frames that `n` successive calls of `frame_table_select_victim` return, with
the table after them. -/
def victims : Nat → frame_table → Option (List Nat × frame_table)
  | 0, ft => some ([], ft)
  | n + 1, ft =>
    match frame_table_select_victim ft with
    | none => none
    | some (frame, ft1) =>
      match victims n ft1 with
      | none => none
      | some (l, ft2) => some (frame :: l, ft2)

/-- The frame table after inserts of new frames only: the list is well formed, the
hash holds the same addresses, and all of them lie below `brk`. -/
structure table_ok (ft : frame_table) (l : List Nat) : Prop where
  fifo : fifo ft l
  hash : ft.hash = l
  brk : 3 ≤ ft.brk ∧ ∀ p ∈ l, p < ft.brk

/-- The table after `frame_table_insert` of the frames 4096, 8192 and 12288 for the
pages 100, 200 and 300 of process 1. -/
def sample_frames : frame_table :=
  (insert_all frame_table_init [(1, 4096, 100), (1, 8192, 200), (1, 12288, 300)]).getD
    frame_table_init

/-- The eviction pattern on a table with the frames 4096 and 8192:
`frame_table_select_victim` and then `frame_table_insert` for the frame that it
returned, now for page 300.  The result is the victim, the addresses in the
hash, the first six elements met from the head of the list along `next`, and
the fields `next` and `prev` of the entry of the victim. -/
def upsert_after_victim : Option (Nat × List Nat × List Nat × Nat × Nat) :=
  (insert_all frame_table_init [(1, 4096, 100), (1, 8192, 200)]).bind (fun ft0 =>
    (frame_table_select_victim ft0).bind (fun r =>
      (frame_table_insert r.2 1 r.1 300).map (fun ft =>
        (r.1, ft.hash, list_walk ft 6 LIST_HEAD, ft.next 3, ft.prev 3))))

/-- A repeated insert on a table with the frames 4096 and 8192: `frame_table_insert`
for frame 4096 again.  The result is the addresses in the hash and the
elements met from the head of the list along `next` up to the tail. -/
def upsert_of_front : Option (List Nat × List Nat) :=
  (insert_all frame_table_init [(1, 4096, 100), (1, 8192, 200), (1, 4096, 300)]).map
    (fun ft => (ft.hash, list_walk ft 6 LIST_HEAD))

/-- The hash of the frame table holds allocated entries, at most one per frame. -/
def hash_ok (ft : frame_table) : Prop :=
  (frames_of ft ft.hash).Nodup ∧ ∀ p ∈ ft.hash, (ft.entries p).isSome

/-- From `a`, the field `next` leads through the elements of `l` in order. -/
def fchain (next : Nat → Nat) : Nat → List Nat → Prop
  | _, [] => True
  | a, x :: l => next a = x ∧ fchain next x l

/-- The list of the frame table as the eviction paths keep it.  From the head, `next`
leads through the allocated entries at the addresses `l`, each once, and `prev` of
the tail is the last of them.  For an empty list `next` of the head is the tail.
A sole entry lies between head and tail, or both its fields point to itself,
as `frame_table_insert` leaves the last entry that it pushes to the back once
more.  With two entries or more, `prev` of the first is the head and `next` of
the last is the tail or the last entry itself; the fields `prev` of the other
entries are not constrained. -/
structure queue (ft : frame_table) (l : List Nat) : Prop where
  links : fchain ft.next LIST_HEAD l
  nodup : l.Nodup
  live : ∀ p ∈ l, 3 ≤ p ∧ (ft.entries p).isSome
  back : ft.prev LIST_TAIL = l.getLastD LIST_HEAD
  empty : l = [] → ft.next LIST_HEAD = LIST_TAIL
  single : ∀ a, l = [a] →
    (ft.prev a = LIST_HEAD ∧ ft.next a = LIST_TAIL) ∨ (ft.prev a = a ∧ ft.next a = a)
  front : ∀ a b rest, l = a :: b :: rest → ft.prev a = LIST_HEAD
  stop : ∀ a b rest, l = a :: b :: rest →
    ft.next (l.getLastD LIST_HEAD) = LIST_TAIL ∨
      ft.next (l.getLastD LIST_HEAD) = l.getLastD LIST_HEAD

/-- The state in which an eviction finds a victim: no free page; a list of entries,
as the insertions and the evictions before have left it, whose first entry
`vfte`, at address `a`, is in the hash (one entry per frame); the owner has a
supplementary entry `vpte` for the page of the victim, which is not the page
that the frame is wanted for; the entry of a page with a file holds the frame
as its frame; swap has a free slot when the victim has no file. -/
structure evictable (st : vm) (page a : Nat) (rest : List Nat) (vfte : frame_table_entry)
    (vpte : page_table_entry) : Prop where
  pool : st.pool = []
  list : queue st.frame_table (a :: rest)
  entry : st.frame_table.entries a = some vfte
  hashed : hash_ok st.frame_table ∧ a ∈ st.frame_table.hash
  found : page_table_find (st.procs vfte.owner).page_table vfte.page = some vpte
  other : ¬ (vfte.owner = st.cur ∧ vfte.page = page)
  buffer : ∀ file, vpte.file = some file → vpte.frame = some vfte.frame
  slot : vpte.file = none → swap_wf st.swap ∧ false ∈ st.swap.swap_table

/-- What an eviction leaves, from the state `st` to the state `st1`: the bytes of the
victim frame are in the file of the victim's page, at its offset, or in the
eight sectors of a swap slot that was free; the supplementary entry of the
victim's page says so; the hardware mapping of the victim's page is cleared;
the frame table has the frame for the current process and `page`, in the entry
at `a`, which is now the last of the list; the supplementary entry of `page`
holds the frame with the disk flag false, and `page` is mapped to the frame. -/
structure evicted (st st1 : vm) (page : Nat) (writable : Bool) (a : Nat) (rest : List Nat)
    (vfte : frame_table_entry) (vpte : page_table_entry) : Prop where
  cur : st1.cur = st.cur
  pool : st1.pool = []
  list : queue st1.frame_table (rest ++ [a])
  hashed : hash_ok st1.frame_table ∧ a ∈ st1.frame_table.hash
  entry : st1.frame_table.entries a = some { frame := vfte.frame, owner := st.cur, page := page }
  file_out : ∀ file, vpte.file = some file →
    st1.files file = memcpy (st.files file) vpte.offset.toNat (st.mem vfte.frame) 0 PGSIZE ∧
    page_table_find (st1.procs vfte.owner).page_table vfte.page =
      some { page := vfte.page, frame := none, block := 0, file := some file,
             offset := vpte.offset, disk := false }
  swapped : vpte.file = none →
    ∃ i, i < st.swap.swap_table.length ∧ st.swap.swap_table[i]? = some false ∧
      (∀ j k, j < 8 → k < 512 →
        st1.swap.swap_device (8 * i + j) k = st.mem vfte.frame (512 * j + k)) ∧
      page_table_find (st1.procs vfte.owner).page_table vfte.page =
        some { page := vfte.page, frame := none, block := 8 * i, file := none,
               offset := vpte.offset, disk := true }
  unmapped : (st1.procs vfte.owner).pagedir vfte.page = none
  frame_entry : frame_table_entry_of st1.frame_table vfte.frame =
    some { frame := vfte.frame, owner := st.cur, page := page }
  page_entry : ∃ e, page_table_find (st1.procs st.cur).page_table page = some e ∧
    e.frame = some vfte.frame ∧ e.disk = false
  mapped : (st1.procs st.cur).pagedir page = some (vfte.frame, writable)

/-- What the block `write_out_victim` leaves: as `evicted` without the registration
of the frame, and nothing else of the state changes. -/
structure written_out (st st1 : vm) (page : Nat) (vfte : frame_table_entry)
    (vpte : page_table_entry) : Prop where
  cur : st1.cur = st.cur
  frame_table : st1.frame_table = st.frame_table
  mem : st1.mem = st.mem
  pool : st1.pool = st.pool
  file_out : ∀ file src, vpte.file = some file → vpte.frame = some src →
    st1.swap = st.swap ∧
    st1.files file = memcpy (st.files file) vpte.offset.toNat (st.mem src) 0 PGSIZE ∧
    page_table_find (st1.procs vfte.owner).page_table vfte.page =
      some { page := vfte.page, frame := none, block := 0, file := some file,
             offset := vpte.offset, disk := false }
  swapped : vpte.file = none →
    st1.files = st.files ∧ st1.swap = (swap_out st.swap (st.mem vfte.frame)).1 ∧
    page_table_find (st1.procs vfte.owner).page_table vfte.page =
      some { page := vfte.page, frame := none,
             block := (swap_out st.swap (st.mem vfte.frame)).2, file := none,
             offset := vpte.offset, disk := true }
  unmapped : (st1.procs vfte.owner).pagedir vfte.page = none
  pagedir : ∀ q p, ¬ (q = vfte.owner ∧ p = vfte.page) →
    (st1.procs q).pagedir p = (st.procs q).pagedir p
  tables : ∀ q p, ¬ (q = vfte.owner ∧ p = vfte.page) →
    page_table_find (st1.procs q).page_table p = page_table_find (st.procs q).page_table p
  status : ∀ q, (st1.procs q).status = (st.procs q).status ∧
    (st1.procs q).exited = (st.procs q).exited ∧ (st1.procs q).esp = (st.procs q).esp

/-- The state after the victim has been written out, before the frame is registered
for its new page. -/
structure victim_out (st st3 : vm) (page : Nat) (writable : Bool) (a : Nat) (rest : List Nat)
    (vfte : frame_table_entry) (vpte : page_table_entry) : Prop where
  cur : st3.cur = st.cur
  pool : st3.pool = []
  list : queue st3.frame_table (rest ++ [a])
  hashed : hash_ok st3.frame_table ∧ a ∈ st3.frame_table.hash
  entry : st3.frame_table.entries a = some vfte
  mem : st3.mem = st.mem
  file_out : ∀ file, vpte.file = some file →
    st3.swap = st.swap ∧
    st3.files file = memcpy (st.files file) vpte.offset.toNat (st.mem vfte.frame) 0 PGSIZE ∧
    page_table_find (st3.procs vfte.owner).page_table vfte.page =
      some { page := vfte.page, frame := none, block := 0, file := some file,
             offset := vpte.offset, disk := false }
  swapped : vpte.file = none →
    st3.swap = (swap_out st.swap (st.mem vfte.frame)).1 ∧
    page_table_find (st3.procs vfte.owner).page_table vfte.page =
      some { page := vfte.page, frame := none,
             block := (swap_out st.swap (st.mem vfte.frame)).2, file := none,
             offset := vpte.offset, disk := true }
  unmapped : (st3.procs vfte.owner).pagedir vfte.page = none
  mapped : (st3.procs st.cur).pagedir page = some (vfte.frame, writable)
  tables : ∀ q p, ¬ (q = vfte.owner ∧ p = vfte.page) →
    page_table_find (st3.procs q).page_table p = page_table_find (st.procs q).page_table p

/-- A state before any page is allocated: one process, number 1, with `esp` at
0xBFFFF000; two free pages in the user pool, whose bytes are 7; a swap device
of 40 sectors; an empty frame table. -/
def sample_boot : vm :=
  { frame_table := frame_table_init,
    swap := swap_table_init (fun _ => zeros) 40,
    procs := fun _ => { page_table := [], pagedir := fun _ => none, esp := 3221221376,
                        status := 0, exited := false },
    cur := 1,
    mem := fun _ _ => 7,
    pool := [3222274048, 3222278144],
    files := fun _ => zeros }

/-- The state `sample_boot` after `allocate_frame` for the pages 0xBFFFE000 and
0xBFFFD000 (stack growth), after which the process has filled its two pages
with the bytes 9: no free page is left. -/
def sample_busy : vm :=
  match allocate_frame sample_boot 3221217280 true PAL_ZERO with
  | none => sample_boot
  | some (st1, _) =>
    match allocate_frame st1 3221213184 true PAL_ZERO with
    | none => sample_boot
    | some (st2, _) => { st2 with mem := fun _ _ => 9 }

/-- The entry of the frame table of `sample_busy` for the frame 0xC0100000. -/
def sample_vfte : frame_table_entry := { frame := 3222274048, owner := 1, page := 3221217280 }

/-- The supplementary entry of `sample_busy` for the page 0xBFFFE000. -/
def sample_vpte : page_table_entry :=
  { page := 3221217280, frame := some 3222274048, block := 0, file := none, offset := 0,
    disk := false }

/-- The function `page_table_remove` on the table of process `pid`; `none` when the
page has no entry (the null pointer is handed to `hash_delete`). -/
def page_table_remove (st : vm) (pid page : Nat) : Option vm :=
  match page_table_find (st.procs pid).page_table page with
  | none => none
  | some _ =>
    let st1 := pagedir_clear_page st pid page
    some (set_page_table st1 pid
      ((st1.procs pid).page_table.eraseP (fun e => e.page == page)))

/-- The function `page_table_entry_destroy`: for an entry with the disk flag,
`bitmap_set (swap_table, block / block_size, true)`; for any other entry, the
entry that `frame_table_find` yields for its frame is deleted from the hash
and freed (it is not unlinked from the list).  `none` when the bit is outside
the bitmap or no entry is found (the null pointer is handed to
`hash_delete`). -/
def page_table_entry_destroy (st : vm) (pte : page_table_entry) : Option vm :=
  if pte.disk then
    match bitmap_set st.swap.swap_table (pte.block / block_size) true with
    | none => none
    | some table => some { st with swap := { st.swap with swap_table := table } }
  else
    match frame_table_find st.frame_table (pte.frame.getD 0) with
    | none => none
    | some fte =>
      some { st with frame_table :=
        { st.frame_table with hash := st.frame_table.hash.erase fte,
                              entries := Function.update st.frame_table.entries fte none } }

/-- The calls of `page_table_entry_destroy` that `hash_destroy` makes, one for each
entry. -/
def destroy_entries : vm → List page_table_entry → Option vm
  | st, [] => some st
  | st, pte :: rest =>
    match page_table_entry_destroy st pte with
    | none => none
    | some st1 => destroy_entries st1 rest

/-- The function `page_table_free` on the table of process `pid`. -/
def page_table_free (st : vm) (pid : Nat) : Option vm :=
  match destroy_entries st (st.procs pid).page_table with
  | none => none
  | some st1 => some (set_page_table st1 pid [])

/-- The run of a mapped file page that is loaded and then removed, from
`sample_boot`: `page_table_insert_file` for page 0x10000000 of file 5 (as
`sys_mmap` calls it), a user fault on the page, which loads it into the frame
0xC0100000, and `page_table_remove` for the page (a later stack fault, at
`esp - 32`, takes the second free page, and one more, with `esp` a page lower,
finds no free page).  The result is the entry
of the frame table for the frame after the removal, the supplementary entry of
the page after the removal, and whether the last fault returns. -/
def removed_page_frame : Option (Option frame_table_entry × Option page_table_entry × Bool) :=
  let f : intr_frame :=
    { esp := 3221221376, not_present := true, write := false, user := true, kernel_cs := false }
  let st0 := set_page_table sample_boot 1
    (page_table_insert_file (sample_boot.procs 1).page_table 268435456 5 0)
  (page_fault st0 f 268435456).bind (fun st1 =>
    (page_table_remove st1 1 268435456).bind (fun st2 =>
      (page_fault st2 f 3221221344).map (fun st3 =>
        (frame_table_entry_of st2.frame_table 3222274048,
          page_table_find (st2.procs 1).page_table 268435456,
          (page_fault st3 { f with esp := 3221217280 } 3221217248).isSome))))

/-- A fault of a user access to a page that is not present, with `esp` at
0xBFFFF000. -/
def sample_fault : intr_frame :=
  { esp := 3221221376, not_present := true, write := true, user := true, kernel_cs := false }

/-- The fault of a kernel access, during a system call of the process of
`sample_boot`, to the address 0xC0400000, which is not present.  The result is
the mapping of the page 0xC0400000 after `page_fault`, the status of the
process, whether it has exited, and whether the address is a user address. -/
def kernel_fault_result : Option (Option (Nat × Bool) × Int × Bool × Bool) :=
  (page_fault sample_boot { sample_fault with user := false, kernel_cs := true }
    3225419776).map (fun s =>
      ((s.procs 1).pagedir 3225419776, (s.procs 1).status, (s.procs 1).exited,
        is_user_vaddr 3225419776))

/-- The stack fault at `esp - 32` of a process whose `esp` is 0xBFFFD000, in the
state `sample_busy` without free page and in the state `sample_boot` with free
pages: the mapping of the page 0xBFFFC000 after `page_fault` and the bytes 0
and 4095 of the frame that it is mapped to. -/
def stack_page_bytes (st : vm) : Option (Option (Nat × Bool) × Nat × Nat) :=
  (page_fault st { sample_fault with esp := 3221213184 } 3221213152).map (fun s =>
    ((s.procs 1).pagedir 3221209088,
      match (s.procs 1).pagedir 3221209088 with
      | some (frame, _) => (s.mem frame 0, s.mem frame 4095)
      | none => (0, 0)))

/-- The exit of a process that has a page in swap.  From `sample_busy`, a third stack
page is allocated, which evicts the page 0xBFFFE000 to swap; then
`page_table_free` runs on the table of the process.  The result is the
supplementary entry of the evicted page and the swap bitmap before
`page_table_free`, the bitmap and the supplementary table after it, and the
sector that the next `swap_out` returns. -/
def freed_swap_slot :
    Option (Option page_table_entry × List Bool × List Bool × List page_table_entry × Nat) :=
  (allocate_frame sample_busy 3221209088 true PAL_ZERO).bind (fun r =>
    (page_table_free r.1 1).map (fun st =>
      (page_table_find (r.1.procs 1).page_table 3221217280, r.1.swap.swap_table,
        st.swap.swap_table, (st.procs 1).page_table, (swap_out st.swap zeros).2)))

/-- The exit of the process of `sample_busy`, whose two pages are in frames:
`page_table_free` on its table.  The result is the addresses in the hash of the
frame table before and after the call, the elements met from the head of the
list along `next` after the call, whether the two elements are allocated
entries after the call, and whether `frame_table_select_victim` returns after
the call. -/
def freed_frames : Option (List Nat × List Nat × List Nat × List Bool × Bool) :=
  (page_table_free sample_busy 1).map (fun st =>
    (sample_busy.frame_table.hash, st.frame_table.hash, list_walk st.frame_table 6 LIST_HEAD,
      (list_walk st.frame_table 6 LIST_HEAD).map (fun p => (st.frame_table.entries p).isSome),
      (frame_table_select_victim st.frame_table).isSome))

/-- The exit of a process with a mapped file page that was never loaded: from
`sample_boot`, `page_table_insert_file` for page 0x10000000 of file 5, as
`sys_mmap` calls it, and `page_table_free`.  The result is the entry before the
call, what `frame_table_find` yields for its frame (the null pointer), and
whether `page_table_free` returns. -/
def freed_file_page : Option page_table_entry × Option Nat × Bool :=
  let st := set_page_table sample_boot 1
    (page_table_insert_file (sample_boot.procs 1).page_table 268435456 5 0)
  (page_table_find (st.procs 1).page_table 268435456, frame_table_find st.frame_table 0,
    (page_table_free st 1).isSome)

/-- The counter and the list of the cache after `cache_table_init` on `sample_disk`,
a write of sector 5 and `free_cache (5)`: the counter `size`, the length of
the list, and the same pair after a further write of sector 9. -/
def freed_counter : Option (Nat × Nat × Nat × Nat) :=
  (cache_table_write (cache_table_init sample_disk) zeros 0 5 0 512).bind (fun st1 =>
    let st2 := free_cache st1 5
    (cache_table_write st2 unused 0 9 0 512).map (fun st3 =>
      (st2.cache_table.size, st2.cache_table.list.length,
        st3.cache_table.size, st3.cache_table.list.length)))

/-- A full cache that is emptied: after `cache_table_init` on `sample_disk` and writes
of the sectors 0 to 63, `free_cache` for each of these sectors (as `free_blocks`
calls it for the blocks of a removed file) and one more write, of sector 0.
The result is the counter `size` and the length of the list after the calls
of `free_cache`, whether the write returns, and the counter and the length of
the list when `cache_table_destroy` runs on the full cache instead. -/
def emptied_full : Option (Nat × Nat × Bool × Nat × Nat) :=
  (run_cache (cache_table_init sample_disk)
    ((List.range 64).map (fun k => cache_call.write (fun _ => k + 1) k 0 512))).map
    (fun r =>
      let st := (List.range 64).foldl free_cache r.1
      let st1 := cache_table_destroy r.1
      (st.cache_table.size, st.cache_table.list.length,
        (cache_table_write st zeros 0 0 0 512).isSome,
        st1.cache_table.size, st1.cache_table.list.length))

/-- The release of a file with a hole in its direct blocks: an empty inode is created
at sector 2 of `sample_disk` and opened, one byte is written at offset 512
(block 1 is allocated and block 0 is not), and `free_blocks` runs on the
inode.  The result is the slot of logical block 0 before the call and the
sectors handed to `free_map_release` by the call, in order. -/
def hole_release : Option (Nat × List Nat) := do
  let (st1, _) ← inode_create sample_disk 2 0 false 1
  let (st2, _) ← inode_write_at (inode_open st1 2).1 2 (fun _ => 7) 1 512
  let i ← inode_deref st2 2
  let st3 ← free_blocks st2 i.data
  pure (i.data.direct 0, st3.free_map.released)

/-- The release of a file without single-indirect block: an empty inode is created
at sector 2 of `sample_disk` and opened, one byte is written at offset 71680
(logical block 140, the first of the double-indirect range), and the
iteration of the loop of `free_blocks` for logical block 139 runs.  The
result is the field `indirect` of the inode, whether the cache holds sector
`UNUSED_SECTOR` before the iteration, and the sectors of the cache after
it. -/
def index_release : Option (Nat × Bool × List Nat) := do
  let (st1, _) ← inode_create sample_disk 2 0 false 1
  let (st2, _) ← inode_write_at (inode_open st1 2).1 2 (fun _ => 7) 1 71680
  let i ← inode_deref st2 2
  let st3 ← free_blocks_step st2 i.data 139
  pure (i.data.indirect, (cache_table_find st2.cache_table UNUSED_SECTOR).isSome,
    st3.cache_table.list.map (fun cte => cte.block))

/-- A read beyond the end of an empty file: one byte at offset 0 of the inode of
`sample_open`, whose length is 0.  The result is the number of bytes read, the
number of free sectors before and after the call, and the slot `direct[0]` of
the inode before and after the call. -/
def read_past_end : Option (Nat × Nat × Nat × Nat × Nat) :=
  (inode_read_at sample_open 2 zeros 1 0).bind (fun r =>
    (inode_deref r.1 2).map (fun i =>
      (r.2.2, free_count sample_open.free_map, free_count r.1.free_map,
        sample_inode.data.direct 0, i.data.direct 0)))

/-- The constant `MAX_FILE_COUNT` of process.h. -/
def MAX_FILE_COUNT : Nat := 128

/-- The constant `STDOUT_FILENO` of lib/stdio.h. -/
def STDOUT_FILENO : Int := 1

/-- The `struct mmap` of process.h, its list element left out. -/
structure mmap where
  mapid : Int
  page : Nat
  file : Nat
  deriving DecidableEq

/-- The part of the state that `sys_mmap` reads and writes: the array `files` of the
current process (a null pointer is `none`), its supplementary page table and
its `mmap_list` (front first), and the open files of filesys/file.c, which is
not under src/: `file_inode f` is the inode of the `struct file` at address
`f`, `inode_len` the length of an inode, and `file_brk` the address that the
next allocation of a `struct file` returns. -/
structure mmap_state where
  files : List (Option Nat)
  page_table : List page_table_entry
  mmap_list : List mmap
  file_inode : Nat → Nat
  inode_len : Nat → Int
  file_brk : Nat

/-- Modelled from the spec: `file_length` of filesys/file.c, which is not under src/:
the length of the inode of the file. -/
def file_length (st : mmap_state) (file : Nat) : Int := st.inode_len (st.file_inode file)

/-- Modelled from the spec: `file_reopen` of filesys/file.c, which is not under src/
("reopen the file (independent file cursor)"): a new `struct file` for the
same inode. -/
def file_reopen (st : mmap_state) (file : Nat) : Nat × mmap_state :=
  (st.file_brk,
    { st with file_inode := Function.update st.file_inode st.file_brk (st.file_inode file),
              file_brk := st.file_brk + 1 })

/-- The number of iterations of the two loops `for (i = 0; i < len / PGSIZE + 1; i++)`
of `sys_mmap`. -/
def mmap_pages (len : Int) : Nat := (Int.tdiv len PGSIZE + 1).toNat

/-- The address `page + i * PGSIZE`, in 32-bit pointer arithmetic. -/
def mmap_page (page i : Nat) : Nat := (page + i * PGSIZE) % 4294967296

/-- The mapid that `sys_mmap` selects: 0 when the `mmap_list` is empty, and otherwise
one more than the mapid of its last mapping. -/
def next_mapid (l : List mmap) : Int :=
  match l.getLast? with
  | none => 0
  | some back => back.mapid + 1

/-- The function `sys_mmap` after its two arguments have been fetched: the state and
the value stored in `f->eax` (`mapid_t` is taken without overflow).  `none`
when `fd` is not an index of the array `files`. -/
def sys_mmap (st : mmap_state) (fd : Int) (page : Nat) : Option (mmap_state × Int) :=
  if fd < 0 ∨ (MAX_FILE_COUNT : Int) ≤ fd then none
  else
    match st.files.getD fd.toNat none with
    | none => some (st, -1)
    | some file =>
      let len := file_length st file
      if fd ≤ STDOUT_FILENO ∨ len = 0 ∨ page = 0 ∨ page ≠ pg_round_down page then some (st, -1)
      else if (List.range (mmap_pages len)).any
          (fun i => (page_table_find st.page_table (mmap_page page i)).isSome) then
        some (st, -1)
      else
        let mapid := next_mapid st.mmap_list
        let r := file_reopen st file
        let m : mmap := { mapid := mapid, page := page, file := r.1 }
        let pt := (List.range (mmap_pages len)).foldl
          (fun pt i => page_table_insert_file pt (mmap_page page i) r.1 ((i * PGSIZE : Nat) : Int))
          r.2.page_table
        some ({ r.2 with mmap_list := r.2.mmap_list ++ [m], page_table := pt }, mapid)

/-- A process with one open file, descriptor 2, at address 100, of the given length;
no page has a supplementary entry and nothing is mapped. -/
def sample_mmap (len : Int) : mmap_state :=
  { files := [none, none, some 100], page_table := [], mmap_list := [],
    file_inode := fun _ => 7, inode_len := fun _ => len, file_brk := 101 }

/-- What a call of `sys_mmap` leaves: the value in `f->eax`, the supplementary page
table and the `mmap_list`. -/
def mmap_result (st : mmap_state) (fd : Int) (page : Nat) :
    Option (Int × List page_table_entry × List mmap) :=
  (sys_mmap st fd page).map (fun r => (r.2, r.1.page_table, r.1.mmap_list))

/-- The constant `DEPTH_MAX` of filesys.c. -/
def DEPTH_MAX : Nat := 128

/-- Modelled from the spec: `strtok_r (s, "/", &save)` of lib/string.c, which is not
under src/ ("paths are `/`-separated"), on the characters `s` from the
current position to the terminator.  The call skips the delimiters at the
position; at the terminator it returns the null pointer (`none`); otherwise
it returns the characters up to the next delimiter, which it overwrites with
a terminator, and leaves in `save` the position behind it. -/
def strtok_r (s : List Char) (delim : Char) : Option (List Char) × List Char :=
  let s1 := s.dropWhile (fun c => c == delim)
  if s1 = [] then (none, [])
  else (some (s1.takeWhile (fun c => c != delim)), (s1.dropWhile (fun c => c != delim)).tail)

/-- The store `path[i] = v` into the array `path`; `none` when `i` is not an index of
the array. -/
def path_store (path : List (Option (List Char))) (i : Nat) (v : Option (List Char)) :
    Option (List (Option (List Char))) :=
  if i < path.length then some (path.set i v) else none

/-- The loop `while (path[*depth])` of `filesys_parse`, `next` being the position that
`strtok_r` keeps, run for at most `fuel` iterations. -/
def filesys_parse_loop : Nat → List (Option (List Char)) → List Char → Nat →
    Option (List (Option (List Char)) × Nat)
  | 0, path, _, depth =>
    match path.getD depth none with
    | none => some (path, depth)
    | some _ => none
  | fuel + 1, path, next, depth =>
    match path.getD depth none with
    | none => some (path, depth)
    | some _ =>
      let r := strtok_r next '/'
      match path_store path (depth + 1) r.1 with
      | none => none
      | some path1 => filesys_parse_loop fuel path1 r.2 (depth + 1)

/-- The function `filesys_parse`: the array `path` and `*depth` as the call leaves
them.  Every iteration of the loop consumes a character of the name, so
`name.length + 1` iterations are enough. -/
def filesys_parse (path : List (Option (List Char))) (name : List Char) (depth : Nat) :
    Option (List (Option (List Char)) × Nat) :=
  let r := strtok_r name '/'
  match path_store path depth r.1 with
  | none => none
  | some path1 => filesys_parse_loop (name.length + 1) path1 r.2 depth

/-- The loop `for (i = 0; i < depth - 1; i++)` of `filesys_find_dir` with `n` iterations
left: `lookup d c` is what `dir_lookup` finds for the name `c` in the directory
whose inode is at sector `d` (directory.c is not under src/), and `dir_flag`
tells whether an inode is a directory (`inode->data.is_dir`).  The inner `none`
is the null pointer that the function returns, the outer one a null name
handed to `dir_lookup`. -/
def filesys_find_dir_loop (lookup : Nat → List Char → Option Nat) (dir_flag : Nat → Bool)
    (path : List (Option (List Char))) : Nat → Nat → Nat → Option (Option Nat)
  | 0, _, dir => some (some dir)
  | n + 1, i, dir =>
    match path.getD i none with
    | none => none
    | some c =>
      match lookup dir c with
      | none => some none
      | some inode =>
        if dir_flag inode = false then some none
        else filesys_find_dir_loop lookup dir_flag path n (i + 1) inode

/-- The function `filesys_find_dir`, a directory being given by the sector of its
inode: the directory returned and `*final`, or the null pointer (inner
`none`); `dir_open` is taken to succeed. -/
def filesys_find_dir (lookup : Nat → List Char → Option Nat) (dir_flag : Nat → Bool)
    (dir : Nat) (name : List Char) : Option (Option (Nat × Option (List Char))) :=
  match filesys_parse (List.replicate DEPTH_MAX none) name 0 with
  | none => none
  | some (path, depth) =>
    match filesys_find_dir_loop lookup dir_flag path (depth - 1) 0 dir with
    | none => none
    | some none => some none
    | some (some d) =>
      some (some (d, if depth = 0 then some [] else path.getD (depth - 1) none))

/-- The directory that `filesys_create`, `filesys_open` and `filesys_remove` hand to
`filesys_find_dir`: `dir_open_root ()` when `name[0] == '/'` and
`process_current_dir ()` otherwise. -/
def filesys_start_dir (root cur : Nat) (name : List Char) : Nat :=
  if name.head? = some '/' then root else cur

/-- The components of a path in the words of the specification: the pieces between
the separators `/`, without the empty ones. -/
def path_components (name : List Char) : List (List Char) :=
  (name.splitOn '/').filter (fun c => c ≠ [])

/-- The directory reached from `dir` along the components `cs` in the words of the
specification: each component is looked up in the directory reached so far and
must name a directory. -/
def follow (lookup : Nat → List Char → Option Nat) (dir_flag : Nat → Bool) :
    Nat → List (List Char) → Option Nat
  | dir, [] => some dir
  | dir, c :: cs =>
    match lookup dir c with
    | none => none
    | some inode => if dir_flag inode = false then none else follow lookup dir_flag inode cs

/-- The components that `strtok_r` yields from a call on: the token `cur` that the
last call returned and those of the rest `next` of the name. -/
def components_from (cur : Option (List Char)) (next : List Char) : List (List Char) :=
  match cur with
  | none => []
  | some c => c :: path_components next

/-- A directory tree: the root directory at sector 1 holds the directory `usr` at
sector 5 and the file `etc` at sector 4; `usr` holds the directory `bin` at
sector 6, which holds the file `ls` at sector 9. -/
def sample_lookup (dir : Nat) (name : List Char) : Option Nat :=
  if dir = 1 ∧ name = ['u', 's', 'r'] then some 5
  else if dir = 1 ∧ name = ['e', 't', 'c'] then some 4
  else if dir = 5 ∧ name = ['b', 'i', 'n'] then some 6
  else if dir = 6 ∧ name = ['l', 's'] then some 9
  else none

/-- The directories of the tree `sample_lookup`. -/
def sample_dir_flag (inode : Nat) : Bool := inode = 1 || inode = 5 || inode = 6

/-- The three locks of the lock order: `frame_table.lock` (frame.h), `lock_file`
(syscall.c) and `swap_lock` (swap.c). -/
inductive lock_id where
  | frame_table_lock
  | lock_file
  | swap_lock
  deriving DecidableEq

/-- A call of `lock_acquire` or of `lock_release` on one of the three locks. -/
inductive lock_event where
  | acquire (l : lock_id)
  | release (l : lock_id)
  deriving DecidableEq

/-- The ways through `page_fault` for a page that is not present: the page has no
supplementary entry and the access does not pass the stack test (`kill`), it
passes it (`stack`), the entry is in swap (`swap`), or the entry has a file
(`file`).  `free_page` tells whether `palloc_get_page` returns a page and
`victim_file` whether the supplementary entry of the victim has a file. -/
inductive fault_path where
  | kill
  | stack ( free_page victim_file : Bool)
  | swap ( free_page victim_file : Bool)
  | file ( free_page victim_file : Bool)

/-- The lock calls of `swap_out` and of `swap_in` (swap.c, lines 84 and 94, 53 and
59). -/
def swap_locks : List lock_event :=
  [lock_event.acquire lock_id.swap_lock, lock_event.release lock_id.swap_lock]

/-- The lock calls of the block that writes a victim out (frame.c, lines 146-160;
exception.c, lines 231-245 and 288-302): `lock_file` around `file_write_at`,
or the calls of `swap_out`; nothing when `palloc_get_page` returned a page. -/
def evict_locks ( free_page victim_file : Bool) : List lock_event :=
  if free_page then []
  else if victim_file then
    [lock_event.acquire lock_id.lock_file, lock_event.release lock_id.lock_file]
  else swap_locks

/-- The lock calls of `allocate_frame` (frame.c, lines 131 and 176). -/
def allocate_frame_locks ( free_page victim_file : Bool) : List lock_event :=
  [lock_event.acquire lock_id.frame_table_lock] ++ evict_locks free_page victim_file ++
    [lock_event.release lock_id.frame_table_lock]

/-- The lock calls of `page_fault` for a page that is not present, in the order of
the calls: `frame_table.lock` around `page_table_find` (lines 184-186), and
then those of the way taken (`allocate_frame`; lines 215-268; lines
272-329). -/
def page_fault_locks : fault_path → List lock_event
  | fault_path.kill =>
    [lock_event.acquire lock_id.frame_table_lock, lock_event.release lock_id.frame_table_lock]
  | fault_path.stack free_page victim_file =>
    [lock_event.acquire lock_id.frame_table_lock, lock_event.release lock_id.frame_table_lock]
      ++ allocate_frame_locks free_page victim_file
  | fault_path.swap free_page victim_file =>
    [lock_event.acquire lock_id.frame_table_lock, lock_event.release lock_id.frame_table_lock]
      ++ [lock_event.acquire lock_id.frame_table_lock] ++ evict_locks free_page victim_file
      ++ swap_locks ++ [lock_event.release lock_id.frame_table_lock]
  | fault_path.file free_page victim_file =>
    [lock_event.acquire lock_id.frame_table_lock, lock_event.release lock_id.frame_table_lock]
      ++ [lock_event.acquire lock_id.frame_table_lock] ++ evict_locks free_page victim_file
      ++ [lock_event.acquire lock_id.lock_file, lock_event.release lock_id.lock_file]
      ++ [lock_event.release lock_id.frame_table_lock]

/-- The lock calls of a thread in `sys_read` or `sys_write` on a file (syscall.c, lines
293-295 and 321-323): `lock_file` around `file_read` or `file_write`, during
which the thread takes the page faults `faults` on the pages of the user
buffer that are not present. -/
def sys_read_locks (faults : List fault_path) : List lock_event :=
  [lock_event.acquire lock_id.lock_file] ++ faults.flatMap page_fault_locks ++
    [lock_event.release lock_id.lock_file]

/-- The lock calls of `sys_mmap` where it takes the locks (syscall.c, lines 418-419
and 470-471) and of `sys_munmap` (lines 488-495). -/
def sys_mmap_locks : List lock_event :=
  [lock_event.acquire lock_id.frame_table_lock, lock_event.acquire lock_id.lock_file,
    lock_event.release lock_id.lock_file, lock_event.release lock_id.frame_table_lock]

/-- The first call along the events that breaks the lock order, with the locks held
at it: an acquisition of `frame_table.lock` by a thread that holds `lock_file`
or `swap_lock`.  `held` are the locks that the thread holds at the start. -/
def first_violation : List lock_id → List lock_event → Option (lock_id × List lock_id)
  | _, [] => none
  | held, lock_event.acquire l :: rest =>
    if l = lock_id.frame_table_lock ∧
        (lock_id.lock_file ∈ held ∨ lock_id.swap_lock ∈ held) then some (l, held)
    else first_violation (l :: held) rest
  | held, lock_event.release l :: rest => first_violation (held.erase l) rest

/-- The file of `sample_created` (600 bytes in two blocks), opened, after
`inode_write_at` has written the byte 7 at each of the offsets 0 to 599. -/
def sample_written : filesys :=
  match inode_write_at (inode_open sample_created 2).1 2 (fun _ => 7) 600 0 with
  | some (st, _) => st
  | none => sample_created

/-- The open inode of sector 2 in `sample_written`. -/
def sample_written_inode : inode :=
  match inode_deref sample_written 2 with
  | some i => i
  | none => sample_inode

/-- Modelled from the spec: the call `disk_write (swap_device, sec_no, buffer)` of
devices/disk.c, which is not under src/ ("device I/O is assumed infallible at
this layer (kernel panic on underlying failure)"): a sector of the device is
stored; for a sector number that is not below `disk_size (swap_device)` the
driver stops the kernel and stores nothing (`none`). -/
def swap_disk_write (st : swap) (sec_no : Nat) (buffer : Nat → Nat) : Option swap :=
  if sec_no < st.disk_size then
    some { st with swap_device := Function.update st.swap_device sec_no buffer,
                   written := st.written ++ [sec_no] }
  else none

/-- The loop of `swap_out` over the driver call `swap_disk_write`, for the values of
`i` in the list: the state when the loop ends or the kernel stops, and whether
the loop ran to its end. -/
def swap_write_loop_checked (frame : Nat → Nat) (block : Nat) : List Nat → swap → swap × Bool
  | [], st => (st, true)
  | i :: rest, st =>
    match swap_disk_write st ((block + i) % 4294967296)
        (fun k => frame (i * DISK_SECTOR_SIZE + k)) with
    | none => (st, false)
    | some st1 => swap_write_loop_checked frame block rest st1

/-- The function `swap_out` over the driver call `swap_disk_write`: the state that
the call leaves, and the sector it returns, `none` when the kernel stopped in
the loop and the call returns nothing.  As in `swap_out`, `temp` is
`BITMAP_ERROR` when the bitmap has no clear bit and the function goes on to the
loop (the branch for it is empty). -/
def swap_out_checked (st : swap) (frame : Nat → Nat) : swap × Option Nat :=
  let r : Nat × List Bool :=
    match bitmap_scan_and_flip st.swap_table with
    | some (i, table) => (i, table)
    | none => (BITMAP_ERROR, st.swap_table)
  let temp := r.1
  let block := (temp * block_size) % 4294967296
  let w := swap_write_loop_checked frame block (List.range block_size)
    { st with swap_table := r.2 }
  (w.1, if w.2 = true then some block else none)

/-- Modelled from the spec: number of bytes of the bitmap of the free map, which
lib/kernel/bitmap.c (not under src/) keeps in 32-bit words, one bit per sector
of the device. -/
def free_map_byte_cnt (fm : free_map) : Nat := (fm.size + 31) / 32 * 4

/-- Modelled from the spec: byte `k` of the bitmap of the free map: bit `j` of the
byte is set when sector `8 * k + j` of the device is in use. -/
def free_map_bytes (fm : free_map) (k : Nat) : Nat :=
  ((List.range 8).map
    (fun j => if 8 * k + j < fm.size ∧ fm.used (8 * k + j) = true then 2 ^ j else 0)).sum

/-- Modelled from the spec: the write of the free map to its file ("Sector 0:
free-map inode"; `free_map_create` and `free_map_open` in filesys.c), which
free-map.c (not under src/) does through the file layer, that is with
`inode_write_at` from offset 0 and so with one `cache_table_write` per sector of
the file.  The list holds the sectors of the data blocks of the file that are
still to be written, `ofs` is the offset reached in the bitmap. -/
def free_map_write : List Nat → Nat → filesys → Option filesys
  | [], _, st => some st
  | s :: rest, ofs, st =>
    if ofs < free_map_byte_cnt st.free_map then
      match cache_table_write st (free_map_bytes st.free_map) ofs s 0
          (min DISK_SECTOR_SIZE (free_map_byte_cnt st.free_map - ofs)) with
      | none => none
      | some st1 => free_map_write rest (ofs + DISK_SECTOR_SIZE) st1
    else some st

/-- Modelled from the spec: `free_map_release (sector, 1)` of free-map.c (not under
src/) for a free map that is kept in a file whose data blocks are the sectors
`file`: the sector is marked free as by `free_map_release`, and the bitmap is
written to the file.  With `file = []` nothing is written. -/
def free_map_release_file (file : List Nat) (st : filesys) (sector : Nat) : Option filesys :=
  free_map_write file 0 { st with free_map := free_map_release st.free_map sector }

/-- The pair `free_map_release (s, 1); free_cache (s);` of `free_blocks`, the free
map kept in the file `file`. -/
def release_block_file (file : List Nat) (st : filesys) (s : Nat) : Option filesys :=
  match free_map_release_file file st s with
  | none => none
  | some st1 => some (free_cache st1 s)

/-- A release under a condition: `if (c) { free_map_release (s, 1); free_cache (s);
}`. -/
def release_block_when (file : List Nat) (c : Bool) (st : filesys) (s : Nat) :
    Option filesys :=
  if c = true then release_block_file file st s else some st

/-- One iteration of the loop of `free_blocks`, for logical block `pos`, the free
map kept in the file `file`. -/
def free_blocks_step_file (file : List Nat) (st : filesys) (data : inode_disk) (pos : Nat) :
    Option filesys :=
  if pos < DIRECT_MAX then
    release_block_file file st (data.direct pos)
  else if pos < DIRECT_MAX + SECTOR_MAX then
    let doffset := pos - DIRECT_MAX
    match cache_table_read st zeros 0 data.indirect (doffset * 4) 4 with
    | none => none
    | some (st1, buf) =>
      let block := get32 buf 0
      match release_block_when file (decide (block ≠ UNUSED_SECTOR)) st1 block with
      | none => none
      | some st2 => release_block_when file (decide (doffset = 0)) st2 data.indirect
  else
    let ioffset := (pos - DIRECT_MAX - SECTOR_MAX) / SECTOR_MAX
    let doffset := (pos - DIRECT_MAX - SECTOR_MAX) % SECTOR_MAX
    match cache_table_read st zeros 0 data.double_indirect (ioffset * 4) 4 with
    | none => none
    | some (st1, buf) =>
      let indirect := get32 buf 0
      let inner : Option filesys :=
        if indirect ≠ UNUSED_SECTOR then
          match cache_table_read st1 zeros 0 indirect (doffset * 4) 4 with
          | none => none
          | some (st2, buf2) =>
            let block := get32 buf2 0
            match release_block_when file (decide (block ≠ UNUSED_SECTOR)) st2 block with
            | none => none
            | some st3 => release_block_when file (decide (doffset = 0)) st3 indirect
        else some st1
      match inner with
      | none => none
      | some st4 =>
        release_block_when file (decide (ioffset = 0 ∧ doffset = 0)) st4 data.double_indirect

/-- The loop `for (pos = sectors - 1; pos >= 0; pos--)` of `free_blocks`, entered
with `pos + 1 = n`, the free map kept in the file `file`. -/
def free_blocks_loop_file (file : List Nat) (data : inode_disk) : Nat → filesys → Option filesys
  | 0, st => some st
  | n + 1, st =>
    match free_blocks_step_file file st data n with
    | none => none
    | some st1 => free_blocks_loop_file file data n st1

/-- The function `free_blocks`, the free map kept in the file `file`. -/
def free_blocks_file (file : List Nat) (st : filesys) (data : inode_disk) : Option filesys :=
  free_blocks_loop_file file data (bytes_to_sectors (off_t_val data.length)) st

/-- The function `inode_close`, the free map kept in the file `file`; `none` as
argument is the null pointer. -/
def inode_close_file (file : List Nat) (st : filesys) (p : Option Nat) : Option filesys :=
  match p with
  | none => some st
  | some p =>
    match inode_deref st p with
    | none => none
    | some i =>
      let i1 := { i with open_cnt := i.open_cnt - 1 }
      if i1.open_cnt = 0 then
        let st1 := { st with open_inodes := st.open_inodes.eraseP (fun j => j.sector == p) }
        if i1.removed then
          match free_map_release_file file st1 i1.sector with
          | none => none
          | some st2 => free_blocks_file file st2 i1.data
        else some (disk_write st1 i1.sector i1.data.bytes)
      else some (inode_store st p i1)

/-- What a run of releases does to the state, `L` being the sectors released, in
order: the cache stays consistent, the sectors outside `L` and outside the
free-map file keep their contents, the free map has lost the sectors of `L`
and nothing else, the log of releases has grown by `L`, the registry of open
inodes is as before, and no sector of `L` is resident in the cache. -/
structure released (file : List Nat) (st0 : filesys) (L : List Nat) (st : filesys) : Prop where
  cache : cache_ok st.cache_table
  view : ∀ t, t ∉ file → t ∉ L → sector_view st t = sector_view st0 t
  fm_size : st.free_map.size = st0.free_map.size
  fm_free : ∀ t, t ∈ L → st.free_map.used t = false
  fm_keep : ∀ t, t ∉ L → st.free_map.used t = st0.free_map.used t
  log : st.free_map.released = st0.free_map.released ++ L
  open_inodes : st.open_inodes = st0.open_inodes
  out : ∀ t, t ∈ L → ¬ cached st t
  apart : ∀ t, t ∈ L → t ∉ file

theorem memcpy_apply (dst : Nat → Nat) (dofs : Nat) (src : Nat → Nat) (sofs size i : Nat) :
    memcpy dst dofs src sofs size i
      = if dofs ≤ i ∧ i < dofs + size then src (sofs + (i - dofs)) else dst i := rfl

theorem get32_lt (b : Nat → Nat) (i : Nat) : get32 b i < 4294967296 := by
  unfold get32; omega

theorem get32_set32_same (b : Nat → Nat) (i v : Nat) :
    get32 (set32 b i v) i = v % 4294967296 := by
  simp only [get32, set32, memcpy_apply, bytes32]
  have h0 : (4 * i ≤ 4 * i ∧ 4 * i < 4 * i + 4) := by omega
  have h1 : (4 * i ≤ 4 * i + 1 ∧ 4 * i + 1 < 4 * i + 4) := by omega
  have h2 : (4 * i ≤ 4 * i + 2 ∧ 4 * i + 2 < 4 * i + 4) := by omega
  have h3 : (4 * i ≤ 4 * i + 3 ∧ 4 * i + 3 < 4 * i + 4) := by omega
  simp only [h0, h1, h2, h3, and_self, if_true]
  simp
  omega

theorem get32_set32_other (b : Nat → Nat) (i j v : Nat) (h : j ≠ i) :
    get32 (set32 b i v) j = get32 b j := by
  simp only [get32, set32, memcpy_apply]
  have h0 : ¬ (4 * i ≤ 4 * j ∧ 4 * j < 4 * i + 4) := by omega
  have h1 : ¬ (4 * i ≤ 4 * j + 1 ∧ 4 * j + 1 < 4 * i + 4) := by omega
  have h2 : ¬ (4 * i ≤ 4 * j + 2 ∧ 4 * j + 2 < 4 * i + 4) := by omega
  have h3 : ¬ (4 * i ≤ 4 * j + 3 ∧ 4 * j + 3 < 4 * i + 4) := by omega
  simp only [h0, h1, h2, h3, if_false]

theorem get32_memcpy_word (b : Nat → Nat) (i v : Nat) :
    get32 (memcpy b (i * 4) (bytes32 v) 0 4) i = v % 4294967296 := by
  have := get32_set32_same b i v
  simpa [set32, Nat.mul_comm] using this

theorem get32_memcpy_word_other (b : Nat → Nat) (i j v : Nat) (h : j ≠ i) :
    get32 (memcpy b (i * 4) (bytes32 v) 0 4) j = get32 b j := by
  have := get32_set32_other b i j v h
  simpa [set32, Nat.mul_comm] using this

theorem get32_read_word (b : Nat → Nat) (i : Nat) :
    get32 (memcpy zeros 0 b (i * 4) 4) 0 = get32 b i := by
  simp only [get32, memcpy_apply]
  simp
  have e0 : i * 4 = 4 * i := by omega
  rw [e0]

theorem get32_unused (i : Nat) : get32 unused i = UNUSED_SECTOR := by
  simp [get32, unused]

theorem get32_fill_unused (b : Nat → Nat) (i : Nat) (h : i < 128) :
    get32 (memcpy b 0 unused 0 DISK_SECTOR_SIZE) i = UNUSED_SECTOR := by
  simp only [get32, memcpy_apply, DISK_SECTOR_SIZE, unused]
  have h0 : (0 ≤ 4 * i ∧ 4 * i < 0 + 512) := by omega
  have h1 : (0 ≤ 4 * i + 1 ∧ 4 * i + 1 < 0 + 512) := by omega
  have h2 : (0 ≤ 4 * i + 2 ∧ 4 * i + 2 < 0 + 512) := by omega
  have h3 : (0 ≤ 4 * i + 3 ∧ 4 * i + 3 < 0 + 512) := by omega
  simp only [h0, h1, h2, h3, and_self, if_true]
  simp


theorem find_cache_store (l : List cache_table_entry) (s t : Nat) (buf : Nat → Nat) :
    (cache_store l s buf).find? (fun cte => cte.block == t) =
      if t = s then (l.find? (fun cte => cte.block == s)).map (fun e => { e with vaddr := buf })
      else l.find? (fun cte => cte.block == t) := by
  induction l with
  | nil => simp [cache_store]
  | cons e rest ih =>
    by_cases hes : e.block = s
    · by_cases hts : t = s
      · subst hts
        have hb : (e.block == t) = true := by simp [hes]
        simp [cache_store, hes, List.find?_cons]
      · have hb : (e.block == t) = false := by simp; omega
        have hb2 : (s == t) = false := by simp; omega
        simp [cache_store, hes, hts, List.find?_cons, hb, hb2]
    · by_cases hts : t = s
      · subst hts
        have hb : (e.block == t) = false := by simp; omega
        simp only [cache_store, hes, if_false, List.find?_cons, hb, if_true]
        simpa using ih
      · simp only [cache_store, hes, if_false, List.find?_cons, hts]
        by_cases het : e.block = t
        · have hb : (e.block == t) = true := by simp [het]
          simp [hb]
        · have hb : (e.block == t) = false := by simp [het]
          simp only [hb]; simpa [hts] using ih

theorem map_block_cache_store (l : List cache_table_entry) (s : Nat) (buf : Nat → Nat) :
    (cache_store l s buf).map (fun cte => cte.block) = l.map (fun cte => cte.block) := by
  induction l with
  | nil => simp [cache_store]
  | cons e rest ih =>
    by_cases hes : e.block = s
    · simp [cache_store, hes]
    · simp [cache_store, hes, ih]

theorem length_cache_store (l : List cache_table_entry) (s : Nat) (buf : Nat → Nat) :
    (cache_store l s buf).length = l.length := by
  have := congrArg List.length (map_block_cache_store l s buf)
  simpa using this

theorem find_none_iff (l : List cache_table_entry) (s : Nat) :
    l.find? (fun cte => cte.block == s) = none ↔ s ∉ l.map (fun cte => cte.block) := by
  simp [List.find?_eq_none]

theorem sector_view_hit (st : filesys) (s : Nat) (cte : cache_table_entry)
    (h : cache_table_find st.cache_table s = some cte) : sector_view st s = cte.vaddr := by
  simp [sector_view, h]

theorem sector_view_miss (st : filesys) (s : Nat)
    (h : cache_table_find st.cache_table s = none) : sector_view st s = st.filesys_disk s := by
  simp [sector_view, h]

/-- A store into the buffer of a resident sector. -/
theorem cache_store_hit (st : filesys) (s : Nat) (cte : cache_table_entry) (buf : Nat → Nat)
    (hok : cache_ok st.cache_table) (h : cache_table_find st.cache_table s = some cte) :
    cache_ok ({ st.cache_table with list := cache_store st.cache_table.list s buf }) ∧
    sector_view { st with cache_table :=
        { st.cache_table with list := cache_store st.cache_table.list s buf } }
      = Function.update (sector_view st) s buf := by
  obtain ⟨h1, h2, h3, h4⟩ := hok
  refine ⟨⟨?_, h2, ?_, ?_⟩, ?_⟩
  · simpa [length_cache_store] using h1
  · simpa [map_block_cache_store] using h3
  · intro hs hnil
    have hl := length_cache_store st.cache_table.list s buf
    simp only at hnil
    rw [hnil] at hl
    have : st.cache_table.list = [] := List.eq_nil_of_length_eq_zero hl.symm
    simp [cache_table_find, this] at h
  · funext t
    by_cases hts : t = s
    · subst hts
      simp only [cache_table_find] at h
      simp [sector_view, cache_table_find, find_cache_store, h]
    · simp [sector_view, cache_table_find, find_cache_store, hts]

theorem find_append_single (l : List cache_table_entry) (e : cache_table_entry) (t : Nat) :
    (l ++ [e]).find? (fun cte => cte.block == t) =
      match l.find? (fun cte => cte.block == t) with
      | some x => some x
      | none => if e.block = t then some e else none := by
  rw [List.find?_append]
  cases h : l.find? (fun cte => cte.block == t) with
  | some x => simp
  | none =>
    by_cases het : e.block = t
    · simp [List.find?_cons, het]
    · simp [List.find?_cons, het]

theorem allocate_cache_full (st : filesys) (s : Nat) (victim : cache_table_entry)
    (rest : List cache_table_entry) (hfull : st.cache_table.size = CACHE_TABLE_MAX_SIZE)
    (hl : st.cache_table.list = victim :: rest) :
    allocate_cache st s = some
      { filesys_disk := Function.update st.filesys_disk victim.block victim.vaddr,
        cache_table := { list := rest ++ [{ block := s, vaddr := zeros }],
                         size := CACHE_TABLE_MAX_SIZE,
                         destroyed := st.cache_table.destroyed },
        free_map := st.free_map, open_inodes := st.open_inodes } := by
  simp [allocate_cache, hfull, hl, disk_write]

theorem allocate_cache_room (st : filesys) (s : Nat)
    (hlt : st.cache_table.size < CACHE_TABLE_MAX_SIZE) :
    allocate_cache st s = some
      { filesys_disk := st.filesys_disk,
        cache_table := { list := st.cache_table.list ++ [{ block := s, vaddr := zeros }],
                         size := st.cache_table.size + 1,
                         destroyed := st.cache_table.destroyed },
        free_map := st.free_map, open_inodes := st.open_inodes } := by
  have h1 : st.cache_table.size ≤ CACHE_TABLE_MAX_SIZE := Nat.le_of_lt hlt
  have h2 : ¬ st.cache_table.size = CACHE_TABLE_MAX_SIZE := Nat.ne_of_lt hlt
  simp only [allocate_cache, h1, h2, if_true, if_false]

/-- A miss: `allocate_cache` succeeds and, once the new buffer holds `buf`, the
view is the old one with `s` bound to `buf`. -/
theorem cache_admit (st : filesys) (s : Nat) (hok : cache_ok st.cache_table)
    (hmiss : cache_table_find st.cache_table s = none) :
    ∃ st1, allocate_cache st s = some st1 ∧ st1.free_map = st.free_map ∧
      st1.open_inodes = st.open_inodes ∧ disk_read st1 s = st.filesys_disk s ∧
      (∀ t, t ≠ s → ¬ cached st t → st1.filesys_disk t = st.filesys_disk t ∧
        t ∉ st1.cache_table.list.map (fun cte => cte.block)) ∧
      ∀ buf : Nat → Nat,
        cache_ok ({ st1.cache_table with list := cache_store st1.cache_table.list s buf }) ∧
        sector_view { st1 with cache_table :=
            { st1.cache_table with list := cache_store st1.cache_table.list s buf } }
          = Function.update (sector_view st) s buf := by
  obtain ⟨h1, h2, h3, h4⟩ := hok
  have hmiss' : s ∉ st.cache_table.list.map (fun cte => cte.block) :=
    (find_none_iff _ _).1 hmiss
  by_cases hfull : st.cache_table.size = CACHE_TABLE_MAX_SIZE
  · have hne := h4 hfull
    obtain ⟨victim, rest, hl⟩ := List.exists_cons_of_ne_nil hne
    rw [hl] at h1 h3 hmiss'
    have hvs : victim.block ≠ s := by
      intro e; apply hmiss'; simp [e]
    have hsr : s ∉ rest.map (fun cte => cte.block) := by
      intro hin; apply hmiss'; simp at hin ⊢; right; exact hin
    have hvr : victim.block ∉ rest.map (fun cte => cte.block) := by
      simp only [List.map_cons, List.nodup_cons] at h3; exact h3.1
    have hnr : (rest.map (fun cte => cte.block)).Nodup := by
      simp only [List.map_cons, List.nodup_cons] at h3; exact h3.2
    refine ⟨_, allocate_cache_full st s victim rest hfull hl, rfl, rfl, ?_, ?_, ?_⟩
    · simp [disk_read, Function.update, Ne.symm hvs]
    · intro t hts hnc
      have hnc' : t ∉ (victim :: rest).map (fun cte => cte.block) := by
        rw [← hl]; exact hnc
      simp only [List.map_cons, List.mem_cons, not_or] at hnc'
      refine ⟨?_, ?_⟩
      · simp [Function.update, hnc'.1]
      · simp only [List.map_append, List.map_cons, List.map_nil, List.mem_append,
          List.mem_singleton, not_or]
        exact ⟨hnc'.2, hts⟩
    · intro buf
      refine ⟨⟨?_, ?_, ?_, ?_⟩, ?_⟩
      · simp only [length_cache_store, List.length_append, List.length_cons,
          List.length_nil]
        simp only [List.length_cons] at h1
        rw [hfull] at h1
        simpa using h1
      · exact Nat.le_refl _
      · simp only [map_block_cache_store, List.map_append, List.map_cons, List.map_nil]
        rw [List.nodup_append]
        refine ⟨hnr, by simp, ?_⟩
        intro x hx hx2
        simp at hx2
        subst hx2
        exact hsr hx
      · intro _ hnil
        have := congrArg List.length hnil
        simp [length_cache_store] at this
      · funext t
        by_cases hts : t = s
        · subst hts
          have hf : rest.find? (fun cte => cte.block == t) = none := (find_none_iff _ _).2 hsr
          simp [sector_view, cache_table_find, find_cache_store, find_append_single, hf]
        · have hst : ¬ s = t := fun e => hts e.symm
          simp only [sector_view, cache_table_find, find_cache_store, find_append_single, hts,
            if_false, hst, Function.update_noteq, ne_eq, not_false_eq_true, hl, List.find?_cons]
          by_cases htv : victim.block = t
          · subst htv
            have hf : rest.find? (fun cte => cte.block == victim.block) = none :=
              (find_none_iff _ _).2 hvr
            simp [hf]
          · have hb : (victim.block == t) = false := by simp [htv]
            simp only [hb]
            cases hf : rest.find? (fun cte => cte.block == t) with
            | some x => simp
            | none => simp [Function.update, Ne.symm htv]
  · have hlt : st.cache_table.size < CACHE_TABLE_MAX_SIZE := lt_of_le_of_ne h2 hfull
    refine ⟨_, allocate_cache_room st s hlt, rfl, rfl, rfl, ?_, ?_⟩
    · intro t hts hnc
      refine ⟨rfl, ?_⟩
      simp only [List.map_append, List.map_cons, List.map_nil, List.mem_append,
        List.mem_singleton, not_or]
      exact ⟨hnc, hts⟩
    intro buf
    refine ⟨⟨?_, ?_, ?_, ?_⟩, ?_⟩
    · simp only [length_cache_store, List.length_append, List.length_cons, List.length_nil]
      omega
    · simp only; omega
    · simp only [map_block_cache_store, List.map_append, List.map_cons, List.map_nil]
      rw [List.nodup_append]
      refine ⟨h3, by simp, ?_⟩
      intro x hx hx2
      simp at hx2
      subst hx2
      exact hmiss' hx
    · intro _ hnil
      have := congrArg List.length hnil
      simp [length_cache_store] at this
    · funext t
      by_cases hts : t = s
      · subst hts
        have hf : st.cache_table.list.find? (fun cte => cte.block == t) = none :=
          (find_none_iff _ _).2 hmiss'
        simp [sector_view, cache_table_find, find_cache_store, find_append_single, hf]
      · have hst : ¬ s = t := fun e => hts e.symm
        simp only [sector_view, cache_table_find, find_cache_store, find_append_single, hts,
          if_false, hst, Function.update_noteq, ne_eq, not_false_eq_true]
        cases hf : st.cache_table.list.find? (fun cte => cte.block == t) with
        | some x => simp
        | none => simp

/-- `cache_table_read` on a consistent cache: it succeeds, copies from the view of
the sector and leaves the view as it was. -/
theorem cache_table_read_spec (st : filesys) (buffer : Nat → Nat) (bofs sector offset size : Nat)
    (hok : cache_ok st.cache_table) (hsz : offset + size ≤ DISK_SECTOR_SIZE) :
    ∃ st1, cache_table_read st buffer bofs sector offset size
        = some (st1, memcpy buffer bofs (sector_view st sector) offset size) ∧
      cache_ok st1.cache_table ∧ sector_view st1 = sector_view st ∧
      st1.free_map = st.free_map ∧ st1.open_inodes = st.open_inodes ∧
      (∀ t, t ≠ sector → ¬ cached st t →
        st1.filesys_disk t = st.filesys_disk t ∧ ¬ cached st1 t) := by
  cases hf : cache_table_find st.cache_table sector with
  | some cte =>
    refine ⟨st, ?_, hok, rfl, rfl, rfl, fun t _ h => ⟨rfl, h⟩⟩
    simp only [cache_table_read, hsz, if_true, hf, sector_view_hit st sector cte hf]
  | none =>
    obtain ⟨st1, ha, hfm, hoi, hdr, hq, hall⟩ := cache_admit st sector hok hf
    obtain ⟨hok2, hv2⟩ := hall (disk_read st1 sector)
    refine ⟨{ st1 with cache_table := { st1.cache_table with
      list := cache_store st1.cache_table.list sector (disk_read st1 sector) } },
      ?_, hok2, ?_, hfm, hoi, ?_⟩
    · simp only [cache_table_read, hsz, if_true, hf, ha, hdr, sector_view_miss st sector hf]
    · rw [hv2, hdr, ← sector_view_miss st sector hf]
      exact Function.update_eq_self _ _
    · intro t hts hnc
      obtain ⟨h1, h2⟩ := hq t hts hnc
      exact ⟨h1, by simpa only [cached, map_block_cache_store] using h2⟩

/-- `cache_table_write` on a consistent cache: it succeeds and changes the view of
the one sector by the copy. -/
theorem cache_table_write_spec (st : filesys) (buffer : Nat → Nat) (bofs sector offset size : Nat)
    (hok : cache_ok st.cache_table) (hsz : offset + size ≤ DISK_SECTOR_SIZE) :
    ∃ st1, cache_table_write st buffer bofs sector offset size = some st1 ∧
      cache_ok st1.cache_table ∧
      sector_view st1 = Function.update (sector_view st) sector
        (memcpy (sector_view st sector) offset buffer bofs size) ∧
      st1.free_map = st.free_map ∧ st1.open_inodes = st.open_inodes ∧
      (∀ t, t ≠ sector → ¬ cached st t →
        st1.filesys_disk t = st.filesys_disk t ∧ ¬ cached st1 t) := by
  cases hf : cache_table_find st.cache_table sector with
  | some cte =>
    obtain ⟨hok2, hv2⟩ := cache_store_hit st sector cte
      (memcpy cte.vaddr offset buffer bofs size) hok hf
    refine ⟨{ st with cache_table := { st.cache_table with
      list := cache_store st.cache_table.list sector
        (memcpy cte.vaddr offset buffer bofs size) } }, ?_, hok2, ?_, rfl, rfl, ?_⟩
    · simp only [cache_table_write, hsz, if_true, hf]
    · rw [hv2, sector_view_hit st sector cte hf]
    · intro t _ hnc
      exact ⟨rfl, by simpa only [cached, map_block_cache_store] using hnc⟩
  | none =>
    obtain ⟨st1, ha, hfm, hoi, hdr, hq, hall⟩ := cache_admit st sector hok hf
    obtain ⟨hok2, hv2⟩ := hall (memcpy (disk_read st1 sector) offset buffer bofs size)
    refine ⟨{ st1 with cache_table := { st1.cache_table with
      list := cache_store st1.cache_table.list sector
        (memcpy (disk_read st1 sector) offset buffer bofs size) } }, ?_, hok2, ?_, hfm, hoi, ?_⟩
    · simp only [cache_table_write, hsz, if_true, hf, ha]
    · rw [hv2, hdr, sector_view_miss st sector hf]
    · intro t hts hnc
      obtain ⟨h1, h2⟩ := hq t hts hnc
      exact ⟨h1, by simpa only [cached, map_block_cache_store] using h2⟩


theorem filter_update_not_mem (l : List Nat) (used : Nat → Bool) (s : Nat) (b : Bool)
    (h : s ∉ l) :
    l.filter (fun x => !(Function.update used s b) x) = l.filter (fun x => !used x) := by
  apply List.filter_congr
  intro x hx
  have : x ≠ s := fun e => h (e ▸ hx)
  simp [Function.update, this]

theorem filter_update_mem (l : List Nat) (used : Nat → Bool) (s : Nat)
    (hn : l.Nodup) (h : s ∈ l) (hs : used s = false) :
    (l.filter (fun x => !(Function.update used s true) x)).length + 1
      = (l.filter (fun x => !used x)).length := by
  induction l with
  | nil => simp at h
  | cons a rest ih =>
    simp only [List.nodup_cons] at hn
    by_cases ha : a = s
    · subst ha
      have := filter_update_not_mem rest used a true hn.1
      simp [List.filter_cons, hs, this]
    · have hin : s ∈ rest := by
        simp only [List.mem_cons] at h
        rcases h with h | h
        · exact absurd h.symm ha
        · exact h
      have ih' := ih hn.2 hin
      have hu : Function.update used s true a = used a := by simp [Function.update, ha]
      simp only [List.filter_cons, hu]
      cases used a <;> simp <;> omega

theorem free_map_allocate_some (fm : free_map) (h : 0 < free_count fm) :
    ∃ s, free_map_allocate fm
        = some (s, { fm with used := Function.update fm.used s true }) ∧
      s < fm.size ∧ fm.used s = false ∧
      free_count { fm with used := Function.update fm.used s true } + 1 = free_count fm := by
  unfold free_count at h
  cases hf : (List.range fm.size).find? (fun s => !fm.used s) with
  | none =>
    rw [List.find?_eq_none] at hf
    have : (List.range fm.size).filter (fun s => !fm.used s) = [] := by
      rw [List.filter_eq_nil_iff]
      intro a ha; exact hf a ha
    rw [this] at h; simp at h
  | some s =>
    have hmem := List.mem_of_find?_eq_some hf
    have hp := List.find?_some hf
    simp only [List.mem_range] at hmem
    have hs : fm.used s = false := by simpa using hp
    refine ⟨s, ?_, hmem, hs, ?_⟩
    · simp [free_map_allocate, hf]
    · unfold free_count
      exact filter_update_mem _ _ _ (List.nodup_range _) (List.mem_range.2 hmem) hs

theorem free_map_allocate_none (fm : free_map) (h : free_count fm = 0) :
    free_map_allocate fm = none := by
  unfold free_count at h
  have h2 := List.eq_nil_of_length_eq_zero h
  rw [List.filter_eq_nil_iff] at h2
  have : (List.range fm.size).find? (fun s => !fm.used s) = none := by
    rw [List.find?_eq_none]; exact h2
  simp [free_map_allocate, this]


theorem cache_read_word (st : filesys) (X k : Nat) (hok : cache_ok st.cache_table) (hk : k < 128) :
    ∃ st1 buf, cache_table_read st zeros 0 X (k * 4) 4 = some (st1, buf) ∧
      get32 buf 0 = get32 (sector_view st X) k ∧
      cache_ok st1.cache_table ∧ sector_view st1 = sector_view st ∧
      st1.free_map = st.free_map ∧ st1.open_inodes = st.open_inodes ∧
      (∀ t, t ≠ X → ¬ cached st t →
        st1.filesys_disk t = st.filesys_disk t ∧ ¬ cached st1 t) := by
  have hsz : k * 4 + 4 ≤ DISK_SECTOR_SIZE := by simp; omega
  obtain ⟨st1, h1, h2, h3, h4, h5, h6⟩ := cache_table_read_spec st zeros 0 X (k * 4) 4 hok hsz
  exact ⟨st1, _, h1, get32_read_word _ _, h2, h3, h4, h5, h6⟩

/-- The slot step of `allocate_block` when the slot is set: nothing changes but
the cache residency. -/
theorem ensure_slot_set (st : filesys) (X k : Nat) (fill : Nat → Nat)
    (hok : cache_ok st.cache_table) (hk : k < 128)
    (hset : get32 (sector_view st X) k ≠ UNUSED_SECTOR) :
    ∃ st1, ensure_slot st X k fill = some (get32 (sector_view st X) k, st1) ∧
      cache_ok st1.cache_table ∧ sector_view st1 = sector_view st ∧
      st1.free_map = st.free_map ∧ st1.open_inodes = st.open_inodes ∧
      (∀ t, t ≠ X → ¬ cached st t →
        st1.filesys_disk t = st.filesys_disk t ∧ ¬ cached st1 t) := by
  obtain ⟨st1, buf, h1, h2, h3, h4, h5, h6, h7⟩ := cache_read_word st X k hok hk
  refine ⟨st1, ?_, h3, h4, h5, h6, h7⟩
  simp only [ensure_slot, h1, h2]
  rw [if_neg hset]

/-- The slot step of `allocate_block` when the slot is `UNUSED_SECTOR` and the free
map is exhausted: the result is `UNUSED_SECTOR` and nothing changes but the
cache residency. -/
theorem ensure_slot_fail (st : filesys) (X k : Nat) (fill : Nat → Nat)
    (hok : cache_ok st.cache_table) (hk : k < 128)
    (hunset : get32 (sector_view st X) k = UNUSED_SECTOR)
    (hfree : free_count st.free_map = 0) :
    ∃ st1, ensure_slot st X k fill = some (UNUSED_SECTOR, st1) ∧
      cache_ok st1.cache_table ∧ sector_view st1 = sector_view st ∧
      st1.free_map = st.free_map ∧ st1.open_inodes = st.open_inodes ∧
      (∀ t, t ≠ X → ¬ cached st t →
        st1.filesys_disk t = st.filesys_disk t ∧ ¬ cached st1 t) := by
  obtain ⟨st1, buf, h1, h2, h3, h4, h5, h6, h7⟩ := cache_read_word st X k hok hk
  refine ⟨st1, ?_, h3, h4, h5, h6, h7⟩
  have hn : free_map_allocate st1.free_map = none := by
    rw [h5]; exact free_map_allocate_none _ hfree
  simp only [ensure_slot, h1, h2, hunset, if_true, hn]

/-- The slot step of `allocate_block` when the slot is `UNUSED_SECTOR` and the free
map has a free sector `s`: `s` is marked used, stored in the slot, and filled. -/
theorem ensure_slot_unset (st : filesys) (X k : Nat) (fill : Nat → Nat)
    (hok : cache_ok st.cache_table) (hk : k < 128)
    (hunset : get32 (sector_view st X) k = UNUSED_SECTOR)
    (hfree : 0 < free_count st.free_map) :
    ∃ s st1, ensure_slot st X k fill = some (s, st1) ∧
      s < st.free_map.size ∧ st.free_map.used s = false ∧
      st1.free_map = { st.free_map with used := Function.update st.free_map.used s true } ∧
      free_count st1.free_map + 1 = free_count st.free_map ∧
      cache_ok st1.cache_table ∧
      sector_view st1 = Function.update
        (Function.update (sector_view st) X (memcpy (sector_view st X) (k * 4) (bytes32 s) 0 4))
        s (memcpy (Function.update (sector_view st) X
              (memcpy (sector_view st X) (k * 4) (bytes32 s) 0 4) s) 0 fill 0 DISK_SECTOR_SIZE) ∧
      st1.open_inodes = st.open_inodes ∧
      (∀ t, t ≠ X → t ≠ s → ¬ cached st t →
        st1.filesys_disk t = st.filesys_disk t ∧ ¬ cached st1 t) := by
  obtain ⟨st1, buf, h1, h2, h3, h4, h5, h6, h7⟩ := cache_read_word st X k hok hk
  rw [← h5] at hfree
  obtain ⟨s, ha, hs1, hs2, hs3⟩ := free_map_allocate_some st1.free_map hfree
  have hsz : k * 4 + 4 ≤ DISK_SECTOR_SIZE := by simp; omega
  obtain ⟨st2, w1, w2, w3, w4, w5, w6⟩ := cache_table_write_spec
    { st1 with free_map := { st1.free_map with used := Function.update st1.free_map.used s true } }
    (bytes32 s) 0 X (k * 4) 4 h3 hsz
  obtain ⟨st3, x1, x2, x3, x4, x5, x6⟩ := cache_table_write_spec st2 fill 0 s 0 DISK_SECTOR_SIZE w2
    (by simp)
  refine ⟨s, st3, ?_, ?_, ?_, ?_, ?_, x2, ?_, ?_, ?_⟩
  · simp only [ensure_slot, h1, h2, hunset, if_true, ha, w1, x1]
  · rw [← h5]; exact hs1
  · rw [← h5]; exact hs2
  · rw [x4, w4, h5]
  · rw [x4, w4, ← h5]; exact hs3
  · rw [x3, w3]
    have : sector_view { st1 with free_map :=
        { st1.free_map with used := Function.update st1.free_map.used s true } }
        = sector_view st := by rw [← h4]; rfl
    rw [this]
  · rw [x5, w5]; exact h6
  · intro t htX hts hnc
    obtain ⟨a1, a2⟩ := h7 t htX hnc
    obtain ⟨b1, b2⟩ := w6 t htX a2
    obtain ⟨c1, c2⟩ := x6 t hts b2
    exact ⟨by rw [c1, b1]; exact a1, c2⟩


theorem child_slot_congr (st st1 : filesys) (X k : Nat)
    (h : X ≠ UNUSED_SECTOR → sector_view st1 X = sector_view st X) :
    child_slot st1 X k = child_slot st X k := by
  unfold child_slot
  by_cases hX : X = UNUSED_SECTOR
  · simp [hX]
  · rw [if_neg hX, if_neg hX, h hX]

theorem child_slot_unused (st : filesys) (k : Nat) : child_slot st UNUSED_SECTOR k = UNUSED_SECTOR := by
  simp [child_slot]

theorem child_slot_lt (st : filesys) (X k : Nat) : child_slot st X k < 4294967296 := by
  unfold child_slot
  split
  · simp
  · exact get32_lt _ _

/-- The slots of an inode depend on the index words of the inode and on the view
of its index blocks only. -/
theorem slot_frame (st st1 : filesys) (isec : Nat) (data data1 : inode_disk)
    (hw : ∀ j, j < 14 → get32 data1.bytes j = get32 data.bytes j)
    (hv : ∀ r : slot_id, r.valid → r.index → slot_sector st isec data r ≠ UNUSED_SECTOR →
      sector_view st1 (slot_sector st isec data r) = sector_view st (slot_sector st isec data r))
    (r : slot_id) (hr : r.valid) :
    slot_sector st1 isec data1 r = slot_sector st isec data r := by
  have hind : data1.indirect = data.indirect := hw 12 (by omega)
  have hdbl : data1.double_indirect = data.double_indirect := hw 13 (by omega)
  have hdind : ∀ i, i < 128 → indirect_slot st1 data1 i = indirect_slot st data i := by
    intro i hi
    unfold indirect_slot
    rw [hdbl]
    apply child_slot_congr
    intro hX
    exact hv slot_id.dbl trivial trivial hX
  cases r with
  | self => rfl
  | ind => exact hind
  | dbl => exact hdbl
  | dind i => exact hdind i hr
  | data p =>
    simp only [slot_id.valid, MAX_BLOCKS] at hr
    simp only [slot_sector, block_slot]
    by_cases h1 : p < DIRECT_MAX
    · simp only [h1, if_true]
      exact hw p (by simp at h1; omega)
    · by_cases h2 : p < DIRECT_MAX + SECTOR_MAX
      · simp only [h1, h2, if_true, if_false]
        rw [hind]
        apply child_slot_congr
        intro hX
        exact hv slot_id.ind trivial trivial hX
      · simp only [h1, h2, if_false]
        have hi : (p - DIRECT_MAX - SECTOR_MAX) / SECTOR_MAX < 128 := by
          simp at h1 h2 ⊢; omega
        rw [hdind _ hi]
        apply child_slot_congr
        intro hX
        exact hv (slot_id.dind _) hi trivial hX

theorem inode_wf_of_same (st st1 : filesys) (isec : Nat) (data data1 : inode_disk)
    (hwf : inode_wf st isec data)
    (hs : ∀ r : slot_id, r.valid → slot_sector st1 isec data1 r = slot_sector st isec data r)
    (hsize : st1.free_map.size = st.free_map.size)
    (hused : ∀ t, st.free_map.used t = true → st1.free_map.used t = true) :
    inode_wf st1 isec data1 := by
  constructor
  · rw [hsize]; exact hwf.size_le
  · intro r hr hne
    rw [hs r hr] at hne ⊢
    obtain ⟨h1, h2⟩ := hwf.used r hr hne
    exact ⟨by rw [hsize]; exact h1, hused _ h2⟩
  · intro r1 r2 hr1 hr2 hne he
    rw [hs r1 hr1] at hne he
    rw [hs r2 hr2] at he
    exact hwf.inj r1 r2 hr1 hr2 hne he

/-- Steps that change neither a slot nor the contents of a used sector outside
the index blocks. -/
theorem grows_of_same (P : slot_id → Prop) (st st1 : filesys) (isec : Nat)
    (data data1 : inode_disk) (hwf : inode_wf st isec data)
    (hw : ∀ j, get32 data1.bytes j = get32 data.bytes j)
    (hv : sector_view st1 = sector_view st)
    (hfm : st1.free_map = st.free_map) (hoi : st1.open_inodes = st.open_inodes)
    (hq : ∀ t, ¬ cached st t →
      (∀ r : slot_id, r.valid → r ≠ slot_id.self → slot_sector st isec data r ≠ t) →
      st1.filesys_disk t = st.filesys_disk t ∧ ¬ cached st1 t) :
    grows P isec st data st1 data1 := by
  have hs : ∀ r : slot_id, r.valid → slot_sector st1 isec data1 r = slot_sector st isec data r :=
    fun r hr => slot_frame st st1 isec data data1 (fun j _ => hw j)
      (fun _ _ _ _ => by rw [hv]) r hr
  refine ⟨inode_wf_of_same st st1 isec data data1 hwf hs (by rw [hfm])
      (fun t ht => by rw [hfm]; exact ht), fun r hr _ => hs r hr, fun r hr _ => hs r hr,
    fun t _ _ _ => by rw [hv], by rw [hfm], fun t ht => by rw [hfm]; exact ht, by rw [hfm],
    by rw [hfm], ?_, ?_, fun j _ => hw j, hoi, fun t h1 _ _ h4 => hq t h1 h4⟩
  · intro r hr h1 h2
    rw [hs r hr] at h2
    exact absurd h1 h2
  · intro p hp h1 h2
    have := hs (slot_id.data p) hp
    simp only [slot_sector] at this
    rw [this] at h2
    exact absurd h1 h2

theorem grows_mono (P Q : slot_id → Prop) (isec : Nat) (st : filesys) (data : inode_disk)
    (st1 : filesys) (data1 : inode_disk) (hPQ : ∀ r, P r → Q r)
    (h : grows P isec st data st1 data1) : grows Q isec st data st1 data1 :=
  ⟨h.wf, h.keep, fun r hr hq => h.untouched r hr (fun hp => hq (hPQ r hp)), h.view, h.fm_size,
    h.fm_used, h.fm_released, h.fm_count, h.fresh, h.zero, h.fields, h.open_inodes, h.quiet⟩

theorem slot_ne_of_used (st : filesys) (isec : Nat) (data : inode_disk)
    (hwf : inode_wf st isec data) (r : slot_id) (hr : r.valid) (t : Nat)
    (ht : st.free_map.used t = false) (hne : slot_sector st isec data r ≠ UNUSED_SECTOR) :
    slot_sector st isec data r ≠ t := by
  intro e
  have := (hwf.used r hr hne).2
  rw [e, ht] at this
  exact Bool.noConfusion this

theorem grows_trans (P : slot_id → Prop) (isec : Nat) (st : filesys) (data : inode_disk)
    (st1 : filesys) (data1 : inode_disk) (st2 : filesys) (data2 : inode_disk)
    (hwf : inode_wf st isec data)
    (h1 : grows P isec st data st1 data1) (h2 : grows P isec st1 data1 st2 data2) :
    grows P isec st data st2 data2 := by
  have hkeep : ∀ r : slot_id, r.valid → slot_sector st isec data r ≠ UNUSED_SECTOR →
      slot_sector st2 isec data2 r = slot_sector st isec data r := by
    intro r hr hne
    have e1 := h1.keep r hr hne
    have e2 := h2.keep r hr (by rw [e1]; exact hne)
    rw [e2, e1]
  have hfresh : ∀ r : slot_id, r.valid → slot_sector st isec data r = UNUSED_SECTOR →
      slot_sector st2 isec data2 r ≠ UNUSED_SECTOR →
      st.free_map.used (slot_sector st2 isec data2 r) = false := by
    intro r hr hu hne
    by_cases hb : slot_sector st1 isec data1 r = UNUSED_SECTOR
    · have := h2.fresh r hr hb hne
      cases hx : st.free_map.used (slot_sector st2 isec data2 r) with
      | false => rfl
      | true => rw [h1.fm_used _ hx] at this; exact Bool.noConfusion this
    · rw [h2.keep r hr hb]
      exact h1.fresh r hr hu hb
  have hview : ∀ t, t < st.free_map.size → st.free_map.used t = true →
      (∀ r : slot_id, r.valid → r.index → slot_sector st isec data r ≠ t) →
      sector_view st2 t = sector_view st t := by
    intro t hts htu hni
    rw [← h1.view t hts htu hni]
    apply h2.view t (by rw [h1.fm_size]; exact hts) (h1.fm_used t htu)
    intro r hr hri
    by_cases ha : slot_sector st isec data r = UNUSED_SECTOR
    · by_cases hb : slot_sector st1 isec data1 r = UNUSED_SECTOR
      · rw [hb]; intro e
        have := hwf.size_le
        omega
      · intro e
        have := h1.fresh r hr ha hb
        rw [e, htu] at this
        exact Bool.noConfusion this
    · rw [h1.keep r hr ha]; exact hni r hr hri
  refine ⟨h2.wf, hkeep, ?_, hview, by rw [h2.fm_size, h1.fm_size],
    fun t ht => h2.fm_used t (h1.fm_used t ht), by rw [h2.fm_released, h1.fm_released],
    le_trans h2.fm_count h1.fm_count, hfresh, ?_, fun j hj => by rw [h2.fields j hj, h1.fields j hj],
    by rw [h2.open_inodes, h1.open_inodes], ?_⟩
  · intro r hr hp
    rw [h2.untouched r hr hp, h1.untouched r hr hp]
  · intro p hp hu hne i hi
    by_cases hb : block_slot st1 data1 p = UNUSED_SECTOR
    · exact h2.zero p hp hb hne i hi
    · have hk := h2.keep (slot_id.data p) hp hb
      simp only [slot_sector] at hk
      rw [hk]
      have hz := h1.zero p hp hu hb i hi
      have hu1 := h1.wf.used (slot_id.data p) hp hb
      simp only [slot_sector] at hu1
      rw [h2.view _ hu1.1 hu1.2 ?_]
      · exact hz
      · intro r hr hri e
        have := h1.wf.inj r (slot_id.data p) hr hp (by rw [e]; exact hb) e
        subst this
        exact hri
  · intro t hnc hts htu hni
    obtain ⟨a1, a2⟩ := h1.quiet t hnc hts htu hni
    have hni1 : ∀ r : slot_id, r.valid → r ≠ slot_id.self → slot_sector st1 isec data1 r ≠ t := by
      intro r hr hrs
      by_cases ha : slot_sector st isec data r = UNUSED_SECTOR
      · by_cases hb : slot_sector st1 isec data1 r = UNUSED_SECTOR
        · rw [hb]; intro e
          have := hwf.size_le
          omega
        · intro e
          have := h1.fresh r hr ha hb
          rw [e, htu] at this
          exact Bool.noConfusion this
      · rw [h1.keep r hr ha]; exact hni r hr hrs
    obtain ⟨b1, b2⟩ := h2.quiet t a2 (by rw [h1.fm_size]; exact hts) (h1.fm_used t htu) hni1
    exact ⟨by rw [b1, a1], b2⟩

/-- One slot `r0` goes from `UNUSED_SECTOR` to a sector `s` taken from the free
map, every other slot keeps its value. -/
theorem grows_of_link (isec : Nat) (st : filesys) (data : inode_disk) (st1 : filesys)
    (data1 : inode_disk) (r0 : slot_id) (s : Nat)
    (hwf : inode_wf st isec data) (hr0 : r0.valid)
    (hu0 : slot_sector st isec data r0 = UNUSED_SECTOR)
    (hs1 : s < st.free_map.size) (hs2 : st.free_map.used s = false)
    (hfm : st1.free_map = { st.free_map with used := Function.update st.free_map.used s true })
    (hcnt : free_count st1.free_map + 1 = free_count st.free_map)
    (hnew : slot_sector st1 isec data1 r0 = s)
    (hsame : ∀ r : slot_id, r.valid → r ≠ r0 →
      slot_sector st1 isec data1 r = slot_sector st isec data r)
    (hview : ∀ t, t ≠ s → (∀ r : slot_id, r.valid → r.index → slot_sector st isec data r ≠ t) →
      sector_view st1 t = sector_view st t)
    (hzero : ∀ p, r0 = slot_id.data p → ∀ i, i < DISK_SECTOR_SIZE → sector_view st1 s i = 0)
    (hfields : ∀ j, 14 ≤ j → get32 data1.bytes j = get32 data.bytes j)
    (hoi : st1.open_inodes = st.open_inodes)
    (hq : ∀ t, ¬ cached st t → t ≠ s →
      (∀ r : slot_id, r.valid → r ≠ slot_id.self → slot_sector st isec data r ≠ t) →
      st1.filesys_disk t = st.filesys_disk t ∧ ¬ cached st1 t) :
    grows (fun r => r = r0) isec st data st1 data1 := by
  have hsu : s ≠ UNUSED_SECTOR := by
    have := hwf.size_le; omega
  have hsize : st1.free_map.size = st.free_map.size := by rw [hfm]
  have hused : ∀ t, st.free_map.used t = true → st1.free_map.used t = true := by
    intro t ht
    rw [hfm]
    by_cases e : t = s
    · subst e; simp
    · simp [Function.update, e, ht]
  have horph : ∀ r : slot_id, r.valid → slot_sector st isec data r ≠ s := by
    intro r hr e
    have := (hwf.used r hr (by rw [e]; exact hsu)).2
    rw [e, hs2] at this
    exact Bool.noConfusion this
  have hkeep : ∀ r : slot_id, r.valid → slot_sector st isec data r ≠ UNUSED_SECTOR →
      slot_sector st1 isec data1 r = slot_sector st isec data r := by
    intro r hr hne
    apply hsame r hr
    intro e; subst e; exact hne hu0
  refine ⟨⟨by rw [hsize]; exact hwf.size_le, ?_, ?_⟩, hkeep, ?_, ?_, hsize, hused, by rw [hfm],
    by omega, ?_, ?_, hfields, hoi, ?_⟩
  · intro r hr hne
    by_cases e : r = r0
    · subst e
      rw [hnew, hsize]
      refine ⟨hs1, ?_⟩
      rw [hfm]; simp
    · rw [hsame r hr e] at hne ⊢
      obtain ⟨h1, h2⟩ := hwf.used r hr hne
      exact ⟨by rw [hsize]; exact h1, hused _ h2⟩
  · intro r1 r2 hr1 hr2 hne he
    by_cases e1 : r1 = r0
    · by_cases e2 : r2 = r0
      · rw [e1, e2]
      · subst e1
        rw [hnew, hsame r2 hr2 e2] at he
        exact absurd he.symm (horph r2 hr2)
    · by_cases e2 : r2 = r0
      · subst e2
        rw [hnew, hsame r1 hr1 e1] at he
        exact absurd he (horph r1 hr1)
      · rw [hsame r1 hr1 e1] at hne he
        rw [hsame r2 hr2 e2] at he
        exact hwf.inj r1 r2 hr1 hr2 hne he
  · intro r hr hne
    exact hsame r hr hne
  · intro t _ htu hni
    apply hview t _ hni
    intro e; rw [e, hs2] at htu; exact Bool.noConfusion htu
  · intro r hr hu hne
    by_cases e : r = r0
    · subst e; rw [hnew]; exact hs2
    · rw [hsame r hr e] at hne; exact absurd hu hne
  · intro p hp hu hne i hi
    by_cases e : slot_id.data p = r0
    · have h1 := hnew
      rw [← e] at h1
      simp only [slot_sector] at h1
      rw [h1]
      exact hzero p e.symm i hi
    · have := hsame (slot_id.data p) hp e
      simp only [slot_sector] at this
      rw [this] at hne
      exact absurd hu hne
  · intro t hnc _ htu hni
    apply hq t hnc _ hni
    intro e; rw [e, hs2] at htu; exact Bool.noConfusion htu

theorem memcpy_fill_zero (b : Nat → Nat) (i : Nat) (h : i < DISK_SECTOR_SIZE) :
    memcpy b 0 zeros 0 DISK_SECTOR_SIZE i = 0 := by
  simp only [memcpy_apply, zeros]
  simp at h
  simp [h]

theorem sector_view_free_map (st : filesys) (fm : free_map) :
    sector_view { st with free_map := fm } = sector_view st := rfl

/-- The direct branch of `allocate_block` on an unset slot. -/
theorem grows_direct (isec : Nat) (st : filesys) (data : inode_disk) (pos : Nat)
    (hok : cache_ok st.cache_table) (hwf : inode_wf st isec data) (hpos : pos < DIRECT_MAX)
    (hu : data.direct pos = UNUSED_SECTOR) (hfree : 0 < free_count st.free_map) :
    ∃ s st1 data1, allocate_block st data pos = some (s, data1, st1) ∧
      cache_ok st1.cache_table ∧ s ≠ UNUSED_SECTOR ∧ block_slot st1 data1 pos = s ∧
      free_count st1.free_map + 1 = free_count st.free_map ∧
      grows (fun r => r = slot_id.data pos) isec st data st1 data1 := by
  obtain ⟨s, ha, hs1, hs2, hs3⟩ := free_map_allocate_some st.free_map hfree
  have hsz := hwf.size_le
  have hslt : s < 4294967296 := by simp at hsz; omega
  have hd1 : (data.set_direct pos s).direct pos = s := by
    simp only [inode_disk.set_direct, inode_disk.direct, get32_set32_same]
    exact Nat.mod_eq_of_lt hslt
  obtain ⟨st1, w1, w2, w3, w4, w5, w6⟩ := cache_table_write_spec
    { st with free_map := { st.free_map with used := Function.update st.free_map.used s true } }
    zeros 0 s 0 DISK_SECTOR_SIZE hok (by simp)
  replace w3 : sector_view st1 = Function.update (sector_view st) s
      (memcpy (sector_view st s) 0 zeros 0 DISK_SECTOR_SIZE) := w3
  have hpos' : pos < 12 := by simpa using hpos
  have hsu : s ≠ UNUSED_SECTOR := by simp at hsz ⊢; omega
  have hwords : ∀ j, j ≠ pos → get32 (data.set_direct pos s).bytes j = get32 data.bytes j :=
    fun j hj => get32_set32_other _ _ _ _ hj
  have hviewidx : ∀ r : slot_id, r.valid → r.index → slot_sector st isec data r ≠ UNUSED_SECTOR →
      sector_view st1 (slot_sector st isec data r) = sector_view st (slot_sector st isec data r) := by
    intro r hr _ hne
    rw [w3, Function.update_noteq]
    exact slot_ne_of_used st isec data hwf r hr s hs2 hne
  refine ⟨s, st1, data.set_direct pos s, ?_, w2, hsu, ?_, ?_, ?_⟩
  · simp only [allocate_block, hpos, if_true, hu, ha, hd1, w1]
  · simp only [block_slot, hpos, if_true, hd1]
  · rw [w4]; exact hs3
  · apply grows_of_link isec st data st1 (data.set_direct pos s) (slot_id.data pos) s hwf
      (by simp [slot_id.valid]; omega) (by simp only [slot_sector, block_slot, hpos, if_true, hu]) hs1 hs2
      (by rw [w4]) (by rw [w4]; exact hs3)
    · simp only [slot_sector, block_slot, hpos, if_true, hd1]
    · intro r hr hne
      cases r with
      | self => rfl
      | ind => exact hwords 12 (by omega)
      | dbl => exact hwords 13 (by omega)
      | dind i =>
        simp only [slot_sector, indirect_slot]
        have e : (data.set_direct pos s).double_indirect = data.double_indirect :=
          hwords 13 (by omega)
        rw [e]
        apply child_slot_congr
        intro hX
        exact hviewidx slot_id.dbl trivial trivial hX
      | data q =>
        by_cases hq : q < DIRECT_MAX
        · simp only [slot_sector, block_slot, hq, if_true]
          apply hwords
          intro e; apply hne; rw [e]
        · -- the slot lives in an index block: use the frame lemma on the filled state
          have h1 := slot_frame st st1 isec data data
            (fun _ _ => rfl) hviewidx (slot_id.data q) hr
          rw [← h1]
          simp only [slot_sector, block_slot, hq, if_false]
          have e12 : (data.set_direct pos s).indirect = data.indirect := hwords 12 (by omega)
          have e13 : (data.set_direct pos s).double_indirect = data.double_indirect :=
            hwords 13 (by omega)
          simp only [indirect_slot, e12, e13]
    · intro t hts _
      rw [w3, Function.update_noteq hts]
    · intro p _ i hi
      rw [w3, Function.update_same]
      exact memcpy_fill_zero _ i hi
    · intro j hj
      exact hwords j (by omega)
    · exact w5
    · intro t hnc hts _
      exact w6 t hts hnc


theorem block_slot_direct (st : filesys) (data : inode_disk) (q : Nat) (h : q < 12) :
    block_slot st data q = data.direct q := by
  have : q < DIRECT_MAX := by simpa using h
  simp only [block_slot, this, if_true]

theorem block_slot_ind (st : filesys) (data : inode_disk) (q : Nat) (h1 : 12 ≤ q) (h2 : q < 140) :
    block_slot st data q = child_slot st data.indirect (q - 12) := by
  have a : ¬ q < DIRECT_MAX := by simp; omega
  have b : q < DIRECT_MAX + SECTOR_MAX := by simp; omega
  simp only [block_slot, a, b, if_true, if_false]
  rfl

theorem block_slot_dbl (st : filesys) (data : inode_disk) (q : Nat) (h1 : 140 ≤ q) :
    block_slot st data q
      = child_slot st (child_slot st data.double_indirect ((q - 140) / 128)) ((q - 140) % 128) := by
  have a : ¬ q < DIRECT_MAX := by simp; omega
  have b : ¬ q < DIRECT_MAX + SECTOR_MAX := by simp; omega
  have c : q - DIRECT_MAX - SECTOR_MAX = q - 140 := by simp; omega
  simp only [block_slot, a, b, if_false, indirect_slot, c]
  rfl

theorem child_slot_fill_unused (st : filesys) (s k : Nat) (b : Nat → Nat) (hk : k < 128)
    (hv : sector_view st s = memcpy b 0 unused 0 DISK_SECTOR_SIZE) :
    child_slot st s k = UNUSED_SECTOR := by
  unfold child_slot
  split
  · rfl
  · rw [hv]; exact get32_fill_unused b k hk

/-- The first part of the indirect branch of `allocate_block` when the inode has no
indirect block: a sector is allocated, stored in `indirect` and filled with
`UNUSED_SECTOR` entries. -/
theorem grows_root_ind (isec : Nat) (st : filesys) (data : inode_disk)
    (hok : cache_ok st.cache_table) (hwf : inode_wf st isec data)
    (hu : data.indirect = UNUSED_SECTOR) (hfree : 0 < free_count st.free_map) :
    ∃ s st1, free_map_allocate st.free_map
        = some (s, { st.free_map with used := Function.update st.free_map.used s true }) ∧
      cache_table_write { st with free_map :=
          { st.free_map with used := Function.update st.free_map.used s true } }
        unused 0 (data.set_indirect s).indirect 0 DISK_SECTOR_SIZE = some st1 ∧
      cache_ok st1.cache_table ∧ (data.set_indirect s).indirect = s ∧ s ≠ UNUSED_SECTOR ∧
      free_count st1.free_map + 1 = free_count st.free_map ∧
      (∀ k, k < 128 → child_slot st1 s k = UNUSED_SECTOR) ∧
      grows (fun r => r = slot_id.ind) isec st data st1 (data.set_indirect s) := by
  obtain ⟨s, ha, hs1, hs2, hs3⟩ := free_map_allocate_some st.free_map hfree
  have hsz := hwf.size_le
  have hslt : s < 4294967296 := by simp at hsz; omega
  have hsu : s ≠ UNUSED_SECTOR := by simp at hsz ⊢; omega
  have hd1 : (data.set_indirect s).indirect = s := by
    simp only [inode_disk.set_indirect, inode_disk.indirect, get32_set32_same]
    exact Nat.mod_eq_of_lt hslt
  obtain ⟨st1, w1, w2, w3, w4, w5, w6⟩ := cache_table_write_spec
    { st with free_map := { st.free_map with used := Function.update st.free_map.used s true } }
    unused 0 s 0 DISK_SECTOR_SIZE hok (by simp)
  replace w3 : sector_view st1 = Function.update (sector_view st) s
      (memcpy (sector_view st s) 0 unused 0 DISK_SECTOR_SIZE) := w3
  have hwords : ∀ j, j ≠ 12 → get32 (data.set_indirect s).bytes j = get32 data.bytes j :=
    fun j hj => get32_set32_other _ _ _ _ hj
  have hvs : sector_view st1 s = memcpy (sector_view st s) 0 unused 0 DISK_SECTOR_SIZE := by
    rw [w3, Function.update_same]
  have hvne : ∀ t, t ≠ s → sector_view st1 t = sector_view st t := by
    intro t ht; rw [w3, Function.update_noteq ht]
  have hfresh : ∀ r : slot_id, r.valid → slot_sector st isec data r ≠ UNUSED_SECTOR →
      slot_sector st isec data r ≠ s :=
    fun r hr hne => slot_ne_of_used st isec data hwf r hr s hs2 hne
  have hchild : ∀ k, k < 128 → child_slot st1 s k = UNUSED_SECTOR :=
    fun k hk => child_slot_fill_unused st1 s k _ hk hvs
  refine ⟨s, st1, ha, by rw [hd1]; exact w1, w2, hd1, hsu, by rw [w4]; exact hs3, hchild, ?_⟩
  apply grows_of_link isec st data st1 (data.set_indirect s) slot_id.ind s hwf
    trivial hu hs1 hs2 (by rw [w4]) (by rw [w4]; exact hs3) hd1
  · intro r hr hne
    have e13 : (data.set_indirect s).double_indirect = data.double_indirect :=
      hwords 13 (by omega)
    have hdbl : ∀ i, i < 128 → child_slot st1 data.double_indirect i
        = child_slot st data.double_indirect i := by
      intro i hi
      apply child_slot_congr
      intro hX
      exact hvne _ (hfresh slot_id.dbl trivial hX)
    cases r with
    | self => rfl
    | ind => exact absurd rfl hne
    | dbl => exact e13
    | dind i =>
      simp only [slot_sector, indirect_slot, e13]
      exact hdbl i hr
    | data q =>
      simp only [slot_id.valid, MAX_BLOCKS] at hr
      simp only [slot_sector]
      by_cases h1 : q < 12
      · rw [block_slot_direct _ _ _ h1, block_slot_direct _ _ _ h1]
        exact hwords q (by omega)
      · by_cases h2 : q < 140
        · rw [block_slot_ind _ _ _ (by omega) h2, block_slot_ind _ _ _ (by omega) h2, hd1, hu,
            child_slot_unused]
          exact hchild _ (by omega)
        · rw [block_slot_dbl _ _ _ (by omega), block_slot_dbl _ _ _ (by omega), e13,
            hdbl _ (by omega)]
          apply child_slot_congr
          intro hX
          apply hvne
          have := hfresh (slot_id.dind ((q - 140) / 128)) (by simp [slot_id.valid]; omega)
          simp only [slot_sector, indirect_slot] at this
          exact this hX
  · intro t hts _
    exact hvne t hts
  · intro p hp
    exact absurd hp (by simp)
  · intro j hj
    exact hwords j (by omega)
  · exact w5
  · intro t hnc hts _
    exact w6 t hts hnc

/-- The first part of the double-indirect branch of `allocate_block` when the inode
has no double-indirect block. -/
theorem grows_root_dbl (isec : Nat) (st : filesys) (data : inode_disk)
    (hok : cache_ok st.cache_table) (hwf : inode_wf st isec data)
    (hu : data.double_indirect = UNUSED_SECTOR) (hfree : 0 < free_count st.free_map) :
    ∃ s st1, free_map_allocate st.free_map
        = some (s, { st.free_map with used := Function.update st.free_map.used s true }) ∧
      cache_table_write { st with free_map :=
          { st.free_map with used := Function.update st.free_map.used s true } }
        unused 0 (data.set_double_indirect s).double_indirect 0 DISK_SECTOR_SIZE = some st1 ∧
      cache_ok st1.cache_table ∧ (data.set_double_indirect s).double_indirect = s ∧
      s ≠ UNUSED_SECTOR ∧
      free_count st1.free_map + 1 = free_count st.free_map ∧
      (∀ k, k < 128 → child_slot st1 s k = UNUSED_SECTOR) ∧
      grows (fun r => r = slot_id.dbl) isec st data st1 (data.set_double_indirect s) := by
  obtain ⟨s, ha, hs1, hs2, hs3⟩ := free_map_allocate_some st.free_map hfree
  have hsz := hwf.size_le
  have hslt : s < 4294967296 := by simp at hsz; omega
  have hsu : s ≠ UNUSED_SECTOR := by simp at hsz ⊢; omega
  have hd1 : (data.set_double_indirect s).double_indirect = s := by
    simp only [inode_disk.set_double_indirect, inode_disk.double_indirect, get32_set32_same]
    exact Nat.mod_eq_of_lt hslt
  obtain ⟨st1, w1, w2, w3, w4, w5, w6⟩ := cache_table_write_spec
    { st with free_map := { st.free_map with used := Function.update st.free_map.used s true } }
    unused 0 s 0 DISK_SECTOR_SIZE hok (by simp)
  replace w3 : sector_view st1 = Function.update (sector_view st) s
      (memcpy (sector_view st s) 0 unused 0 DISK_SECTOR_SIZE) := w3
  have hwords : ∀ j, j ≠ 13 → get32 (data.set_double_indirect s).bytes j = get32 data.bytes j :=
    fun j hj => get32_set32_other _ _ _ _ hj
  have hvs : sector_view st1 s = memcpy (sector_view st s) 0 unused 0 DISK_SECTOR_SIZE := by
    rw [w3, Function.update_same]
  have hvne : ∀ t, t ≠ s → sector_view st1 t = sector_view st t := by
    intro t ht; rw [w3, Function.update_noteq ht]
  have hfresh : ∀ r : slot_id, r.valid → slot_sector st isec data r ≠ UNUSED_SECTOR →
      slot_sector st isec data r ≠ s :=
    fun r hr hne => slot_ne_of_used st isec data hwf r hr s hs2 hne
  have hchild : ∀ k, k < 128 → child_slot st1 s k = UNUSED_SECTOR :=
    fun k hk => child_slot_fill_unused st1 s k _ hk hvs
  refine ⟨s, st1, ha, by rw [hd1]; exact w1, w2, hd1, hsu, by rw [w4]; exact hs3, hchild, ?_⟩
  apply grows_of_link isec st data st1 (data.set_double_indirect s) slot_id.dbl s hwf
    trivial hu hs1 hs2 (by rw [w4]) (by rw [w4]; exact hs3) hd1
  · intro r hr hne
    have e12 : (data.set_double_indirect s).indirect = data.indirect := hwords 12 (by omega)
    cases r with
    | self => rfl
    | ind => exact e12
    | dbl => exact absurd rfl hne
    | dind i =>
      simp only [slot_sector, indirect_slot, hd1, hu, child_slot_unused]
      exact hchild i hr
    | data q =>
      simp only [slot_id.valid, MAX_BLOCKS] at hr
      simp only [slot_sector]
      by_cases h1 : q < 12
      · rw [block_slot_direct _ _ _ h1, block_slot_direct _ _ _ h1]
        exact hwords q (by omega)
      · by_cases h2 : q < 140
        · rw [block_slot_ind _ _ _ (by omega) h2, block_slot_ind _ _ _ (by omega) h2, e12]
          apply child_slot_congr
          intro hX
          exact hvne _ (hfresh slot_id.ind trivial hX)
        · rw [block_slot_dbl _ _ _ (by omega), block_slot_dbl _ _ _ (by omega), hd1, hu,
            child_slot_unused, child_slot_unused, hchild _ (by omega), child_slot_unused]
  · intro t hts _
    exact hvne t hts
  · intro p hp
    exact absurd hp (by simp)
  · intro j hj
    exact hwords j (by omega)
  · exact w5
  · intro t hnc hts _
    exact w6 t hts hnc

/-- The slot step on an unset entry `k` of an index block `X` of a well-formed
inode, in terms of the view. -/
theorem ensure_slot_new (isec : Nat) (st : filesys) (data : inode_disk) (X k : Nat)
    (fill : Nat → Nat) (rX : slot_id)
    (hok : cache_ok st.cache_table) (hwf : inode_wf st isec data) (hrX : rX.valid)
    (hX : slot_sector st isec data rX = X) (hXu : X ≠ UNUSED_SECTOR) (hk : k < 128)
    (hunset : child_slot st X k = UNUSED_SECTOR) (hfree : 0 < free_count st.free_map) :
    ∃ s st1, ensure_slot st X k fill = some (s, st1) ∧
      s < st.free_map.size ∧ st.free_map.used s = false ∧
      st1.free_map = { st.free_map with used := Function.update st.free_map.used s true } ∧
      free_count st1.free_map + 1 = free_count st.free_map ∧
      cache_ok st1.cache_table ∧ s ≠ UNUSED_SECTOR ∧ s ≠ X ∧
      child_slot st1 X k = s ∧
      (∀ j, j ≠ k → child_slot st1 X j = child_slot st X j) ∧
      (∃ b, sector_view st1 s = memcpy b 0 fill 0 DISK_SECTOR_SIZE) ∧
      (∀ t, t ≠ s → t ≠ X → sector_view st1 t = sector_view st t) ∧
      st1.open_inodes = st.open_inodes ∧
      (∀ t, t ≠ X → t ≠ s → ¬ cached st t →
        st1.filesys_disk t = st.filesys_disk t ∧ ¬ cached st1 t) := by
  have hun : get32 (sector_view st X) k = UNUSED_SECTOR := by
    simpa only [child_slot, if_neg hXu] using hunset
  obtain ⟨s, st1, h1, h2, h3, h4, h5, h6, h7, h8, h8q⟩ :=
    ensure_slot_unset st X k fill hok hk hun hfree
  have hsz := hwf.size_le
  have hslt : s < 4294967296 := by simp at hsz; omega
  have hsu : s ≠ UNUSED_SECTOR := by simp at hsz ⊢; omega
  have hsX : s ≠ X := by
    intro e
    have := slot_ne_of_used st isec data hwf rX hrX s h3 (by rw [hX]; exact hXu)
    exact this (by rw [hX, e])
  have hvX : sector_view st1 X = memcpy (sector_view st X) (k * 4) (bytes32 s) 0 4 := by
    rw [h7, Function.update_noteq (Ne.symm hsX), Function.update_same]
  refine ⟨s, st1, h1, h2, h3, h4, h5, h6, hsu, hsX, ?_, ?_, ?_, ?_, h8, h8q⟩
  · simp only [child_slot, if_neg hXu, hvX, get32_memcpy_word]
    exact Nat.mod_eq_of_lt hslt
  · intro j hj
    simp only [child_slot, if_neg hXu, hvX]
    exact get32_memcpy_word_other _ _ _ _ hj
  · exact ⟨_, by rw [h7, Function.update_same]⟩
  · intro t hts htX
    rw [h7, Function.update_noteq hts, Function.update_noteq htX]

/-- The second part of the indirect branch of `allocate_block` on an unset entry
of the indirect block. -/
theorem grows_slot_ind (isec : Nat) (st : filesys) (data : inode_disk) (pos : Nat)
    (hok : cache_ok st.cache_table) (hwf : inode_wf st isec data)
    (hp1 : 12 ≤ pos) (hp2 : pos < 140)
    (hX : data.indirect ≠ UNUSED_SECTOR) (hu : block_slot st data pos = UNUSED_SECTOR)
    (hfree : 0 < free_count st.free_map) :
    ∃ s st1, ensure_slot st data.indirect (pos - 12) zeros = some (s, st1) ∧
      cache_ok st1.cache_table ∧ s ≠ UNUSED_SECTOR ∧ block_slot st1 data pos = s ∧
      free_count st1.free_map + 1 = free_count st.free_map ∧
      grows (fun r => r = slot_id.data pos) isec st data st1 data := by
  rw [block_slot_ind _ _ _ hp1 hp2] at hu
  obtain ⟨s, st1, h1, h2, h3, h4, h5, h6, h7, h8, h9, h10, ⟨b, h11⟩, h12, h13, h14⟩ :=
    ensure_slot_new isec st data data.indirect (pos - 12) zeros slot_id.ind hok hwf trivial rfl
      hX (by omega) hu hfree
  have hfresh : ∀ r : slot_id, r.valid → slot_sector st isec data r ≠ UNUSED_SECTOR →
      slot_sector st isec data r ≠ s :=
    fun r hr hne => slot_ne_of_used st isec data hwf r hr s h3 hne
  have hnew : block_slot st1 data pos = s := by
    rw [block_slot_ind _ _ _ hp1 hp2]; exact h9
  refine ⟨s, st1, h1, h6, h7, hnew, h5, ?_⟩
  apply grows_of_link isec st data st1 data (slot_id.data pos) s hwf
    (by simp [slot_id.valid]; omega)
    (by simp only [slot_sector]; rw [block_slot_ind _ _ _ hp1 hp2]; exact hu)
    h2 h3 h4 h5 hnew
  · intro r hr hne
    have hdbl : ∀ i, child_slot st1 data.double_indirect i
        = child_slot st data.double_indirect i := by
      intro i
      apply child_slot_congr
      intro hD
      apply h12 _ (hfresh slot_id.dbl trivial hD)
      intro e
      have := hwf.inj slot_id.dbl slot_id.ind trivial trivial hD e
      exact slot_id.noConfusion this
    cases r with
    | self => rfl
    | ind => rfl
    | dbl => rfl
    | dind i => simp only [slot_sector, indirect_slot]; exact hdbl i
    | data q =>
      simp only [slot_id.valid, MAX_BLOCKS] at hr
      simp only [slot_sector]
      by_cases h1 : q < 12
      · rw [block_slot_direct _ _ _ h1, block_slot_direct _ _ _ h1]
      · by_cases h2 : q < 140
        · rw [block_slot_ind _ _ _ (by omega) h2, block_slot_ind _ _ _ (by omega) h2]
          apply h10
          intro e
          apply hne
          have : q = pos := by omega
          rw [this]
        · rw [block_slot_dbl _ _ _ (by omega), block_slot_dbl _ _ _ (by omega), hdbl]
          apply child_slot_congr
          intro hY
          have hv : (slot_id.dind ((q - 140) / 128)).valid := by
            simp [slot_id.valid]; omega
          have hYs : slot_sector st isec data (slot_id.dind ((q - 140) / 128)) ≠ UNUSED_SECTOR := hY
          apply h12 _ (hfresh _ hv hYs)
          intro e
          have := hwf.inj (slot_id.dind ((q - 140) / 128)) slot_id.ind hv trivial hYs e
          exact slot_id.noConfusion this
  · intro t hts hni
    exact h12 t hts (fun e => hni slot_id.ind trivial trivial e.symm)
  · intro p _ i hi
    rw [h11]; exact memcpy_fill_zero _ i hi
  · intro j _; rfl
  · exact h13
  · intro t hnc hts hni
    exact h14 t (fun e => hni slot_id.ind trivial (by simp) e.symm) hts hnc

/-- The last part of the double-indirect branch of `allocate_block` on an unset
entry of an indirect block. -/
theorem grows_slot_dind (isec : Nat) (st : filesys) (data : inode_disk) (pos : Nat)
    (hok : cache_ok st.cache_table) (hwf : inode_wf st isec data)
    (hp1 : 140 ≤ pos) (hp2 : pos < MAX_BLOCKS)
    (hX : indirect_slot st data ((pos - 140) / 128) ≠ UNUSED_SECTOR)
    (hu : block_slot st data pos = UNUSED_SECTOR)
    (hfree : 0 < free_count st.free_map) :
    ∃ s st1, ensure_slot st (indirect_slot st data ((pos - 140) / 128)) ((pos - 140) % 128) zeros
        = some (s, st1) ∧
      cache_ok st1.cache_table ∧ s ≠ UNUSED_SECTOR ∧ block_slot st1 data pos = s ∧
      free_count st1.free_map + 1 = free_count st.free_map ∧
      grows (fun r => r = slot_id.data pos) isec st data st1 data := by
  simp only [MAX_BLOCKS] at hp2
  have hi0 : (pos - 140) / 128 < 128 := by omega
  have hv0 : (slot_id.dind ((pos - 140) / 128)).valid := by simp [slot_id.valid]; omega
  rw [block_slot_dbl _ _ _ hp1] at hu
  obtain ⟨s, st1, h1, h2, h3, h4, h5, h6, h7, h8, h9, h10, ⟨b, h11⟩, h12, h13, h14⟩ :=
    ensure_slot_new isec st data (indirect_slot st data ((pos - 140) / 128)) ((pos - 140) % 128)
      zeros (slot_id.dind ((pos - 140) / 128)) hok hwf hv0 rfl
      hX (Nat.mod_lt _ (by omega)) hu hfree
  have hfresh : ∀ r : slot_id, r.valid → slot_sector st isec data r ≠ UNUSED_SECTOR →
      slot_sector st isec data r ≠ s :=
    fun r hr hne => slot_ne_of_used st isec data hwf r hr s h3 hne
  have hDu : data.double_indirect ≠ UNUSED_SECTOR := by
    intro e
    apply hX
    simp only [indirect_slot, e, child_slot_unused]
  have hdbl : ∀ i, child_slot st1 data.double_indirect i
      = child_slot st data.double_indirect i := by
    intro i
    apply child_slot_congr
    intro hD
    apply h12 _ (hfresh slot_id.dbl trivial hD)
    intro e
    have := hwf.inj slot_id.dbl (slot_id.dind ((pos - 140) / 128)) trivial hv0 hD e
    exact slot_id.noConfusion this
  have hnew : block_slot st1 data pos = s := by
    rw [block_slot_dbl _ _ _ hp1, hdbl]; exact h9
  refine ⟨s, st1, h1, h6, h7, hnew, h5, ?_⟩
  apply grows_of_link isec st data st1 data (slot_id.data pos) s hwf
    (by simp [slot_id.valid]; omega)
    (by simp only [slot_sector]; rw [block_slot_dbl _ _ _ hp1]; exact hu)
    h2 h3 h4 h5 hnew
  · intro r hr hne
    cases r with
    | self => rfl
    | ind => rfl
    | dbl => rfl
    | dind i => simp only [slot_sector, indirect_slot]; exact hdbl i
    | data q =>
      simp only [slot_id.valid, MAX_BLOCKS] at hr
      simp only [slot_sector]
      by_cases h1 : q < 12
      · rw [block_slot_direct _ _ _ h1, block_slot_direct _ _ _ h1]
      · by_cases h2 : q < 140
        · rw [block_slot_ind _ _ _ (by omega) h2, block_slot_ind _ _ _ (by omega) h2]
          apply child_slot_congr
          intro hY
          apply h12 _ (hfresh slot_id.ind trivial hY)
          intro e
          have := hwf.inj slot_id.ind (slot_id.dind ((pos - 140) / 128)) trivial hv0 hY e
          exact slot_id.noConfusion this
        · rw [block_slot_dbl _ _ _ (by omega), block_slot_dbl _ _ _ (by omega), hdbl]
          by_cases hi : (q - 140) / 128 = (pos - 140) / 128
          · rw [hi]
            apply h10
            intro e
            apply hne
            have : q = pos := by omega
            rw [this]
          · apply child_slot_congr
            intro hY
            have hv : (slot_id.dind ((q - 140) / 128)).valid := by
              simp [slot_id.valid]; omega
            have hYs : slot_sector st isec data (slot_id.dind ((q - 140) / 128))
                ≠ UNUSED_SECTOR := hY
            apply h12 _ (hfresh _ hv hYs)
            intro e
            have := hwf.inj (slot_id.dind ((q - 140) / 128)) (slot_id.dind ((pos - 140) / 128))
              hv hv0 hYs e
            exact hi (slot_id.dind.inj this)
  · intro t hts hni
    exact h12 t hts (fun e => hni (slot_id.dind ((pos - 140) / 128)) hv0 trivial e.symm)
  · intro p _ i hi
    rw [h11]; exact memcpy_fill_zero _ i hi
  · intro j _; rfl
  · exact h13
  · intro t hnc hts hni
    exact h14 t (fun e => hni (slot_id.dind ((pos - 140) / 128)) hv0 (by simp) e.symm) hts hnc

/-- The middle part of the double-indirect branch of `allocate_block` on an unset
entry of the double-indirect block. -/
theorem grows_slot_dbl (isec : Nat) (st : filesys) (data : inode_disk) (i0 : Nat)
    (hok : cache_ok st.cache_table) (hwf : inode_wf st isec data) (hi0 : i0 < 128)
    (hX : data.double_indirect ≠ UNUSED_SECTOR)
    (hu : indirect_slot st data i0 = UNUSED_SECTOR)
    (hfree : 0 < free_count st.free_map) :
    ∃ s st1, ensure_slot st data.double_indirect i0 unused = some (s, st1) ∧
      cache_ok st1.cache_table ∧ s ≠ UNUSED_SECTOR ∧ indirect_slot st1 data i0 = s ∧
      free_count st1.free_map + 1 = free_count st.free_map ∧
      (∀ k, k < 128 → child_slot st1 s k = UNUSED_SECTOR) ∧
      grows (fun r => r = slot_id.dind i0) isec st data st1 data := by
  obtain ⟨s, st1, h1, h2, h3, h4, h5, h6, h7, h8, h9, h10, ⟨b, h11⟩, h12, h13, h14⟩ :=
    ensure_slot_new isec st data data.double_indirect i0 unused slot_id.dbl hok hwf trivial rfl
      hX hi0 hu hfree
  have hfresh : ∀ r : slot_id, r.valid → slot_sector st isec data r ≠ UNUSED_SECTOR →
      slot_sector st isec data r ≠ s :=
    fun r hr hne => slot_ne_of_used st isec data hwf r hr s h3 hne
  have hchild : ∀ k, k < 128 → child_slot st1 s k = UNUSED_SECTOR :=
    fun k hk => child_slot_fill_unused st1 s k _ hk h11
  refine ⟨s, st1, h1, h6, h7, h9, h5, hchild, ?_⟩
  apply grows_of_link isec st data st1 data (slot_id.dind i0) s hwf hi0 hu h2 h3 h4 h5 h9
  · intro r hr hne
    cases r with
    | self => rfl
    | ind => rfl
    | dbl => rfl
    | dind i =>
      simp only [slot_sector, indirect_slot]
      apply h10
      intro e; apply hne; rw [e]
    | data q =>
      simp only [slot_id.valid, MAX_BLOCKS] at hr
      simp only [slot_sector]
      by_cases h1 : q < 12
      · rw [block_slot_direct _ _ _ h1, block_slot_direct _ _ _ h1]
      · by_cases h2 : q < 140
        · rw [block_slot_ind _ _ _ (by omega) h2, block_slot_ind _ _ _ (by omega) h2]
          apply child_slot_congr
          intro hY
          apply h12 _ (hfresh slot_id.ind trivial hY)
          intro e
          have := hwf.inj slot_id.ind slot_id.dbl trivial trivial hY e
          exact slot_id.noConfusion this
        · rw [block_slot_dbl _ _ _ (by omega), block_slot_dbl _ _ _ (by omega)]
          by_cases hi : (q - 140) / 128 = i0
          · rw [hi]
            have e0 : child_slot st data.double_indirect i0 = UNUSED_SECTOR := hu
            rw [h9, e0, child_slot_unused]
            exact hchild _ (Nat.mod_lt _ (by omega))
          · rw [h10 _ hi]
            apply child_slot_congr
            intro hY
            have hv : (slot_id.dind ((q - 140) / 128)).valid := by
              simp [slot_id.valid]; omega
            have hYs : slot_sector st isec data (slot_id.dind ((q - 140) / 128))
                ≠ UNUSED_SECTOR := hY
            apply h12 _ (hfresh _ hv hYs)
            intro e
            have := hwf.inj (slot_id.dind ((q - 140) / 128)) slot_id.dbl hv trivial hYs e
            exact slot_id.noConfusion this
  · intro t hts hni
    exact h12 t hts (fun e => hni slot_id.dbl trivial trivial e.symm)
  · intro p hp
    exact absurd hp (by simp)
  · intro j _; rfl
  · exact h13
  · intro t hnc hts hni
    exact h14 t (fun e => hni slot_id.dbl trivial (by simp) e.symm) hts hnc


theorem allocate_double_some (st : filesys) (data : inode_disk) (pos : Nat) (ind s : Nat)
    (st1 st2 : filesys)
    (h1 : ensure_slot st data.double_indirect ((pos - 140) / 128) unused = some (ind, st1))
    (h2 : ind ≠ UNUSED_SECTOR)
    (h3 : ensure_slot st1 ind ((pos - 140) % 128) zeros = some (s, st2)) :
    allocate_double st data pos = some (s, data, st2) := by
  have c : pos - DIRECT_MAX - SECTOR_MAX = pos - 140 := by
    simp only [DIRECT_MAX, SECTOR_MAX]; omega
  have d : SECTOR_MAX = 128 := rfl
  unfold allocate_double
  simp only [c]
  simp only [d]
  rw [h1]
  simp only
  rw [if_neg h2, h3]

theorem allocate_indirect_some (st : filesys) (data : inode_disk) (pos : Nat) (s : Nat)
    (st1 : filesys)
    (h1 : ensure_slot st data.indirect (pos - 12) zeros = some (s, st1)) :
    allocate_indirect st data pos = some (s, data, st1) := by
  unfold allocate_indirect
  simp only [DIRECT_MAX, h1]

/-- 0 or 1 according to whether a slot is unset. -/
theorem missing_direct (st : filesys) (data : inode_disk) (pos : Nat) (h : pos < 12) :
    missing_levels st data pos = if data.direct pos = UNUSED_SECTOR then 1 else 0 := by
  have a : pos < DIRECT_MAX := by simpa using h
  simp only [missing_levels, block_path, a, if_true, List.filter_cons, List.filter_nil,
    slot_sector, block_slot]
  by_cases e : data.direct pos = UNUSED_SECTOR
  · simp [e]
  · have : (data.direct pos == UNUSED_SECTOR) = false := by simpa using e
    simp only [this, if_neg e]
    simp

theorem missing_ind (st : filesys) (data : inode_disk) (pos : Nat) (h1 : 12 ≤ pos)
    (h2 : pos < 140) :
    missing_levels st data pos = (if data.indirect = UNUSED_SECTOR then 1 else 0)
      + (if block_slot st data pos = UNUSED_SECTOR then 1 else 0) := by
  have a : ¬ pos < DIRECT_MAX := by simp; omega
  have b : pos < DIRECT_MAX + SECTOR_MAX := by simp; omega
  simp only [missing_levels, block_path, a, b, if_true, if_false, List.filter_cons,
    List.filter_nil, slot_sector]
  simp only [UNUSED_SECTOR]
  by_cases e : data.indirect = 4294967295 <;> by_cases f : block_slot st data pos = 4294967295
    <;> simp [e, f]

theorem missing_dbl (st : filesys) (data : inode_disk) (pos : Nat) (h1 : 140 ≤ pos) :
    missing_levels st data pos = (if data.double_indirect = UNUSED_SECTOR then 1 else 0)
      + (if indirect_slot st data ((pos - 140) / 128) = UNUSED_SECTOR then 1 else 0)
      + (if block_slot st data pos = UNUSED_SECTOR then 1 else 0) := by
  have a : ¬ pos < DIRECT_MAX := by simp; omega
  have b : ¬ pos < DIRECT_MAX + SECTOR_MAX := by simp; omega
  have c : (pos - DIRECT_MAX - SECTOR_MAX) / SECTOR_MAX = (pos - 140) / 128 := by
    simp; congr 1
  simp only [missing_levels, block_path, a, b, if_false, List.filter_cons,
    List.filter_nil, slot_sector, c]
  simp only [UNUSED_SECTOR]
  by_cases e : data.double_indirect = 4294967295 <;>
    by_cases f : indirect_slot st data ((pos - 140) / 128) = 4294967295 <;>
    by_cases g : block_slot st data pos = 4294967295
    <;> simp [e, f, g]

theorem child_slot_of_ne (st : filesys) (X k : Nat) (h : X ≠ UNUSED_SECTOR) :
    child_slot st X k = get32 (sector_view st X) k := by
  simp only [child_slot, if_neg h]

/-- The indirect branch of `allocate_block` once the inode has an indirect block. -/
theorem ind_rest (isec : Nat) (st : filesys) (data : inode_disk) (pos : Nat)
    (hok : cache_ok st.cache_table) (hwf : inode_wf st isec data)
    (hp1 : 12 ≤ pos) (hp2 : pos < 140) (hX : data.indirect ≠ UNUSED_SECTOR) :
    ∃ s st1, allocate_indirect st data pos = some (s, data, st1) ∧
      cache_ok st1.cache_table ∧
      grows (fun r => r = slot_id.data pos) isec st data st1 data ∧
      (s ≠ UNUSED_SECTOR → block_slot st1 data pos = s) ∧
      ((if block_slot st data pos = UNUSED_SECTOR then 1 else 0) ≤ free_count st.free_map →
        s ≠ UNUSED_SECTOR ∧
        free_count st1.free_map + (if block_slot st data pos = UNUSED_SECTOR then 1 else 0)
          = free_count st.free_map) ∧
      (block_slot st data pos ≠ UNUSED_SECTOR →
        s = block_slot st data pos ∧ sector_view st1 = sector_view st ∧
        st1.free_map = st.free_map) := by
  have hb : block_slot st data pos = get32 (sector_view st data.indirect) (pos - 12) := by
    rw [block_slot_ind _ _ _ hp1 hp2]; exact child_slot_of_ne st _ _ hX
  have hqX : ∀ t, (∀ r : slot_id, r.valid → r ≠ slot_id.self → slot_sector st isec data r ≠ t) →
      t ≠ data.indirect := fun t h e => h slot_id.ind trivial (by simp) e.symm
  by_cases hu : block_slot st data pos = UNUSED_SECTOR
  · by_cases hf : 0 < free_count st.free_map
    · obtain ⟨s, st1, h1, h2, h3, h4, h5, h6⟩ :=
        grows_slot_ind isec st data pos hok hwf hp1 hp2 hX hu hf
      exact ⟨s, st1, allocate_indirect_some _ _ _ _ _ h1, h2, h6, fun _ => h4,
        fun _ => ⟨h3, by rw [if_pos hu]; exact h5⟩, fun h => absurd hu h⟩
    · have hf0 : free_count st.free_map = 0 := by omega
      obtain ⟨st1, h1, h2, h3, h4, h5, h6⟩ :=
        ensure_slot_fail st data.indirect (pos - 12) zeros hok (by omega) (by rw [← hb]; exact hu)
          hf0
      refine ⟨UNUSED_SECTOR, st1, allocate_indirect_some _ _ _ _ _ h1, h2,
        grows_of_same _ st st1 isec data data hwf (fun _ => rfl) h3 h4 h5
          (fun t hnc hni => h6 t (hqX t hni) hnc),
        fun h => absurd rfl h, ?_, fun h => absurd hu h⟩
      intro h; rw [if_pos hu] at h; omega
  · have hu' : get32 (sector_view st data.indirect) (pos - 12) ≠ UNUSED_SECTOR := by
      rw [← hb]; exact hu
    obtain ⟨st1, h1, h2, h3, h4, h5, h6⟩ :=
      ensure_slot_set st data.indirect (pos - 12) zeros hok (by omega) hu'
    have hg := grows_of_same (fun r => r = slot_id.data pos) st st1 isec data data hwf
      (fun _ => rfl) h3 h4 h5 (fun t hnc hni => h6 t (hqX t hni) hnc)
    have hb1 := hg.keep (slot_id.data pos) (by simp [slot_id.valid]; omega) hu
    simp only [slot_sector] at hb1
    exact ⟨_, st1, allocate_indirect_some _ _ _ _ _ h1, h2, hg, fun _ => by rw [hb1, hb],
      fun _ => ⟨hu', by rw [if_neg hu, h4]; rfl⟩, fun _ => ⟨hb.symm, h3, h4⟩⟩

/-- The last step of the double-indirect branch of `allocate_block` once the
indirect block on the path exists. -/
theorem dind_rest (isec : Nat) (st : filesys) (data : inode_disk) (pos : Nat)
    (hok : cache_ok st.cache_table) (hwf : inode_wf st isec data)
    (hp1 : 140 ≤ pos) (hp2 : pos < MAX_BLOCKS)
    (hX : indirect_slot st data ((pos - 140) / 128) ≠ UNUSED_SECTOR) :
    ∃ s st1, ensure_slot st (indirect_slot st data ((pos - 140) / 128)) ((pos - 140) % 128) zeros
        = some (s, st1) ∧
      cache_ok st1.cache_table ∧
      grows (fun r => r = slot_id.data pos) isec st data st1 data ∧
      (s ≠ UNUSED_SECTOR → block_slot st1 data pos = s) ∧
      ((if block_slot st data pos = UNUSED_SECTOR then 1 else 0) ≤ free_count st.free_map →
        s ≠ UNUSED_SECTOR ∧
        free_count st1.free_map + (if block_slot st data pos = UNUSED_SECTOR then 1 else 0)
          = free_count st.free_map) ∧
      (block_slot st data pos ≠ UNUSED_SECTOR →
        s = block_slot st data pos ∧ sector_view st1 = sector_view st ∧
        st1.free_map = st.free_map) := by
  have hp2' : pos < 16524 := by simpa using hp2
  have hv0 : (slot_id.dind ((pos - 140) / 128)).valid := by simp [slot_id.valid]; omega
  have hX' : child_slot st data.double_indirect ((pos - 140) / 128) ≠ UNUSED_SECTOR := hX
  have hb : block_slot st data pos
      = get32 (sector_view st (indirect_slot st data ((pos - 140) / 128))) ((pos - 140) % 128) := by
    rw [block_slot_dbl _ _ _ hp1]
    exact child_slot_of_ne st _ _ hX'
  have hqX : ∀ t, (∀ r : slot_id, r.valid → r ≠ slot_id.self → slot_sector st isec data r ≠ t) →
      t ≠ indirect_slot st data ((pos - 140) / 128) :=
    fun t h e => h (slot_id.dind ((pos - 140) / 128)) hv0 (by simp) e.symm
  have hk : (pos - 140) % 128 < 128 := Nat.mod_lt _ (by omega)
  by_cases hu : block_slot st data pos = UNUSED_SECTOR
  · by_cases hf : 0 < free_count st.free_map
    · obtain ⟨s, st1, h1, h2, h3, h4, h5, h6⟩ :=
        grows_slot_dind isec st data pos hok hwf hp1 hp2 hX hu hf
      exact ⟨s, st1, h1, h2, h6, fun _ => h4,
        fun _ => ⟨h3, by rw [if_pos hu]; exact h5⟩, fun h => absurd hu h⟩
    · have hf0 : free_count st.free_map = 0 := by omega
      obtain ⟨st1, h1, h2, h3, h4, h5, h6⟩ :=
        ensure_slot_fail st (indirect_slot st data ((pos - 140) / 128)) ((pos - 140) % 128) zeros
          hok hk (by rw [← hb]; exact hu) hf0
      refine ⟨UNUSED_SECTOR, st1, h1, h2,
        grows_of_same _ st st1 isec data data hwf (fun _ => rfl) h3 h4 h5
          (fun t hnc hni => h6 t (hqX t hni) hnc),
        fun h => absurd rfl h, ?_, fun h => absurd hu h⟩
      intro h; rw [if_pos hu] at h; omega
  · have hu' : get32 (sector_view st (indirect_slot st data ((pos - 140) / 128)))
        ((pos - 140) % 128) ≠ UNUSED_SECTOR := by rw [← hb]; exact hu
    obtain ⟨st1, h1, h2, h3, h4, h5, h6⟩ :=
      ensure_slot_set st (indirect_slot st data ((pos - 140) / 128)) ((pos - 140) % 128) zeros hok
        hk hu'
    have hg := grows_of_same (fun r => r = slot_id.data pos) st st1 isec data data hwf
      (fun _ => rfl) h3 h4 h5 (fun t hnc hni => h6 t (hqX t hni) hnc)
    have hb1 := hg.keep (slot_id.data pos) hp2 hu
    simp only [slot_sector] at hb1
    exact ⟨_, st1, h1, h2, hg, fun _ => by rw [hb1, hb],
      fun _ => ⟨hu', by rw [if_neg hu, h4]; rfl⟩, fun _ => ⟨hb.symm, h3, h4⟩⟩


theorem allocate_double_fail (st : filesys) (data : inode_disk) (pos : Nat)
    (st1 : filesys)
    (h1 : ensure_slot st data.double_indirect ((pos - 140) / 128) unused
      = some (UNUSED_SECTOR, st1)) :
    allocate_double st data pos = some (UNUSED_SECTOR, data, st1) := by
  have c : pos - DIRECT_MAX - SECTOR_MAX = pos - 140 := by
    simp only [DIRECT_MAX, SECTOR_MAX]; omega
  have d : SECTOR_MAX = 128 := rfl
  unfold allocate_double
  simp only [c]
  simp only [d]
  rw [h1]
  simp only [if_true]

/-- The double-indirect branch of `allocate_block` once the inode has a
double-indirect block. -/
theorem dbl_rest (isec : Nat) (st : filesys) (data : inode_disk) (pos : Nat)
    (hok : cache_ok st.cache_table) (hwf : inode_wf st isec data)
    (hp1 : 140 ≤ pos) (hp2 : pos < MAX_BLOCKS) (hX : data.double_indirect ≠ UNUSED_SECTOR) :
    ∃ s st1, allocate_double st data pos = some (s, data, st1) ∧
      cache_ok st1.cache_table ∧
      grows (fun r => r ∈ block_path pos) isec st data st1 data ∧
      (s ≠ UNUSED_SECTOR → block_slot st1 data pos = s) ∧
      ((if indirect_slot st data ((pos - 140) / 128) = UNUSED_SECTOR then 1 else 0)
          + (if block_slot st data pos = UNUSED_SECTOR then 1 else 0) ≤ free_count st.free_map →
        s ≠ UNUSED_SECTOR ∧
        free_count st1.free_map
          + ((if indirect_slot st data ((pos - 140) / 128) = UNUSED_SECTOR then 1 else 0)
          + (if block_slot st data pos = UNUSED_SECTOR then 1 else 0)) = free_count st.free_map) ∧
      (block_slot st data pos ≠ UNUSED_SECTOR →
        s = block_slot st data pos ∧ sector_view st1 = sector_view st ∧
        st1.free_map = st.free_map) := by
  have hp2' : pos < 16524 := by simpa using hp2
  have hi0 : (pos - 140) / 128 < 128 := by omega
  have hpath : block_path pos = [slot_id.dbl, slot_id.dind ((pos - 140) / 128), slot_id.data pos] := by
    have a : ¬ pos < DIRECT_MAX := by simp; omega
    have b : ¬ pos < DIRECT_MAX + SECTOR_MAX := by simp; omega
    simp only [block_path, a, b, if_false]
    rfl
  have hP1 : ∀ r, r = slot_id.dind ((pos - 140) / 128) → r ∈ block_path pos := by
    intro r hr; rw [hpath, hr]; simp
  have hP2 : ∀ r, r = slot_id.data pos → r ∈ block_path pos := by
    intro r hr; rw [hpath, hr]; simp
  have hqX : ∀ t, (∀ r : slot_id, r.valid → r ≠ slot_id.self → slot_sector st isec data r ≠ t) →
      t ≠ data.double_indirect := fun t h e => h slot_id.dbl trivial (by simp) e.symm
  by_cases hu : indirect_slot st data ((pos - 140) / 128) = UNUSED_SECTOR
  · have hbu : block_slot st data pos = UNUSED_SECTOR := by
      rw [block_slot_dbl _ _ _ hp1]
      have : child_slot st data.double_indirect ((pos - 140) / 128) = UNUSED_SECTOR := hu
      rw [this, child_slot_unused]
    rw [if_pos hu, if_pos hbu]
    by_cases hf : 0 < free_count st.free_map
    · obtain ⟨s2, st2, h1, h2, h3, h4, h5, h6, h7⟩ :=
        grows_slot_dbl isec st data ((pos - 140) / 128) hok hwf hi0 hX hu hf
      have hbu2 : block_slot st2 data pos = UNUSED_SECTOR := by
        rw [block_slot_dbl _ _ _ hp1]
        have : child_slot st2 data.double_indirect ((pos - 140) / 128) = s2 := h4
        rw [this]
        exact h6 _ (Nat.mod_lt _ (by omega))
      obtain ⟨s, st3, g1, g2, g3, g4, g5, _⟩ :=
        dind_rest isec st2 data pos h2 h7.wf hp1 hp2 (by rw [h4]; exact h3)
      rw [if_pos hbu2] at g5
      rw [h4] at g1
      refine ⟨s, st3, allocate_double_some _ _ _ _ _ _ _ h1 h3 g1, g2, ?_, g4, ?_,
        fun h => absurd hbu h⟩
      · exact grows_trans _ isec st data st2 data st3 data hwf
          (grows_mono _ _ isec st data st2 data hP1 h7)
          (grows_mono _ _ isec st2 data st3 data hP2 g3)
      · intro hfr
        obtain ⟨x, y⟩ := g5 (by omega)
        exact ⟨x, by omega⟩
    · have hf0 : free_count st.free_map = 0 := by omega
      have hun : get32 (sector_view st data.double_indirect) ((pos - 140) / 128)
          = UNUSED_SECTOR := by
        have : child_slot st data.double_indirect ((pos - 140) / 128) = UNUSED_SECTOR := hu
        rwa [child_slot_of_ne st _ _ hX] at this
      obtain ⟨st1, h1, h2, h3, h4, h5, h6⟩ :=
        ensure_slot_fail st data.double_indirect ((pos - 140) / 128) unused hok hi0 hun hf0
      refine ⟨UNUSED_SECTOR, st1, allocate_double_fail _ _ _ _ h1, h2,
        grows_of_same _ st st1 isec data data hwf (fun _ => rfl) h3 h4 h5
          (fun t hnc hni => h6 t (hqX t hni) hnc),
        fun h => absurd rfl h, ?_, fun h => absurd hbu h⟩
      intro h; omega
  · rw [if_neg hu]
    have hu' : get32 (sector_view st data.double_indirect) ((pos - 140) / 128) ≠ UNUSED_SECTOR := by
      have : child_slot st data.double_indirect ((pos - 140) / 128) ≠ UNUSED_SECTOR := hu
      rwa [child_slot_of_ne st _ _ hX] at this
    have hY : indirect_slot st data ((pos - 140) / 128)
        = get32 (sector_view st data.double_indirect) ((pos - 140) / 128) :=
      child_slot_of_ne st _ _ hX
    obtain ⟨st2, h1, h2, h3, h4, h5, h6⟩ :=
      ensure_slot_set st data.double_indirect ((pos - 140) / 128) unused hok hi0 hu'
    have hg := grows_of_same (fun r => r ∈ block_path pos) st st2 isec data data hwf
      (fun _ => rfl) h3 h4 h5 (fun t hnc hni => h6 t (hqX t hni) hnc)
    have hY2 : indirect_slot st2 data ((pos - 140) / 128)
        = get32 (sector_view st data.double_indirect) ((pos - 140) / 128) := by
      have := hg.keep (slot_id.dind ((pos - 140) / 128)) hi0 hu
      simp only [slot_sector] at this
      rw [this, hY]
    have hb2 : block_slot st2 data pos = block_slot st data pos := by
      rw [block_slot_dbl _ _ _ hp1, block_slot_dbl _ _ _ hp1]
      have e : child_slot st2 data.double_indirect ((pos - 140) / 128)
          = child_slot st data.double_indirect ((pos - 140) / 128) := by
        apply child_slot_congr; intro _; rw [h3]
      rw [e]
      apply child_slot_congr; intro _; rw [h3]
    obtain ⟨s, st3, g1, g2, g3, g4, g5, g7⟩ :=
      dind_rest isec st2 data pos h2 hg.wf hp1 hp2 (by rw [hY2]; exact hu')
    rw [hY2] at g1
    rw [hb2, h4] at g5
    refine ⟨s, st3, allocate_double_some _ _ _ _ _ _ _ h1 hu' g1, g2, ?_, g4, ?_, ?_⟩
    · exact grows_trans _ isec st data st2 data st3 data hwf hg
        (grows_mono _ _ isec st2 data st3 data hP2 g3)
    · intro hfr
      obtain ⟨x, y⟩ := g5 (by omega)
      exact ⟨x, by omega⟩
    · intro hne
      obtain ⟨z, a, b⟩ := g7 (by rw [hb2]; exact hne)
      exact ⟨by rw [z, hb2], by rw [a, h3], by rw [b, h4]⟩


theorem missing_zero_set (st : filesys) (data : inode_disk) (pos : Nat) (_hp : pos < MAX_BLOCKS)
    (h : block_slot st data pos ≠ UNUSED_SECTOR) : missing_levels st data pos = 0 := by
  by_cases h1 : pos < 12
  · rw [missing_direct _ _ _ h1]
    rw [block_slot_direct _ _ _ h1] at h
    rw [if_neg h]
  · by_cases h2 : pos < 140
    · rw [missing_ind _ _ _ (by omega) h2, if_neg h]
      have : data.indirect ≠ UNUSED_SECTOR := by
        intro e; apply h
        rw [block_slot_ind _ _ _ (by omega) h2, e, child_slot_unused]
      rw [if_neg this]
    · rw [missing_dbl _ _ _ (by omega), if_neg h]
      have hi : indirect_slot st data ((pos - 140) / 128) ≠ UNUSED_SECTOR := by
        intro e; apply h
        rw [block_slot_dbl _ _ _ (by omega)]
        have : child_slot st data.double_indirect ((pos - 140) / 128) = UNUSED_SECTOR := e
        rw [this, child_slot_unused]
      have : data.double_indirect ≠ UNUSED_SECTOR := by
        intro e; apply hi
        simp only [indirect_slot, e, child_slot_unused]
      rw [if_neg this, if_neg hi]

theorem missing_pos_unset (st : filesys) (data : inode_disk) (pos : Nat)
    (h : block_slot st data pos = UNUSED_SECTOR) : 0 < missing_levels st data pos := by
  by_cases h1 : pos < 12
  · rw [missing_direct _ _ _ h1]
    rw [block_slot_direct _ _ _ h1] at h
    rw [if_pos h]; omega
  · by_cases h2 : pos < 140
    · rw [missing_ind _ _ _ (by omega) h2, if_pos h]; omega
    · rw [missing_dbl _ _ _ (by omega), if_pos h]; omega

theorem grows_refl (P : slot_id → Prop) (isec : Nat) (st : filesys) (data : inode_disk)
    (hwf : inode_wf st isec data) : grows P isec st data st data :=
  grows_of_same P st st isec data data hwf (fun _ => rfl) rfl rfl rfl (fun _ h _ => ⟨rfl, h⟩)

/-- The specification of `allocate_block` on a well-formed inode: the call returns,
the inode and the state change only by block allocations on the path to `pos`,
and when the free map holds as many free sectors as the path lacks the result
is the (now set) slot of `pos`. -/
theorem allocate_block_total (isec : Nat) (st : filesys) (data : inode_disk) (pos : Nat)
    (hok : cache_ok st.cache_table) (hwf : inode_wf st isec data) (hpos : pos < MAX_BLOCKS) :
    ∃ s st1 data1, allocate_block st data pos = some (s, data1, st1) ∧
      cache_ok st1.cache_table ∧
      grows (fun r => r ∈ block_path pos) isec st data st1 data1 ∧
      (s ≠ UNUSED_SECTOR → block_slot st1 data1 pos = s) ∧
      (missing_levels st data pos ≤ free_count st.free_map →
        s ≠ UNUSED_SECTOR ∧
        free_count st1.free_map + missing_levels st data pos = free_count st.free_map) ∧
      (block_slot st data pos ≠ UNUSED_SECTOR →
        s = block_slot st data pos ∧ data1 = data ∧ sector_view st1 = sector_view st ∧
        st1.free_map = st.free_map) := by
  by_cases h1 : pos < 12
  · have a : pos < DIRECT_MAX := by simpa using h1
    have hpath : block_path pos = [slot_id.data pos] := by simp only [block_path, a, if_true]
    rw [missing_direct _ _ _ h1]
    by_cases hu : data.direct pos = UNUSED_SECTOR
    · have hbu : block_slot st data pos = UNUSED_SECTOR := by
        rw [block_slot_direct _ _ _ h1]; exact hu
      rw [if_pos hu]
      by_cases hf : 0 < free_count st.free_map
      · obtain ⟨s, st1, data1, g1, g2, g3, g4, g5, g6⟩ :=
          grows_direct isec st data pos hok hwf a hu hf
        exact ⟨s, st1, data1, g1, g2,
          grows_mono _ _ isec st data st1 data1 (fun r hr => by rw [hpath, hr]; simp) g6,
          fun _ => g4, fun _ => ⟨g3, g5⟩, fun h => absurd hbu h⟩
      · have hf0 : free_count st.free_map = 0 := by omega
        refine ⟨UNUSED_SECTOR, st, data, ?_, hok, grows_refl _ isec st data hwf,
          fun h => absurd rfl h, fun h => by omega, fun h => absurd hbu h⟩
        simp only [allocate_block, a, if_true, hu, free_map_allocate_none _ hf0]
    · rw [if_neg hu]
      refine ⟨data.direct pos, st, data, ?_, hok, grows_refl _ isec st data hwf,
        fun _ => block_slot_direct _ _ _ h1, fun _ => ⟨hu, rfl⟩, ?_⟩
      · simp only [allocate_block, a, if_true, if_neg hu]
      · intro _
        exact ⟨(block_slot_direct _ _ _ h1).symm, rfl, rfl, rfl⟩
  · by_cases h2 : pos < 140
    · have a : ¬ pos < DIRECT_MAX := by simp; omega
      have b : pos < DIRECT_MAX + SECTOR_MAX := by simp; omega
      have hpath : block_path pos = [slot_id.ind, slot_id.data pos] := by
        simp only [block_path, a, b, if_true, if_false]
      rw [missing_ind _ _ _ (by omega) h2]
      by_cases hu : data.indirect = UNUSED_SECTOR
      · have hbu : block_slot st data pos = UNUSED_SECTOR := by
          rw [block_slot_ind _ _ _ (by omega) h2, hu, child_slot_unused]
        rw [if_pos hu, if_pos hbu]
        by_cases hf : 0 < free_count st.free_map
        · obtain ⟨s1, st1, r1, r2, r3, r4, r5, r6, r7, r8⟩ :=
            grows_root_ind isec st data hok hwf hu hf
          have hbu1 : block_slot st1 (data.set_indirect s1) pos = UNUSED_SECTOR := by
            rw [block_slot_ind _ _ _ (by omega) h2, r4]
            exact r7 _ (by omega)
          obtain ⟨s, st2, g1, g2, g3, g4, g5, _⟩ :=
            ind_rest isec st1 (data.set_indirect s1) pos r3 r8.wf (by omega) h2
              (by rw [r4]; exact r5)
          rw [if_pos hbu1] at g5
          refine ⟨s, st2, data.set_indirect s1, ?_, g2, ?_, g4, ?_, fun h => absurd hbu h⟩
          · simp only [allocate_block, a, b, if_true, if_false, hu, r1, r2, g1]
          · exact grows_trans _ isec st data st1 _ st2 _ hwf
              (grows_mono _ _ isec st data st1 _ (fun r hr => by rw [hpath, hr]; simp) r8)
              (grows_mono _ _ isec st1 _ st2 _ (fun r hr => by rw [hpath, hr]; simp) g3)
          · intro hfr
            obtain ⟨x, y⟩ := g5 (by omega)
            exact ⟨x, by omega⟩
        · have hf0 : free_count st.free_map = 0 := by omega
          refine ⟨UNUSED_SECTOR, st, data, ?_, hok, grows_refl _ isec st data hwf,
            fun h => absurd rfl h, fun h => by omega, fun h => absurd hbu h⟩
          simp only [allocate_block, a, b, if_true, if_false, hu, free_map_allocate_none _ hf0]
      · rw [if_neg hu]
        obtain ⟨s, st2, g1, g2, g3, g4, g5, g7⟩ :=
          ind_rest isec st data pos hok hwf (by omega) h2 hu
        refine ⟨s, st2, data, ?_, g2,
          grows_mono _ _ isec st data st2 data (fun r hr => by rw [hpath, hr]; simp) g3, g4, ?_, ?_⟩
        · simp only [allocate_block, a, b, if_true, if_false, hu, g1]
        · intro hfr
          obtain ⟨x, y⟩ := g5 (by omega)
          exact ⟨x, by omega⟩
        · intro hne
          obtain ⟨z, x, y⟩ := g7 hne
          exact ⟨z, rfl, x, y⟩
    · have a : ¬ pos < DIRECT_MAX := by simp; omega
      have b : ¬ pos < DIRECT_MAX + SECTOR_MAX := by simp; omega
      have hpath : block_path pos
          = [slot_id.dbl, slot_id.dind ((pos - 140) / 128), slot_id.data pos] := by
        simp only [block_path, a, b, if_false]
        rfl
      rw [missing_dbl _ _ _ (by omega)]
      by_cases hu : data.double_indirect = UNUSED_SECTOR
      · have hiu : indirect_slot st data ((pos - 140) / 128) = UNUSED_SECTOR := by
          simp only [indirect_slot, hu, child_slot_unused]
        have hbu : block_slot st data pos = UNUSED_SECTOR := by
          rw [block_slot_dbl _ _ _ (by omega), hu, child_slot_unused, child_slot_unused]
        rw [if_pos hu, if_pos hiu, if_pos hbu]
        by_cases hf : 0 < free_count st.free_map
        · obtain ⟨s1, st1, r1, r2, r3, r4, r5, r6, r7, r8⟩ :=
            grows_root_dbl isec st data hok hwf hu hf
          have hiu1 : indirect_slot st1 (data.set_double_indirect s1) ((pos - 140) / 128)
              = UNUSED_SECTOR := by
            simp only [indirect_slot, r4]
            exact r7 _ (by simp at hpos; omega)
          have hbu1 : block_slot st1 (data.set_double_indirect s1) pos = UNUSED_SECTOR := by
            rw [block_slot_dbl _ _ _ (by omega)]
            have : child_slot st1 (data.set_double_indirect s1).double_indirect
                ((pos - 140) / 128) = UNUSED_SECTOR := hiu1
            rw [this, child_slot_unused]
          obtain ⟨s, st2, g1, g2, g3, g4, g5, _⟩ :=
            dbl_rest isec st1 (data.set_double_indirect s1) pos r3 r8.wf (by omega) hpos
              (by rw [r4]; exact r5)
          rw [if_pos hiu1, if_pos hbu1] at g5
          refine ⟨s, st2, data.set_double_indirect s1, ?_, g2, ?_, g4, ?_,
            fun h => absurd hbu h⟩
          · simp only [allocate_block, a, b, if_false, hu, if_true, r1, r2, g1]
          · exact grows_trans _ isec st data st1 _ st2 _ hwf
              (grows_mono _ _ isec st data st1 _ (fun r hr => by rw [hpath, hr]; simp) r8) g3
          · intro hfr
            obtain ⟨x, y⟩ := g5 (by omega)
            exact ⟨x, by omega⟩
        · have hf0 : free_count st.free_map = 0 := by omega
          refine ⟨UNUSED_SECTOR, st, data, ?_, hok, grows_refl _ isec st data hwf,
            fun h => absurd rfl h, fun h => by omega, fun h => absurd hbu h⟩
          simp only [allocate_block, a, b, if_false, hu, if_true, free_map_allocate_none _ hf0]
      · rw [if_neg hu]
        obtain ⟨s, st2, g1, g2, g3, g4, g5, g7⟩ :=
          dbl_rest isec st data pos hok hwf (by omega) hpos hu
        refine ⟨s, st2, data, ?_, g2, g3, g4, ?_, ?_⟩
        · simp only [allocate_block, a, b, if_false, hu, g1]
        · intro hfr
          obtain ⟨x, y⟩ := g5 (by omega)
          exact ⟨x, by omega⟩
        · intro hne
          obtain ⟨z, x, y⟩ := g7 hne
          exact ⟨z, rfl, x, y⟩

theorem missing_le_three (st : filesys) (data : inode_disk) (pos : Nat) :
    missing_levels st data pos ≤ 3 := by
  unfold missing_levels
  refine le_trans (List.length_filter_le _ _) ?_
  unfold block_path
  split
  · simp
  · split <;> simp


theorem evolves_of_grows (P : slot_id → Prop) (isec : Nat) (st : filesys) (data : inode_disk)
    (st1 : filesys) (data1 : inode_disk) (hwf : inode_wf st isec data)
    (h : grows P isec st data st1 data1) :
    evolves P (fun _ => none) isec st data st1 data1 := by
  refine ⟨h.wf, h.keep, h.untouched, h.fm_size, h.fm_used, h.fm_released, h.fm_count, h.fresh,
    ?_, h.fields, h.open_inodes, h.quiet⟩
  intro j hj
  simp only [file_content]
  have hi : j % DISK_SECTOR_SIZE < DISK_SECTOR_SIZE := Nat.mod_lt _ (by simp)
  by_cases hu : block_slot st data (j / DISK_SECTOR_SIZE) = UNUSED_SECTOR
  · rw [if_pos hu]
    by_cases hu1 : block_slot st1 data1 (j / DISK_SECTOR_SIZE) = UNUSED_SECTOR
    · rw [if_pos hu1]
    · rw [if_neg hu1]
      exact h.zero _ hj hu hu1 _ hi
  · have hk := h.keep (slot_id.data (j / DISK_SECTOR_SIZE)) hj hu
    simp only [slot_sector] at hk
    rw [hk, if_neg hu, if_neg hu]
    have hus := hwf.used (slot_id.data (j / DISK_SECTOR_SIZE)) hj hu
    simp only [slot_sector] at hus
    rw [h.view _ hus.1 hus.2]
    intro r hr hri e
    have := hwf.inj r (slot_id.data (j / DISK_SECTOR_SIZE)) hr hj (by rw [e]; exact hu) e
    subst this
    exact hri

theorem evolves_mono (P Q : slot_id → Prop) (W : Nat → Option Nat) (isec : Nat) (st : filesys)
    (data : inode_disk) (st1 : filesys) (data1 : inode_disk) (hPQ : ∀ r, P r → Q r)
    (h : evolves P W isec st data st1 data1) : evolves Q W isec st data st1 data1 :=
  ⟨h.wf, h.keep, fun r hr hq => h.untouched r hr (fun hp => hq (hPQ r hp)), h.fm_size,
    h.fm_used, h.fm_released, h.fm_count, h.fresh, h.content, h.fields, h.open_inodes, h.quiet⟩

theorem evolves_trans (P : slot_id → Prop) (W1 W2 W : Nat → Option Nat) (isec : Nat)
    (st : filesys) (data : inode_disk) (st1 : filesys) (data1 : inode_disk) (st2 : filesys)
    (data2 : inode_disk) (hwf : inode_wf st isec data)
    (hW : ∀ j, W j = match W2 j with
      | some v => some v
      | none => W1 j)
    (h1 : evolves P W1 isec st data st1 data1) (h2 : evolves P W2 isec st1 data1 st2 data2) :
    evolves P W isec st data st2 data2 := by
  have hkeep : ∀ r : slot_id, r.valid → slot_sector st isec data r ≠ UNUSED_SECTOR →
      slot_sector st2 isec data2 r = slot_sector st isec data r := by
    intro r hr hne
    have e1 := h1.keep r hr hne
    have e2 := h2.keep r hr (by rw [e1]; exact hne)
    rw [e2, e1]
  have hfresh : ∀ r : slot_id, r.valid → slot_sector st isec data r = UNUSED_SECTOR →
      slot_sector st2 isec data2 r ≠ UNUSED_SECTOR →
      st.free_map.used (slot_sector st2 isec data2 r) = false := by
    intro r hr hu hne
    by_cases hb : slot_sector st1 isec data1 r = UNUSED_SECTOR
    · have := h2.fresh r hr hb hne
      cases hx : st.free_map.used (slot_sector st2 isec data2 r) with
      | false => rfl
      | true => rw [h1.fm_used _ hx] at this; exact Bool.noConfusion this
    · rw [h2.keep r hr hb]
      exact h1.fresh r hr hu hb
  refine ⟨h2.wf, hkeep, ?_, by rw [h2.fm_size, h1.fm_size],
    fun t ht => h2.fm_used t (h1.fm_used t ht), by rw [h2.fm_released, h1.fm_released],
    le_trans h2.fm_count h1.fm_count, hfresh, ?_,
    fun j hj => by rw [h2.fields j hj, h1.fields j hj],
    by rw [h2.open_inodes, h1.open_inodes], ?_⟩
  · intro r hr hp
    rw [h2.untouched r hr hp, h1.untouched r hr hp]
  · intro j hj
    rw [h2.content j hj, hW j]
    cases h : W2 j with
    | some v => rfl
    | none => simp only; exact h1.content j hj
  · intro t hnc hts htu hni
    obtain ⟨a1, a2⟩ := h1.quiet t hnc hts htu hni
    have hni1 : ∀ r : slot_id, r.valid → r ≠ slot_id.self → slot_sector st1 isec data1 r ≠ t := by
      intro r hr hrs
      by_cases ha : slot_sector st isec data r = UNUSED_SECTOR
      · by_cases hb : slot_sector st1 isec data1 r = UNUSED_SECTOR
        · rw [hb]; intro e
          have := hwf.size_le
          omega
        · intro e
          have := h1.fresh r hr ha hb
          rw [e, htu] at this
          exact Bool.noConfusion this
      · rw [h1.keep r hr ha]; exact hni r hr hrs
    obtain ⟨b1, b2⟩ := h2.quiet t a2 (by rw [h1.fm_size]; exact hts) (h1.fm_used t htu) hni1
    exact ⟨by rw [b1, a1], b2⟩

theorem evolves_congr (P : slot_id → Prop) (W W1 : Nat → Option Nat) (isec : Nat) (st : filesys)
    (data : inode_disk) (st1 : filesys) (data1 : inode_disk) (hW : ∀ j, W1 j = W j)
    (h : evolves P W isec st data st1 data1) : evolves P W1 isec st data st1 data1 :=
  ⟨h.wf, h.keep, h.untouched, h.fm_size, h.fm_used, h.fm_released, h.fm_count, h.fresh,
    fun j hj => by rw [hW j]; exact h.content j hj, h.fields, h.open_inodes, h.quiet⟩

/-- A data write into the sector of an allocated logical block. -/
theorem evolves_write (P : slot_id → Prop) (isec : Nat) (st : filesys) (data : inode_disk)
    (buffer : Nat → Nat) (bofs pos sofs chunk : Nat)
    (hok : cache_ok st.cache_table) (hwf : inode_wf st isec data) (hpos : pos < MAX_BLOCKS)
    (hs : block_slot st data pos ≠ UNUSED_SECTOR) (hsz : sofs + chunk ≤ DISK_SECTOR_SIZE) :
    ∃ st1, cache_table_write st buffer bofs (block_slot st data pos) sofs chunk = some st1 ∧
      cache_ok st1.cache_table ∧ st1.free_map = st.free_map ∧
      evolves P (fun j => if j / DISK_SECTOR_SIZE = pos ∧ sofs ≤ j % DISK_SECTOR_SIZE ∧
          j % DISK_SECTOR_SIZE < sofs + chunk
        then some (buffer (bofs + (j % DISK_SECTOR_SIZE - sofs))) else none) isec st data st1 data := by
  obtain ⟨st1, w1, w2, w3, w4, w5, w6⟩ :=
    cache_table_write_spec st buffer bofs (block_slot st data pos) sofs chunk hok hsz
  have hidx : ∀ r : slot_id, r.valid → r.index → slot_sector st isec data r ≠ UNUSED_SECTOR →
      sector_view st1 (slot_sector st isec data r) = sector_view st (slot_sector st isec data r) := by
    intro r hr hri hne
    rw [w3, Function.update_noteq]
    intro e
    have := hwf.inj r (slot_id.data pos) hr hpos hne e
    subst this
    exact hri
  have hsame : ∀ r : slot_id, r.valid → slot_sector st1 isec data r = slot_sector st isec data r :=
    fun r hr => slot_frame st st1 isec data data (fun _ _ => rfl) hidx r hr
  refine ⟨st1, w1, w2, w4, inode_wf_of_same st st1 isec data data hwf hsame (by rw [w4])
      (fun t ht => by rw [w4]; exact ht), fun r hr _ => hsame r hr, fun r hr _ => hsame r hr,
    by rw [w4], fun t ht => by rw [w4]; exact ht, by rw [w4], by rw [w4], ?_, ?_,
    fun _ _ => rfl, w5, ?_⟩
  · intro r hr h1 h2
    rw [hsame r hr] at h2
    exact absurd h1 h2
  · intro j hj
    have hsl := hsame (slot_id.data (j / DISK_SECTOR_SIZE)) hj
    simp only [slot_sector] at hsl
    simp only [file_content, hsl]
    by_cases hu : block_slot st data (j / DISK_SECTOR_SIZE) = UNUSED_SECTOR
    · have hne : j / DISK_SECTOR_SIZE ≠ pos := by
        intro e; rw [e] at hu; exact hs hu
      simp only [if_pos hu, hne, false_and, if_false]
    · rw [if_neg hu, if_neg hu, w3]
      by_cases hq : j / DISK_SECTOR_SIZE = pos
      · rw [hq, Function.update_same, memcpy_apply]
        by_cases hin : sofs ≤ j % DISK_SECTOR_SIZE ∧ j % DISK_SECTOR_SIZE < sofs + chunk
        · simp only [hin, and_self, if_true, true_and]
        · have : ¬ (True ∧ sofs ≤ j % DISK_SECTOR_SIZE ∧ j % DISK_SECTOR_SIZE < sofs + chunk) := by
            simpa using hin
          simp only [if_neg hin, this, if_false]
      · have hne : block_slot st data (j / DISK_SECTOR_SIZE) ≠ block_slot st data pos := by
          intro e
          have := hwf.inj (slot_id.data (j / DISK_SECTOR_SIZE)) (slot_id.data pos) hj hpos hu e
          exact hq (slot_id.data.inj this)
        rw [Function.update_noteq hne]
        simp only [hq, false_and, if_false]
  · intro t hnc _ _ hni
    exact w6 t (fun e => hni (slot_id.data pos) hpos (by simp) e.symm) hnc


theorem evolves_refl (P : slot_id → Prop) (isec : Nat) (st : filesys) (data : inode_disk)
    (hwf : inode_wf st isec data) : evolves P (fun _ => none) isec st data st data :=
  evolves_of_grows P isec st data st data hwf (grows_refl P isec st data hwf)

theorem inode_write_loop_zero (fuel : Nat) (st : filesys) (data : inode_disk)
    (buffer : Nat → Nat) (offset bw : Nat) :
    inode_write_loop fuel st data buffer 0 offset bw = some (st, data, bw) := by
  cases fuel with
  | zero => rfl
  | succ n => simp [inode_write_loop]

theorem inode_write_loop_step (fuel : Nat) (st : filesys) (data : inode_disk)
    (buffer : Nat → Nat) (size offset bw s chunk : Nat) (data1 : inode_disk) (st1 st2 : filesys)
    (hs : 0 < size)
    (ha : allocate_block st data (offset / DISK_SECTOR_SIZE) = some (s, data1, st1))
    (hc : (if size < DISK_SECTOR_SIZE - offset % DISK_SECTOR_SIZE then size
      else DISK_SECTOR_SIZE - offset % DISK_SECTOR_SIZE) = chunk)
    (hpos : 0 < chunk)
    (hw : cache_table_write st1 buffer bw s (offset % DISK_SECTOR_SIZE) chunk = some st2) :
    inode_write_loop (fuel + 1) st data buffer size offset bw
      = inode_write_loop fuel st2 data1 buffer (size - chunk) (offset + chunk) (bw + chunk) := by
  have hgt : size > 0 := hs
  have hn : ¬ chunk ≤ 0 := by omega
  simp only [inode_write_loop, hgt, if_true, ha, hc, if_neg hn, hw]

theorem chunk_facts (size offset : Nat) (hs : 0 < size) :
    ∃ chunk, (if size < DISK_SECTOR_SIZE - offset % DISK_SECTOR_SIZE then size
        else DISK_SECTOR_SIZE - offset % DISK_SECTOR_SIZE) = chunk ∧
      0 < chunk ∧ chunk ≤ size ∧ offset % 512 + chunk ≤ 512 ∧
      (chunk < size → offset % 512 + chunk = 512) := by
  simp only [DISK_SECTOR_SIZE]
  by_cases h : size < 512 - offset % 512
  · exact ⟨size, by rw [if_pos h], hs, le_refl _, by omega, fun h => by omega⟩
  · exact ⟨512 - offset % 512, by rw [if_neg h], by omega, by omega, by omega, fun _ => by omega⟩

/-- The loop of `inode_write_at` on a well-formed inode with enough free sectors:
all `size` bytes are written. -/
theorem inode_write_loop_spec (isec : Nat) (buffer : Nat → Nat) :
    ∀ (fuel : Nat) (st : filesys) (data : inode_disk) (size offset bw : Nat),
      cache_ok st.cache_table → inode_wf st isec data → size ≤ fuel →
      offset + size ≤ 512 * 16524 →
      (0 < size → 3 * ((offset + size + 511) / 512 - offset / 512) ≤ free_count st.free_map) →
      ∃ st1 data1, inode_write_loop fuel st data buffer size offset bw
          = some (st1, data1, bw + size) ∧
        cache_ok st1.cache_table ∧
        evolves (fun r => ∃ j, offset ≤ j ∧ j < offset + size ∧ r ∈ block_path (j / 512))
          (fun j => if offset ≤ j ∧ j < offset + size then some (buffer (bw + (j - offset)))
            else none) isec st data st1 data1 ∧
        (∀ j, offset ≤ j → j < offset + size →
          block_slot st1 data1 (j / 512) ≠ UNUSED_SECTOR) := by
  intro fuel
  induction fuel with
  | zero =>
    intro st data size offset bw hok hwf hsz _ _
    have h0 : size = 0 := by omega
    subst h0
    refine ⟨st, data, inode_write_loop_zero _ _ _ _ _ _, hok, ?_, fun q h1 h2 => by omega⟩
    exact evolves_congr _ _ _ isec st data st data
      (fun j => by simp only [Nat.add_zero]; rw [if_neg]; omega) (evolves_refl _ isec st data hwf)
  | succ n ih =>
    intro st data size offset bw hok hwf hsz hmax hfree
    by_cases h0 : size = 0
    · subst h0
      refine ⟨st, data, inode_write_loop_zero _ _ _ _ _ _, hok, ?_, fun q h1 h2 => by omega⟩
      exact evolves_congr _ _ _ isec st data st data
        (fun j => by simp only [Nat.add_zero]; rw [if_neg]; omega) (evolves_refl _ isec st data hwf)
    · have hs : 0 < size := Nat.pos_of_ne_zero h0
      have hfree' := hfree hs
      have hpos : offset / DISK_SECTOR_SIZE < MAX_BLOCKS := by
        simp only [DISK_SECTOR_SIZE, MAX_BLOCKS]; omega
      obtain ⟨s, st1, data1, a1, a2, a3, a4, a5, _⟩ :=
        allocate_block_total isec st data (offset / DISK_SECTOR_SIZE) hok hwf hpos
      have hm3 := missing_le_three st data (offset / DISK_SECTOR_SIZE)
      have hnb : 1 ≤ (offset + size + 511) / 512 - offset / 512 := by omega
      obtain ⟨hsu, hcnt⟩ := a5 (by omega)
      have hslot := a4 hsu
      obtain ⟨chunk, c1, c2, c3, c4, c5⟩ := chunk_facts size offset hs
      have hsz2 : offset % DISK_SECTOR_SIZE + chunk ≤ DISK_SECTOR_SIZE := by
        simp only [DISK_SECTOR_SIZE]; exact c4
      obtain ⟨st2, w1, w2, w3, w4⟩ := evolves_write
        (fun r => ∃ j, offset ≤ j ∧ j < offset + size ∧ r ∈ block_path (j / 512))
        isec st1 data1 buffer bw (offset / DISK_SECTOR_SIZE)
        (offset % DISK_SECTOR_SIZE) chunk a2 a3.wf hpos (by rw [hslot]; exact hsu) hsz2
      rw [hslot] at w1
      have hstep := inode_write_loop_step n st data buffer size offset bw s chunk data1 st1 st2
        hs a1 c1 c2 w1
      obtain ⟨st3, data3, r1, r2, r3, r4⟩ := ih st2 data1 (size - chunk) (offset + chunk)
        (bw + chunk) w2 w4.wf (by omega) (by omega) (by
          intro hpos'
          rw [w3]
          have := c5 (by omega)
          have e : offset + chunk + (size - chunk) = offset + size := by omega
          rw [e]
          omega)
      have hP0 : ∀ r, r ∈ block_path (offset / DISK_SECTOR_SIZE) →
          ∃ j, offset ≤ j ∧ j < offset + size ∧ r ∈ block_path (j / 512) := by
        intro r hr
        exact ⟨offset, le_refl _, by omega, hr⟩
      have hP2 : ∀ r, (∃ j, offset + chunk ≤ j ∧ j < offset + chunk + (size - chunk) ∧
            r ∈ block_path (j / 512)) →
          ∃ j, offset ≤ j ∧ j < offset + size ∧ r ∈ block_path (j / 512) := by
        rintro r ⟨q, h1, h2, h3⟩
        exact ⟨q, by omega, by omega, h3⟩
      have e01 := evolves_mono _ _ _ isec st data st1 data1 hP0
        (evolves_of_grows _ isec st data st1 data1 hwf a3)
      have e02 := evolves_trans _ _ _
        (fun j => if j / DISK_SECTOR_SIZE = offset / DISK_SECTOR_SIZE ∧
              offset % DISK_SECTOR_SIZE ≤ j % DISK_SECTOR_SIZE ∧
              j % DISK_SECTOR_SIZE < offset % DISK_SECTOR_SIZE + chunk
            then some (buffer (bw + (j % DISK_SECTOR_SIZE - offset % DISK_SECTOR_SIZE)))
            else none) isec st data st1 data1 st2 data1 hwf
        (fun j => by
          by_cases hc : j / DISK_SECTOR_SIZE = offset / DISK_SECTOR_SIZE ∧
              offset % DISK_SECTOR_SIZE ≤ j % DISK_SECTOR_SIZE ∧
              j % DISK_SECTOR_SIZE < offset % DISK_SECTOR_SIZE + chunk
          · simp only [if_pos hc]
          · simp only [if_neg hc]) e01 w4
      have e12 := evolves_trans _ _ _
        (fun j => match (if offset + chunk ≤ j ∧ j < offset + chunk + (size - chunk)
            then some (buffer (bw + chunk + (j - (offset + chunk)))) else none) with
          | some v => some v
          | none => (if j / DISK_SECTOR_SIZE = offset / DISK_SECTOR_SIZE ∧
              offset % DISK_SECTOR_SIZE ≤ j % DISK_SECTOR_SIZE ∧
              j % DISK_SECTOR_SIZE < offset % DISK_SECTOR_SIZE + chunk
            then some (buffer (bw + (j % DISK_SECTOR_SIZE - offset % DISK_SECTOR_SIZE)))
            else none)) isec st1 data1 st2 data1 st3 data3 a3.wf (fun _ => rfl) w4
        (evolves_mono _ _ _ isec st2 data1 st3 data3 hP2 r3)
      have e03 := evolves_trans _ _ _
        (fun j => if offset ≤ j ∧ j < offset + size then some (buffer (bw + (j - offset)))
            else none) isec st data st2 data1 st3 data3 hwf
        (fun j => by
          simp only [DISK_SECTOR_SIZE]
          by_cases hj3 : offset + chunk ≤ j ∧ j < offset + chunk + (size - chunk)
          · rw [if_pos hj3, if_pos (by omega)]
            simp only
            congr 2
            omega
          · rw [if_neg hj3]
            simp only
            by_cases hj2 : j / 512 = offset / 512 ∧ offset % 512 ≤ j % 512 ∧
                j % 512 < offset % 512 + chunk
            · rw [if_pos hj2, if_pos (by omega)]
              congr 2
              omega
            · rw [if_neg hj2, if_neg (by omega)]) e02
        (evolves_mono _ _ _ isec st2 data1 st3 data3 hP2 r3)
      refine ⟨st3, data3, ?_, r2, e03, ?_⟩
      · rw [hstep, r1]
        congr 3
        omega
      · intro j hj1 hj2
        by_cases hq : j < offset + chunk
        · have hk := e12.keep (slot_id.data (offset / DISK_SECTOR_SIZE)) hpos
            (by simp only [slot_sector]; rw [hslot]; exact hsu)
          simp only [slot_sector] at hk
          have e : j / 512 = offset / DISK_SECTOR_SIZE := by
            simp only [DISK_SECTOR_SIZE]; omega
          rw [e, hk, hslot]
          exact hsu
        · exact r4 j (by omega) (by omega)


theorem inode_read_loop_zero (fuel : Nat) (st : filesys) (data : inode_disk)
    (buffer : Nat → Nat) (offset br : Nat) :
    inode_read_loop fuel st data buffer 0 offset br = some (st, data, buffer, br) := by
  cases fuel with
  | zero => rfl
  | succ n => simp [inode_read_loop]

/-- The chunk size computed by an iteration of the loop of `inode_read_at`. -/
theorem read_chunk_eq (L : Int) (size offset : Nat) :
    (if (size : Int) < (if L - (offset : Int) < (DISK_SECTOR_SIZE : Int)
          - ((offset % DISK_SECTOR_SIZE : Nat) : Int) then L - (offset : Int)
        else (DISK_SECTOR_SIZE : Int) - ((offset % DISK_SECTOR_SIZE : Nat) : Int))
      then (size : Int)
      else (if L - (offset : Int) < (DISK_SECTOR_SIZE : Int)
          - ((offset % DISK_SECTOR_SIZE : Nat) : Int) then L - (offset : Int)
        else (DISK_SECTOR_SIZE : Int) - ((offset % DISK_SECTOR_SIZE : Nat) : Int)))
      = min (size : Int) (min (L - offset) (512 - ((offset % 512 : Nat) : Int))) := by
  simp only [DISK_SECTOR_SIZE]
  split_ifs <;> omega

theorem inode_read_loop_break (fuel : Nat) (st : filesys) (data : inode_disk)
    (buffer : Nat → Nat) (size offset br s : Nat) (data1 : inode_disk) (st1 : filesys)
    (hs : 0 < size)
    (ha : allocate_block st data (offset / DISK_SECTOR_SIZE) = some (s, data1, st1))
    (hl : inode_length data1 ≤ (offset : Int)) :
    inode_read_loop (fuel + 1) st data buffer size offset br = some (st1, data1, buffer, br) := by
  have hgt : size > 0 := hs
  have hc : min (size : Int) (min (inode_length data1 - offset)
      (512 - ((offset % 512 : Nat) : Int))) ≤ 0 := by omega
  simp only [inode_read_loop, hgt, if_true, ha, read_chunk_eq, if_pos hc]

theorem inode_read_loop_step (fuel : Nat) (st : filesys) (data : inode_disk)
    (buffer : Nat → Nat) (size offset br s c : Nat) (data1 : inode_disk) (st1 st2 : filesys)
    (buffer1 : Nat → Nat)
    (hs : 0 < size)
    (ha : allocate_block st data (offset / DISK_SECTOR_SIZE) = some (s, data1, st1))
    (hl : (offset : Int) < inode_length data1)
    (hc : c = min size (min (inode_length data1 - offset).toNat (512 - offset % 512)))
    (hr : cache_table_read st1 buffer br s (offset % DISK_SECTOR_SIZE) c = some (st2, buffer1)) :
    inode_read_loop (fuel + 1) st data buffer size offset br
      = inode_read_loop fuel st2 data1 buffer1 (size - c) (offset + c) (br + c) := by
  have hgt : size > 0 := hs
  have hn : ¬ min (size : Int) (min (inode_length data1 - offset)
      (512 - ((offset % 512 : Nat) : Int))) ≤ 0 := by omega
  have ht : (min (size : Int) (min (inode_length data1 - offset)
      (512 - ((offset % 512 : Nat) : Int)))).toNat = c := by omega
  simp only [inode_read_loop, hgt, if_true, ha, read_chunk_eq, if_neg hn, ht, hr]

theorem inode_length_eq_of_fields (data data1 : inode_disk)
    (h : ∀ j, 14 ≤ j → get32 data1.bytes j = get32 data.bytes j) :
    inode_length data1 = inode_length data := by
  simp only [inode_length, inode_disk.length, h 16 (by omega)]

/-- The loop of `inode_read_at` on a well-formed inode: it reads
`min size (length - offset)` bytes of the file. -/
theorem read_arith (L : Int) (size offset c : Nat) (hs : 0 < size) (hl : (offset : Int) < L)
    (hc : c = min size (min (L - offset).toNat (512 - offset % 512))) :
    0 < c ∧ c ≤ size ∧ offset % 512 + c ≤ 512 ∧ offset + c ≤ L.toNat ∧
    min (size - c) (L.toNat - (offset + c)) + c = min size (L.toNat - offset) ∧
    (0 < size - c → ((offset + c : Nat) : Int) < L → (offset + c) / 512 = offset / 512 + 1) := by
  omega

theorem read_arith_max (L : Int) (size offset c : Nat)
    (hmax : offset + size ≤ 8460288 ∨ L < 8460288) (h1 : c ≤ size) (h2 : offset + c ≤ L.toNat)
    (h3 : 0 < size - c) :
    offset + c < 8460288 ∧ (offset + c + (size - c) ≤ 8460288 ∨ L < 8460288) := by
  omega

theorem read_arith_free (Ln size offset c F F1 m : Nat)
    (h4 : min (size - c) (Ln - (offset + c)) + c = min size (Ln - offset))
    (h5 : (offset + c) / 512 = offset / 512 + 1)
    (hf : 3 * ((offset + min size (Ln - offset) + 511) / 512 - offset / 512) ≤ F)
    (hm : m ≤ 3) (hcnt : F1 + m = F) :
    3 * ((offset + c + min (size - c) (Ln - (offset + c)) + 511) / 512 - (offset + c) / 512)
      ≤ F1 := by
  have e : offset + c + min (size - c) (Ln - (offset + c)) = offset + min size (Ln - offset) := by
    omega
  rw [e, h5]
  omega

theorem read_arith_tail (L : Int) (size offset c br i : Nat)
    (hmax : offset + size ≤ 8460288 ∨ L < 8460288)
    (h4 : min (size - c) (L.toNat - (offset + c)) + c = min size (L.toNat - offset))
    (hi : br + c ≤ i ∧ i < br + c + min (size - c) (L.toNat - (offset + c))) :
    (br ≤ i ∧ i < br + min size (L.toNat - offset)) ∧
    offset + c + (i - (br + c)) = offset + (i - br) ∧
    (offset + c + (i - (br + c))) / 512 < 16524 := by
  omega

theorem read_arith_head (_size offset c br i r : Nat) (hm : offset < 8460288)
    (h3 : offset % 512 + c ≤ 512) (h4 : c ≤ r)
    (hi : br ≤ i ∧ i < br + c) :
    (br ≤ i ∧ i < br + r) ∧
    (offset + (i - br)) / 512 = offset / 512 ∧
    (offset + (i - br)) % 512 = offset % 512 + (i - br) ∧
    (offset + (i - br)) / 512 < 16524 := by
  omega

theorem read_arith_out (_size _offset c br i r r2 : Nat) (h4 : r2 + c = r)
    (hi2 : ¬ (br + c ≤ i ∧ i < br + c + r2)) (hi1 : ¬ (br ≤ i ∧ i < br + c)) :
    ¬ (br ≤ i ∧ i < br + r) := by
  omega

theorem inode_read_loop_spec (isec : Nat) :
    ∀ (fuel : Nat) (st : filesys) (data : inode_disk) (buffer : Nat → Nat) (size offset br : Nat),
      cache_ok st.cache_table → inode_wf st isec data → size ≤ fuel →
      (0 < size → offset < 8460288 ∧
        (offset + size ≤ 8460288 ∨ inode_length data < 8460288)) →
      ((offset : Int) < inode_length data → 0 < size →
        3 * ((offset + min size ((inode_length data).toNat - offset) + 511) / 512 - offset / 512)
          ≤ free_count st.free_map ∨
        ∀ j, offset ≤ j → j < offset + min size ((inode_length data).toNat - offset) →
          block_slot st data (j / 512) ≠ UNUSED_SECTOR) →
      ∃ st1 data1 buffer1, inode_read_loop fuel st data buffer size offset br
          = some (st1, data1, buffer1, br + min size ((inode_length data).toNat - offset)) ∧
        cache_ok st1.cache_table ∧
        evolves (fun r => ∃ j, offset ≤ j ∧ j < offset + size ∧ r ∈ block_path (j / 512))
          (fun _ => none) isec st data st1 data1 ∧
        (∀ i, buffer1 i = if br ≤ i ∧ i < br + min size ((inode_length data).toNat - offset)
          then file_content st data (offset + (i - br)) else buffer i) := by
  intro fuel
  induction fuel with
  | zero =>
    intro st data buffer size offset br hok hwf hsz _ _
    have h0 : size = 0 := by omega
    subst h0
    refine ⟨st, data, buffer, ?_, hok, evolves_refl _ isec st data hwf, ?_⟩
    · rw [inode_read_loop_zero]; simp
    · intro i; rw [if_neg]; simp
  | succ n ih =>
    intro st data buffer size offset br hok hwf hsz hmax hfree
    by_cases h0 : size = 0
    · subst h0
      refine ⟨st, data, buffer, ?_, hok, evolves_refl _ isec st data hwf, ?_⟩
      · rw [inode_read_loop_zero]; simp
      · intro i; rw [if_neg]; simp
    · have hs : 0 < size := Nat.pos_of_ne_zero h0
      obtain ⟨hmax1, hmax2⟩ := hmax hs
      have hpos : offset / DISK_SECTOR_SIZE < MAX_BLOCKS := by
        simp only [DISK_SECTOR_SIZE, MAX_BLOCKS]; clear hmax2 hfree hmax ih; omega
      obtain ⟨s, st1, data1, a1, a2, a3, a4, a5, _⟩ :=
        allocate_block_total isec st data (offset / DISK_SECTOR_SIZE) hok hwf hpos
      have hlen : inode_length data1 = inode_length data :=
        inode_length_eq_of_fields data data1 a3.fields
      have hP0 : ∀ r, r ∈ block_path (offset / DISK_SECTOR_SIZE) →
          ∃ j, offset ≤ j ∧ j < offset + size ∧ r ∈ block_path (j / 512) := by
        intro r hr
        exact ⟨offset, le_refl _, Nat.lt_add_of_pos_right hs, hr⟩
      have e01 := evolves_mono _ _ _ isec st data st1 data1 hP0
        (evolves_of_grows _ isec st data st1 data1 hwf a3)
      by_cases hl : inode_length data ≤ (offset : Int)
      · have hz : min size ((inode_length data).toNat - offset) = 0 := by
          clear hmax2 hfree hmax ih; omega
        refine ⟨st1, data1, buffer, ?_, a2, e01, ?_⟩
        · rw [inode_read_loop_break n st data buffer size offset br s data1 st1 hs a1
            (by rw [hlen]; exact hl), hz, Nat.add_zero]
        · intro i; rw [hz, if_neg]; clear hmax2 hfree hmax ih; omega
      · have hl' : (offset : Int) < inode_length data := lt_of_not_le hl
        have hfree' := hfree hl' hs
        have hm3 := missing_le_three st data (offset / DISK_SECTOR_SIZE)
        obtain ⟨c, hc⟩ : ∃ c, c = min size (min (inode_length data1 - offset).toNat
            (512 - offset % 512)) := ⟨_, rfl⟩
        have hc' : c = min size (min (inode_length data - offset).toNat (512 - offset % 512)) := by
          rw [hc, hlen]
        obtain ⟨b1, b2, b3, b4, b5, b6⟩ := read_arith _ size offset c hs hl' hc'
        have hnb : missing_levels st data (offset / DISK_SECTOR_SIZE) ≤ free_count st.free_map := by
          rcases hfree' with hA | hB
          · clear hmax2 hfree hmax ih b5 b6 hc hc'; omega
          · have hin : offset < offset + min size ((inode_length data).toNat - offset) := by
              rw [← b5]; exact Nat.lt_add_of_pos_right (Nat.add_pos_right _ b1)
            rw [missing_zero_set st data _ hpos (hB offset (le_refl _) hin)]
            exact Nat.zero_le _
        obtain ⟨hsu, hcnt⟩ := a5 hnb
        have hslot := a4 hsu
        have hsz2 : offset % DISK_SECTOR_SIZE + c ≤ DISK_SECTOR_SIZE := b3
        obtain ⟨st2, r1, r2, r3, r4, r5, r6⟩ := cache_table_read_spec st1 buffer br s
          (offset % DISK_SECTOR_SIZE) c a2 hsz2
        have hstep := inode_read_loop_step n st data buffer size offset br s c data1 st1 st2 _
          hs a1 (by rw [hlen]; exact hl') hc r1
        have hg12 := grows_of_same
          (fun r => ∃ j, offset ≤ j ∧ j < offset + size ∧ r ∈ block_path (j / 512))
          st1 st2 isec data1 data1 a3.wf (fun _ => rfl) r3 r4 r5
          (fun t hnc hni => r6 t (fun e => hni (slot_id.data (offset / DISK_SECTOR_SIZE)) hpos
            (by simp) (by simp only [slot_sector]; rw [hslot, e])) hnc)
        have e12 := evolves_of_grows _ isec st1 data1 st2 data1 a3.wf hg12
        have e02 := evolves_trans _ _ _ (fun _ => none) isec st data st1 data1 st2 data1 hwf
          (fun _ => rfl) e01 e12
        obtain ⟨st3, data3, buffer3, q1, q2, q3, q4⟩ := ih st2 data1
          (memcpy buffer br (sector_view st1 s) (offset % DISK_SECTOR_SIZE) c)
          (size - c) (offset + c) (br + c) r2 e12.wf (Nat.sub_le_of_le_add (by
            clear hmax2 hfree hmax ih b5 b6 hc hc'; omega)) (by
            intro h2
            rw [hlen]
            exact read_arith_max _ size offset c hmax2 b2 b4 h2) (by
            intro h1 h2
            rw [r4]
            rw [hlen] at h1 ⊢
            rcases hfree' with hA | hB
            · exact Or.inl (read_arith_free _ size offset c _ _ _ b5 (b6 h2 h1) hA hm3 hcnt)
            · right
              intro j j1 j2
              have hj := hB j (le_trans (Nat.le_add_right _ _) j1) (by
                rw [← b5]; rw [Nat.add_assoc] at j2; rw [Nat.add_comm c] at j2; exact j2)
              have hjv : j / 512 < MAX_BLOCKS := by
                have := read_arith_tail _ size offset c 0 (j - offset) hmax2 b5
                  ⟨by clear hmax2 hfree hmax ih b5 b6 hc hc' hB hj j2; omega,
                   by clear hmax2 hfree hmax ih b5 b6 hc hc' hB hj; omega⟩
                have e : offset + c + (j - offset - (0 + c)) = j := by
                  clear hmax2 hfree hmax ih b5 b6 hc hc' hB hj this j2; omega
                rw [e] at this
                exact this.2.2
              have := e02.keep (slot_id.data (j / 512)) hjv hj
              simp only [slot_sector] at this
              rw [this]
              exact hj)
        have hP2 : ∀ r, (∃ j, offset + c ≤ j ∧ j < offset + c + (size - c) ∧
              r ∈ block_path (j / 512)) →
            ∃ j, offset ≤ j ∧ j < offset + size ∧ r ∈ block_path (j / 512) := by
          rintro r ⟨q, h1, h2, h3⟩
          exact ⟨q, le_trans (Nat.le_add_right _ _) h1, by
            have e : offset + c + (size - c) = offset + size := by
              clear hmax2 hfree hmax ih b5 b6 hc hc'; omega
            rw [← e]; exact h2, h3⟩
        have e03 := evolves_trans _ _ _ (fun _ => none) isec st data st2 data1 st3 data3 hwf
          (fun _ => rfl) e02 (evolves_mono _ _ _ isec st2 data1 st3 data3 hP2 q3)
        refine ⟨st3, data3, buffer3, ?_, q2, e03, ?_⟩
        · rw [hstep, q1, hlen, ← b5]
          congr 4
          clear hmax2 hfree hmax ih b5 b6 hc hc'; omega
        · intro i
          rw [q4 i, hlen]
          by_cases hi2 : br + c ≤ i ∧
              i < br + c + min (size - c) ((inode_length data).toNat - (offset + c))
          · obtain ⟨t1, t2, t3⟩ := read_arith_tail _ size offset c br i hmax2 b5 hi2
            rw [if_pos hi2, if_pos t1]
            have := e02.content _ t3
            simp only at this
            rw [this, t2]
          · rw [if_neg hi2, memcpy_apply]
            by_cases hi1 : br ≤ i ∧ i < br + c
            · obtain ⟨t1, t2, t3, t4⟩ := read_arith_head size offset c br i
                (min size ((inode_length data).toNat - offset)) hmax1 b3
                (by rw [← b5]; exact Nat.le_add_left _ _) hi1
              rw [if_pos hi1, if_pos t1]
              have hcont := e01.content _ t4
              simp only at hcont
              rw [← hcont]
              simp only [file_content, DISK_SECTOR_SIZE, t2, t3]
              simp only [DISK_SECTOR_SIZE] at hslot hsu
              simp only [hslot, if_neg hsu]
            · rw [if_neg hi1, if_neg (read_arith_out size offset c br i _ _ b5 hi2 hi1)]

/-- The loop of `inode_create` on a well-formed inode. -/
theorem inode_create_loop_spec (isec : Nat) :
    ∀ (n i : Nat) (st : filesys) (data : inode_disk) (success : Bool),
      cache_ok st.cache_table → inode_wf st isec data → i + n ≤ 16524 →
      ∃ data1 st1 ok, inode_create_loop n i st data success = some (data1, st1, ok) ∧
        cache_ok st1.cache_table ∧
        evolves (fun r => ∃ q, i ≤ q ∧ q < i + n ∧ r ∈ block_path q) (fun _ => none)
          isec st data st1 data1 ∧
        (ok = true → success = true ∧
          ∀ q, i ≤ q → q < i + n → block_slot st1 data1 q ≠ UNUSED_SECTOR) ∧
        (3 * n ≤ free_count st.free_map → ok = success) := by
  intro n
  induction n with
  | zero =>
    intro i st data success hok hwf _
    exact ⟨data, st, success, rfl, hok, evolves_refl _ isec st data hwf,
      fun h => ⟨h, fun q h1 h2 => by omega⟩, fun _ => rfl⟩
  | succ n ih =>
    intro i st data success hok hwf hin
    have hpos : i < MAX_BLOCKS := by simp only [MAX_BLOCKS]; omega
    obtain ⟨s, st1, data1, a1, a2, a3, a4, a5, _⟩ :=
      allocate_block_total isec st data i hok hwf hpos
    obtain ⟨data2, st2, ok, b1, b2, b3, b4, b5⟩ :=
      ih (i + 1) st1 data1 (if s = UNUSED_SECTOR then false else success) a2 a3.wf (by omega)
    have hP0 : ∀ r, r ∈ block_path i → ∃ q, i ≤ q ∧ q < i + (n + 1) ∧ r ∈ block_path q :=
      fun r hr => ⟨i, le_refl _, by omega, hr⟩
    have hP2 : ∀ r, (∃ q, i + 1 ≤ q ∧ q < i + 1 + n ∧ r ∈ block_path q) →
        ∃ q, i ≤ q ∧ q < i + (n + 1) ∧ r ∈ block_path q := by
      rintro r ⟨q, h1, h2, h3⟩
      exact ⟨q, by omega, by omega, h3⟩
    have e01 := evolves_mono _ _ _ isec st data st1 data1 hP0
      (evolves_of_grows _ isec st data st1 data1 hwf a3)
    have e12 := evolves_mono _ _ _ isec st1 data1 st2 data2 hP2 b3
    refine ⟨data2, st2, ok, ?_, b2,
      evolves_trans _ _ _ (fun _ => none) isec st data st1 data1 st2 data2 hwf (fun _ => rfl)
        e01 e12, ?_, ?_⟩
    · simp only [inode_create_loop, a1, b1]
    · intro hok1
      obtain ⟨c1, c2⟩ := b4 hok1
      have hsu : s ≠ UNUSED_SECTOR := by
        intro e; rw [if_pos e] at c1; exact Bool.noConfusion c1
      rw [if_neg hsu] at c1
      refine ⟨c1, ?_⟩
      intro q hq1 hq2
      by_cases hq : q = i
      · subst hq
        have hk := b3.keep (slot_id.data q) hpos (by simp only [slot_sector]; rw [a4 hsu]; exact hsu)
        simp only [slot_sector] at hk
        rw [hk, a4 hsu]; exact hsu
      · exact c2 q (by omega) (by omega)
    · intro hfr
      have hm3 := missing_le_three st data i
      obtain ⟨hsu, hcnt⟩ := a5 (by omega)
      rw [if_neg hsu] at b5
      exact b5 (by omega)

theorem get32_zeros (j : Nat) : get32 zeros j = 0 := by simp [get32, zeros]

/-- The words of the image that `inode_create` starts from. -/
theorem inode_create_image_words (length : Nat) ( is_dir : Bool) (parent_dir : Nat) :
    (∀ j, j < 14 → get32 (inode_create_image length is_dir parent_dir).bytes j = UNUSED_SECTOR) ∧
    (inode_create_image length is_dir parent_dir).is_dir = (if is_dir then 1 else 0) ∧
    (inode_create_image length is_dir parent_dir).parent_dir = parent_dir % 4294967296 ∧
    (inode_create_image length is_dir parent_dir).length = length % 4294967296 ∧
    (inode_create_image length is_dir parent_dir).magic = INODE_MAGIC ∧
    (∀ j, 18 ≤ j → get32 (inode_create_image length is_dir parent_dir).bytes j = 0) := by
  have hw : ∀ j, get32 (inode_create_image length is_dir parent_dir).bytes j =
      if j = 15 then parent_dir % 4294967296
      else if j = 14 then (if is_dir then 1 else 0) % 4294967296
      else if j = 13 then UNUSED_SECTOR % 4294967296
      else if j = 12 then UNUSED_SECTOR % 4294967296
      else if j = 11 then UNUSED_SECTOR % 4294967296
      else if j = 10 then UNUSED_SECTOR % 4294967296
      else if j = 9 then UNUSED_SECTOR % 4294967296
      else if j = 8 then UNUSED_SECTOR % 4294967296
      else if j = 7 then UNUSED_SECTOR % 4294967296
      else if j = 6 then UNUSED_SECTOR % 4294967296
      else if j = 5 then UNUSED_SECTOR % 4294967296
      else if j = 4 then UNUSED_SECTOR % 4294967296
      else if j = 3 then UNUSED_SECTOR % 4294967296
      else if j = 2 then UNUSED_SECTOR % 4294967296
      else if j = 1 then UNUSED_SECTOR % 4294967296
      else if j = 0 then UNUSED_SECTOR % 4294967296
      else if j = 17 then INODE_MAGIC % 4294967296
      else if j = 16 then length % 4294967296
      else 0 := by
    intro j
    have hg : ∀ (b : Nat → Nat) (i v : Nat), get32 (set32 b i v) j
        = if j = i then v % 4294967296 else get32 b j := by
      intro b i v
      by_cases e : j = i
      · subst e; rw [if_pos rfl]; exact get32_set32_same _ _ _
      · rw [if_neg e]; exact get32_set32_other _ _ _ _ e
    simp only [inode_create_image, DIRECT_MAX, List.range, List.range.loop, List.foldl,
      inode_disk.set_length, inode_disk.set_magic, inode_disk.set_direct,
      inode_disk.set_indirect, inode_disk.set_double_indirect, inode_disk.set_is_dir,
      inode_disk.set_parent_dir, hg, get32_zeros]
  refine ⟨?_, ?_, ?_, ?_, ?_, ?_⟩
  · intro j hj
    rw [hw j]
    have : j = 0 ∨ j = 1 ∨ j = 2 ∨ j = 3 ∨ j = 4 ∨ j = 5 ∨ j = 6 ∨ j = 7 ∨ j = 8 ∨ j = 9 ∨
        j = 10 ∨ j = 11 ∨ j = 12 ∨ j = 13 := by omega
    rcases this with h | h | h | h | h | h | h | h | h | h | h | h | h | h <;> subst h <;> simp
  · simp only [inode_disk.is_dir, hw]; cases is_dir <;> simp
  · simp only [inode_disk.parent_dir, hw]; simp
  · simp only [inode_disk.length, hw]; simp
  · simp only [inode_disk.magic, hw]; simp
  · intro j hj
    rw [hw j]
    have h1 : ∀ k, k < 18 → j ≠ k := fun k hk => by omega
    simp only [h1 15 (by omega), h1 14 (by omega), h1 13 (by omega), h1 12 (by omega),
      h1 11 (by omega), h1 10 (by omega), h1 9 (by omega), h1 8 (by omega), h1 7 (by omega),
      h1 6 (by omega), h1 5 (by omega), h1 4 (by omega), h1 3 (by omega), h1 2 (by omega),
      h1 1 (by omega), h1 0 (by omega), h1 17 (by omega), h1 16 (by omega), if_false]

/-- An inode whose index fields are all `UNUSED_SECTOR` has no slot set. -/
theorem slots_unused_of_words (st : filesys) (isec : Nat) (data : inode_disk)
    (h : ∀ j, j < 14 → get32 data.bytes j = UNUSED_SECTOR) (r : slot_id)
    (hr : r ≠ slot_id.self) : slot_sector st isec data r = UNUSED_SECTOR := by
  have hind : data.indirect = UNUSED_SECTOR := h 12 (by omega)
  have hdbl : data.double_indirect = UNUSED_SECTOR := h 13 (by omega)
  cases r with
  | self => exact absurd rfl hr
  | ind => exact hind
  | dbl => exact hdbl
  | dind i => simp only [slot_sector, indirect_slot, hdbl, child_slot_unused]
  | data q =>
    simp only [slot_sector]
    by_cases h1 : q < 12
    · rw [block_slot_direct _ _ _ h1]; exact h q (by omega)
    · by_cases h2 : q < 140
      · rw [block_slot_ind _ _ _ (by omega) h2, hind, child_slot_unused]
      · rw [block_slot_dbl _ _ _ (by omega), hdbl, child_slot_unused, child_slot_unused]

theorem inode_wf_of_unused (st : filesys) (isec : Nat) (data : inode_disk)
    (hsz : st.free_map.size ≤ UNUSED_SECTOR) (hs1 : isec < st.free_map.size)
    (hs2 : st.free_map.used isec = true)
    (h : ∀ j, j < 14 → get32 data.bytes j = UNUSED_SECTOR) : inode_wf st isec data := by
  have hu := slots_unused_of_words st isec data h
  refine ⟨hsz, ?_, ?_⟩
  · intro r _ hne
    by_cases e : r = slot_id.self
    · subst e; exact ⟨hs1, hs2⟩
    · exact absurd (hu r e) hne
  · intro r1 r2 _ _ hne he
    by_cases e1 : r1 = slot_id.self
    · by_cases e2 : r2 = slot_id.self
      · rw [e1, e2]
      · subst e1
        rw [hu r2 e2] at he
        simp only [slot_sector] at he
        omega
    · exact absurd (hu r1 e1) hne


theorem inode_deref_sector (st : filesys) (p : Nat) (i : inode) (h : inode_deref st p = some i) :
    i.sector = p := by
  unfold inode_deref at h
  have := List.find?_some h
  simpa using this

theorem find_inode_list_store (l : List inode) (p : Nat) (i v : inode)
    (h : l.find? (fun j => j.sector == p) = some i) (hv : v.sector = p) :
    (inode_list_store l p v).find? (fun j => j.sector == p) = some v := by
  induction l with
  | nil => simp at h
  | cons a l ih =>
    by_cases ha : a.sector = p
    · simp only [inode_list_store, if_pos ha]
      rw [List.find?_cons]
      simp [hv]
    · simp only [inode_list_store, if_neg ha]
      rw [List.find?_cons] at h ⊢
      have hb : (a.sector == p) = false := by simpa using ha
      rw [hb] at h ⊢
      exact ih h

theorem inode_deref_store (st : filesys) (p : Nat) (i v : inode)
    (h : inode_deref st p = some i) (hv : v.sector = p) :
    inode_deref (inode_store st p v) p = some v :=
  find_inode_list_store st.open_inodes p i v h hv

theorem find_eraseP_nodup (l : List inode) (p : Nat)
    (h : (l.map (fun i => i.sector)).Nodup) :
    (l.eraseP (fun j => j.sector == p)).find? (fun j => j.sector == p) = none := by
  induction l with
  | nil => simp
  | cons a l ih =>
    rw [List.map_cons, List.nodup_cons] at h
    by_cases ha : a.sector = p
    · have hb : (a.sector == p) = true := by simpa using ha
      have e : List.eraseP (fun j : inode => j.sector == p) (a :: l) = l :=
        List.eraseP_cons_of_pos hb
      rw [e, List.find?_eq_none]
      intro x hx hxp
      have : x.sector = p := by simpa using hxp
      apply h.1
      rw [List.mem_map]
      exact ⟨x, hx, by rw [this, ha]⟩
    · have hb : (a.sector == p) = false := by simpa using ha
      have e : List.eraseP (fun j : inode => j.sector == p) (a :: l)
          = a :: List.eraseP (fun j : inode => j.sector == p) l :=
        List.eraseP_cons_of_neg (by simpa using ha)
      rw [e, List.find?_cons, hb]
      exact ih h.2

/-- A state that differs from `st` outside the blocks of the inode only (and
perhaps at the inode's own sector) shows the same inode. -/
theorem frame_of_views (st st1 : filesys) (isec : Nat) (data data1 : inode_disk)
    (hwf : inode_wf st isec data)
    (hw : ∀ j, j < 14 → get32 data1.bytes j = get32 data.bytes j)
    (hv : ∀ t, t ≠ isec → sector_view st1 t = sector_view st t)
    (hsize : st1.free_map.size = st.free_map.size)
    (hused : ∀ t, st.free_map.used t = true → st1.free_map.used t = true) :
    (∀ r : slot_id, r.valid → slot_sector st1 isec data1 r = slot_sector st isec data r) ∧
    inode_wf st1 isec data1 ∧
    (∀ j, j / DISK_SECTOR_SIZE < MAX_BLOCKS → file_content st1 data1 j = file_content st data j) := by
  have hne : ∀ r : slot_id, r.valid → r ≠ slot_id.self →
      slot_sector st isec data r ≠ UNUSED_SECTOR → slot_sector st isec data r ≠ isec := by
    intro r hr hrs hu e
    exact hrs (hwf.inj r slot_id.self hr trivial hu e)
  have hs : ∀ r : slot_id, r.valid → slot_sector st1 isec data1 r = slot_sector st isec data r := by
    intro r hr
    apply slot_frame st st1 isec data data1 hw _ r hr
    intro r2 hr2 hi hu
    apply hv
    apply hne r2 hr2 _ hu
    intro e; rw [e] at hi; exact hi
  refine ⟨hs, inode_wf_of_same st st1 isec data data1 hwf hs hsize hused, ?_⟩
  intro j hj
  have e := hs (slot_id.data (j / DISK_SECTOR_SIZE)) hj
  simp only [slot_sector] at e
  unfold file_content
  rw [e]
  by_cases hu : block_slot st data (j / DISK_SECTOR_SIZE) = UNUSED_SECTOR
  · rw [if_pos hu, if_pos hu]
  · rw [if_neg hu, if_neg hu]
    rw [hv]
    exact hne (slot_id.data (j / DISK_SECTOR_SIZE)) hj (by simp) hu

theorem get32_set_length (d : inode_disk) (v j : Nat) (h : j ≠ 16) :
    get32 (d.set_length v).bytes j = get32 d.bytes j :=
  get32_set32_other d.bytes 16 j v h

theorem inode_length_set_length (d : inode_disk) (v : Nat) (h : v < 2147483648) :
    inode_length (d.set_length v) = v := by
  unfold inode_length inode_disk.length inode_disk.set_length
  rw [get32_set32_same]
  unfold off_t_val
  have e : v % 4294967296 = v := Nat.mod_eq_of_lt (by omega)
  simp only [Nat.mod_mod]
  rw [e, if_pos h]

/-- The view of the sectors after a write to the device at a sector that is not
in the cache, or at any sector for the sectors other than it. -/
theorem sector_view_disk_write (st : filesys) (s : Nat) (buf : Nat → Nat) (t : Nat) (h : t ≠ s) :
    sector_view (disk_write st s buf) t = sector_view st t := by
  unfold sector_view disk_write
  simp only
  rw [Function.update_noteq h]

theorem flush_entries_spec : ∀ (l : List cache_table_entry) (st : filesys),
    (flush_entries st l).cache_table = st.cache_table ∧
    (flush_entries st l).free_map = st.free_map ∧
    (flush_entries st l).open_inodes = st.open_inodes ∧
    (∀ t, (∀ e ∈ l, e.block ≠ t) → (flush_entries st l).filesys_disk t = st.filesys_disk t) := by
  intro l
  induction l with
  | nil => intro st; simp [flush_entries]
  | cons a l ih =>
    intro st
    obtain ⟨h1, h2, h3, h4⟩ := ih (disk_write st a.block a.vaddr)
    simp only [flush_entries]
    refine ⟨h1, h2, h3, ?_⟩
    intro t ht
    rw [h4 t (fun e he => ht e (List.mem_cons_of_mem _ he))]
    simp only [disk_write]
    rw [Function.update_noteq]
    exact fun e => ht a (List.mem_cons_self _ _) e.symm

theorem cache_table_flush_spec (st : filesys) :
    (cache_table_flush st).cache_table = st.cache_table ∧
    (cache_table_flush st).free_map = st.free_map ∧
    (cache_table_flush st).open_inodes = st.open_inodes ∧
    sector_view (cache_table_flush st) = sector_view st := by
  obtain ⟨h1, h2, h3, h4⟩ := flush_entries_spec st.cache_table.list st
  refine ⟨h1, h2, h3, ?_⟩
  funext t
  unfold sector_view
  unfold cache_table_flush
  rw [h1]
  cases hf : cache_table_find st.cache_table t with
  | some cte => rfl
  | none =>
    simp only
    apply h4
    intro e he heq
    have := (find_none_iff st.cache_table.list t).1 hf
    apply this
    rw [List.mem_map]
    exact ⟨e, he, heq⟩

theorem cache_table_read_none (st : filesys) (buffer : Nat → Nat) (bofs sector offset size : Nat)
    (h : ¬ offset + size ≤ DISK_SECTOR_SIZE) :
    cache_table_read st buffer bofs sector offset size = none := by
  unfold cache_table_read
  rw [if_neg h]

theorem cache_table_write_none (st : filesys) (buffer : Nat → Nat) (bofs sector offset size : Nat)
    (h : ¬ offset + size ≤ DISK_SECTOR_SIZE) :
    cache_table_write st buffer bofs sector offset size = none := by
  unfold cache_table_write
  rw [if_neg h]

/-- From a consistent cache, a sequence of calls that stay within their sectors
returns, and gives the reads what the plain store started at the current view
of the sectors gives them. -/
theorem run_cache_refines : ∀ (cs : List cache_call) (st : filesys),
    cache_ok st.cache_table → (∀ c ∈ cs, c.in_range = true) →
    ∃ st1 store1 out, run_cache st cs = some (st1, out) ∧
      run_plain (sector_view st) cs = some (store1, out) ∧
      sector_view st1 = store1 ∧ cache_ok st1.cache_table := by
  intro cs
  induction cs with
  | nil => intro st hok _; exact ⟨st, sector_view st, [], rfl, rfl, rfl, hok⟩
  | cons c cs ih =>
    intro st hok hr
    have hc := hr c (List.mem_cons_self _ _)
    have hrest : ∀ c ∈ cs, c.in_range = true := fun c h => hr c (List.mem_cons_of_mem _ h)
    cases c with
    | read sector offset size =>
      have h : offset + size ≤ DISK_SECTOR_SIZE := by simpa [cache_call.in_range] using hc
      obtain ⟨st1, h1, h2, h3, _⟩ := cache_table_read_spec st zeros 0 sector offset size hok h
      obtain ⟨st2, store2, out, a1, a2, a3, a4⟩ := ih st1 h2 hrest
      rw [h3] at a2
      refine ⟨st2, store2, memcpy zeros 0 (sector_view st sector) offset size :: out, ?_, ?_, a3, a4⟩
      · simp only [run_cache, h1, a1]
      · simp only [run_plain, plain_read, if_pos h, a2]
    | write buffer sector offset size =>
      have h : offset + size ≤ DISK_SECTOR_SIZE := by simpa [cache_call.in_range] using hc
      obtain ⟨st1, h1, h2, h3, _⟩ := cache_table_write_spec st buffer 0 sector offset size hok h
      obtain ⟨st2, store2, out, a1, a2, a3, a4⟩ := ih st1 h2 hrest
      rw [h3] at a2
      refine ⟨st2, store2, out, ?_, ?_, a3, a4⟩
      · simp only [run_cache, h1, a1]
      · simp only [run_plain, plain_write, if_pos h, a2]
    | flush =>
      obtain ⟨h1, _, _, h4⟩ := cache_table_flush_spec st
      obtain ⟨st2, store2, out, a1, a2, a3, a4⟩ := ih (cache_table_flush st)
        (by rw [h1]; exact hok) hrest
      rw [h4] at a2
      exact ⟨st2, store2, out, by simp only [run_cache, a1], by simp only [run_plain, a2], a3, a4⟩

theorem cache_ok_init (st : filesys) : cache_ok (cache_table_init st).cache_table := by
  simp [cache_ok, cache_table_init]

theorem sector_view_init (st : filesys) :
    sector_view (cache_table_init st) = st.filesys_disk := by
  funext t
  simp [sector_view, cache_table_init, cache_table_find]

theorem write_start_words (data : inode_disk) (size offset j : Nat) (h : j ≠ 16) :
    get32 (write_start data size offset).bytes j = get32 data.bytes j := by
  unfold write_start
  split
  · exact get32_set_length data _ j h
  · rfl

theorem write_start_length (data : inode_disk) (size offset : Nat)
    (h : offset + size ≤ 8460288) :
    inode_length (write_start data size offset)
      = max (inode_length data) ((offset + size : Nat) : Int) := by
  unfold write_start
  split
  · rename_i hl
    rw [inode_length_set_length _ _ (by omega)]
    omega
  · rename_i hl
    omega

theorem write_start_frame (st : filesys) (isec : Nat) (data : inode_disk) (size offset : Nat)
    (hwf : inode_wf st isec data) :
    (∀ r : slot_id, r.valid →
      slot_sector st isec (write_start data size offset) r = slot_sector st isec data r) ∧
    inode_wf st isec (write_start data size offset) ∧
    (∀ j, j / DISK_SECTOR_SIZE < MAX_BLOCKS →
      file_content st (write_start data size offset) j = file_content st data j) :=
  frame_of_views st st isec data (write_start data size offset) hwf
    (fun j hj => write_start_words data size offset j (by omega)) (fun _ _ => rfl) rfl
    (fun _ h => h)

theorem inode_write_at_spec (st : filesys) (p : Nat) (i : inode) (buffer : Nat → Nat)
    (size offset : Nat) (hd : inode_deref st p = some i) (hdeny : i.deny_write_cnt = 0)
    (hok : cache_ok st.cache_table) (hwf : inode_wf st p i.data)
    (hmax : offset + size ≤ 8460288)
    (hfree : 0 < size →
      3 * ((offset + size + 511) / 512 - offset / 512) ≤ free_count st.free_map) :
    ∃ st1 data1, inode_write_at st p buffer size offset
        = some (inode_store st1 p { i with data := data1 }, size) ∧
      cache_ok st1.cache_table ∧
      evolves (fun r => ∃ j, offset ≤ j ∧ j < offset + size ∧ r ∈ block_path (j / 512))
        (fun j => if offset ≤ j ∧ j < offset + size then some (buffer (j - offset)) else none)
        p st (write_start i.data size offset) st1 data1 ∧
      (∀ j, offset ≤ j → j < offset + size →
        block_slot st1 data1 (j / 512) ≠ UNUSED_SECTOR) := by
  obtain ⟨_, hwf0, _⟩ := write_start_frame st p i.data size offset hwf
  obtain ⟨st1, data1, h1, h2, h3, h4⟩ := inode_write_loop_spec p buffer size st
    (write_start i.data size offset) size offset 0 hok hwf0 (le_refl _) hmax hfree
  refine ⟨st1, data1, ?_, h2, ?_, h4⟩
  · unfold inode_write_at
    simp only [hd]
    rw [if_neg (by simp [hdeny])]
    unfold write_start at h1
    rw [h1]
    simp
  · apply evolves_congr _ _ _ p st _ st1 data1 _ h3
    intro j
    simp

theorem inode_read_at_spec (st : filesys) (p : Nat) (i : inode) (buffer : Nat → Nat)
    (size offset : Nat) (hd : inode_deref st p = some i)
    (hok : cache_ok st.cache_table) (hwf : inode_wf st p i.data)
    (hmax : 0 < size → offset < 8460288 ∧
      (offset + size ≤ 8460288 ∨ inode_length i.data < 8460288))
    (hfree : (offset : Int) < inode_length i.data → 0 < size →
      3 * ((offset + min size ((inode_length i.data).toNat - offset) + 511) / 512 - offset / 512)
        ≤ free_count st.free_map ∨
      ∀ j, offset ≤ j → j < offset + min size ((inode_length i.data).toNat - offset) →
        block_slot st i.data (j / 512) ≠ UNUSED_SECTOR) :
    ∃ st1 data1 buffer1, inode_read_at st p buffer size offset
        = some (inode_store st1 p { i with data := data1 }, buffer1,
            min size ((inode_length i.data).toNat - offset)) ∧
      cache_ok st1.cache_table ∧
      evolves (fun r => ∃ j, offset ≤ j ∧ j < offset + size ∧ r ∈ block_path (j / 512))
        (fun _ => none) p st i.data st1 data1 ∧
      (∀ k, buffer1 k = if k < min size ((inode_length i.data).toNat - offset)
        then file_content st i.data (offset + k) else buffer k) := by
  obtain ⟨st1, data1, buffer1, h1, h2, h3, h4⟩ := inode_read_loop_spec p size st i.data buffer
    size offset 0 hok hwf (le_refl _) hmax hfree
  refine ⟨st1, data1, buffer1, ?_, h2, h3, ?_⟩
  · unfold inode_read_at
    simp only [hd]
    rw [h1]
    simp
  · intro k
    rw [h4 k]
    simp


theorem sector_view_inode_store (st : filesys) (p : Nat) (v : inode) :
    sector_view (inode_store st p v) = sector_view st := rfl

theorem slot_sector_inode_store (st : filesys) (p : Nat) (v : inode) (isec : Nat)
    (data : inode_disk) (r : slot_id) :
    slot_sector (inode_store st p v) isec data r = slot_sector st isec data r := by
  cases r <;> rfl

theorem block_slot_inode_store (st : filesys) (p : Nat) (v : inode) (data : inode_disk) (q : Nat) :
    block_slot (inode_store st p v) data q = block_slot st data q := rfl

theorem file_content_inode_store (st : filesys) (p : Nat) (v : inode) (data : inode_disk)
    (j : Nat) : file_content (inode_store st p v) data j = file_content st data j := rfl

theorem inode_wf_inode_store (st : filesys) (p : Nat) (v : inode) (isec : Nat)
    (data : inode_disk) (h : inode_wf st isec data) : inode_wf (inode_store st p v) isec data :=
  ⟨h.size_le, h.used, h.inj⟩

theorem inode_deref_of_open_inodes (st st1 : filesys) (p : Nat)
    (h : st1.open_inodes = st.open_inodes) : inode_deref st1 p = inode_deref st p := by
  unfold inode_deref
  rw [h]

theorem mem_block_path_data (q pos : Nat) : slot_id.data q ∈ block_path pos ↔ q = pos := by
  unfold block_path
  split_ifs <;> simp

theorem mem_block_path_ind (pos : Nat) : slot_id.ind ∈ block_path pos ↔ 12 ≤ pos ∧ pos < 140 := by
  unfold block_path
  simp only [DIRECT_MAX, SECTOR_MAX]
  split_ifs <;> simp <;> omega

theorem mem_block_path_dbl (pos : Nat) : slot_id.dbl ∈ block_path pos ↔ 140 ≤ pos := by
  unfold block_path
  simp only [DIRECT_MAX, SECTOR_MAX]
  split_ifs <;> simp <;> omega

theorem mem_block_path_dind (k pos : Nat) :
    slot_id.dind k ∈ block_path pos ↔ 140 ≤ pos ∧ k = (pos - 140) / 128 := by
  unfold block_path
  simp only [DIRECT_MAX, SECTOR_MAX]
  split_ifs <;> simp <;> omega

theorem block_range_byte (size offset q : Nat) (hn : 0 < size) (h1 : offset / 512 ≤ q)
    (h2 : q ≤ (offset + size - 1) / 512) :
    ∃ j, offset ≤ j ∧ j < offset + size ∧ j / 512 = q :=
  ⟨max offset (512 * q), by omega, by omega, by omega⟩

theorem byte_block_range (size offset j : Nat) (h1 : offset ≤ j) (h2 : j < offset + size) :
    offset / 512 ≤ j / 512 ∧ j / 512 ≤ (offset + size - 1) / 512 := by
  omega

theorem read_count_eq (L : Int) (size offset : Nat) :
    ((min size (L.toNat - offset) : Nat) : Int) = min (size : Int) (max 0 (L - offset)) := by
  omega

theorem read_free_of_simple (r offset F : Nat) (h : 3 * (r / 512 + 2) ≤ F) :
    3 * ((offset + r + 511) / 512 - offset / 512) ≤ F := by
  omega


theorem map_sector_list_store (l : List inode) (p : Nat) (v : inode) (hv : v.sector = p) :
    (inode_list_store l p v).map (fun i => i.sector) = l.map (fun i => i.sector) := by
  induction l with
  | nil => rfl
  | cons a l ih =>
    by_cases ha : a.sector = p
    · simp only [inode_list_store]
      rw [if_pos ha, List.map_cons, List.map_cons, hv, ha]
    · simp only [inode_list_store]
      rw [if_neg ha, List.map_cons, List.map_cons, ih]

theorem registry_ok_store (st : filesys) (p : Nat) (v : inode) (hv : v.sector = p)
    (h : registry_ok st) : registry_ok (inode_store st p v) := by
  unfold registry_ok inode_store
  simp only
  rw [map_sector_list_store _ p v hv]
  exact h

theorem inode_close_last (st : filesys) (p : Nat) (i : inode) (hd : inode_deref st p = some i)
    (hlast : i.open_cnt = 1) (hrm : i.removed = false) :
    inode_close st (some p) = some (closed_state st p i.data) := by
  have hsec := inode_deref_sector st p i hd
  unfold inode_close closed_state
  simp only [hd, hlast, hrm, hsec]
  simp

theorem inode_deref_closed (st : filesys) (p : Nat) (data : inode_disk) (h : registry_ok st) :
    inode_deref (closed_state st p data) p = none :=
  find_eraseP_nodup st.open_inodes p h

theorem inode_open_fresh (st : filesys) (p : Nat) (h : inode_deref st p = none) :
    inode_open st p
      = ({ st with open_inodes := loaded_inode st p :: st.open_inodes }, loaded_inode st p) := by
  unfold inode_open loaded_inode
  simp only [h]

theorem inode_deref_open_fresh (st : filesys) (p : Nat) (h : inode_deref st p = none) :
    inode_deref (inode_open st p).1 p = some (loaded_inode st p) := by
  rw [inode_open_fresh st p h]
  unfold inode_deref
  simp only [List.find?_cons]
  simp [loaded_inode]

theorem loaded_closed (st : filesys) (p : Nat) (data : inode_disk) :
    (loaded_inode (closed_state st p data) p).data = data := by
  unfold loaded_inode closed_state disk_read disk_write
  simp only [Function.update_same]

theorem sector_view_reopen (st : filesys) (p : Nat) (data : inode_disk) (t : Nat) (h : t ≠ p) :
    sector_view (inode_open (closed_state st p data) p).1 t = sector_view st t := by
  have e : sector_view (inode_open (closed_state st p data) p).1 t
      = sector_view (disk_write st p data.bytes) t := by
    unfold inode_open
    cases inode_deref (closed_state st p data) p <;> rfl
  rw [e, sector_view_disk_write st p data.bytes t h]

theorem cache_table_reopen (st : filesys) (p : Nat) (data : inode_disk) :
    (inode_open (closed_state st p data) p).1.cache_table = st.cache_table := by
  unfold inode_open
  cases inode_deref (closed_state st p data) p <;> rfl

theorem free_map_reopen (st : filesys) (p : Nat) (data : inode_disk) :
    (inode_open (closed_state st p data) p).1.free_map = st.free_map := by
  unfold inode_open
  cases inode_deref (closed_state st p data) p <;> rfl


theorem bytes_to_sectors_le (length : Nat) (h : length ≤ 8460288) :
    bytes_to_sectors (length : Int) ≤ 16524 := by
  unfold bytes_to_sectors
  simp only [DISK_SECTOR_SIZE]
  omega

theorem inode_create_spec (st : filesys) (sector length : Nat) ( is_dir : Bool) (parent_dir : Nat)
    (hok : cache_ok st.cache_table) (hsz : st.free_map.size ≤ UNUSED_SECTOR)
    (hs1 : sector < st.free_map.size) (hs2 : st.free_map.used sector = true)
    (hlen : length ≤ 8460288) :
    ∃ data1 stL ok,
      inode_create st sector length is_dir parent_dir
        = some (if ok = true then disk_write stL sector data1.bytes else stL, ok) ∧
      cache_ok stL.cache_table ∧
      evolves (fun r => ∃ q, q < bytes_to_sectors (length : Int) ∧ r ∈ block_path q)
        (fun _ => none) sector st (inode_create_image length is_dir parent_dir) stL data1 ∧
      (ok = true → ∀ q, q < bytes_to_sectors (length : Int) →
        block_slot stL data1 q ≠ UNUSED_SECTOR) ∧
      (3 * bytes_to_sectors (length : Int) ≤ free_count st.free_map → ok = true) ∧
      inode_create_loop (bytes_to_sectors (length : Int)) 0 st
        (inode_create_image length is_dir parent_dir) true = some (data1, stL, ok) := by
  have hw := (inode_create_image_words length is_dir parent_dir).1
  have hwf := inode_wf_of_unused st sector (inode_create_image length is_dir parent_dir)
    hsz hs1 hs2 hw
  obtain ⟨data1, stL, ok, h1, h2, h3, h4, h5⟩ := inode_create_loop_spec sector
    (bytes_to_sectors (length : Int)) 0 st (inode_create_image length is_dir parent_dir) true
    hok hwf (by rw [Nat.zero_add]; exact bytes_to_sectors_le length hlen)
  refine ⟨data1, stL, ok, ?_, h2, ?_, ?_, h5, h1⟩
  · unfold inode_create
    simp only [h1]
    cases ok <;> simp
  · apply evolves_mono _ _ _ sector st _ stL data1 _ h3
    rintro r ⟨q, _, q2, q3⟩
    exact ⟨q, by omega, q3⟩
  · intro hk q hq
    exact (h4 hk).2 q (Nat.zero_le _) (by omega)

theorem sector_view_inode_open (st : filesys) (p : Nat) :
    sector_view (inode_open st p).1 = sector_view st := by
  unfold inode_open
  cases inode_deref st p <;> rfl

theorem cache_table_inode_open (st : filesys) (p : Nat) :
    (inode_open st p).1.cache_table = st.cache_table := by
  unfold inode_open
  cases inode_deref st p <;> rfl

theorem free_map_inode_open (st : filesys) (p : Nat) :
    (inode_open st p).1.free_map = st.free_map := by
  unfold inode_open
  cases inode_deref st p <;> rfl

theorem file_inv_create ( holes : Bool) (st : filesys) (sector length : Nat) ( is_dir : Bool)
    (parent_dir : Nat) (st1 : filesys)
    (hok : cache_ok st.cache_table) (hsz : st.free_map.size ≤ UNUSED_SECTOR)
    (hs1 : sector < st.free_map.size) (hs2 : st.free_map.used sector = true)
    (hlen : length ≤ 8460288) (hnone : inode_deref st sector = none)
    (hc : inode_create st sector length is_dir parent_dir = some (st1, true)) :
    file_inv holes (inode_open st1 sector).1 sector (loaded_inode st1 sector) := by
  obtain ⟨data1, stL, ok, c1, c2, c3, c4, c5, _⟩ := inode_create_spec st sector length is_dir
    parent_dir hok hsz hs1 hs2 hlen
  rw [hc] at c1
  simp only [Option.some.injEq, Prod.mk.injEq] at c1
  obtain ⟨e1, e2⟩ := c1
  subst e2
  rw [if_pos rfl] at e1
  subst e1
  have hw := inode_create_image_words length is_dir parent_dir
  have hun : ∀ r : slot_id, r ≠ slot_id.self →
      slot_sector st sector (inode_create_image length is_dir parent_dir) r = UNUSED_SECTOR :=
    fun r hr => slots_unused_of_words st sector _ hw.1 r hr
  have hdata : (loaded_inode (disk_write stL sector data1.bytes) sector).data = data1 := by
    unfold loaded_inode disk_read disk_write
    simp only [Function.update_same]
  have hnone1 : inode_deref (disk_write stL sector data1.bytes) sector = none := by
    rw [← hnone]
    exact inode_deref_of_open_inodes st _ sector c3.open_inodes
  obtain ⟨g1, g2, g3⟩ := frame_of_views stL (inode_open (disk_write stL sector data1.bytes) sector).1
    sector data1 data1 c3.wf (fun _ _ => rfl)
    (fun t ht => by
      rw [sector_view_inode_open]; exact sector_view_disk_write stL sector _ t ht)
    (by rw [free_map_inode_open]; rfl) (by intro t ht; rw [free_map_inode_open]; exact ht)
  have hl : inode_length data1 = length := by
    rw [inode_length_eq_of_fields _ _ c3.fields]
    unfold inode_length
    rw [hw.2.2.2.1]
    unfold off_t_val
    have e : length % 4294967296 = length := Nat.mod_eq_of_lt (by omega)
    simp only [Nat.mod_mod]
    rw [e, if_pos (by omega)]
  refine ⟨inode_deref_open_fresh _ sector hnone1, ?_, ?_, ?_, ?_, ?_, ?_⟩
  · rw [cache_table_inode_open]; exact c2
  · rw [hdata]; exact g2
  · rw [hdata, hl]; exact Int.natCast_nonneg _
  · rw [hdata, hl]; exact_mod_cast hlen
  · rw [hdata]
    intro j _ hj
    rw [g3 j hj, c3.content j hj]
    simp only
    unfold file_content
    have e := hun (slot_id.data (j / DISK_SECTOR_SIZE)) (by simp)
    simp only [slot_sector] at e
    rw [if_pos e]
  · intro _
    rw [hdata]
    intro q hq
    rw [hl] at hq
    have hv : q < MAX_BLOCKS := lt_of_lt_of_le hq (bytes_to_sectors_le length hlen)
    have e := g1 (slot_id.data q) hv
    simp only [slot_sector] at e
    rw [e]
    have hne := c4 rfl q hq
    have hu := (g2.used (slot_id.data q) hv (by simp only [slot_sector]; rw [e]; exact hne)).2
    simp only [slot_sector] at hu
    rw [e] at hu
    exact ⟨hne, hu⟩


theorem dense_arith (L : Int) (o s q : Nat) (h0 : 0 ≤ L) (ho : (o : Int) ≤ L)
    (h1 : q < bytes_to_sectors (max L ((o + s : Nat) : Int)))
    (h2 : ¬ q < bytes_to_sectors L) :
    0 < s ∧ o / 512 ≤ q ∧ q ≤ (o + s - 1) / 512 := by
  unfold bytes_to_sectors at h1 h2
  simp only [DISK_SECTOR_SIZE] at h1 h2
  omega

theorem blocks_allocated_of_keep (st st1 : filesys) (p : Nat) (data data1 : inode_disk)
    (hwf1 : inode_wf st1 p data1)
    (hkeep : ∀ r : slot_id, r.valid → slot_sector st p data r ≠ UNUSED_SECTOR →
      slot_sector st1 p data1 r = slot_sector st p data r)
    (q : Nat) (hq : q < MAX_BLOCKS) (h : block_slot st data q ≠ UNUSED_SECTOR) :
    block_slot st1 data1 q ≠ UNUSED_SECTOR ∧ st1.free_map.used (block_slot st1 data1 q) = true := by
  have e := hkeep (slot_id.data q) hq h
  simp only [slot_sector] at e
  have hne : block_slot st1 data1 q ≠ UNUSED_SECTOR := by rw [e]; exact h
  exact ⟨hne, (hwf1.used (slot_id.data q) hq hne).2⟩

theorem sectors_lt_max (L : Int) (q : Nat) (h : L ≤ 8460288) (hq : q < bytes_to_sectors L) :
    q < MAX_BLOCKS := by
  unfold bytes_to_sectors at hq
  simp only [DISK_SECTOR_SIZE, MAX_BLOCKS] at hq ⊢
  omega

theorem file_inv_write ( holes : Bool) (st : filesys) (p : Nat) (i : inode)
    (buffer : Nat → Nat) (size offset : Nat) (st1 : filesys) (n : Nat)
    (h : file_inv holes st p i) (hmax : offset + size ≤ 8460288)
    (hfree : 0 < size →
      3 * ((offset + size + 511) / 512 - offset / 512) ≤ free_count st.free_map)
    (hh : holes = false → (offset : Int) ≤ inode_length i.data)
    (hw : inode_write_at st p buffer size offset = some (st1, n)) :
    ∃ i1, file_inv holes st1 p i1 := by
  by_cases hdeny : i.deny_write_cnt = 0
  · obtain ⟨stA, data1, s1, s2, s3, s4⟩ := inode_write_at_spec st p i buffer size offset h.deref
      hdeny h.cache h.wf hmax hfree
    obtain ⟨f1, f2, f3⟩ := write_start_frame st p i.data size offset h.wf
    rw [s1] at hw
    simp only [Option.some.injEq, Prod.mk.injEq] at hw
    obtain ⟨e1, _⟩ := hw
    subst e1
    have hsec := inode_deref_sector st p i h.deref
    have hd1 : inode_deref stA p = some i := by
      rw [inode_deref_of_open_inodes st stA p s3.open_inodes]; exact h.deref
    have hlen : inode_length data1 = max (inode_length i.data) ((offset + size : Nat) : Int) := by
      rw [inode_length_eq_of_fields _ _ s3.fields, write_start_length i.data size offset hmax]
    have h0 := h.len_nonneg
    have h8 := h.len_le
    refine ⟨{ i with data := data1 }, inode_deref_store stA p i _ hd1 hsec, s2,
      inode_wf_inode_store stA p _ p data1 s3.wf, ?_, ?_, ?_, ?_⟩
    · show 0 ≤ inode_length data1
      rw [hlen]; omega
    · show inode_length data1 ≤ 8460288
      rw [hlen]; omega
    · intro j hj hv
      have hj' : inode_length data1 ≤ (j : Int) := hj
      rw [hlen] at hj'
      show file_content stA data1 j = 0
      rw [s3.content j hv, if_neg (by omega)]
      show file_content st (write_start i.data size offset) j = 0
      rw [f3 j hv]
      exact h.tail j (by omega) hv
    · intro hf q hq
      have hq' : q < bytes_to_sectors (inode_length data1) := hq
      rw [hlen] at hq'
      show block_slot stA data1 q ≠ UNUSED_SECTOR ∧
        stA.free_map.used (block_slot stA data1 q) = true
      have hv : q < MAX_BLOCKS := sectors_lt_max _ q (by omega) hq'
      by_cases hold : q < bytes_to_sectors (inode_length i.data)
      · apply blocks_allocated_of_keep st stA p (write_start i.data size offset) data1 s3.wf
          s3.keep q hv
        have e := f1 (slot_id.data q) hv
        simp only [slot_sector] at e
        rw [e]
        exact (h.dense hf q hold).1
      · obtain ⟨a1, a2, a3⟩ := dense_arith _ offset size q h0 (hh hf) hq' hold
        obtain ⟨j, j1, j2, j3⟩ := block_range_byte size offset q a1 a2 a3
        have hne := s4 j j1 j2
        rw [j3] at hne
        exact ⟨hne, (s3.wf.used (slot_id.data q) hv hne).2⟩
  · unfold inode_write_at at hw
    simp only [h.deref] at hw
    rw [if_pos hdeny] at hw
    simp only [Option.some.injEq, Prod.mk.injEq] at hw
    rw [← hw.1]
    exact ⟨i, h⟩

theorem file_inv_read ( holes : Bool) (st : filesys) (p : Nat) (i : inode)
    (buffer : Nat → Nat) (size offset : Nat) (st1 : filesys) (buffer1 : Nat → Nat) (n : Nat)
    (h : file_inv holes st p i)
    (hmax : 0 < size → offset < 8460288 ∧
      (offset + size ≤ 8460288 ∨ inode_length i.data < 8460288))
    (hfree : 3 * (min size ((inode_length i.data).toNat - offset) / 512 + 2)
      ≤ free_count st.free_map)
    (hr : inode_read_at st p buffer size offset = some (st1, buffer1, n)) :
    ∃ i1, file_inv holes st1 p i1 := by
  obtain ⟨stA, data1, b1, s1, s2, s3, _⟩ := inode_read_at_spec st p i buffer size offset h.deref
    h.cache h.wf hmax (fun _ _ => Or.inl (read_free_of_simple _ offset _ hfree))
  rw [s1] at hr
  simp only [Option.some.injEq, Prod.mk.injEq] at hr
  obtain ⟨e1, _, _⟩ := hr
  subst e1
  have hsec := inode_deref_sector st p i h.deref
  have hd1 : inode_deref stA p = some i := by
    rw [inode_deref_of_open_inodes st stA p s3.open_inodes]; exact h.deref
  have hlen : inode_length data1 = inode_length i.data :=
    inode_length_eq_of_fields _ _ s3.fields
  refine ⟨{ i with data := data1 }, inode_deref_store stA p i _ hd1 hsec, s2,
    inode_wf_inode_store stA p _ p data1 s3.wf, ?_, ?_, ?_, ?_⟩
  · show 0 ≤ inode_length data1
    rw [hlen]; exact h.len_nonneg
  · show inode_length data1 ≤ 8460288
    rw [hlen]; exact h.len_le
  · intro j hj hv
    have hj' : inode_length data1 ≤ (j : Int) := hj
    rw [hlen] at hj'
    show file_content stA data1 j = 0
    rw [s3.content j hv]
    exact h.tail j hj' hv
  · intro hf q hq
    have hq' : q < bytes_to_sectors (inode_length data1) := hq
    rw [hlen] at hq'
    have hv : q < MAX_BLOCKS := sectors_lt_max _ q h.len_le hq'
    exact blocks_allocated_of_keep st stA p i.data data1 s3.wf s3.keep q hv (h.dense hf q hq').1

theorem file_reach_inv ( holes : Bool) (st : filesys) (p : Nat) (h : file_reach holes st p) :
    ∃ i, file_inv holes st p i := by
  induction h with
  | create st sector length is_dir parent_dir st1 h1 h2 h3 h4 h5 h6 h7 =>
    exact ⟨_, file_inv_create holes st sector length is_dir parent_dir st1 h1 h2 h3 h4 h5 h6 h7⟩
  | write st p i buffer size offset st1 n _ hd hmax hfree hh hw ih =>
    obtain ⟨i0, hi⟩ := ih
    have e : i0 = i := Option.some.inj (hi.deref.symm.trans hd)
    subst e
    exact file_inv_write holes st p i0 buffer size offset st1 n hi hmax hfree hh hw
  | read st p i buffer size offset st1 buffer1 n _ hd hmax hfree hr ih =>
    obtain ⟨i0, hi⟩ := ih
    have e : i0 = i := Option.some.inj (hi.deref.symm.trans hd)
    subst e
    exact file_inv_read holes st p i0 buffer size offset st1 buffer1 n hi hmax hfree hr

theorem sample_cache_ok : cache_ok sample_open.cache_table := by
  simp [cache_ok, sample_open, sample_disk]

theorem sample_wf : inode_wf sample_open 2 sample_inode.data :=
  inode_wf_of_unused sample_open 2 sample_inode.data (by decide) (by decide) (by decide)
    (inode_create_image_words 0 false 1).1

theorem sample_free : free_count sample_open.free_map = 37 := by decide

theorem sample_deref : inode_deref sample_open 2 = some sample_inode := rfl

theorem missing_levels_root (st : filesys) (data : inode_disk) :
    (data.indirect = UNUSED_SECTOR → missing_levels st data 12 = 2) ∧
    (data.double_indirect = UNUSED_SECTOR → missing_levels st data 140 = 3) := by
  constructor
  · intro h
    rw [missing_ind st data 12 (le_refl _) (by omega), block_slot_ind st data 12 (le_refl _)
      (by omega), h, child_slot_unused]
    simp
  · intro h
    rw [missing_dbl st data 140 (le_refl _), block_slot_dbl st data 140 (le_refl _)]
    unfold indirect_slot
    rw [h, child_slot_unused, child_slot_unused]
    simp

theorem child_slot_set (st : filesys) (X k : Nat) (h : child_slot st X k ≠ UNUSED_SECTOR) :
    X ≠ UNUSED_SECTOR ∧ get32 (sector_view st X) k = child_slot st X k := by
  unfold child_slot at h ⊢
  by_cases e : X = UNUSED_SECTOR
  · rw [if_pos e] at h; exact absurd rfl h
  · rw [if_neg e]; exact ⟨e, rfl⟩

/-- C4: for every logical block index `pos < 12 + 128 + 128 * 128` of a well-formed
inode, when the free map has the (at most three) sectors that the path to the
block lacks, `allocate_block` returns a sector other than `UNUSED_SECTOR` that is
marked used, and this sector is what the index structure then holds for `pos`
(`direct[pos]`, entry `pos - 12` of the indirect block, or entry
`(pos - 140) % 128` of the indirect block at entry `(pos - 140) / 128` of the
double-indirect block).  The free map loses one sector per missing level (two
for block 12 without an indirect block, three for block 140 without a
double-indirect block), nothing when the block was allocated, and a second
call returns the same sector and allocates nothing. -/
theorem allocate_block_resolves (isec : Nat) (st : filesys) (data : inode_disk) (pos : Nat)
    (hok : cache_ok st.cache_table) (hwf : inode_wf st isec data)
    (hpos : pos < 12 + 128 + 128 * 128) (hfree : 3 ≤ free_count st.free_map) :
    ∃ s st1 data1, allocate_block st data pos = some (s, data1, st1) ∧
      s ≠ UNUSED_SECTOR ∧ s < st1.free_map.size ∧ st1.free_map.used s = true ∧
      block_slot st1 data1 pos = s ∧
      (pos < 12 → data1.direct pos = s) ∧
      (12 ≤ pos → pos < 140 → data1.indirect ≠ UNUSED_SECTOR ∧
        get32 (sector_view st1 data1.indirect) (pos - 12) = s) ∧
      (140 ≤ pos → data1.double_indirect ≠ UNUSED_SECTOR ∧
        get32 (sector_view st1 data1.double_indirect) ((pos - 140) / 128) ≠ UNUSED_SECTOR ∧
        get32 (sector_view st1 (get32 (sector_view st1 data1.double_indirect)
          ((pos - 140) / 128))) ((pos - 140) % 128) = s) ∧
      free_count st1.free_map + missing_levels st data pos = free_count st.free_map ∧
      (pos = 12 → data.indirect = UNUSED_SECTOR →
        free_count st1.free_map + 2 = free_count st.free_map) ∧
      (pos = 140 → data.double_indirect = UNUSED_SECTOR →
        free_count st1.free_map + 3 = free_count st.free_map) ∧
      (block_slot st data pos ≠ UNUSED_SECTOR →
        s = block_slot st data pos ∧ data1 = data ∧ st1.free_map = st.free_map) ∧
      (∃ st2, allocate_block st1 data1 pos = some (s, data1, st2) ∧
        st2.free_map = st1.free_map) := by
  have hp : pos < MAX_BLOCKS := hpos
  obtain ⟨s, st1, data1, a1, a2, a3, a4, a5, a6⟩ := allocate_block_total isec st data pos hok hwf hp
  have hm := missing_le_three st data pos
  obtain ⟨hs, hc⟩ := a5 (le_trans hm hfree)
  have hslot := a4 hs
  have hu := a3.wf.used (slot_id.data pos) hp (by simp only [slot_sector]; rw [hslot]; exact hs)
  simp only [slot_sector] at hu
  rw [hslot] at hu
  obtain ⟨s2, st2, data2, b1, _, _, _, _, b6⟩ :=
    allocate_block_total isec st1 data1 pos a2 a3.wf hp
  obtain ⟨c1, c2, _, c4⟩ := b6 (by rw [hslot]; exact hs)
  refine ⟨s, st1, data1, a1, hs, hu.1, hu.2, hslot, ?_, ?_, ?_, hc, ?_, ?_, ?_, st2, ?_, c4⟩
  · intro h
    rw [← hslot, block_slot_direct st1 data1 pos h]
  · intro h1 h2
    have e := block_slot_ind st1 data1 pos h1 h2
    rw [hslot] at e
    obtain ⟨e1, e2⟩ := child_slot_set st1 data1.indirect (pos - 12) (by rw [← e]; exact hs)
    exact ⟨e1, by rw [e2, ← e]⟩
  · intro h1
    have e := block_slot_dbl st1 data1 pos h1
    rw [hslot] at e
    obtain ⟨e1, e2⟩ := child_slot_set st1 _ ((pos - 140) % 128) (by rw [← e]; exact hs)
    obtain ⟨e3, e4⟩ := child_slot_set st1 data1.double_indirect ((pos - 140) / 128) e1
    refine ⟨e3, by rw [e4]; exact e1, ?_⟩
    rw [e4, e2, ← e]
  · intro h1 h2
    subst h1
    rw [← hc, (missing_levels_root st data).1 h2]
  · intro h1 h2
    subst h1
    rw [← hc, (missing_levels_root st data).2 h2]
  · intro h
    obtain ⟨d1, d2, _, d4⟩ := a6 h
    exact ⟨d1, d2, d4⟩
  · rw [b1, c1, c2, hslot]

theorem allocate_block_resolves_witness :
    cache_ok sample_open.cache_table ∧ inode_wf sample_open 2 sample_inode.data ∧
    140 < 12 + 128 + 128 * 128 ∧ 3 ≤ free_count sample_open.free_map ∧
    ∃ s st1 data1, allocate_block sample_open sample_inode.data 140 = some (s, data1, st1) ∧
      s ≠ UNUSED_SECTOR ∧ free_count st1.free_map + 3 = free_count sample_open.free_map := by
  refine ⟨sample_cache_ok, sample_wf, by decide, by decide, ?_⟩
  obtain ⟨s, st1, data1, h1, h2, _, _, _, _, _, _, _, _, h3, _⟩ :=
    allocate_block_resolves 2 sample_open sample_inode.data 140 sample_cache_ok sample_wf
      (by decide) (by decide)
  exact ⟨s, st1, data1, h1, h2, h3 rfl ((inode_create_image_words 0 false 1).1 13 (by decide))⟩

/-- C3, as stated, fails for a write that ends beyond the maximum file size: one
byte written at offset 8460288 (logical block 16524) of an empty inode, with 37
free sectors at hand, does not return; `allocate_block` has no bound on `pos`
and reads entry 128 of the double-indirect block, outside the sector. -/
theorem write_beyond_maximum_fails :
    (inode_write_at sample_open 2 (fun _ => 7) 1 8460288).map Prod.snd = none := by
  decide

/-- C3, amended: on an open, well-formed inode with `deny_write_cnt = 0`, a write of
`size > 0` bytes at `offset` that ends within the maximum file size, with three
free sectors per block of the range, returns `size`, sets the length to
`max (old length) (offset + size)`, leaves every logical block of the range
`offset / 512 .. (offset + size - 1) / 512` allocated (and marked used), keeps
the sector of every block that was allocated, takes the sector of every block
it allocates from the free sectors, and keeps the slot of every block outside
the range.  So 600 bytes at offset 0 on an empty file give length 600 with
`direct[0]` and `direct[1]` allocated and every other slot unused, and one byte
at offset 71680 gives length 71681 with the double-indirect block, its entry 0
and entry 0 of that indirect block allocated and everything else unused. -/
theorem inode_write_at_extends (st : filesys) (p : Nat) (i : inode) (buffer : Nat → Nat)
    (size offset : Nat) (hd : inode_deref st p = some i) (hdeny : i.deny_write_cnt = 0)
    (hok : cache_ok st.cache_table) (hwf : inode_wf st p i.data) (hn : 0 < size)
    (hmax : offset + size ≤ 8460288)
    (hfree : 3 * ((offset + size + 511) / 512 - offset / 512) ≤ free_count st.free_map) :
    ∃ st1 i1, inode_write_at st p buffer size offset = some (st1, size) ∧
      inode_deref st1 p = some i1 ∧
      inode_length i1.data = max (inode_length i.data) ((offset + size : Nat) : Int) ∧
      (∀ q, offset / 512 ≤ q → q ≤ (offset + size - 1) / 512 →
        block_slot st1 i1.data q ≠ UNUSED_SECTOR ∧
        st1.free_map.used (block_slot st1 i1.data q) = true) ∧
      (∀ q, q < 16524 → block_slot st i.data q ≠ UNUSED_SECTOR →
        block_slot st1 i1.data q = block_slot st i.data q) ∧
      (∀ q, q < 16524 → block_slot st i.data q = UNUSED_SECTOR →
        block_slot st1 i1.data q ≠ UNUSED_SECTOR →
        st.free_map.used (block_slot st1 i1.data q) = false) ∧
      (∀ q, q < 16524 → (q < offset / 512 ∨ (offset + size - 1) / 512 < q) →
        block_slot st1 i1.data q = block_slot st i.data q) ∧
      ((∀ j, j < 14 → get32 i.data.bytes j = UNUSED_SECTOR) → inode_length i.data = 0 →
        (offset = 0 → size = 600 →
          inode_length i1.data = 600 ∧ i1.data.direct 0 ≠ UNUSED_SECTOR ∧
          i1.data.direct 1 ≠ UNUSED_SECTOR ∧
          (∀ k, 2 ≤ k → k < 12 → i1.data.direct k = UNUSED_SECTOR) ∧
          i1.data.indirect = UNUSED_SECTOR ∧ i1.data.double_indirect = UNUSED_SECTOR) ∧
        (offset = 71680 → size = 1 →
          inode_length i1.data = 71681 ∧ i1.data.double_indirect ≠ UNUSED_SECTOR ∧
          indirect_slot st1 i1.data 0 ≠ UNUSED_SECTOR ∧ block_slot st1 i1.data 140 ≠ UNUSED_SECTOR ∧
          (∀ k, k < 12 → i1.data.direct k = UNUSED_SECTOR) ∧
          i1.data.indirect = UNUSED_SECTOR ∧
          (∀ k, 1 ≤ k → k < 128 → indirect_slot st1 i1.data k = UNUSED_SECTOR) ∧
          (∀ q, q < 16524 → q ≠ 140 → block_slot st1 i1.data q = UNUSED_SECTOR))) := by
  obtain ⟨st1, data1, h1, h2, h3, h4⟩ := inode_write_at_spec st p i buffer size offset hd hdeny
    hok hwf hmax (fun _ => hfree)
  obtain ⟨f1, f2, f3⟩ := write_start_frame st p i.data size offset hwf
  have hsec := inode_deref_sector st p i hd
  have hd1 : inode_deref st1 p = some i := by
    rw [inode_deref_of_open_inodes st st1 p h3.open_inodes]; exact hd
  have hlen : inode_length data1 = max (inode_length i.data) ((offset + size : Nat) : Int) := by
    rw [inode_length_eq_of_fields _ _ h3.fields, write_start_length i.data size offset hmax]
  have hkeep : ∀ r : slot_id, r.valid → slot_sector st p i.data r ≠ UNUSED_SECTOR →
      slot_sector st1 p data1 r = slot_sector st p i.data r := by
    intro r hr hu
    rw [← f1 r hr] at hu ⊢
    exact h3.keep r hr hu
  have hunt : ∀ r : slot_id, r.valid →
      ¬ (∃ j, offset ≤ j ∧ j < offset + size ∧ r ∈ block_path (j / 512)) →
      slot_sector st1 p data1 r = slot_sector st p i.data r := by
    intro r hr hu
    rw [← f1 r hr]
    exact h3.untouched r hr hu
  have hempty : (∀ j, j < 14 → get32 i.data.bytes j = UNUSED_SECTOR) →
      ∀ r : slot_id, r.valid → r ≠ slot_id.self →
      ¬ (∃ j, offset ≤ j ∧ j < offset + size ∧ r ∈ block_path (j / 512)) →
      slot_sector st1 p data1 r = UNUSED_SECTOR := by
    intro he r hr hrs hu
    rw [hunt r hr hu]
    exact slots_unused_of_words st p i.data he r hrs
  refine ⟨inode_store st1 p { i with data := data1 }, { i with data := data1 }, h1,
    inode_deref_store st1 p i _ hd1 hsec, hlen, ?_, ?_, ?_, ?_, ?_⟩
  · intro q hq1 hq2
    obtain ⟨j, j1, j2, j3⟩ := block_range_byte size offset q hn hq1 hq2
    have hq : q < MAX_BLOCKS := by
      simp only [MAX_BLOCKS]; clear h3 h4 f1 f2 f3 hkeep hunt hempty; omega
    have hu := h4 j j1 j2
    rw [j3] at hu
    exact ⟨hu, (h3.wf.used (slot_id.data q) hq hu).2⟩
  · intro q hq hu
    exact hkeep (slot_id.data q) hq hu
  · intro q hq hu hu1
    have := h3.fresh (slot_id.data q) hq (by rw [f1 (slot_id.data q) hq]; exact hu) hu1
    exact this
  · intro q hq hout
    apply hunt (slot_id.data q) hq
    rintro ⟨j, j1, j2, j3⟩
    rw [mem_block_path_data] at j3
    have := byte_block_range size offset j j1 j2
    clear h3 h4 f1 f2 f3 hkeep hunt hempty
    omega
  · intro he hl0
    have hall := hempty he
    constructor
    · intro ho hs
      subst ho hs
      refine ⟨by rw [hlen, hl0]; rfl, ?_, ?_, ?_, ?_, ?_⟩
      · exact h4 0 (le_refl _) (by omega)
      · exact h4 512 (by omega) (by omega)
      · intro k k1 k2
        have e := hall (slot_id.data k) (by simp only [slot_id.valid, MAX_BLOCKS]; omega)
          (by simp) (by
            rintro ⟨j, j1, j2, j3⟩
            rw [mem_block_path_data] at j3
            omega)
        simp only [slot_sector] at e
        rw [block_slot_direct st1 data1 k k2] at e
        exact e
      · apply hall slot_id.ind trivial (by simp)
        rintro ⟨j, j1, j2, j3⟩
        rw [mem_block_path_ind] at j3
        omega
      · apply hall slot_id.dbl trivial (by simp)
        rintro ⟨j, j1, j2, j3⟩
        rw [mem_block_path_dbl] at j3
        omega
    · intro ho hs
      subst ho hs
      have hb : block_slot st1 data1 140 ≠ UNUSED_SECTOR := h4 71680 (le_refl _) (by omega)
      have e := block_slot_dbl st1 data1 140 (le_refl _)
      have hi : indirect_slot st1 data1 0 ≠ UNUSED_SECTOR := by
        intro hc
        apply hb
        rw [e]
        unfold indirect_slot at hc
        simp only [Nat.sub_self, Nat.zero_div] at hc ⊢
        rw [hc, child_slot_unused]
      have hdb : data1.double_indirect ≠ UNUSED_SECTOR := by
        intro hc
        apply hi
        unfold indirect_slot
        rw [hc, child_slot_unused]
      refine ⟨by rw [hlen, hl0]; rfl, hdb, hi, hb, ?_, ?_, ?_, ?_⟩
      · intro k k1
        have e := hall (slot_id.data k) (by simp only [slot_id.valid, MAX_BLOCKS]; omega)
          (by simp) (by
            rintro ⟨j, j1, j2, j3⟩
            rw [mem_block_path_data] at j3
            omega)
        simp only [slot_sector] at e
        rw [block_slot_direct st1 data1 k k1] at e
        exact e
      · apply hall slot_id.ind trivial (by simp)
        rintro ⟨j, j1, j2, j3⟩
        rw [mem_block_path_ind] at j3
        omega
      · intro k k1 k2
        apply hall (slot_id.dind k) (by simp only [slot_id.valid, SECTOR_MAX]; omega) (by simp)
        rintro ⟨j, j1, j2, j3⟩
        rw [mem_block_path_dind] at j3
        omega
      · intro q q1 q2
        apply hall (slot_id.data q) q1 (by simp)
        rintro ⟨j, j1, j2, j3⟩
        rw [mem_block_path_data] at j3
        omega

theorem inode_write_at_extends_witness :
    inode_deref sample_open 2 = some sample_inode ∧ sample_inode.deny_write_cnt = 0 ∧
    cache_ok sample_open.cache_table ∧ inode_wf sample_open 2 sample_inode.data ∧
    0 < 600 ∧ 0 + 600 ≤ 8460288 ∧
    3 * ((0 + 600 + 511) / 512 - 0 / 512) ≤ free_count sample_open.free_map ∧
    ∃ st1 i1, inode_write_at sample_open 2 (fun k => k % 251) 600 0 = some (st1, 600) ∧
      inode_deref st1 2 = some i1 ∧ inode_length i1.data = 600 ∧
      i1.data.direct 0 ≠ UNUSED_SECTOR ∧ i1.data.direct 1 ≠ UNUSED_SECTOR ∧
      i1.data.indirect = UNUSED_SECTOR := by
  refine ⟨rfl, rfl, sample_cache_ok, sample_wf, by decide, by decide, by decide, ?_⟩
  obtain ⟨st1, i1, h1, h2, _, _, _, _, _, h3⟩ :=
    inode_write_at_extends sample_open 2 sample_inode (fun k => k % 251) 600 0 rfl rfl
      sample_cache_ok sample_wf (by decide) (by decide) (by decide)
  obtain ⟨a1, a2, a3, _, a5, _⟩ := (h3 (inode_create_image_words 0 false 1).1 (by decide)).1 rfl rfl
  exact ⟨st1, i1, h1, h2, a1, a2, a3, a5⟩

/-- C5, as stated, fails for an offset at the maximum file size: a read of one byte
at offset 8460288 (logical block 16524) of an empty inode, with 37 free sectors
at hand, does not return 0; `inode_read_at` calls `allocate_block` before it
looks at the length, and `allocate_block` has no bound on `pos`. -/
theorem read_beyond_maximum_fails :
    (inode_read_at sample_open 2 zeros 1 8460288).map (fun r => r.2.2) = none := by
  decide

/-- C5, amended: on an open, well-formed inode, for every size and every offset within the
address range of an inode (`offset < 8460288`, and the read ends within that
range or the file is shorter than it), with three free sectors per block
read, `inode_read_at` returns `min size (max 0 (length - offset))`, fills the
buffer with the bytes of the file at offsets `offset`, `offset + 1`, ... in
order (and leaves the rest of the buffer alone), and leaves the length and
the bytes of the file unchanged. -/
theorem inode_read_at_returns (st : filesys) (p : Nat) (i : inode) (buffer : Nat → Nat)
    (size offset : Nat) (hd : inode_deref st p = some i)
    (hok : cache_ok st.cache_table) (hwf : inode_wf st p i.data)
    (hmax : 0 < size → offset < 8460288 ∧
      (offset + size ≤ 8460288 ∨ inode_length i.data < 8460288))
    (hfree : 3 * (min size ((inode_length i.data).toNat - offset) / 512 + 2)
      ≤ free_count st.free_map) :
    ∃ st1 buffer1 i1 n, inode_read_at st p buffer size offset = some (st1, buffer1, n) ∧
      (n : Int) = min (size : Int) (max 0 (inode_length i.data - offset)) ∧
      (∀ k, k < n → buffer1 k = file_content st i.data (offset + k)) ∧
      (∀ k, n ≤ k → buffer1 k = buffer k) ∧
      inode_deref st1 p = some i1 ∧ inode_length i1.data = inode_length i.data ∧
      (∀ j, j / 512 < 16524 → file_content st1 i1.data j = file_content st i.data j) := by
  obtain ⟨st1, data1, buffer1, h1, h2, h3, h4⟩ := inode_read_at_spec st p i buffer size offset hd
    hok hwf hmax (fun _ _ => Or.inl (read_free_of_simple _ offset _ hfree))
  have hsec := inode_deref_sector st p i hd
  have hd1 : inode_deref st1 p = some i := by
    rw [inode_deref_of_open_inodes st st1 p h3.open_inodes]; exact hd
  refine ⟨inode_store st1 p { i with data := data1 }, buffer1, { i with data := data1 }, _, h1,
    read_count_eq _ size offset, ?_, ?_, inode_deref_store st1 p i _ hd1 hsec,
    inode_length_eq_of_fields _ _ h3.fields, ?_⟩
  · intro k hk
    rw [h4 k, if_pos hk]
  · intro k hk
    rw [h4 k, if_neg (Nat.not_lt.2 hk)]
  · intro j hj
    exact h3.content j hj


theorem round_trip_count (L : Int) (n o : Nat) (h : L = max L0 ((o + n : Nat) : Int)) :
    min n (L.toNat - o) = n := by
  omega

/-- C1, as stated, fails on an inode that is marked removed: the close by the
last opener releases the blocks and writes nothing back, so that the read
after the reopen returns 0 bytes instead of 600. -/
theorem removed_round_trip_reads_nothing : removed_round_trip = some 0 := by
  decide

/-- C1, amended: for every open inode that is not marked removed, with writes
allowed, and `n` bytes `B` written at offset `o` with `o + n` within the
maximum file size and three free sectors per block of the range:
`inode_write_at`, then `inode_close` by the last opener, then `inode_open` of
the same sector, then `inode_read_at` of `n` bytes at offset `o` returns `n`
and exactly the bytes `B`. -/
theorem write_close_open_read (st : filesys) (p : Nat) (i : inode) (B dst : Nat → Nat)
    (n o : Nat) (hd : inode_deref st p = some i) (hdeny : i.deny_write_cnt = 0)
    (hlast : i.open_cnt = 1) (hrm : i.removed = false) (hreg : registry_ok st)
    (hok : cache_ok st.cache_table) (hwf : inode_wf st p i.data)
    (hmax : o + n ≤ 8460288)
    (hfree : 0 < n → 3 * ((o + n + 511) / 512 - o / 512) ≤ free_count st.free_map) :
    ∃ st1 st2 st3 out, inode_write_at st p B n o = some (st1, n) ∧
      inode_close st1 (some p) = some st2 ∧ inode_deref st2 p = none ∧
      inode_read_at (inode_open st2 p).1 p dst n o = some (st3, out, n) ∧
      ∀ k, k < n → out k = B k := by
  obtain ⟨st1, data1, h1, h2, h3, h4⟩ := inode_write_at_spec st p i B n o hd hdeny
    hok hwf hmax hfree
  have hsec := inode_deref_sector st p i hd
  have hd1 : inode_deref st1 p = some i := by
    rw [inode_deref_of_open_inodes st st1 p h3.open_inodes]; exact hd
  have hdA := inode_deref_store st1 p i { i with data := data1 } hd1 hsec
  have hregA : registry_ok (inode_store st1 p { i with data := data1 }) := by
    apply registry_ok_store st1 p { i with data := data1 } hsec
    unfold registry_ok
    rw [h3.open_inodes]
    exact hreg
  have hclose := inode_close_last _ p _ hdA hlast hrm
  have hnone := inode_deref_closed (inode_store st1 p { i with data := data1 }) p data1 hregA
  have hd3 := inode_deref_open_fresh _ p hnone
  have hdata := loaded_closed (inode_store st1 p { i with data := data1 }) p data1
  obtain ⟨g1, g2, g3⟩ := frame_of_views st1
    (inode_open (closed_state (inode_store st1 p { i with data := data1 }) p data1) p).1
    p data1 data1 h3.wf (fun _ _ => rfl)
    (fun t ht => sector_view_reopen (inode_store st1 p { i with data := data1 }) p data1 t ht)
    (by rw [free_map_reopen]; rfl) (by intro t ht; rw [free_map_reopen]; exact ht)
  have hlen : inode_length data1 = max (inode_length i.data) ((o + n : Nat) : Int) := by
    rw [inode_length_eq_of_fields _ _ h3.fields, write_start_length i.data n o hmax]
  have hcnt : min n ((inode_length data1).toNat - o) = n := round_trip_count _ n o hlen
  obtain ⟨st3, data3, out, r1, _, _, r4⟩ := inode_read_at_spec _ p _ dst n o hd3
    (by rw [cache_table_reopen]; exact h2) (by rw [hdata]; exact g2)
    (fun _ => ⟨by omega, Or.inl hmax⟩) (by
      intro _ _
      right
      rw [hdata, hcnt]
      intro j j1 j2
      have hv : j / 512 < MAX_BLOCKS := by simp only [MAX_BLOCKS]; omega
      have e := g1 (slot_id.data (j / 512)) hv
      simp only [slot_sector] at e
      rw [e]
      exact h4 j j1 j2)
  rw [hdata, hcnt] at r1
  refine ⟨_, _, _, out, h1, hclose, hnone, r1, ?_⟩
  intro k hk
  rw [r4 k, hdata, hcnt, if_pos hk]
  have hv : (o + k) / DISK_SECTOR_SIZE < MAX_BLOCKS := by
    simp only [DISK_SECTOR_SIZE, MAX_BLOCKS]; omega
  rw [g3 (o + k) hv, h3.content (o + k) hv]
  rw [if_pos ⟨Nat.le_add_right _ _, Nat.add_lt_add_left hk _⟩, Nat.add_sub_cancel_left]

theorem write_close_open_read_witness :
    inode_deref sample_open 2 = some sample_inode ∧ sample_inode.deny_write_cnt = 0 ∧
    sample_inode.open_cnt = 1 ∧ sample_inode.removed = false ∧ registry_ok sample_open ∧
    cache_ok sample_open.cache_table ∧ inode_wf sample_open 2 sample_inode.data ∧
    0 + 600 ≤ 8460288 ∧
    (0 < 600 → 3 * ((0 + 600 + 511) / 512 - 0 / 512) ≤ free_count sample_open.free_map) ∧
    ∃ st1 st2 st3 out, inode_write_at sample_open 2 (fun k => k % 251) 600 0 = some (st1, 600) ∧
      inode_close st1 (some 2) = some st2 ∧ inode_deref st2 2 = none ∧
      inode_read_at (inode_open st2 2).1 2 zeros 600 0 = some (st3, out, 600) ∧
      ∀ k, k < 600 → out k = k % 251 := by
  have hreg : registry_ok sample_open := by
    simp [registry_ok, sample_open, sample_disk]
  exact ⟨rfl, rfl, rfl, rfl, hreg, sample_cache_ok, sample_wf, by decide, fun _ => by decide,
    write_close_open_read sample_open 2 sample_inode (fun k => k % 251) zeros 600 0 rfl rfl rfl
      rfl hreg sample_cache_ok sample_wf (by decide) (fun _ => by decide)⟩


theorem inode_length_image (length : Nat) ( is_dir : Bool) (parent_dir : Nat)
    (h : length ≤ 8460288) :
    inode_length (inode_create_image length is_dir parent_dir) = length := by
  unfold inode_length
  rw [(inode_create_image_words length is_dir parent_dir).2.2.2.1]
  unfold off_t_val
  have e : length % 4294967296 = length := Nat.mod_eq_of_lt (by omega)
  simp only [Nat.mod_mod]
  rw [e, if_pos (by omega)]

theorem inode_create_loop_blocks : ∀ (n i : Nat) (st : filesys) (data : inode_disk)
    (success : Bool) (data1 : inode_disk) (st1 : filesys) (ok : Bool),
    inode_create_loop n i st data success = some (data1, st1, ok) →
    ∃ l, inode_create_blocks n i st data = some l ∧
      (ok = true ↔ success = true ∧ ∀ b ∈ l, b ≠ UNUSED_SECTOR) := by
  intro n
  induction n with
  | zero =>
    intro i st data success data1 st1 ok h
    simp only [inode_create_loop, Option.some.injEq, Prod.mk.injEq] at h
    refine ⟨[], rfl, ?_⟩
    rw [h.2.2]
    simp
  | succ n ih =>
    intro i st data success data1 st1 ok h
    simp only [inode_create_loop] at h
    cases ha : allocate_block st data i with
    | none => rw [ha] at h; simp at h
    | some r =>
      obtain ⟨block, data2, st2⟩ := r
      rw [ha] at h
      simp only at h
      obtain ⟨l, h1, h2⟩ := ih (i + 1) st2 data2 _ data1 st1 ok h
      refine ⟨block :: l, by simp only [inode_create_blocks, ha, h1], ?_⟩
      rw [h2, List.forall_mem_cons]
      by_cases hb : block = UNUSED_SECTOR
      · rw [if_pos hb]
        constructor
        · rintro ⟨h, _⟩; exact absurd h (by simp)
        · rintro ⟨_, h, _⟩; exact absurd hb h
      · rw [if_neg hb]
        constructor
        · rintro ⟨a, b⟩; exact ⟨a, hb, b⟩
        · rintro ⟨a, _, b⟩; exact ⟨a, b⟩

/-- C7, amended: for a length within the maximum file size, a sector that is in use, and a
consistent cache, `inode_create (sector, length, is_dir, parent_dir)` returns;
it returns true when every call of `allocate_block` returns a sector and false
when one returns `UNUSED_SECTOR`; it returns true when the free map has three
sectors per block; when it returns true the device holds at `sector` an inode with the given length,
`INODE_MAGIC`, `is_dir` and `parent_dir` as given, every logical block below
`bytes_to_sectors length` allocated (in sectors that were free), and every other
slot `UNUSED_SECTOR`.  When it returns false the device contents at `sector`
are what they were (for a sector that is not in the cache). -/
theorem inode_create_writes_inode (st : filesys) (sector length : Nat) ( is_dir : Bool)
    (parent_dir : Nat) (hok : cache_ok st.cache_table) (hsz : st.free_map.size ≤ UNUSED_SECTOR)
    (hs1 : sector < st.free_map.size) (hs2 : st.free_map.used sector = true)
    (hlen : length ≤ 8460288) :
    ∃ st1 ok blocks, inode_create st sector length is_dir parent_dir = some (st1, ok) ∧
      inode_create_blocks (bytes_to_sectors (length : Int)) 0 st
        (inode_create_image length is_dir parent_dir) = some blocks ∧
      (ok = true ↔ ∀ b ∈ blocks, b ≠ UNUSED_SECTOR) ∧
      (3 * bytes_to_sectors (length : Int) ≤ free_count st.free_map → ok = true) ∧
      (ok = true → ∃ d : inode_disk, st1.filesys_disk sector = d.bytes ∧
        inode_length d = length ∧ d.magic = INODE_MAGIC ∧
        d.is_dir = (if is_dir then 1 else 0) ∧ d.parent_dir = parent_dir % 4294967296 ∧
        (∀ q, q < bytes_to_sectors (length : Int) →
          block_slot st1 d q ≠ UNUSED_SECTOR ∧
          st1.free_map.used (block_slot st1 d q) = true ∧
          st.free_map.used (block_slot st1 d q) = false) ∧
        (∀ r : slot_id, r.valid → r ≠ slot_id.self →
          (∀ q, q < bytes_to_sectors (length : Int) → r ∉ block_path q) →
          slot_sector st1 sector d r = UNUSED_SECTOR) ∧
        (∀ q, bytes_to_sectors (length : Int) ≤ q → q < 16524 →
          block_slot st1 d q = UNUSED_SECTOR) ∧
        (bytes_to_sectors (length : Int) ≤ 12 → d.indirect = UNUSED_SECTOR) ∧
        (bytes_to_sectors (length : Int) ≤ 140 → d.double_indirect = UNUSED_SECTOR)) ∧
      (ok = false → ¬ cached st sector → st1.filesys_disk sector = st.filesys_disk sector) := by
  obtain ⟨data1, stL, ok, c1, c2, c3, c4, c5, c6⟩ := inode_create_spec st sector length is_dir
    parent_dir hok hsz hs1 hs2 hlen
  obtain ⟨blocks, b1, b2⟩ := inode_create_loop_blocks _ 0 st _ true data1 stL ok c6
  have hw := inode_create_image_words length is_dir parent_dir
  have hun : ∀ r : slot_id, r ≠ slot_id.self →
      slot_sector st sector (inode_create_image length is_dir parent_dir) r = UNUSED_SECTOR :=
    fun r hr => slots_unused_of_words st sector _ hw.1 r hr
  refine ⟨_, ok, blocks, c1, b1, by rw [b2]; simp, c5, ?_, ?_⟩
  · intro hk
    rw [if_pos hk]
    obtain ⟨g1, g2, g3⟩ := frame_of_views stL (disk_write stL sector data1.bytes) sector data1
      data1 c3.wf (fun _ _ => rfl) (fun t ht => sector_view_disk_write stL sector _ t ht) rfl
      (fun _ h => h)
    have hother : ∀ r : slot_id, r.valid → r ≠ slot_id.self →
        (∀ q, q < bytes_to_sectors (length : Int) → r ∉ block_path q) →
        slot_sector (disk_write stL sector data1.bytes) sector data1 r = UNUSED_SECTOR := by
      intro r hr hrs hq
      rw [g1 r hr, c3.untouched r hr (by rintro ⟨q, q1, q2⟩; exact hq q q1 q2)]
      exact hun r hrs
    refine ⟨data1, ?_, ?_, ?_, ?_, ?_, ?_, hother, ?_, ?_, ?_⟩
    · simp only [disk_write, Function.update_same]
    · rw [inode_length_eq_of_fields _ _ c3.fields, inode_length_image length is_dir parent_dir hlen]
    · unfold inode_disk.magic
      rw [c3.fields 17 (by omega)]
      exact hw.2.2.2.2.1
    · unfold inode_disk.is_dir
      rw [c3.fields 14 (by omega)]
      exact hw.2.1
    · unfold inode_disk.parent_dir
      rw [c3.fields 15 (by omega)]
      exact hw.2.2.1
    · intro q hq
      have hv : q < MAX_BLOCKS :=
        lt_of_lt_of_le hq (bytes_to_sectors_le length hlen)
      have e := g1 (slot_id.data q) hv
      simp only [slot_sector] at e
      rw [e]
      have hne := c4 hk q hq
      refine ⟨hne, (c3.wf.used (slot_id.data q) hv hne).2, ?_⟩
      exact c3.fresh (slot_id.data q) hv (hun _ (by simp)) hne
    · intro q q1 q2
      apply hother (slot_id.data q) q2 (by simp)
      intro q' hq' hm
      rw [mem_block_path_data] at hm
      omega
    · intro h
      apply hother slot_id.ind trivial (by simp)
      intro q hq hm
      rw [mem_block_path_ind] at hm
      omega
    · intro h
      apply hother slot_id.dbl trivial (by simp)
      intro q hq hm
      rw [mem_block_path_dbl] at hm
      omega
  · intro hk hnc
    rw [if_neg (by rw [hk]; simp)]
    refine (c3.quiet sector hnc hs1 hs2 ?_).1
    intro r _ hrs
    rw [hun r hrs]
    simp only [UNUSED_SECTOR] at hsz ⊢
    omega

theorem inode_create_writes_inode_witness :
    cache_ok sample_disk.cache_table ∧ sample_disk.free_map.size ≤ UNUSED_SECTOR ∧
    2 < sample_disk.free_map.size ∧ sample_disk.free_map.used 2 = true ∧ 600 ≤ 8460288 ∧
    ∃ st1, inode_create sample_disk 2 600 false 1 = some (st1, true) := by
  have hok : cache_ok sample_disk.cache_table := by simp [cache_ok, sample_disk]
  refine ⟨hok, by decide, by decide, by decide, by decide, ?_⟩
  obtain ⟨st1, ok, _, h1, _, _, h2, _⟩ := inode_create_writes_inode sample_disk 2 600 false 1 hok
    (by decide) (by decide) (by decide) (by decide)
  have hk : ok = true := h2 (by decide)
  subst hk
  exact ⟨st1, h1⟩


theorem free_count_below (n k : Nat) (l : List Nat) :
    free_count { size := n, used := fun s => decide (s < k), released := l } = n - k := by
  unfold free_count
  simp only
  induction n with
  | zero => simp
  | succ n ih =>
    rw [List.range_succ, List.filter_append, List.length_append, ih]
    by_cases h : n < k
    · simp [h]; omega
    · simp [h]; omega

theorem inode_create_loop_snoc : ∀ (n i : Nat) (st : filesys) (data : inode_disk) (success : Bool),
    inode_create_loop (n + 1) i st data success
      = match inode_create_loop n i st data success with
        | none => none
        | some (data1, st1, ok) =>
          match allocate_block st1 data1 (i + n) with
          | none => none
          | some (block, data2, st2) =>
            some (data2, st2, if block = UNUSED_SECTOR then false else ok) := by
  intro n
  induction n with
  | zero =>
    intro i st data success
    cases h : allocate_block st data i <;> simp [inode_create_loop, h]
  | succ n ih =>
    intro i st data success
    rw [inode_create_loop]
    cases h : allocate_block st data i with
    | none => simp only [inode_create_loop, h]
    | some r =>
      obtain ⟨block, data1, st1⟩ := r
      simp only
      rw [ih (i + 1) st1 data1]
      conv_rhs => rw [inode_create_loop]
      simp only [h]
      have e : i + 1 + n = i + (n + 1) := by omega
      rw [e]

theorem allocate_block_out_of_range (st : filesys) (data : inode_disk)
    (h : data.double_indirect ≠ UNUSED_SECTOR) : allocate_block st data 16524 = none := by
  unfold allocate_block
  rw [if_neg (by decide), if_neg (by decide), if_neg h]
  unfold allocate_double ensure_slot
  dsimp only
  rw [cache_table_read_none _ _ _ _ _ _ (by decide)]

theorem inode_create_none_of_last (st : filesys) (sector length : Nat) ( is_dir : Bool)
    (parent_dir n : Nat) (data1 : inode_disk) (st1 : filesys) (ok : Bool)
    (hs : bytes_to_sectors (length : Int) = n + 1)
    (h1 : inode_create_loop n 0 st (inode_create_image length is_dir parent_dir) true
      = some (data1, st1, ok))
    (h2 : allocate_block st1 data1 n = none) :
    inode_create st sector length is_dir parent_dir = none := by
  unfold inode_create
  simp only [hs]
  rw [inode_create_loop_snoc, h1]
  simp only [Nat.zero_add]
  rw [h2]

theorem sample_huge_loop :
    ∃ data1 st1, inode_create_loop 16524 0 sample_huge (inode_create_image 8460289 false 1) true
        = some (data1, st1, true) ∧ data1.double_indirect ≠ UNUSED_SECTOR := by
  have hok : cache_ok sample_huge.cache_table := by simp [cache_ok, sample_huge, sample_disk]
  have hw := (inode_create_image_words 8460289 false 1).1
  have hwf := inode_wf_of_unused sample_huge 2 (inode_create_image 8460289 false 1)
    (by decide) (by decide) (by decide) hw
  have hfree : free_count sample_huge.free_map = 59997 := free_count_below 60000 3 []
  obtain ⟨data1, st1, ok, h1, h2, h3, h4, h5⟩ := inode_create_loop_spec 2 16524 0 sample_huge
    (inode_create_image 8460289 false 1) true hok hwf (by decide)
  have hk : ok = true := h5 (by rw [hfree]; decide)
  subst hk
  have hb := (h4 rfl).2 16523 (Nat.zero_le _) (by decide)
  refine ⟨data1, st1, h1, ?_⟩
  intro hc
  apply hb
  rw [block_slot_dbl st1 data1 16523 (by decide), hc, child_slot_unused, child_slot_unused]

/-- C7, as stated, fails for a length beyond the maximum file size: with 59997 free
sectors every allocation for the 16524 blocks that an inode can address
succeeds, and the call for block 16524 then reads entry 128 of the
double-indirect block, outside the sector; `inode_create` does not return
true. -/
theorem inode_create_beyond_maximum_fails :
    inode_create sample_huge 2 8460289 false 1 = none := by
  obtain ⟨data1, st1, h1, hd⟩ := sample_huge_loop
  exact inode_create_none_of_last sample_huge 2 8460289 false 1 16524 data1 st1 true
    (by decide) h1 (allocate_block_out_of_range st1 data1 hd)


theorem allocate_cache_frame (st st1 : filesys) (s : Nat) (h : allocate_cache st s = some st1) :
    st1.free_map = st.free_map ∧ st1.open_inodes = st.open_inodes := by
  unfold allocate_cache at h
  split_ifs at h with h1 h2
  · cases hl : st.cache_table.list with
    | nil => rw [hl] at h; simp at h
    | cons v rest =>
      rw [hl] at h
      simp only [Option.some.injEq] at h
      subst h
      exact ⟨rfl, rfl⟩
  · simp only [Option.some.injEq] at h
    subst h
    exact ⟨rfl, rfl⟩

theorem cache_table_read_frame (st st1 : filesys) (buffer buf : Nat → Nat)
    (bofs sector offset size : Nat)
    (h : cache_table_read st buffer bofs sector offset size = some (st1, buf)) :
    st1.free_map = st.free_map ∧ st1.open_inodes = st.open_inodes := by
  unfold cache_table_read at h
  split_ifs at h with h1
  cases hf : cache_table_find st.cache_table sector with
  | some cte =>
    rw [hf] at h
    simp only [Option.some.injEq, Prod.mk.injEq] at h
    rw [← h.1]
    exact ⟨rfl, rfl⟩
  | none =>
    rw [hf] at h
    cases ha : allocate_cache st sector with
    | none => rw [ha] at h; simp at h
    | some st2 =>
      rw [ha] at h
      simp only [Option.some.injEq, Prod.mk.injEq] at h
      rw [← h.1]
      exact allocate_cache_frame st st2 sector ha

theorem log_extends_refl (st : filesys) : log_extends st st := ⟨rfl, [], by simp⟩

theorem log_extends_trans (st st1 st2 : filesys) (h1 : log_extends st st1)
    (h2 : log_extends st1 st2) : log_extends st st2 := by
  obtain ⟨a1, l1, b1⟩ := h1
  obtain ⟨a2, l2, b2⟩ := h2
  exact ⟨a2.trans a1, l1 ++ l2, by rw [b2, b1, List.append_assoc]⟩

theorem log_extends_release (st : filesys) (s : Nat) : log_extends st (release_block st s) :=
  ⟨rfl, [s], rfl⟩

theorem log_extends_read (st st1 : filesys) (buffer buf : Nat → Nat)
    (bofs sector offset size : Nat)
    (h : cache_table_read st buffer bofs sector offset size = some (st1, buf)) :
    log_extends st st1 := by
  obtain ⟨h1, h2⟩ := cache_table_read_frame st st1 buffer buf bofs sector offset size h
  exact ⟨h2, [], by rw [h1]; simp⟩

theorem log_extends_ite (st st1 : filesys) (c : Prop) [Decidable c] (s : Nat)
    (h : log_extends st st1) : log_extends st (if c then release_block st1 s else st1) := by
  split
  · exact log_extends_trans _ _ _ h (log_extends_release st1 s)
  · exact h

theorem free_blocks_step_log (st st1 : filesys) (data : inode_disk) (pos : Nat)
    (h : free_blocks_step st data pos = some st1) : log_extends st st1 := by
  unfold free_blocks_step at h
  split_ifs at h with h1 h2
  · simp only [Option.some.injEq] at h
    rw [← h]
    exact log_extends_release st _
  · dsimp only at h
    cases hr : cache_table_read st zeros 0 data.indirect ((pos - DIRECT_MAX) * 4) 4 with
    | none => rw [hr] at h; simp at h
    | some r =>
      obtain ⟨st2, buf⟩ := r
      rw [hr] at h
      simp only [Option.some.injEq] at h
      rw [← h]
      exact log_extends_ite _ _ _ _ (log_extends_ite _ _ _ _ (log_extends_read _ _ _ _ _ _ _ _ hr))
  · dsimp only at h
    cases hr : cache_table_read st zeros 0 data.double_indirect
        ((pos - DIRECT_MAX - SECTOR_MAX) / SECTOR_MAX * 4) 4 with
    | none => rw [hr] at h; simp at h
    | some r =>
      obtain ⟨st2, buf⟩ := r
      rw [hr] at h
      simp only at h
      have e0 := log_extends_read _ _ _ _ _ _ _ _ hr
      by_cases hu : get32 buf 0 ≠ UNUSED_SECTOR
      · rw [if_pos hu] at h
        cases hr2 : cache_table_read st2 zeros 0 (get32 buf 0)
            ((pos - DIRECT_MAX - SECTOR_MAX) % SECTOR_MAX * 4) 4 with
        | none => rw [hr2] at h; simp at h
        | some r2 =>
          obtain ⟨st3, buf2⟩ := r2
          rw [hr2] at h
          simp only [Option.some.injEq] at h
          rw [← h]
          have e1 := log_extends_trans _ _ _ e0 (log_extends_read _ _ _ _ _ _ _ _ hr2)
          exact log_extends_ite _ _ _ _ (log_extends_ite _ _ _ _ (log_extends_ite _ _ _ _ e1))
      · rw [if_neg hu] at h
        simp only [Option.some.injEq] at h
        rw [← h]
        exact log_extends_ite _ _ _ _ e0

theorem free_blocks_loop_log (data : inode_disk) : ∀ (n : Nat) (st st1 : filesys),
    free_blocks_loop data n st = some st1 → log_extends st st1 := by
  intro n
  induction n with
  | zero =>
    intro st st1 h
    simp only [free_blocks_loop, Option.some.injEq] at h
    rw [← h]
    exact log_extends_refl st
  | succ n ih =>
    intro st st1 h
    simp only [free_blocks_loop] at h
    cases hs : free_blocks_step st data n with
    | none => rw [hs] at h; simp at h
    | some st2 =>
      rw [hs] at h
      exact log_extends_trans _ _ _ (free_blocks_step_log st st2 data n hs) (ih st2 st1 h)

theorem free_blocks_log (st st1 : filesys) (data : inode_disk)
    (h : free_blocks st data = some st1) : log_extends st st1 :=
  free_blocks_loop_log data _ st st1 h

/-- The cases of `inode_close` for a valid pointer to an open inode: with `open_cnt > 1`, it
only decrements `open_cnt`; with `open_cnt = 1` it removes the inode from the
registry, and then, when `removed` is false, writes the inode data to the
inode's sector and releases nothing, and when `removed` is true, releases the
inode's sector and runs `free_blocks` on the inode (writing nothing to the
inode's sector); for an inode without blocks this releases the inode's sector
alone.  `inode_remove` only sets the flag `removed`. -/
theorem inode_close_life_cycle (st : filesys) (p : Nat) (i : inode)
    (hd : inode_deref st p = some i) :
    (1 < i.open_cnt →
      inode_close st (some p) = some (inode_store st p { i with open_cnt := i.open_cnt - 1 })) ∧
    (i.open_cnt = 1 → i.removed = false →
      ∃ st1, inode_close st (some p) = some st1 ∧
        st1.open_inodes = st.open_inodes.eraseP (fun j => j.sector == p) ∧
        st1.filesys_disk = Function.update st.filesys_disk p i.data.bytes ∧
        st1.free_map = st.free_map ∧ st1.cache_table = st.cache_table) ∧
    (i.open_cnt = 1 → i.removed = true →
      inode_close st (some p)
        = free_blocks { st with open_inodes := st.open_inodes.eraseP (fun j => j.sector == p),
                                free_map := free_map_release st.free_map p } i.data ∧
      (∀ st1, inode_close st (some p) = some st1 →
        st1.open_inodes = st.open_inodes.eraseP (fun j => j.sector == p) ∧
        ∃ l, st1.free_map.released = st.free_map.released ++ p :: l) ∧
      (inode_length i.data ≤ 0 → ∃ st1, inode_close st (some p) = some st1 ∧
        st1.free_map.released = st.free_map.released ++ [p] ∧
        st1.filesys_disk = st.filesys_disk)) ∧
    (∃ st1, inode_remove st p = some st1 ∧
      inode_deref st1 p = some { i with removed := true } ∧
      st1.open_inodes = inode_list_store st.open_inodes p { i with removed := true } ∧
      st1.filesys_disk = st.filesys_disk ∧ st1.free_map = st.free_map ∧
      st1.cache_table = st.cache_table) := by
  have hsec := inode_deref_sector st p i hd
  have hrel : i.open_cnt = 1 → i.removed = true → inode_close st (some p)
      = free_blocks { st with open_inodes := st.open_inodes.eraseP (fun j => j.sector == p),
                              free_map := free_map_release st.free_map p } i.data := by
    intro h1 h2
    unfold inode_close
    simp only [hd, h1, h2, hsec]
    simp
  refine ⟨?_, ?_, ?_, ?_⟩
  · intro h
    unfold inode_close
    simp only [hd]
    rw [if_neg (show ¬ (i.open_cnt - 1 = 0) by omega)]
  · intro h1 h2
    exact ⟨_, inode_close_last st p i hd h1 h2, rfl, rfl, rfl, rfl⟩
  · intro h1 h2
    refine ⟨hrel h1 h2, ?_, ?_⟩
    · intro st1 hc
      rw [hrel h1 h2] at hc
      obtain ⟨a, l, b⟩ := free_blocks_log _ st1 i.data hc
      refine ⟨a, l, ?_⟩
      rw [b]
      simp [free_map_release]
    · intro hl
      have hz : bytes_to_sectors (off_t_val i.data.length) = 0 := by
        unfold inode_length at hl
        unfold bytes_to_sectors
        simp only [DISK_SECTOR_SIZE]
        omega
      refine ⟨{ st with open_inodes := st.open_inodes.eraseP (fun j => j.sector == p),
                        free_map := free_map_release st.free_map p }, ?_, rfl, rfl⟩
      rw [hrel h1 h2]
      unfold free_blocks
      rw [hz]
      rfl
  · refine ⟨inode_store st p { i with removed := true }, ?_,
      inode_deref_store st p i _ hd hsec, rfl, rfl, rfl, rfl⟩
    unfold inode_remove
    simp only [hd]

theorem inode_close_life_cycle_witness :
    inode_deref sample_open 2 = some sample_inode ∧
    ∃ st1, inode_close sample_open (some 2) = some st1 ∧
      st1.open_inodes = [] ∧ st1.filesys_disk 2 = sample_inode.data.bytes ∧
      st1.free_map = sample_open.free_map := by
  obtain ⟨st1, h1, h2, h3, h4, _⟩ :=
    (inode_close_life_cycle sample_open 2 sample_inode rfl).2.1 rfl rfl
  refine ⟨rfl, st1, h1, ?_, ?_, h4⟩
  · rw [h2]; rfl
  · rw [h3]; simp


theorem inode_create_open_inodes (st : filesys) (sector length : Nat) ( is_dir : Bool)
    (parent_dir : Nat) (st1 : filesys) (ok : Bool)
    (hok : cache_ok st.cache_table) (hsz : st.free_map.size ≤ UNUSED_SECTOR)
    (hs1 : sector < st.free_map.size) (hs2 : st.free_map.used sector = true)
    (hlen : length ≤ 8460288)
    (hc : inode_create st sector length is_dir parent_dir = some (st1, ok)) :
    st1.open_inodes = st.open_inodes := by
  obtain ⟨data1, stL, ok1, c1, _, c3, _, _, _⟩ := inode_create_spec st sector length is_dir
    parent_dir hok hsz hs1 hs2 hlen
  rw [hc] at c1
  simp only [Option.some.injEq, Prod.mk.injEq] at c1
  rw [c1.1, ← c3.open_inodes]
  split <;> rfl

theorem sample_disk_ok : cache_ok sample_disk.cache_table := by
  simp [cache_ok, sample_disk]

theorem sample_created_eq : inode_create sample_disk 2 600 false 1 = some (sample_created, true) := by
  obtain ⟨data1, stL, ok, c1, _, _, _, c5, _⟩ := inode_create_spec sample_disk 2 600 false 1
    sample_disk_ok (by decide) (by decide) (by decide) (by decide)
  have hk : ok = true := c5 (by decide)
  subst hk
  unfold sample_created
  rw [c1]

theorem sample_created_reach ( holes : Bool) :
    file_reach holes (inode_open sample_created 2).1 2 :=
  file_reach.create sample_disk 2 600 false 1 sample_created sample_disk_ok (by decide) (by decide)
    (by decide) (by decide) rfl sample_created_eq

theorem sample_created_deref :
    inode_deref (inode_open sample_created 2).1 2 = some (loaded_inode sample_created 2) := by
  apply inode_deref_open_fresh
  have e := inode_create_open_inodes sample_disk 2 600 false 1 sample_created true sample_disk_ok
    (by decide) (by decide) (by decide) (by decide) sample_created_eq
  unfold inode_deref
  rw [e]
  rfl

theorem zero_read_arith (L : Int) (a m offset size : Nat) (F : Nat) (h0 : 0 ≤ L)
    (h1 : a + m ≤ offset) (h2 : 3 * (m / 512 + 2) ≤ F) (hmax : offset + size ≤ 8460288) :
    min m ((max L ((offset + size : Nat) : Int)).toNat - a) = m ∧
    (0 < m → a < 8460288 ∧ (a + m ≤ 8460288 ∨ max L ((offset + size : Nat) : Int) < 8460288)) ∧
    3 * ((a + m + 511) / 512 - a / 512) ≤ F := by
  omega

/-- C6, as stated, fails when the free map has no sector left and when the write
goes beyond the maximum file size.  On the full device neither the write at
offset 1024 nor the read at offset 0 gets a sector, both go to the cache entry
of sector `UNUSED_SECTOR`, and the read inside the gap returns the byte 7 that
was written.  Beyond the maximum file size the read does not return. -/
theorem gap_read_not_zero : gap_read_full = some (1, 7) ∧ gap_read_far = some none := by
  decide

/-- C6, amended: for every file built by `inode_create` and `inode_write_at` (and reads), all
within the maximum file size and with free sectors at hand: a write at an
offset greater than the old length `L` returns, and after it `inode_read_at` of
any byte range inside `[L, offset)` returns the whole range and only zero
bytes. -/
theorem read_of_gap_is_zero (st : filesys) (p : Nat) (i : inode) (buffer : Nat → Nat)
    (size offset : Nat) (h : file_reach true st p) (hd : inode_deref st p = some i)
    (hdeny : i.deny_write_cnt = 0) (hoff : inode_length i.data < (offset : Int))
    (hmax : offset + size ≤ 8460288)
    (hfree : 0 < size →
      3 * ((offset + size + 511) / 512 - offset / 512) ≤ free_count st.free_map) :
    ∃ st1, inode_write_at st p buffer size offset = some (st1, size) ∧
      ∀ (dst : Nat → Nat) (a m : Nat), inode_length i.data ≤ (a : Int) → a + m ≤ offset →
        3 * (m / 512 + 2) ≤ free_count st1.free_map →
        ∃ st2 out, inode_read_at st1 p dst m a = some (st2, out, m) ∧
          ∀ k, k < m → out k = 0 := by
  obtain ⟨i0, hi⟩ := file_reach_inv true st p h
  have e : i0 = i := Option.some.inj (hi.deref.symm.trans hd)
  subst e
  obtain ⟨stA, data1, s1, s2, s3, s4⟩ := inode_write_at_spec st p i0 buffer size offset hd
    hdeny hi.cache hi.wf hmax hfree
  obtain ⟨f1, f2, f3⟩ := write_start_frame st p i0.data size offset hi.wf
  have hsec := inode_deref_sector st p i0 hd
  have hd1 : inode_deref stA p = some i0 := by
    rw [inode_deref_of_open_inodes st stA p s3.open_inodes]; exact hd
  have hlen : inode_length data1 = max (inode_length i0.data) ((offset + size : Nat) : Int) := by
    rw [inode_length_eq_of_fields _ _ s3.fields, write_start_length i0.data size offset hmax]
  refine ⟨_, s1, ?_⟩
  intro dst a m ha ham hfr
  obtain ⟨z1, z2, z3⟩ := zero_read_arith (inode_length i0.data) a m offset size _ hi.len_nonneg
    ham hfr hmax
  obtain ⟨st2, data2, out, r1, _, _, r4⟩ := inode_read_at_spec
    (inode_store stA p { i0 with data := data1 }) p { i0 with data := data1 } dst m a
    (inode_deref_store stA p i0 _ hd1 hsec) s2 (inode_wf_inode_store stA p _ p data1 s3.wf)
    (by
      show 0 < m → a < 8460288 ∧ (a + m ≤ 8460288 ∨ inode_length data1 < 8460288)
      rw [hlen]; exact z2)
    (fun _ _ => Or.inl (by
      show 3 * ((a + min m ((inode_length data1).toNat - a) + 511) / 512 - a / 512) ≤ _
      rw [hlen, z1]; exact z3))
  have hc : min m ((inode_length data1).toNat - a) = m := by rw [hlen]; exact z1
  have r1' : inode_read_at (inode_store stA p { i0 with data := data1 }) p dst m a
      = some (inode_store st2 p { i0 with data := data2 }, out, m) := by
    rw [r1]
    show some (_, _, min m ((inode_length data1).toNat - a)) = _
    rw [hc]
  refine ⟨_, out, r1', ?_⟩
  intro k hk
  have r4k := r4 k
  have hk' : k < min m ((inode_length data1).toNat - a) := by rw [hc]; exact hk
  have e2 : out k = file_content stA data1 (a + k) := by
    rw [r4k]
    show (if k < min m ((inode_length data1).toNat - a) then file_content stA data1 (a + k)
      else dst k) = _
    rw [if_pos hk']
  have hv : (a + k) / DISK_SECTOR_SIZE < MAX_BLOCKS := by
    simp only [DISK_SECTOR_SIZE, MAX_BLOCKS]; omega
  rw [e2, s3.content (a + k) hv, if_neg (by omega)]
  show file_content st (write_start i0.data size offset) (a + k) = 0
  rw [f3 (a + k) hv]
  exact hi.tail (a + k) (by push_cast; omega) hv

theorem read_of_gap_is_zero_witness :
    file_reach true (inode_open sample_created 2).1 2 ∧
    inode_deref (inode_open sample_created 2).1 2 = some (loaded_inode sample_created 2) ∧
    (loaded_inode sample_created 2).deny_write_cnt = 0 ∧
    inode_length (loaded_inode sample_created 2).data < ((1000 : Nat) : Int) ∧
    1000 + 10 ≤ 8460288 ∧
    (0 < 10 → 3 * ((1000 + 10 + 511) / 512 - 1000 / 512)
      ≤ free_count (inode_open sample_created 2).1.free_map) ∧
    ∃ st1, inode_write_at (inode_open sample_created 2).1 2 (fun _ => 7) 10 1000
        = some (st1, 10) ∧
      ∀ (dst : Nat → Nat) (a m : Nat),
        inode_length (loaded_inode sample_created 2).data ≤ (a : Int) → a + m ≤ 1000 →
        3 * (m / 512 + 2) ≤ free_count st1.free_map →
        ∃ st2 out, inode_read_at st1 2 dst m a = some (st2, out, m) ∧
          ∀ k, k < m → out k = 0 :=
  ⟨sample_created_reach true, sample_created_deref, rfl, by decide, by decide,
    fun _ => by decide,
    read_of_gap_is_zero (inode_open sample_created 2).1 2 (loaded_inode sample_created 2)
      (fun _ => 7) 10 1000 (sample_created_reach true) sample_created_deref rfl (by decide)
      (by decide) (fun _ => by decide)⟩

/-- C10, as stated, fails after a write beyond the end of the file (the length then
covers 141 blocks, and logical block 0 is `UNUSED_SECTOR`) and after a write
for which the free map has no sector (the length covers one block, which is
`UNUSED_SECTOR`). -/
theorem sparse_write_leaves_hole :
    sparse_write = some (UNUSED_SECTOR, 141) ∧ full_write = some (UNUSED_SECTOR, 1) := by
  decide

/-- C10, amended: after `inode_create`, and after every `inode_read_at` and every
`inode_write_at` that starts at or before the end of the file (all within the
maximum file size, with free sectors at hand), each logical block
`0 .. bytes_to_sectors length - 1` of the inode resolves to a sector that is
not `UNUSED_SECTOR` and is marked in use in the free map. -/
theorem blocks_allocated_without_gap (st : filesys) (p : Nat) (h : file_reach false st p) :
    ∃ i, inode_deref st p = some i ∧
      ∀ q, q < bytes_to_sectors (inode_length i.data) →
        block_slot st i.data q ≠ UNUSED_SECTOR ∧
        st.free_map.used (block_slot st i.data q) = true := by
  obtain ⟨i, hi⟩ := file_reach_inv false st p h
  exact ⟨i, hi.deref, hi.dense rfl⟩

theorem blocks_allocated_without_gap_witness :
    file_reach false (inode_open sample_created 2).1 2 ∧
    ∃ i, inode_deref (inode_open sample_created 2).1 2 = some i ∧
      ∀ q, q < bytes_to_sectors (inode_length i.data) →
        block_slot (inode_open sample_created 2).1 i.data q ≠ UNUSED_SECTOR ∧
        (inode_open sample_created 2).1.free_map.used
          (block_slot (inode_open sample_created 2).1 i.data q) = true :=
  ⟨sample_created_reach false,
    blocks_allocated_without_gap (inode_open sample_created 2).1 2 (sample_created_reach false)⟩

/-- C2: from the empty cache of `cache_table_init`, every sequence of
`cache_table_read` and `cache_table_write` calls (and flushes), each with
`offset + size <= 512`, returns, and every read returns exactly the bytes that
the same sequence returns on a plain sector store that starts with the
contents of the device; the final view of the sectors is that store. -/
theorem cache_reads_as_plain_store (st : filesys) (cs : List cache_call)
    (h : ∀ c ∈ cs, c.in_range = true) :
    ∃ st1 store1 out, run_cache (cache_table_init st) cs = some (st1, out) ∧
      run_plain st.filesys_disk cs = some (store1, out) ∧ sector_view st1 = store1 := by
  obtain ⟨st1, store1, out, h1, h2, h3, _⟩ :=
    run_cache_refines cs (cache_table_init st) (cache_ok_init st) h
  rw [sector_view_init] at h2
  exact ⟨st1, store1, out, h1, h2, h3⟩

theorem cache_reads_as_plain_store_witness :
    (∀ c ∈ sample_calls, c.in_range = true) ∧
    (∃ st1 store1 out, run_cache (cache_table_init sample_disk) sample_calls = some (st1, out) ∧
      run_plain sample_disk.filesys_disk sample_calls = some (store1, out) ∧
      sector_view st1 = store1) ∧
    (run_plain sample_disk.filesys_disk sample_calls).map
      (fun r => r.2.map (fun b => [b 0, b 3, b 4])) = some [[1, 1, 0], [70, 70, 0]] :=
  ⟨by decide, cache_reads_as_plain_store sample_disk sample_calls (by decide), by decide⟩

theorem cache_weak_of_ok (ct : cache_table) (h : cache_ok ct) : cache_weak ct :=
  ⟨h.1, h.2.1, h.2.2.1⟩

theorem allocate_cache_weak (st st1 : filesys) (s : Nat) (hw : cache_weak st.cache_table)
    (hmiss : cache_table_find st.cache_table s = none) (h : allocate_cache st s = some st1) :
    cache_weak st1.cache_table := by
  obtain ⟨h1, h2, h3⟩ := hw
  have hs : s ∉ st.cache_table.list.map (fun cte => cte.block) :=
    (find_none_iff st.cache_table.list s).1 hmiss
  by_cases hfull : st.cache_table.size = CACHE_TABLE_MAX_SIZE
  · cases hl : st.cache_table.list with
    | nil => simp [allocate_cache, hfull, hl] at h
    | cons victim rest =>
      rw [allocate_cache_full st s victim rest hfull hl] at h
      cases h
      rw [hl] at h1 h3 hs
      simp only [List.map_cons, List.nodup_cons, List.mem_cons, not_or] at h3 hs
      refine ⟨?_, le_refl _, ?_⟩
      · simp only [List.length_append, List.length_cons, List.length_nil]
        simp only [List.length_cons] at h1
        omega
      · simp only [List.map_append, List.map_cons, List.map_nil]
        rw [List.nodup_append]
        refine ⟨h3.2, List.nodup_singleton _, ?_⟩
        intro a ha hb
        rw [List.mem_singleton] at hb
        subst hb
        exact hs.2 ha
  · have hlt : st.cache_table.size < CACHE_TABLE_MAX_SIZE := lt_of_le_of_ne h2 hfull
    rw [allocate_cache_room st s hlt] at h
    cases h
    refine ⟨?_, hlt, ?_⟩
    · simp only [List.length_append, List.length_cons, List.length_nil]
      omega
    · simp only [List.map_append, List.map_cons, List.map_nil]
      rw [List.nodup_append]
      refine ⟨h3, List.nodup_singleton _, ?_⟩
      intro a ha hb
      rw [List.mem_singleton] at hb
      subst hb
      exact hs ha

theorem cache_weak_store (ct : cache_table) (s : Nat) (buf : Nat → Nat) (hw : cache_weak ct) :
    cache_weak { ct with list := cache_store ct.list s buf } := by
  obtain ⟨h1, h2, h3⟩ := hw
  refine ⟨?_, h2, ?_⟩
  · simpa [length_cache_store] using h1
  · simpa [map_block_cache_store] using h3

theorem cache_table_read_weak (st st1 : filesys) (buffer out : Nat → Nat)
    (bofs sector offset size : Nat) (hw : cache_weak st.cache_table)
    (h : cache_table_read st buffer bofs sector offset size = some (st1, out)) :
    cache_weak st1.cache_table := by
  unfold cache_table_read at h
  split at h
  · cases hf : cache_table_find st.cache_table sector with
    | some cte =>
      simp only [hf] at h
      cases h
      exact hw
    | none =>
      simp only [hf] at h
      cases ha : allocate_cache st sector with
      | none => simp [ha] at h
      | some st2 =>
        simp only [ha] at h
        cases h
        exact cache_weak_store st2.cache_table sector _ (allocate_cache_weak st st2 sector hw hf ha)
  · cases h

theorem cache_table_write_weak (st st1 : filesys) (buffer : Nat → Nat)
    (bofs sector offset size : Nat) (hw : cache_weak st.cache_table)
    (h : cache_table_write st buffer bofs sector offset size = some st1) :
    cache_weak st1.cache_table := by
  unfold cache_table_write at h
  split at h
  · cases hf : cache_table_find st.cache_table sector with
    | some cte =>
      simp only [hf] at h
      cases h
      exact cache_weak_store st.cache_table sector _ hw
    | none =>
      simp only [hf] at h
      cases ha : allocate_cache st sector with
      | none => simp [ha] at h
      | some st2 =>
        simp only [ha] at h
        cases h
        exact cache_weak_store st2.cache_table sector _ (allocate_cache_weak st st2 sector hw hf ha)
  · cases h

theorem free_cache_weak (st : filesys) (s : Nat) (hw : cache_weak st.cache_table) :
    cache_weak (free_cache st s).cache_table := by
  obtain ⟨h1, h2, h3⟩ := hw
  have hsub : List.Sublist (st.cache_table.list.eraseP (fun cte => cte.block == s))
      st.cache_table.list := List.eraseP_sublist _
  refine ⟨?_, h2, ?_⟩
  · exact le_trans hsub.length_le h1
  · exact h3.sublist (hsub.map _)

theorem cache_reach_weak (st : filesys) (h : cache_reach st) : cache_weak st.cache_table := by
  induction h with
  | init st => exact cache_weak_of_ok _ (cache_ok_init st)
  | read st st1 buffer out bofs sector offset size _ h ih =>
    exact cache_table_read_weak st st1 buffer out bofs sector offset size ih h
  | write st st1 buffer bofs sector offset size _ h ih =>
    exact cache_table_write_weak st st1 buffer bofs sector offset size ih h
  | free st s _ ih => exact free_cache_weak st s ih
  | flush st _ ih =>
    rw [(cache_table_flush_spec st).1]
    exact ih
  | destroy st _ ih =>
    obtain ⟨_, h2, _⟩ := ih
    refine ⟨?_, ?_, ?_⟩
    · simp [cache_table_destroy]
    · simpa [cache_table_destroy, (cache_table_flush_spec st).1] using h2
    · simp [cache_table_destroy]

theorem sample_cache_reach : cache_reach sample_cache :=
  cache_reach.free _ 5
    (cache_reach.write _ _ unused 0 9 0 512
      (cache_reach.write _ _ zeros 0 5 0 512 (cache_reach.init sample_disk) rfl) rfl)

/-- C11: in every state reachable from `cache_table_init` through
`cache_table_read`, `cache_table_write`, `free_cache`, `cache_table_flush` and
`cache_table_destroy`, no two entries of the cache list have the same sector
number, and the list holds at most 64 (`CACHE_TABLE_MAX_SIZE`) entries. -/
theorem cache_list_bounded (st : filesys) (h : cache_reach st) :
    (st.cache_table.list.map (fun cte => cte.block)).Nodup ∧
    st.cache_table.list.length ≤ CACHE_TABLE_MAX_SIZE := by
  obtain ⟨h1, h2, h3⟩ := cache_reach_weak st h
  exact ⟨h3, le_trans h1 h2⟩

theorem cache_list_bounded_witness :
    cache_reach sample_cache ∧
    sample_cache.cache_table.list.map (fun cte => cte.block) = [9] ∧
    (sample_cache.cache_table.list.map (fun cte => cte.block)).Nodup ∧
    sample_cache.cache_table.list.length ≤ CACHE_TABLE_MAX_SIZE :=
  ⟨sample_cache_reach, by decide, cache_list_bounded sample_cache sample_cache_reach⟩

/-- C12 at a cache of 63 entries whose counter stands at 64 after `free_cache`:
the miss on sector 64 evicts the entry of sector 0 and writes it to the
device, although the list holds fewer than 64 entries. -/
theorem miss_evicts_below_capacity :
    drifted_miss = some (63, 64, false, (List.range 62).map (fun k => k + 1) ++ [64], 0, 1) := by
  decide

/-- Without repeated sectors, `eraseP` on the sector number is a filter. -/
theorem eraseP_eq_filter : ∀ (l : List cache_table_entry) (s : Nat),
    (l.map (fun cte => cte.block)).Nodup →
    l.eraseP (fun cte => cte.block == s) = l.filter (fun cte => cte.block != s) := by
  intro l s
  induction l with
  | nil => intro _; rfl
  | cons a l ih =>
    intro h
    simp only [List.map_cons, List.nodup_cons] at h
    by_cases ha : a.block = s
    · have e1 : List.eraseP (fun cte : cache_table_entry => cte.block == s) (a :: l) = l :=
        List.eraseP_cons_of_pos (by simp [ha])
      rw [e1, List.filter_cons_of_neg (by simp [ha])]
      symm
      rw [List.filter_eq_self]
      intro e he
      have : e.block ≠ s := by
        intro hes
        apply h.1
        rw [List.mem_map]
        exact ⟨e, he, by rw [hes, ha]⟩
      simpa using this
    · have e1 : List.eraseP (fun cte : cache_table_entry => cte.block == s) (a :: l) =
          a :: List.eraseP (fun cte : cache_table_entry => cte.block == s) l :=
        List.eraseP_cons_of_neg (by simp [ha])
      rw [e1, List.filter_cons_of_pos (by simp [ha]), ih h.2]

theorem find_filter_ne (l : List cache_table_entry) (s t : Nat) (h : t ≠ s) :
    (l.filter (fun cte => cte.block != s)).find? (fun cte => cte.block == t) =
      l.find? (fun cte => cte.block == t) := by
  induction l with
  | nil => rfl
  | cons a l ih =>
    by_cases ha : a.block = s
    · rw [List.filter_cons_of_neg (by simp [ha])]
      rw [List.find?_cons_of_neg]
      · exact ih
      · simp only [beq_iff_eq]
        rw [ha]
        exact fun e => h e.symm
    · rw [List.filter_cons_of_pos (by simp [ha])]
      by_cases hat : a.block = t
      · rw [List.find?_cons_of_pos _ (by simp [hat]), List.find?_cons_of_pos _ (by simp [hat])]
      · rw [List.find?_cons_of_neg _ (by simp [hat]), List.find?_cons_of_neg _ (by simp [hat])]
        exact ih

theorem find_filter_self (l : List cache_table_entry) (s : Nat) :
    (l.filter (fun cte => cte.block != s)).find? (fun cte => cte.block == s) = none := by
  rw [List.find?_eq_none]
  intro e he
  have := (List.mem_filter.1 he).2
  simpa using this

/-- C14: `free_cache (s)` writes nothing to the device and touches neither the free
map nor the open inodes nor the counter; of the cache list it keeps, in
order and with their buffers, exactly the entries of the sectors other than
`s`, so that `s` is not resident afterwards and every other sector is found
with the same entry as before; when `s` is not resident the state is
unchanged.  The list has at most one entry per sector, as in every reachable
state. -/
theorem free_cache_frame (st : filesys) (s : Nat)
    (h : (st.cache_table.list.map (fun cte => cte.block)).Nodup) :
    (free_cache st s).filesys_disk = st.filesys_disk ∧
    (free_cache st s).free_map = st.free_map ∧
    (free_cache st s).open_inodes = st.open_inodes ∧
    (free_cache st s).cache_table.size = st.cache_table.size ∧
    (free_cache st s).cache_table.list =
      st.cache_table.list.filter (fun cte => cte.block != s) ∧
    cache_table_find (free_cache st s).cache_table s = none ∧
    (∀ t, t ≠ s →
      cache_table_find (free_cache st s).cache_table t = cache_table_find st.cache_table t) ∧
    (cache_table_find st.cache_table s = none → free_cache st s = st) := by
  have e := eraseP_eq_filter st.cache_table.list s h
  refine ⟨rfl, rfl, rfl, rfl, e, ?_, ?_, ?_⟩
  · simp only [cache_table_find, free_cache]
    rw [e]
    exact find_filter_self _ _
  · intro t ht
    simp only [cache_table_find, free_cache]
    rw [e]
    exact find_filter_ne _ _ _ ht
  · intro hn
    have hs := (find_none_iff st.cache_table.list s).1 hn
    have : st.cache_table.list.filter (fun cte => cte.block != s) = st.cache_table.list := by
      rw [List.filter_eq_self]
      intro a ha
      have : a.block ≠ s := by
        intro hes
        apply hs
        rw [List.mem_map]
        exact ⟨a, ha, hes⟩
      simpa using this
    simp only [free_cache]
    rw [e, this]

theorem free_cache_frame_witness :
    (sample_resident.cache_table.list.map (fun cte => cte.block)).Nodup ∧
    sample_resident.cache_table.list.map (fun cte => cte.block) = [5, 9] ∧
    (free_cache sample_resident 5).cache_table.list.map (fun cte => cte.block) = [9] ∧
    (free_cache sample_resident 5).filesys_disk = sample_resident.filesys_disk ∧
    (free_cache sample_resident 5).cache_table.list =
      sample_resident.cache_table.list.filter (fun cte => cte.block != 5) ∧
    cache_table_find (free_cache sample_resident 5).cache_table 5 = none :=
  ⟨by decide, by decide, by decide,
    (free_cache_frame sample_resident 5 (by decide)).1,
    (free_cache_frame sample_resident 5 (by decide)).2.2.2.2.1,
    (free_cache_frame sample_resident 5 (by decide)).2.2.2.2.2.1⟩

theorem flush_entries_written : ∀ (l : List cache_table_entry) (st : filesys),
    (l.map (fun cte => cte.block)).Nodup →
    ∀ e ∈ l, (flush_entries st l).filesys_disk e.block = e.vaddr := by
  intro l
  induction l with
  | nil => intro st _ e he; cases he
  | cons a l ih =>
    intro st hnd e he
    simp only [List.map_cons, List.nodup_cons] at hnd
    simp only [flush_entries]
    rcases List.mem_cons.1 he with rfl | he1
    · rw [(flush_entries_spec l (disk_write st e.block e.vaddr)).2.2.2 e.block]
      · simp [disk_write]
      · intro x hx hxe
        apply hnd.1
        rw [List.mem_map]
        exact ⟨x, hx, hxe⟩
    · exact ih _ hnd.2 e he1

theorem flush_disk_view (st : filesys)
    (h : (st.cache_table.list.map (fun cte => cte.block)).Nodup) (s : Nat) :
    (cache_table_flush st).filesys_disk s = sector_view st s := by
  unfold sector_view
  cases hf : cache_table_find st.cache_table s with
  | some cte =>
    simp only
    have hm : cte ∈ st.cache_table.list := List.mem_of_find?_eq_some hf
    have hb : cte.block = s := by
      have := List.find?_some hf
      simpa using this
    rw [← hb]
    exact flush_entries_written st.cache_table.list st h cte hm
  | none =>
    simp only
    apply (flush_entries_spec st.cache_table.list st).2.2.2
    intro e he heq
    apply (find_none_iff st.cache_table.list s).1 hf
    rw [List.mem_map]
    exact ⟨e, he, heq⟩

theorem allocate_cache_disk (st st1 : filesys) (s : Nat)
    (hmiss : cache_table_find st.cache_table s = none) (h : allocate_cache st s = some st1) :
    st1.filesys_disk s = st.filesys_disk s := by
  have hs := (find_none_iff st.cache_table.list s).1 hmiss
  unfold allocate_cache at h
  split_ifs at h with h1 h2
  · cases hl : st.cache_table.list with
    | nil => rw [hl] at h; simp at h
    | cons v rest =>
      rw [hl] at h
      simp only [Option.some.injEq] at h
      subst h
      simp only [disk_write]
      rw [Function.update_noteq]
      intro e
      apply hs
      rw [hl, e]
      simp
  · simp only [Option.some.injEq] at h
    subst h
    rfl

/-- What `cache_table_read` returns, when it returns: the copy of the view. -/
theorem cache_table_read_view (st st1 : filesys) (buffer out : Nat → Nat)
    (bofs sector offset size : Nat)
    (h : cache_table_read st buffer bofs sector offset size = some (st1, out)) :
    out = memcpy buffer bofs (sector_view st sector) offset size := by
  unfold cache_table_read at h
  split_ifs at h with h1
  cases hf : cache_table_find st.cache_table sector with
  | some cte =>
    rw [hf] at h
    simp only [Option.some.injEq, Prod.mk.injEq] at h
    rw [← h.2, sector_view_hit st sector cte hf]
  | none =>
    rw [hf] at h
    cases ha : allocate_cache st sector with
    | none => rw [ha] at h; simp at h
    | some st2 =>
      rw [ha] at h
      simp only [Option.some.injEq, Prod.mk.injEq] at h
      rw [← h.2, sector_view_miss st sector hf]
      simp only [disk_read]
      rw [allocate_cache_disk st st2 sector hf ha]

/-- C13: `cache_table_flush` writes every resident entry: afterwards the device
holds, at the sector of each entry of the list, the buffer of that entry, the
cache table (entries, buffers, order) is unchanged, and the sectors without an
entry are as before.  `cache_table_destroy` leaves the same device contents and
an empty list, so that for every sector the device then holds the bytes that
`cache_table_read` returned for it just before: a read that returns copies
exactly these bytes, and on a consistent cache every read within the sector
returns.  The list has at most one entry per sector, as in every reachable
state. -/
theorem flush_and_destroy_write_back (st : filesys)
    (h : (st.cache_table.list.map (fun cte => cte.block)).Nodup) :
    (cache_table_flush st).cache_table = st.cache_table ∧
    (∀ e ∈ st.cache_table.list, (cache_table_flush st).filesys_disk e.block = e.vaddr) ∧
    (∀ t, ¬ cached st t → (cache_table_flush st).filesys_disk t = st.filesys_disk t) ∧
    (cache_table_destroy st).cache_table.list = [] ∧
    (cache_table_destroy st).filesys_disk = (cache_table_flush st).filesys_disk ∧
    (∀ s, (cache_table_destroy st).filesys_disk s = sector_view st s) ∧
    (∀ s buffer bofs offset size st1 out,
      cache_table_read st buffer bofs s offset size = some (st1, out) →
      out = memcpy buffer bofs ((cache_table_destroy st).filesys_disk s) offset size) ∧
    (∀ s buffer bofs offset size, cache_ok st.cache_table → offset + size ≤ DISK_SECTOR_SIZE →
      ∃ st1, cache_table_read st buffer bofs s offset size =
        some (st1, memcpy buffer bofs ((cache_table_destroy st).filesys_disk s) offset size)) := by
  have hd : ∀ s, (cache_table_destroy st).filesys_disk s = sector_view st s :=
    fun s => flush_disk_view st h s
  refine ⟨(cache_table_flush_spec st).1, ?_, ?_, rfl, rfl, hd, ?_, ?_⟩
  · exact flush_entries_written st.cache_table.list st h
  · intro t ht
    apply (flush_entries_spec st.cache_table.list st).2.2.2
    intro e he heq
    apply ht
    simp only [cached]
    rw [List.mem_map]
    exact ⟨e, he, heq⟩
  · intro s buffer bofs offset size st1 out hr
    rw [hd s]
    exact cache_table_read_view st st1 buffer out bofs s offset size hr
  · intro s buffer bofs offset size hok hsz
    obtain ⟨st1, h1, _⟩ := cache_table_read_spec st buffer bofs s offset size hok hsz
    rw [hd s]
    exact ⟨st1, h1⟩

theorem flush_and_destroy_write_back_witness :
    (sample_resident.cache_table.list.map (fun cte => cte.block)).Nodup ∧
    sample_resident.filesys_disk 5 0 = 0 ∧
    (cache_table_flush sample_resident).filesys_disk 5 0 = 7 ∧
    (cache_table_destroy sample_resident).filesys_disk 9 511 = 255 ∧
    (cache_table_destroy sample_resident).cache_table.list = [] ∧
    (∀ s, (cache_table_destroy sample_resident).filesys_disk s =
      sector_view sample_resident s) :=
  ⟨by decide, by decide, by decide, by decide,
    (flush_and_destroy_write_back sample_resident (by decide)).2.2.2.1,
    (flush_and_destroy_write_back sample_resident (by decide)).2.2.2.2.2.1⟩

theorem mem_list_store : ∀ (l : List inode) (p : Nat) (v j : inode),
    j ∈ inode_list_store l p v → j = v ∨ j ∈ l := by
  intro l p v j
  induction l with
  | nil => intro h; cases h
  | cons a l ih =>
    intro h
    by_cases ha : a.sector = p
    · simp only [inode_list_store, if_pos ha] at h
      rcases List.mem_cons.1 h with h1 | h1
      · exact Or.inl h1
      · exact Or.inr (List.mem_cons_of_mem _ h1)
    · simp only [inode_list_store, if_neg ha] at h
      rcases List.mem_cons.1 h with h1 | h1
      · exact Or.inr (h1 ▸ List.mem_cons_self _ _)
      · rcases ih h1 with h2 | h2
        · exact Or.inl h2
        · exact Or.inr (List.mem_cons_of_mem _ h2)

theorem inode_deref_mem (st : filesys) (p : Nat) (i : inode) (h : inode_deref st p = some i) :
    i ∈ st.open_inodes := List.mem_of_find?_eq_some h

/-- A store through a valid pointer keeps the invariant when the stored inode
keeps its sector and satisfies the bounds. -/
theorem registry_inv_store ( guarded : Bool) (st : filesys) (p : Nat) (v : inode)
    (h : registry_inv guarded st) (hs : v.sector = p)
    (hv : 1 ≤ v.open_cnt ∧ 0 ≤ v.deny_write_cnt ∧
      (guarded = true → v.deny_write_cnt ≤ v.open_cnt)) :
    registry_inv guarded (inode_store st p v) := by
  refine ⟨registry_ok_store st p v hs h.1, ?_⟩
  intro j hj
  rcases mem_list_store st.open_inodes p v j hj with h1 | h1
  · rw [h1]; exact hv
  · exact h.2 j h1

theorem registry_inv_erase ( guarded : Bool) (st : filesys) (p : Nat) (l : List inode)
    (h : registry_inv guarded st)
    (hl : l = st.open_inodes.eraseP (fun j => j.sector == p)) (st1 : filesys)
    (h1 : st1.open_inodes = l) : registry_inv guarded st1 := by
  have hsub : List.Sublist l st.open_inodes := hl ▸ List.eraseP_sublist _
  refine ⟨?_, ?_⟩
  · unfold registry_ok
    rw [h1]
    exact h.1.sublist (hsub.map _)
  · intro j hj
    rw [h1] at hj
    exact h.2 j (hsub.subset hj)

theorem registry_inv_open ( guarded : Bool) (st : filesys) (sector : Nat)
    (h : registry_inv guarded st) : registry_inv guarded (inode_open st sector).1 := by
  cases hd : inode_deref st sector with
  | some i =>
    have hi := h.2 i (inode_deref_mem st sector i hd)
    have hsec := inode_deref_sector st sector i hd
    simp only [inode_open, hd]
    refine registry_inv_store guarded st sector { i with open_cnt := i.open_cnt + 1 } h hsec
      ⟨?_, hi.2.1, ?_⟩
    · simp only; omega
    · intro g; have := hi.2.2 g; simp only; omega
  | none =>
    simp only [inode_open, hd]
    refine ⟨?_, ?_⟩
    · unfold registry_ok
      simp only [List.map_cons, List.nodup_cons]
      refine ⟨?_, h.1⟩
      intro hm
      rw [List.mem_map] at hm
      obtain ⟨j, hj, hjs⟩ := hm
      unfold inode_deref at hd
      rw [List.find?_eq_none] at hd
      have := hd j hj
      simp [hjs] at this
    · intro j hj
      rcases List.mem_cons.1 hj with h1 | h1
      · rw [h1]
        refine ⟨le_refl _, le_refl _, fun _ => ?_⟩
        simp only
        omega
      · exact h.2 j h1

theorem registry_inv_reopen ( guarded : Bool) (st st1 : filesys) (p : Option Nat)
    (h : registry_inv guarded st) (hr : inode_reopen st p = some st1) :
    registry_inv guarded st1 := by
  cases p with
  | none =>
    simp only [inode_reopen, Option.some.injEq] at hr
    rw [← hr]; exact h
  | some q =>
    cases hd : inode_deref st q with
    | none => simp [inode_reopen, hd] at hr
    | some i =>
      have hi := h.2 i (inode_deref_mem st q i hd)
      have hsec := inode_deref_sector st q i hd
      simp only [inode_reopen, hd, Option.some.injEq] at hr
      rw [← hr]
      refine registry_inv_store guarded st q { i with open_cnt := i.open_cnt + 1 } h hsec
        ⟨?_, hi.2.1, ?_⟩
      · simp only; omega
      · intro g; have := hi.2.2 g; simp only; omega

theorem registry_inv_close ( guarded : Bool) (st st1 : filesys) (p : Option Nat)
    (h : registry_inv guarded st) (hc : inode_close st p = some st1)
    (hg : guarded = true → close_allowed st p = true) :
    registry_inv guarded st1 := by
  cases p with
  | none =>
    simp only [inode_close, Option.some.injEq] at hc
    rw [← hc]; exact h
  | some q =>
    cases hd : inode_deref st q with
    | none => simp [inode_close, hd] at hc
    | some i =>
      have hi := h.2 i (inode_deref_mem st q i hd)
      have hsec := inode_deref_sector st q i hd
      simp only [inode_close, hd] at hc
      by_cases hz : i.open_cnt - 1 = 0
      · rw [if_pos hz] at hc
        cases hrm : i.removed with
        | true =>
          simp only [hrm, if_true] at hc
          have := (free_blocks_log _ _ _ hc).1
          exact registry_inv_erase guarded st q _ h rfl st1 this
        | false =>
          simp only [hrm] at hc
          simp only [Bool.false_eq_true, if_false, Option.some.injEq] at hc
          rw [← hc]
          exact registry_inv_erase guarded st q _ h rfl _ rfl
      · rw [if_neg hz] at hc
        simp only [Option.some.injEq] at hc
        rw [← hc]
        refine registry_inv_store guarded st q { i with open_cnt := i.open_cnt - 1 } h hsec
          ⟨?_, hi.2.1, ?_⟩
        · simp only; omega
        · intro g
          have := hg g
          simp only [close_allowed, hd, Bool.or_eq_true, decide_eq_true_eq] at this
          simp only
          omega

theorem registry_inv_remove ( guarded : Bool) (st st1 : filesys) (p : Nat)
    (h : registry_inv guarded st) (hr : inode_remove st p = some st1) :
    registry_inv guarded st1 := by
  cases hd : inode_deref st p with
  | none => simp [inode_remove, hd] at hr
  | some i =>
    have hi := h.2 i (inode_deref_mem st p i hd)
    have hsec := inode_deref_sector st p i hd
    simp only [inode_remove, hd, Option.some.injEq] at hr
    rw [← hr]
    exact registry_inv_store guarded st p { i with removed := true } h hsec hi

theorem registry_inv_deny ( guarded : Bool) (st st1 : filesys) (p : Nat)
    (h : registry_inv guarded st) (hr : inode_deny_write st p = some st1) :
    registry_inv guarded st1 := by
  cases hd : inode_deref st p with
  | none => simp [inode_deny_write, hd] at hr
  | some i =>
    have hi := h.2 i (inode_deref_mem st p i hd)
    have hsec := inode_deref_sector st p i hd
    simp only [inode_deny_write, hd] at hr
    split_ifs at hr with ha
    simp only [Option.some.injEq] at hr
    rw [← hr]
    refine registry_inv_store guarded st p { i with deny_write_cnt := i.deny_write_cnt + 1 } h hsec
      ⟨hi.1, ?_, fun _ => ha⟩
    simp only; omega

theorem registry_inv_allow ( guarded : Bool) (st st1 : filesys) (p : Nat)
    (h : registry_inv guarded st) (hr : inode_allow_write st p = some st1) :
    registry_inv guarded st1 := by
  cases hd : inode_deref st p with
  | none => simp [inode_allow_write, hd] at hr
  | some i =>
    have hi := h.2 i (inode_deref_mem st p i hd)
    have hsec := inode_deref_sector st p i hd
    simp only [inode_allow_write, hd] at hr
    split_ifs at hr with ha hb
    simp only [Option.some.injEq] at hr
    rw [← hr]
    refine registry_inv_store guarded st p { i with deny_write_cnt := i.deny_write_cnt - 1 } h hsec
      ⟨hi.1, ?_, fun _ => ?_⟩
    · simp only; omega
    · simp only; omega

theorem inode_reach_inv ( guarded : Bool) (st : filesys) (h : inode_reach guarded st) :
    registry_inv guarded st := by
  induction h with
  | init st =>
    refine ⟨?_, ?_⟩
    · simp [registry_ok, inode_init]
    · intro i hi
      simp [inode_init] at hi
  | opened st sector _ ih => exact registry_inv_open guarded st sector ih
  | reopened st st1 p _ hr ih => exact registry_inv_reopen guarded st st1 p ih hr
  | closed st st1 p _ hc hg ih => exact registry_inv_close guarded st st1 p ih hc hg
  | removed st st1 p _ hr ih => exact registry_inv_remove guarded st st1 p ih hr
  | denied st st1 p _ hr ih => exact registry_inv_deny guarded st st1 p ih hr
  | allowed st st1 p _ hr ih => exact registry_inv_allow guarded st st1 p ih hr


theorem sample_denied_reach : inode_reach false sample_denied :=
  inode_reach.closed _ _ (some 2)
    (inode_reach.denied _ _ 2
      (inode_reach.denied _ _ 2
        (inode_reach.reopened _ _ (some 2)
          (inode_reach.opened _ 2 (inode_reach.init sample_disk)) rfl) rfl) rfl) rfl
    (fun g => Bool.noConfusion g)

theorem sample_shared_reach : inode_reach true sample_shared :=
  inode_reach.closed _ _ (some 2)
    (inode_reach.denied _ _ 2
      (inode_reach.reopened _ _ (some 2)
        (inode_reach.opened _ 2 (inode_reach.init sample_disk)) rfl) rfl) rfl
    (fun _ => by decide)

/-- C15: in every state reachable from `inode_init` through `inode_open`,
`inode_reopen` and `inode_close` (and `inode_remove`, `inode_deny_write`,
`inode_allow_write`), the registry holds at most one inode per sector and every
registered inode has `open_cnt >= 1`.  `inode_open` of a registered sector
returns the registered inode with `open_cnt` incremented by one, stores it
under the same sector without adding an entry, and its result does not depend
on the contents of the device; `inode_open` of an unregistered sector puts at
the head of the registry a new inode with `open_cnt = 1`, `deny_write_cnt = 0`,
`removed = false` and the data read from the sector. -/
theorem registry_invariant ( guarded : Bool) (st : filesys) (h : inode_reach guarded st) :
    registry_ok st ∧ (∀ i ∈ st.open_inodes, 1 ≤ i.open_cnt) ∧
    (∀ sector i, inode_deref st sector = some i →
      (inode_open st sector).2 = { i with open_cnt := i.open_cnt + 1 } ∧
      inode_deref (inode_open st sector).1 sector = some { i with open_cnt := i.open_cnt + 1 } ∧
      (inode_open st sector).1.open_inodes.map (fun j => j.sector) =
        st.open_inodes.map (fun j => j.sector) ∧
      (inode_open st sector).1.filesys_disk = st.filesys_disk ∧
      ∀ d, (inode_open { st with filesys_disk := d } sector).2 = (inode_open st sector).2) ∧
    (∀ sector, inode_deref st sector = none →
      (inode_open st sector).2 =
        { sector := sector, open_cnt := 1, deny_write_cnt := 0, removed := false,
          data := ⟨st.filesys_disk sector⟩ } ∧
      (inode_open st sector).1.open_inodes = (inode_open st sector).2 :: st.open_inodes) := by
  obtain ⟨h1, h2⟩ := inode_reach_inv guarded st h
  refine ⟨h1, fun i hi => (h2 i hi).1, ?_, ?_⟩
  · intro sector i hd
    have hsec := inode_deref_sector st sector i hd
    have hd2 : inode_deref { st with filesys_disk := fun _ => zeros } sector = some i := hd
    refine ⟨?_, ?_, ?_, ?_, ?_⟩
    · simp only [inode_open, hd]
    · simp only [inode_open, hd]
      exact inode_deref_store st sector i { i with open_cnt := i.open_cnt + 1 } hd hsec
    · simp only [inode_open, hd, inode_store]
      exact map_sector_list_store _ sector { i with open_cnt := i.open_cnt + 1 } hsec
    · simp only [inode_open, hd, inode_store]
    · intro d
      have hd3 : inode_deref { st with filesys_disk := d } sector = some i := hd
      simp only [inode_open, hd, hd3]
  · intro sector hd
    constructor <;> simp [inode_open, hd, disk_read]

theorem registry_invariant_witness :
    inode_reach false sample_denied ∧
    sample_denied.open_inodes.map (fun i => (i.sector, i.open_cnt)) = [(2, 1)] ∧
    registry_ok sample_denied ∧ (∀ i ∈ sample_denied.open_inodes, 1 ≤ i.open_cnt) :=
  ⟨sample_denied_reach, by decide,
    (registry_invariant false sample_denied sample_denied_reach).1,
    (registry_invariant false sample_denied sample_denied_reach).2.1⟩

/-- C16: while `deny_write_cnt` of an open inode is greater than 0, `inode_write_at`
returns 0 for every buffer, size and offset and leaves the whole state as it
was: the inode with its length and index slots, the free map, the buffer
cache and the device. -/
theorem inode_write_at_denied (st : filesys) (p : Nat) (i : inode) (buffer : Nat → Nat)
    (size offset : Nat) (hd : inode_deref st p = some i) (h : 0 < i.deny_write_cnt) :
    inode_write_at st p buffer size offset = some (st, 0) := by
  have hne : i.deny_write_cnt ≠ 0 := by omega
  simp only [inode_write_at, hd, hne, ne_eq, not_false_eq_true, if_true]

theorem inode_write_at_denied_witness :
    inode_deref sample_deny 2 = some { sample_inode with deny_write_cnt := 1 } ∧
    (0 : Int) < ({ sample_inode with deny_write_cnt := 1 } : inode).deny_write_cnt ∧
    inode_write_at sample_deny 2 (fun _ => 7) 600 100 = some (sample_deny, 0) :=
  ⟨rfl, by decide,
    inode_write_at_denied sample_deny 2 { sample_inode with deny_write_cnt := 1 } (fun _ => 7)
      600 100 rfl (by decide)⟩

/-- C17, as stated, fails when an opener closes the inode while its denial of
writes stands: after `inode_open`, `inode_reopen`, `inode_deny_write` twice and
`inode_close` (every assertion holds on the way) the inode is open with
`open_cnt = 1` and `deny_write_cnt = 2`. -/
theorem close_by_denier_breaks_bound :
    inode_reach false sample_denied ∧
    sample_denied.open_inodes.map (fun i => (i.sector, i.open_cnt, i.deny_write_cnt)) =
      [(2, 1, 2)] :=
  ⟨sample_denied_reach, by decide⟩

/-- C17, amended: in every state reachable through `inode_open`, `inode_reopen`,
`inode_close`, `inode_deny_write` and `inode_allow_write` (and `inode_remove`),
the last two called only where their assertions hold and `inode_close` only
by the last opener or on an inode with `deny_write_cnt < open_cnt`, every open
inode satisfies `0 <= deny_write_cnt <= open_cnt`. -/
theorem deny_write_cnt_bounded (st : filesys) (h : inode_reach true st) :
    ∀ i ∈ st.open_inodes, 0 ≤ i.deny_write_cnt ∧ i.deny_write_cnt ≤ i.open_cnt := by
  intro i hi
  obtain ⟨_, h2, h3⟩ := (inode_reach_inv true st h).2 i hi
  exact ⟨h2, h3 rfl⟩

theorem deny_write_cnt_bounded_witness :
    inode_reach true sample_shared ∧
    sample_shared.open_inodes.map (fun i => (i.sector, i.open_cnt, i.deny_write_cnt)) =
      [(2, 1, 1)] ∧
    ∀ i ∈ sample_shared.open_inodes, 0 ≤ i.deny_write_cnt ∧ i.deny_write_cnt ≤ i.open_cnt :=
  ⟨sample_shared_reach, by decide, deny_write_cnt_bounded sample_shared sample_shared_reach⟩

/-- C18 on a full device, at the unallocated block 0 of an open file: `allocate_block`
returns `UNUSED_SECTOR`, and yet `inode_write_at` returns 1 for a write of one
byte and `inode_read_at` returns 1 for a read of one byte; each of them leaves
a cache entry for sector `UNUSED_SECTOR`, which `cache_table_write` and
`cache_table_read` created on the miss. -/
theorem unused_sector_reaches_cache :
    unused_sector_calls = some ([0, UNUSED_SECTOR, 1, 1], [false, true, true]) := by
  decide

/-- Beyond the last slot of the double-indirect block the read of the slot leaves
the sector. -/
theorem ensure_slot_out_of_sector (st : filesys) (sector idx : Nat) (fill : Nat → Nat)
    (h : 128 ≤ idx) : ensure_slot st sector idx fill = none := by
  unfold ensure_slot
  rw [cache_table_read_none _ _ _ _ _ _ (by simp only [DISK_SECTOR_SIZE]; omega)]

theorem ioffset_out_of_range (pos : Nat) (h : 16524 ≤ pos) :
    128 ≤ (pos - DIRECT_MAX - SECTOR_MAX) / SECTOR_MAX := by
  simp only [DIRECT_MAX, SECTOR_MAX]
  omega

theorem allocate_double_out_of_range (st : filesys) (data : inode_disk) (pos : Nat)
    (h : 16524 ≤ pos) : allocate_double st data pos = none := by
  unfold allocate_double
  dsimp only
  rw [ensure_slot_out_of_sector _ _ _ _ (ioffset_out_of_range pos h)]

theorem allocate_block_beyond_range_aux (st : filesys) (data : inode_disk) (pos : Nat)
    (h : 16524 ≤ pos) (hu : data.double_indirect ≠ UNUSED_SECTOR) :
    allocate_block st data pos = none := by
  have h1 : ¬ pos < DIRECT_MAX := by simp only [DIRECT_MAX]; omega
  have h2 : ¬ pos < DIRECT_MAX + SECTOR_MAX := by simp only [DIRECT_MAX, SECTOR_MAX]; omega
  unfold allocate_block
  rw [if_neg h1, if_neg h2, if_neg hu]
  exact allocate_double_out_of_range st data pos h

theorem double_indirect_write_start (data : inode_disk) (size offset : Nat) :
    (if inode_length data < ((offset + size : Nat) : Int)
      then data.set_length (offset + size) else data).double_indirect = data.double_indirect := by
  split_ifs
  · exact get32_set_length data (offset + size) 13 (by decide)
  · rfl

theorem block_index_out_of_range (offset : Nat) (h : (12 + 128 + 128 * 128) * 512 ≤ offset) :
    16524 ≤ offset / DISK_SECTOR_SIZE := by
  simp only [DISK_SECTOR_SIZE]
  omega

theorem inode_write_at_out_of_range (st : filesys) (p : Nat) (i : inode) (buffer : Nat → Nat)
    (size offset : Nat) (hd : inode_deref st p = some i) (hdeny : i.deny_write_cnt = 0)
    (hsize : 0 < size) (ho : (12 + 128 + 128 * 128) * 512 ≤ offset)
    (hu : i.data.double_indirect ≠ UNUSED_SECTOR) :
    inode_write_at st p buffer size offset = none := by
  have hb := block_index_out_of_range offset ho
  obtain ⟨n, rfl⟩ : ∃ n, size = n + 1 := ⟨size - 1, by omega⟩
  unfold inode_write_at
  simp only [hd, hdeny, ne_eq, not_true_eq_false, if_false]
  have hu1 := double_indirect_write_start i.data (n + 1) offset
  generalize (if inode_length i.data < ((offset + (n + 1) : Nat) : Int)
    then i.data.set_length (offset + (n + 1)) else i.data) = data0 at hu1 ⊢
  rw [← hu1] at hu
  have h4 := (allocate_block_beyond_range_aux st data0 (offset / DISK_SECTOR_SIZE) hb) hu
  simp only [inode_write_loop, hsize, if_true, h4]

theorem inode_read_at_out_of_range (st : filesys) (p : Nat) (i : inode) (buffer : Nat → Nat)
    (size offset : Nat) (hd : inode_deref st p = some i)
    (hsize : 0 < size) (ho : (12 + 128 + 128 * 128) * 512 ≤ offset)
    (hu : i.data.double_indirect ≠ UNUSED_SECTOR) :
    inode_read_at st p buffer size offset = none := by
  have hb := block_index_out_of_range offset ho
  obtain ⟨n, rfl⟩ : ∃ n, size = n + 1 := ⟨size - 1, by omega⟩
  unfold inode_read_at
  simp only [hd]
  have h4 := (allocate_block_beyond_range_aux st i.data (offset / DISK_SECTOR_SIZE) hb) hu
  simp only [inode_read_loop, hsize, if_true, h4]

/-- C19 at logical block 16524 = 12 + 128 + 128 * 128: `allocate_block` has no
assertion on the block index.  On a full device, for an inode without
double-indirect block, it returns `UNUSED_SECTOR` to its caller.  On the empty
inode of `sample_open` it allocates the double-indirect block (sector 3),
computes `ioffset = 128` and hands the byte offset 512 to `cache_table_read`:
the slot read lies behind the 512 bytes of the cache buffer (the read of slot
127 is the last one inside), and the call as a whole leaves the buffer. -/
theorem allocate_block_index_unchecked :
    (allocate_block sample_full sample_inode.data 16524).map (fun r => r.1) =
      some UNUSED_SECTOR ∧
    beyond_range_calls = some ([128, 512, 3], [true, false, false]) := by
  constructor <;> decide

/-- Beyond the range of an inode, for every logical block index `pos >= 12 + 128 +
128 * 128`: `allocate_block` takes the double-indirect branch without a check of
`pos`.  When the inode has no double-indirect block and none can be allocated,
it returns `UNUSED_SECTOR` and changes nothing.  In every other case it
computes `ioffset = (pos - 140) / 128 >= 128` and reads the slot at byte
`4 * ioffset >= 512` of the double-indirect block, which lies behind the
512-byte cache buffer; `none` stands for that read (cache.c has no test of the
offset: the C program reads the four bytes behind the buffer and goes on with
them).  `inode_write_at` (writes not denied) and `inode_read_at` with `size > 0` at
an offset of at least `(12 + 128 + 128 * 128) * 512` pass such an index to
`allocate_block`. -/
theorem allocate_block_beyond_range (st : filesys) (data : inode_disk) (pos : Nat)
    (h : 12 + 128 + 128 * 128 ≤ pos) :
    128 ≤ (pos - DIRECT_MAX - SECTOR_MAX) / SECTOR_MAX ∧
    (data.double_indirect = UNUSED_SECTOR → free_map_allocate st.free_map = none →
      allocate_block st data pos = some (UNUSED_SECTOR, data, st)) ∧
    (data.double_indirect = UNUSED_SECTOR → (free_map_allocate st.free_map).isSome = true →
      allocate_block st data pos = none) ∧
    (data.double_indirect ≠ UNUSED_SECTOR → allocate_block st data pos = none) ∧
    (∀ p i buffer size offset, inode_deref st p = some i → i.data = data → 0 < size →
      offset / DISK_SECTOR_SIZE = pos → data.double_indirect ≠ UNUSED_SECTOR →
      (i.deny_write_cnt = 0 → inode_write_at st p buffer size offset = none) ∧
      inode_read_at st p buffer size offset = none) := by
  have h1 : ¬ pos < DIRECT_MAX := by simp only [DIRECT_MAX]; omega
  have h2 : ¬ pos < DIRECT_MAX + SECTOR_MAX := by simp only [DIRECT_MAX, SECTOR_MAX]; omega
  have h3 : 16524 ≤ pos := h
  refine ⟨ioffset_out_of_range pos h3, ?_, ?_, ?_, ?_⟩
  rotate_left 3
  · intro p i buffer size offset hd hdata hsize hpos hu
    have ho : (12 + 128 + 128 * 128) * 512 ≤ offset := by
      simp only [DISK_SECTOR_SIZE] at hpos
      omega
    rw [← hdata] at hu
    exact ⟨fun hdeny => inode_write_at_out_of_range st p i buffer size offset hd hdeny hsize ho hu,
      inode_read_at_out_of_range st p i buffer size offset hd hsize ho hu⟩
  · intro hu hf
    unfold allocate_block
    rw [if_neg h1, if_neg h2, if_pos hu, hf]
  · intro hu hf
    unfold allocate_block
    rw [if_neg h1, if_neg h2, if_pos hu]
    cases ha : free_map_allocate st.free_map with
    | none => rw [ha] at hf; cases hf
    | some r =>
      obtain ⟨s, fm⟩ := r
      dsimp only
      cases hw : cache_table_write { st with free_map := fm } unused 0
          (data.set_double_indirect s).double_indirect 0 DISK_SECTOR_SIZE with
      | none => rfl
      | some st1 => exact allocate_double_out_of_range st1 _ pos h3
  · intro hu
    unfold allocate_block
    rw [if_neg h1, if_neg h2, if_neg hu]
    exact allocate_double_out_of_range st data pos h3

theorem bitmap_scan_and_flip_spec : ∀ (l : List Bool), false ∈ l →
    ∃ i, bitmap_scan_and_flip l = some (i, l.set i true) ∧ i < l.length ∧
      l[i]? = some false ∧ ∀ j, j < i → l[j]? = some true := by
  intro l
  induction l with
  | nil => intro h; cases h
  | cons b rest ih =>
    intro h
    cases b with
    | false =>
      refine ⟨0, ?_, ?_, ?_, ?_⟩
      · simp [bitmap_scan_and_flip]
      · simp
      · simp
      · intro j hj; omega
    | true =>
      have h1 : false ∈ rest := by
        rcases List.mem_cons.1 h with h2 | h2
        · cases h2
        · exact h2
      obtain ⟨i, e, hi, hf, hlow⟩ := ih h1
      refine ⟨i + 1, ?_, ?_, ?_, ?_⟩
      · simp [bitmap_scan_and_flip, e]
      · simp only [List.length_cons]; omega
      · simpa using hf
      · intro j hj
        cases j with
        | zero => simp
        | succ j => simpa using hlow j (by omega)

theorem swap_write_loop_table (frame : Nat → Nat) (block : Nat) : ∀ (l : List Nat) (st : swap),
    (swap_write_loop frame block l st).swap_table = st.swap_table ∧
    (swap_write_loop frame block l st).disk_size = st.disk_size ∧
    (swap_write_loop frame block l st).written =
      st.written ++ l.map (fun i => (block + i) % 4294967296) := by
  intro l
  induction l with
  | nil => intro st; simp [swap_write_loop]
  | cons i rest ih =>
    intro st
    obtain ⟨h1, h2, h3⟩ := ih { st with
      swap_device := Function.update st.swap_device ((block + i) % 4294967296)
        (fun k => frame (i * DISK_SECTOR_SIZE + k)),
      written := st.written ++ [(block + i) % 4294967296] }
    simp only [swap_write_loop]
    refine ⟨h1, h2, ?_⟩
    rw [h3]
    simp

theorem swap_write_loop_other (frame : Nat → Nat) (block s : Nat) :
    ∀ (l : List Nat) (st : swap), (∀ i ∈ l, (block + i) % 4294967296 ≠ s) →
    (swap_write_loop frame block l st).swap_device s = st.swap_device s := by
  intro l
  induction l with
  | nil => intro st _; rfl
  | cons i rest ih =>
    intro st h
    simp only [swap_write_loop]
    rw [ih _ (fun j hj => h j (List.mem_cons_of_mem _ hj))]
    simp only
    rw [Function.update_noteq]
    exact fun e => h i (List.mem_cons_self _ _) e.symm

theorem swap_write_loop_written (frame : Nat → Nat) (block : Nat) :
    ∀ (l : List Nat) (st : swap), (l.map (fun i => (block + i) % 4294967296)).Nodup →
    ∀ i ∈ l, (swap_write_loop frame block l st).swap_device ((block + i) % 4294967296) =
      fun k => frame (i * DISK_SECTOR_SIZE + k) := by
  intro l
  induction l with
  | nil => intro st _ i hi; cases hi
  | cons a rest ih =>
    intro st hnd i hi
    simp only [List.map_cons, List.nodup_cons] at hnd
    simp only [swap_write_loop]
    rcases List.mem_cons.1 hi with rfl | h1
    · rw [swap_write_loop_other frame block _ rest _ ?_]
      · simp
      · intro j hj e
        apply hnd.1
        rw [List.mem_map]
        exact ⟨j, hj, e⟩
    · exact ih _ hnd.2 i h1

theorem swap_table_init_wf (device : Nat → Nat → Nat) (size : Nat) (h : size < 4294967296) :
    swap_wf (swap_table_init device size) := by
  refine ⟨?_, h⟩
  simp only [swap_table_init, List.length_replicate]
  exact Nat.div_mul_le_self size block_size

theorem swap_slot_arith (i n d : Nat) (hi : i < n) (hn : n * 8 ≤ d) (hd : d < 4294967296) :
    i * 8 % 4294967296 = 8 * i ∧ ∀ j, j < 8 → (8 * i + j) % 4294967296 = 8 * i + j := by
  constructor
  · omega
  · intro j hj
    omega

/-- What `swap_out` does on a state with a free slot. -/
theorem swap_out_spec (st : swap) (frame : Nat → Nat) (hwf : swap_wf st)
    (hfree : false ∈ st.swap_table) :
    ∃ i, i < st.swap_table.length ∧ st.swap_table[i]? = some false ∧
      (∀ j, j < i → st.swap_table[j]? = some true) ∧
      (swap_out st frame).2 = 8 * i ∧
      (swap_out st frame).1.swap_table = st.swap_table.set i true ∧
      (swap_out st frame).1.written = st.written ++ (List.range 8).map (fun j => 8 * i + j) ∧
      (∀ j k, j < 8 → k < 512 →
        (swap_out st frame).1.swap_device (8 * i + j) k = frame (512 * j + k)) ∧
      (∀ s, (s < 8 * i ∨ 8 * i + 8 ≤ s) →
        (swap_out st frame).1.swap_device s = st.swap_device s) := by
  obtain ⟨i, e, hi, hf, hlow⟩ := bitmap_scan_and_flip_spec st.swap_table hfree
  have hbs : block_size = 8 := rfl
  obtain ⟨hw1, hw2⟩ := hwf
  rw [hbs] at hw1
  obtain ⟨a1, a2⟩ := swap_slot_arith i st.swap_table.length st.disk_size hi hw1 hw2
  have hout : swap_out st frame =
      (swap_write_loop frame (8 * i) (List.range 8)
        { st with swap_table := st.swap_table.set i true }, 8 * i) := by
    simp only [swap_out, e, hbs, a1]
  have hmap : (List.range 8).map (fun j => (8 * i + j) % 4294967296) =
      (List.range 8).map (fun j => 8 * i + j) := by
    apply List.map_congr_left
    intro j hj
    exact a2 j (List.mem_range.1 hj)
  obtain ⟨b1, _, b3⟩ := swap_write_loop_table frame (8 * i) (List.range 8)
    { st with swap_table := st.swap_table.set i true }
  refine ⟨i, hi, hf, hlow, ?_, ?_, ?_, ?_, ?_⟩
  · rw [hout]
  · rw [hout]; exact b1
  · rw [hout]
    simp only at b3 ⊢
    rw [b3, hmap]
  · intro j k hj _
    rw [hout]
    simp only
    have hnd : ((List.range 8).map (fun j => (8 * i + j) % 4294967296)).Nodup := by
      rw [hmap]
      apply List.Nodup.map
      · intro x y hxy
        simp only at hxy
        omega
      · exact List.nodup_range 8
    have := swap_write_loop_written frame (8 * i) (List.range 8)
      { st with swap_table := st.swap_table.set i true } hnd j (List.mem_range.2 hj)
    rw [a2 j hj] at this
    rw [this]
    simp only [DISK_SECTOR_SIZE]
    rw [Nat.mul_comm j 512]
  · intro s hs
    rw [hout]
    simp only
    rw [swap_write_loop_other frame (8 * i) s (List.range 8) _ ?_]
    intro j hj
    rw [a2 j (List.mem_range.1 hj)]
    have := List.mem_range.1 hj
    omega

/-- C20: for every swap state with at least one free slot, `swap_out (frame)` picks
the lowest-indexed slot `i` whose bit is clear, sets that bit and no other,
writes the eight sectors `8 i` to `8 i + 7` in this order, sector `8 i + j`
receiving the bytes `512 j` to `512 j + 511` of the frame, returns `8 i`, and
changes no other sector of the swap device. -/
theorem swap_out_first_free (st : swap) (frame : Nat → Nat) (hwf : swap_wf st)
    (hfree : false ∈ st.swap_table) :
    ∃ i, i < st.swap_table.length ∧ st.swap_table[i]? = some false ∧
      (∀ j, j < i → st.swap_table[j]? = some true) ∧
      (swap_out st frame).2 = 8 * i ∧
      (swap_out st frame).1.swap_table = st.swap_table.set i true ∧
      (swap_out st frame).1.written = st.written ++ (List.range 8).map (fun j => 8 * i + j) ∧
      (∀ j k, j < 8 → k < 512 →
        (swap_out st frame).1.swap_device (8 * i + j) k = frame (512 * j + k)) ∧
      (∀ s, (s < 8 * i ∨ 8 * i + 8 ≤ s) →
        (swap_out st frame).1.swap_device s = st.swap_device s) :=
  swap_out_spec st frame hwf hfree

theorem swap_out_first_free_witness :
    swap_wf sample_swap ∧ false ∈ sample_swap.swap_table ∧
    sample_swap.swap_table = [true, true, false, false, false] ∧
    (swap_out sample_swap (fun k => k % 256)).2 = 16 ∧
    (swap_out sample_swap (fun k => k % 256)).1.swap_table = [true, true, true, false, false] ∧
    (swap_out sample_swap (fun k => k % 256)).1.swap_device 17 3 = 3 ∧
    ∃ i, i < sample_swap.swap_table.length ∧ sample_swap.swap_table[i]? = some false ∧
      (swap_out sample_swap (fun k => k % 256)).2 = 8 * i := by
  have hwf : swap_wf sample_swap := by
    constructor <;> decide
  refine ⟨hwf, by decide, by decide, by decide, by decide, by decide, ?_⟩
  obtain ⟨i, h1, h2, _, h4, _⟩ :=
    swap_out_first_free sample_swap (fun k => k % 256) hwf (by decide)
  exact ⟨i, h1, h2, h4⟩

theorem swap_read_loop_append (st : swap) (block : Nat) :
    ∀ (l1 l2 : List Nat) (frame : Nat → Nat),
    swap_read_loop st block (l1 ++ l2) frame =
      swap_read_loop st block l2 (swap_read_loop st block l1 frame) := by
  intro l1
  induction l1 with
  | nil => intro l2 frame; rfl
  | cons i rest ih =>
    intro l2 frame
    rw [List.cons_append]
    simp only [swap_read_loop]
    exact ih l2 _

theorem sector_split (a n : Nat) (h1 : n * 512 ≤ a) (h2 : a < n * 512 + 512) :
    a / 512 = n ∧ a % 512 = a - n * 512 := by
  omega

theorem swap_read_loop_apply (st : swap) (block : Nat) (a : Nat) :
    ∀ (n : Nat) (frame : Nat → Nat),
    swap_read_loop st block (List.range n) frame a =
      if a < n * 512 then
        st.swap_device ((block + a / 512) % 4294967296) (a % 512)
      else frame a := by
  intro n
  induction n with
  | zero =>
    intro frame
    simp [swap_read_loop]
  | succ n ih =>
    intro frame
    rw [List.range_succ, swap_read_loop_append]
    simp only [swap_read_loop, memcpy, DISK_SECTOR_SIZE]
    by_cases h : n * 512 ≤ a ∧ a < n * 512 + 512
    · obtain ⟨e1, e2⟩ := sector_split a n h.1 h.2
      have h3 : a < (n + 1) * 512 := by omega
      rw [if_pos h, if_pos h3, e1, e2, Nat.zero_add]
    · rw [if_neg h, ih]
      by_cases h4 : a < n * 512
      · have h3 : a < (n + 1) * 512 := by omega
        rw [if_pos h4, if_pos h3]
      · have h3 : ¬ a < (n + 1) * 512 := by omega
        rw [if_neg h4, if_neg h3]

theorem list_set_restore : ∀ (l : List Bool) (i : Nat), l[i]? = some false →
    (l.set i true).set i false = l := by
  intro l
  induction l with
  | nil => intro i h; simp at h
  | cons b rest ih =>
    intro i h
    cases i with
    | zero =>
      simp only [List.getElem?_cons_zero, Option.some.injEq] at h
      simp [h]
    | succ i =>
      simp only [List.getElem?_cons_succ] at h
      simp only [List.set_cons_succ]
      rw [ih i h]

/-- What `swap_in` of the sector that `swap_out` returned does. -/
theorem swap_round_trip (st : swap) (frame frame2 : Nat → Nat) (hwf : swap_wf st)
    (hfree : false ∈ st.swap_table) :
    ∃ st2 out, swap_in (swap_out st frame).1 (swap_out st frame).2 frame2 = some (st2, out) ∧
      (∀ a, a < 4096 → out a = frame a) ∧ (∀ a, 4096 ≤ a → out a = frame2 a) ∧
      st2.swap_table = st.swap_table ∧
      st2.swap_device = (swap_out st frame).1.swap_device := by
  obtain ⟨i, hi, hf, _, h1, h2, _, h4, _⟩ := swap_out_spec st frame hwf hfree
  have hbs : block_size = 8 := rfl
  obtain ⟨hw1, hw2⟩ := hwf
  rw [hbs] at hw1
  have hidx : 8 * i / 8 = i := by omega
  have hlen : i < ((swap_out st frame).1.swap_table).length := by
    rw [h2, List.length_set]; exact hi
  have hset : bitmap_set (swap_out st frame).1.swap_table i false = some st.swap_table := by
    unfold bitmap_set
    rw [if_pos hlen, h2, list_set_restore st.swap_table i hf]
  refine ⟨{ (swap_out st frame).1 with swap_table := st.swap_table },
    swap_read_loop (swap_out st frame).1 (8 * i) (List.range 8) frame2, ?_, ?_, ?_, rfl, rfl⟩
  · simp only [swap_in, h1, hbs, hidx, hset]
  · intro a ha
    rw [swap_read_loop_apply]
    have h5 : a < 8 * 512 := by omega
    have h6 : a / 512 < 8 := by omega
    have h7 : (8 * i + a / 512) % 4294967296 = 8 * i + a / 512 := by omega
    rw [if_pos h5, h7, h4 (a / 512) (a % 512) h6 (Nat.mod_lt _ (by decide))]
    congr 1
    omega
  · intro a ha
    rw [swap_read_loop_apply]
    have h5 : ¬ a < 8 * 512 := by omega
    rw [if_neg h5]

/-- C21: for every page content and every swap state with a free slot, `swap_in` of
the sector that `swap_out (frame)` returned, into a second frame, returns and
leaves in the 4096 bytes of that frame exactly the bytes of the first frame
(the bytes beyond them are untouched), and the swap bitmap is again what it was
before the `swap_out`: the slot is free. -/
theorem swap_in_recovers_page (st : swap) (frame frame2 : Nat → Nat) (hwf : swap_wf st)
    (hfree : false ∈ st.swap_table) :
    ∃ st2 out, swap_in (swap_out st frame).1 (swap_out st frame).2 frame2 = some (st2, out) ∧
      (∀ a, a < 4096 → out a = frame a) ∧ (∀ a, 4096 ≤ a → out a = frame2 a) ∧
      st2.swap_table = st.swap_table := by
  obtain ⟨st2, out, h1, h2, h3, h4, _⟩ := swap_round_trip st frame frame2 hwf hfree
  exact ⟨st2, out, h1, h2, h3, h4⟩

theorem sample_swap_wf : swap_wf sample_swap := by
  constructor <;> decide

theorem swap_in_recovers_page_witness :
    swap_wf sample_swap ∧ false ∈ sample_swap.swap_table ∧
    (swap_out sample_swap (fun k => k % 251)).2 = 16 ∧
    (swap_in (swap_out sample_swap (fun k => k % 251)).1 16 zeros).map
      (fun r => (r.1.swap_table, r.2 4095, r.2 4096)) =
      some ([true, true, false, false, false], 4095 % 251, 0) ∧
    ∃ st2 out, swap_in (swap_out sample_swap (fun k => k % 251)).1
        (swap_out sample_swap (fun k => k % 251)).2 zeros = some (st2, out) ∧
      (∀ a, a < 4096 → out a = a % 251) ∧ st2.swap_table = sample_swap.swap_table := by
  refine ⟨sample_swap_wf, by decide, by decide, by decide, ?_⟩
  obtain ⟨st2, out, h1, h2, _, h4⟩ :=
    swap_in_recovers_page sample_swap (fun k => k % 251) zeros sample_swap_wf (by decide)
  exact ⟨st2, out, h1, h2, h4⟩

theorem elem_live_iff (ft : frame_table) (p : Nat) :
    elem_live ft p = true ↔ p ≠ 0 ∧ (p = LIST_HEAD ∨ p = LIST_TAIL ∨ (ft.entries p).isSome) := by
  simp [elem_live, or_assoc]

theorem elem_live_head (ft : frame_table) : elem_live ft LIST_HEAD = true := by
  simp [elem_live, LIST_HEAD]

theorem elem_live_tail (ft : frame_table) : elem_live ft LIST_TAIL = true := by
  simp [elem_live, LIST_TAIL, LIST_HEAD]

theorem elem_live_entry (ft : frame_table) (p : Nat) (h0 : 3 ≤ p) (h : (ft.entries p).isSome) :
    elem_live ft p = true := by
  rw [elem_live_iff]
  exact ⟨by omega, Or.inr (Or.inr h)⟩

theorem chain_congr (next prev next1 prev1 : Nat → Nat) : ∀ (l : List Nat) (a b : Nat),
    (∀ p ∈ a :: l, next1 p = next p) → (∀ p ∈ l ++ [b], prev1 p = prev p) →
    chain next prev a l b → chain next1 prev1 a l b := by
  intro l
  induction l with
  | nil =>
    intro a b hn hp h
    obtain ⟨h1, h2⟩ := h
    exact ⟨by rw [hn a (List.mem_cons_self _ _)]; exact h1,
      by rw [hp b (by simp)]; exact h2⟩
  | cons x l ih =>
    intro a b hn hp h
    obtain ⟨h1, h2, h3⟩ := h
    refine ⟨by rw [hn a (List.mem_cons_self _ _)]; exact h1,
      by rw [hp x (by simp)]; exact h2, ?_⟩
    apply ih x b _ _ h3
    · intro p hpm
      exact hn p (List.mem_cons_of_mem _ hpm)
    · intro p hpm
      exact hp p (by simp only [List.cons_append, List.mem_cons]; exact Or.inr hpm)

theorem chain_last (next prev : Nat → Nat) : ∀ (l : List Nat) (a b : Nat),
    chain next prev a l b → prev b ∈ a :: l ∧ next (prev b) = b := by
  intro l
  induction l with
  | nil =>
    intro a b h
    obtain ⟨h1, h2⟩ := h
    rw [h2]
    exact ⟨List.mem_cons_self _ _, h1⟩
  | cons x l ih =>
    intro a b h
    obtain ⟨_, _, h3⟩ := h
    obtain ⟨i1, i2⟩ := ih x b h3
    exact ⟨List.mem_cons_of_mem _ i1, i2⟩

theorem chain_first (next prev : Nat → Nat) (l : List Nat) (a b : Nat)
    (h : chain next prev a l b) : next a ∈ l ++ [b] := by
  cases l with
  | nil => simp [h.1]
  | cons x l => simp [h.1]

/-- The links after `list_insert (b, e)` for an element `e` outside the chain. -/
theorem chain_snoc (next prev : Nat → Nat) (e b : Nat) : ∀ (l : List Nat) (a : Nat),
    chain next prev a l b → (a :: l).Nodup → e ∉ a :: l → e ≠ b → b ∉ a :: l →
    chain (Function.update (Function.update next e b) (prev b) e)
      (Function.update (Function.update prev e (prev b)) b e) a (l ++ [e]) b := by
  intro l
  induction l with
  | nil =>
    intro a h _ he heb hb
    obtain ⟨h1, h2⟩ := h
    have hea : e ≠ a := fun c => he (c ▸ List.mem_cons_self _ _)
    rw [h2]
    refine ⟨?_, ?_, ?_, ?_⟩
    · simp
    · rw [Function.update_noteq heb, Function.update_same]
    · rw [Function.update_noteq hea, Function.update_same]
    · simp
  | cons x l ih =>
    intro a h hnd he heb hb
    obtain ⟨h1, h2, h3⟩ := h
    have hnd2 : (x :: l).Nodup := (List.nodup_cons.1 hnd).2
    have ha : a ∉ x :: l := (List.nodup_cons.1 hnd).1
    have he2 : e ∉ x :: l := fun c => he (List.mem_cons_of_mem _ c)
    have hb2 : b ∉ x :: l := fun c => hb (List.mem_cons_of_mem _ c)
    have hlast := (chain_last next prev l x b h3).1
    have hea : a ≠ e := fun c => he (c ▸ List.mem_cons_self _ _)
    have hxe : x ≠ e := fun c => he2 (c ▸ List.mem_cons_self _ _)
    have hxb : x ≠ b := fun c => hb2 (c ▸ List.mem_cons_self _ _)
    refine ⟨?_, ?_, ih x h3 hnd2 he2 heb hb2⟩
    · rw [Function.update_noteq (fun c => ha (by rw [c]; exact hlast)), Function.update_noteq hea]
      exact h1
    · rw [Function.update_noteq hxb, Function.update_noteq hxe]
      exact h2

theorem fifo_head_not_mem (ft : frame_table) (l : List Nat) (h : fifo ft l) :
    LIST_HEAD ∉ l ∧ LIST_TAIL ∉ l ∧ 0 ∉ l := by
  refine ⟨?_, ?_, ?_⟩ <;> intro c <;> have := (h.live _ c).1 <;> simp [LIST_HEAD, LIST_TAIL] at this

/-- The list after `list_push_back` of an allocated entry that is not in it. -/
theorem list_push_back_fifo (ft : frame_table) (l : List Nat) (e : Nat) (h : fifo ft l)
    (he : e ∉ l) (h3 : 3 ≤ e) (hl : (ft.entries e).isSome) :
    ∃ ft1, list_push_back ft e = some ft1 ∧ fifo ft1 (l ++ [e]) ∧
      ft1.entries = ft.entries ∧ ft1.hash = ft.hash ∧ ft1.brk = ft.brk := by
  obtain ⟨n1, n2, n3⟩ := fifo_head_not_mem ft l h
  have hlast := chain_last ft.next ft.prev l LIST_HEAD LIST_TAIL h.links
  have hpl : elem_live ft (ft.prev LIST_TAIL) = true := by
    rcases List.mem_cons.1 hlast.1 with c | c
    · rw [c]; exact elem_live_head ft
    · exact elem_live_entry ft _ (h.live _ c).1 (h.live _ c).2
  have hp0 : ft.prev LIST_TAIL ≠ 0 := ((elem_live_iff ft _).1 hpl).1
  have het : e ≠ LIST_TAIL := by simp only [LIST_TAIL]; omega
  have heh : e ≠ LIST_HEAD := by simp only [LIST_HEAD]; omega
  have hnd : (LIST_HEAD :: l).Nodup := List.nodup_cons.2 ⟨n1, h.nodup⟩
  have he2 : e ∉ LIST_HEAD :: l := by
    intro c
    rcases List.mem_cons.1 c with c | c
    · exact heh c
    · exact he c
  have ht2 : LIST_TAIL ∉ LIST_HEAD :: l := by
    intro c
    rcases List.mem_cons.1 c with c | c
    · simp [LIST_HEAD, LIST_TAIL] at c
    · exact n2 c
  have hc := chain_snoc ft.next ft.prev e LIST_TAIL l LIST_HEAD h.links hnd he2 het ht2
  refine ⟨{ ft with
    next := Function.update (Function.update ft.next e LIST_TAIL) (ft.prev LIST_TAIL) e,
    prev := Function.update (Function.update ft.prev e (ft.prev LIST_TAIL)) LIST_TAIL e },
    ?_, ⟨hc, ?_, ?_⟩, rfl, rfl, rfl⟩
  · unfold list_push_back list_insert
    have hcond : elem_live ft LIST_TAIL = true ∧ elem_live ft e = true ∧
        ft.prev LIST_TAIL ≠ 0 := ⟨elem_live_tail ft, elem_live_entry ft e h3 hl, hp0⟩
    rw [if_pos hcond]
    simp only
    rw [Function.update_noteq het.symm, if_pos hpl]
  · rw [List.nodup_append]
    refine ⟨h.nodup, List.nodup_singleton _, ?_⟩
    intro a ha hb
    rw [List.mem_singleton] at hb
    exact he (hb ▸ ha)
  · intro p hp
    rcases List.mem_append.1 hp with c | c
    · exact h.live p c
    · rw [List.mem_singleton] at c
      rw [c]
      exact ⟨h3, hl⟩

/-- The list after `list_pop_front`. -/
theorem list_pop_front_fifo (ft : frame_table) (a : Nat) (rest : List Nat)
    (h : fifo ft (a :: rest)) :
    ∃ ft1, list_pop_front ft = some (a, ft1) ∧ fifo ft1 rest ∧
      ft1.entries = ft.entries ∧ ft1.hash = ft.hash ∧ ft1.brk = ft.brk := by
  obtain ⟨h1, h2, h3⟩ := h.links
  obtain ⟨n1, n2, n3⟩ := fifo_head_not_mem ft _ h
  have ha := h.live a (List.mem_cons_self _ _)
  have hnd := List.nodup_cons.1 h.nodup
  have hat : a ≠ LIST_TAIL := fun c => n2 (c ▸ List.mem_cons_self _ _)
  have hah : a ≠ LIST_HEAD := fun c => n1 (c ▸ List.mem_cons_self _ _)
  have hnext : ft.next a ∈ rest ++ [LIST_TAIL] := chain_first _ _ _ _ _ h3
  have hnl : elem_live ft (ft.next a) = true := by
    rcases List.mem_append.1 hnext with c | c
    · have := h.live _ (List.mem_cons_of_mem _ c)
      exact elem_live_entry ft _ this.1 this.2
    · rw [List.mem_singleton] at c
      rw [c]; exact elem_live_tail ft
  have hn0 : ft.next a ≠ 0 := ((elem_live_iff ft _).1 hnl).1
  refine ⟨{ ft with
    next := Function.update ft.next LIST_HEAD (ft.next a),
    prev := Function.update ft.prev (ft.next a) LIST_HEAD }, ?_, ⟨?_, hnd.2, ?_⟩, rfl, rfl, rfl⟩
  · have hcond : elem_live ft a = true ∧ ft.prev a ≠ 0 ∧ ft.next a ≠ 0 :=
      ⟨elem_live_entry ft a ha.1 ha.2, by rw [h2]; simp [LIST_HEAD], hn0⟩
    have hrem : list_remove ft a = some { ft with
        next := Function.update ft.next LIST_HEAD (ft.next a),
        prev := Function.update ft.prev (ft.next a) LIST_HEAD } := by
      unfold list_remove
      rw [if_pos hcond, h2, if_pos (elem_live_head ft)]
      simp only
      rw [Function.update_noteq hah, if_pos hnl]
    show (if ft.next LIST_HEAD = LIST_TAIL then none
      else match list_remove ft (ft.next LIST_HEAD) with
        | none => none
        | some ft1 => some (ft.next LIST_HEAD, ft1)) = _
    rw [h1, if_neg hat, hrem]
  · cases rest with
    | nil =>
      obtain ⟨c1, c2⟩ := h3
      simp only [chain]
      rw [c1]
      simp
    | cons x r =>
      obtain ⟨c1, c2, c3⟩ := h3
      simp only [chain]
      rw [c1]
      refine ⟨by simp, by simp, ?_⟩
      have hx := List.nodup_cons.1 hnd.2
      apply chain_congr ft.next ft.prev _ _ r x LIST_TAIL _ _ c3
      · intro p hp
        rw [Function.update_noteq]
        intro c
        exact n1 (c ▸ List.mem_cons_of_mem _ hp)
      · intro p hp
        rw [Function.update_noteq]
        intro c
        rcases List.mem_append.1 hp with d | d
        · exact hx.1 (c ▸ d)
        · rw [List.mem_singleton] at d
          exact n2 (by rw [← d, c]; simp)
  · intro p hp
    exact h.live p (List.mem_cons_of_mem _ hp)

/-- One call of `frame_table_select_victim` on a well-formed list. -/
theorem select_victim_fifo (ft : frame_table) (a : Nat) (rest : List Nat)
    (e : frame_table_entry) (h : fifo ft (a :: rest)) (he : ft.entries a = some e) :
    ∃ ft1, frame_table_select_victim ft = some (e.frame, ft1) ∧ fifo ft1 (rest ++ [a]) ∧
      ft1.entries = ft.entries ∧ ft1.hash = ft.hash ∧ ft1.brk = ft.brk := by
  obtain ⟨ft1, p1, p2, p3, p4, p5⟩ := list_pop_front_fifo ft a rest h
  have ha := h.live a (List.mem_cons_self _ _)
  have hnd := List.nodup_cons.1 h.nodup
  obtain ⟨ft2, q1, q2, q3, q4, q5⟩ := list_push_back_fifo ft1 rest a p2 hnd.1 ha.1
    (by rw [p3]; exact ha.2)
  refine ⟨ft2, ?_, q2, by rw [q3, p3], by rw [q4, p4], by rw [q5, p5]⟩
  unfold frame_table_select_victim
  simp only [p1, p3, he, q1]

theorem fifo_congr (ft ft1 : frame_table) (l : List Nat) (h : fifo ft l)
    (hn : ft1.next = ft.next) (hp : ft1.prev = ft.prev)
    (he : ∀ p ∈ l, ft1.entries p = ft.entries p) : fifo ft1 l := by
  refine ⟨by rw [hn, hp]; exact h.links, h.nodup, ?_⟩
  intro p hpm
  rw [he p hpm]
  exact h.live p hpm

theorem frame_table_find_none (ft : frame_table) (frame : Nat)
    (h : frame ∉ frames_of ft ft.hash) : frame_table_find ft frame = none := by
  unfold frame_table_find
  rw [List.find?_eq_none]
  intro p hp
  cases he : ft.entries p with
  | none => simp
  | some e =>
    simp only [beq_iff_eq]
    intro c
    apply h
    unfold frames_of
    rw [List.mem_map]
    exact ⟨p, hp, by rw [he]; exact c⟩

theorem frames_of_congr (ft ft1 : frame_table) (l : List Nat)
    (he : ∀ p ∈ l, ft1.entries p = ft.entries p) : frames_of ft1 l = frames_of ft l := by
  unfold frames_of
  apply List.map_congr_left
  intro p hp
  rw [he p hp]

/-- The call `frame_table_insert` for a frame that has no entry. -/
theorem frame_table_insert_new (ft : frame_table) (l : List Nat) (proc frame page : Nat)
    (h : table_ok ft l) (hf : frame ∉ frames_of ft l) :
    ∃ ft1, frame_table_insert ft proc frame page = some ft1 ∧ table_ok ft1 (l ++ [ft.brk]) ∧
      frames_of ft1 (l ++ [ft.brk]) = frames_of ft l ++ [frame] ∧
      ft1.entries = Function.update ft.entries ft.brk
        (some { frame := frame, owner := proc, page := page }) := by
  have hb : ft.brk ∉ l := fun c => Nat.lt_irrefl _ (h.brk.2 _ c)
  have hf1 : frame_table_find ft frame = none :=
    frame_table_find_none ft frame (by rw [h.hash]; exact hf)
  have hent : ∀ p ∈ l, Function.update ft.entries ft.brk
      (some ({ frame := frame, owner := proc, page := page } : frame_table_entry)) p
      = ft.entries p := by
    intro p hp
    rw [Function.update_noteq]
    exact fun c => hb (c ▸ hp)
  have hf2 : frame_table_find
      { ft with
          brk := ft.brk + 1,
          entries := Function.update ft.entries ft.brk
            (some { frame := frame, owner := proc, page := page }) } frame = none := by
    apply frame_table_find_none
    simp only
    have e := frames_of_congr ft
      { ft with
          brk := ft.brk + 1,
          entries := Function.update ft.entries ft.brk
            (some { frame := frame, owner := proc, page := page }) } ft.hash
      (by rw [h.hash]; exact hent)
    rw [e, h.hash]
    exact hf
  have hfifo : fifo
      { ft with
          brk := ft.brk + 1,
          entries := Function.update ft.entries ft.brk
            (some { frame := frame, owner := proc, page := page }),
          hash := ft.hash ++ [ft.brk] } l :=
    fifo_congr ft _ l h.fifo rfl rfl hent
  obtain ⟨ft1, p1, p2, p3, p4, p5⟩ := list_push_back_fifo _ l ft.brk hfifo hb h.brk.1
    (by simp)
  refine ⟨ft1, ?_, ⟨p2, ?_, ?_⟩, ?_, p3⟩
  · unfold frame_table_insert
    simp only [hf1, hf2]
    exact p1
  · rw [p4]
    simp only
    rw [h.hash]
  · rw [p5]
    simp only
    refine ⟨by have := h.brk.1; omega, ?_⟩
    intro p hp
    rcases List.mem_append.1 hp with c | c
    · have := h.brk.2 p c; omega
    · rw [List.mem_singleton] at c; omega
  · unfold frames_of
    rw [List.map_append, p3]
    congr 1
    · apply List.map_congr_left
      intro p hp
      simp only
      rw [hent p hp]
    · simp

theorem table_ok_init : table_ok frame_table_init [] := by
  refine ⟨⟨?_, List.nodup_nil, ?_⟩, rfl, ?_⟩
  · exact ⟨rfl, rfl⟩
  · intro p hp; cases hp
  · exact ⟨by decide, fun p hp => by cases hp⟩

/-- The inserts of distinct new frames succeed and line the entries up in order. -/
theorem insert_all_ok : ∀ (rs : List (Nat × Nat × Nat)) (ft : frame_table) (l : List Nat),
    table_ok ft l → (frames_of ft l ++ rs.map (fun r => r.2.1)).Nodup →
    ∃ ft1 l1, insert_all ft rs = some ft1 ∧ table_ok ft1 (l ++ l1) ∧
      frames_of ft1 (l ++ l1) = frames_of ft l ++ rs.map (fun r => r.2.1) := by
  intro rs
  induction rs with
  | nil =>
    intro ft l h _
    exact ⟨ft, [], rfl, by simpa using h, by simp⟩
  | cons r rs ih =>
    intro ft l h hnd
    obtain ⟨proc, frame, page⟩ := r
    simp only [List.map_cons] at hnd
    have hf : frame ∉ frames_of ft l := by
      intro c
      have := (List.nodup_append.1 hnd).2.2
      exact this c (List.mem_cons_self _ _)
    obtain ⟨ft1, p1, p2, p3, _⟩ := frame_table_insert_new ft l proc frame page h hf
    have hnd2 : (frames_of ft1 (l ++ [ft.brk]) ++ rs.map (fun r => r.2.1)).Nodup := by
      rw [p3, List.append_assoc]
      exact hnd
    obtain ⟨ft2, l2, q1, q2, q3⟩ := ih ft1 (l ++ [ft.brk]) p2 hnd2
    refine ⟨ft2, ft.brk :: l2, ?_, ?_, ?_⟩
    · simp only [insert_all, p1]
      exact q1
    · have e : l ++ ft.brk :: l2 = l ++ [ft.brk] ++ l2 := by simp
      rw [e]; exact q2
    · have e : l ++ ft.brk :: l2 = l ++ [ft.brk] ++ l2 := by simp
      rw [e, q3, p3]
      simp

/-- Successive calls of `frame_table_select_victim` return the frames of the front
entries in order and move them to the back. -/
theorem victims_fifo : ∀ (l1 l2 : List Nat) (ft : frame_table), fifo ft (l1 ++ l2) →
    ∃ ft1, victims l1.length ft = some (frames_of ft l1, ft1) ∧ fifo ft1 (l2 ++ l1) ∧
      ft1.entries = ft.entries ∧ ft1.hash = ft.hash := by
  intro l1
  induction l1 with
  | nil =>
    intro l2 ft h
    exact ⟨ft, rfl, by simpa using h, rfl, rfl⟩
  | cons a l1 ih =>
    intro l2 ft h
    have ha := h.live a (by simp)
    obtain ⟨e, he⟩ := Option.isSome_iff_exists.1 ha.2
    rw [List.cons_append] at h
    obtain ⟨ft1, p1, p2, p3, p4, _⟩ := select_victim_fifo ft a (l1 ++ l2) e h he
    rw [List.append_assoc] at p2
    obtain ⟨ft2, q1, q2, q3, q4⟩ := ih (l2 ++ [a]) ft1 p2
    refine ⟨ft2, ?_, ?_, by rw [q3, p3], by rw [q4, p4]⟩
    · simp only [List.length_cons, victims, p1, q1]
      have : frames_of ft1 l1 = frames_of ft l1 := frames_of_congr ft ft1 l1 (fun p _ => by rw [p3])
      rw [this]
      simp [frames_of, he]
    · have e2 : l2 ++ a :: l1 = l2 ++ [a] ++ l1 := by simp
      rw [e2]; exact q2

theorem sample_frames_fifo : fifo sample_frames [3, 4, 5] := by
  refine ⟨?_, by decide, by decide⟩
  simp only [chain]
  decide

/-- C24 on a table with the frames 4096 and 8192.  After
`frame_table_select_victim`, which returns 4096, `frame_table_insert` for frame
4096 pushes the entry at address 3, already the last of the list, to the back
again: its `next` and `prev` point to itself, and the walk from the head meets
4, 3, 3, 3, ... and never the tail.  And `frame_table_insert` for frame 4096
while its entry is the first of the list leaves a list of that entry alone:
the entry of frame 8192 is in the hash and no longer in the list. -/
theorem upsert_breaks_list :
    upsert_after_victim = some (4096, [4, 3], [4, 3, 3, 3, 3, 3], 3, 3) ∧
    upsert_of_front = some ([4, 3], [3]) := by
  constructor <;> decide


theorem page_table_find_store_same : ∀ (pt : List page_table_entry) (e : page_table_entry),
    page_table_find (page_table_store pt e) e.page = some e := by
  intro pt e
  induction pt with
  | nil => simp [page_table_store, page_table_find]
  | cons x rest ih =>
    by_cases hx : x.page = e.page
    · simp [page_table_store, page_table_find, hx]
    · simp only [page_table_store, if_neg hx]
      unfold page_table_find at ih ⊢
      rw [List.find?_cons_of_neg _ (by simpa using hx)]
      exact ih

theorem page_table_find_store_other : ∀ (pt : List page_table_entry) (e : page_table_entry)
    (q : Nat), q ≠ e.page → page_table_find (page_table_store pt e) q = page_table_find pt q := by
  intro pt e q hq
  induction pt with
  | nil =>
    simp only [page_table_store, page_table_find]
    rw [List.find?_cons_of_neg _ (by simpa using fun c : e.page = q => hq c.symm)]
  | cons x rest ih =>
    by_cases hx : x.page = e.page
    · simp only [page_table_store, if_pos hx]
      unfold page_table_find
      rw [List.find?_cons_of_neg _ (by simpa using fun c : e.page = q => hq c.symm),
        List.find?_cons_of_neg _ (by rw [hx]; simpa using fun c : e.page = q => hq c.symm)]
    · simp only [page_table_store, if_neg hx]
      unfold page_table_find at ih ⊢
      by_cases hxq : x.page = q
      · rw [List.find?_cons_of_pos _ (by simpa using hxq),
          List.find?_cons_of_pos _ (by simpa using hxq)]
      · rw [List.find?_cons_of_neg _ (by simpa using hxq),
          List.find?_cons_of_neg _ (by simpa using hxq)]
        exact ih

/-- The pages of the entries are kept by a store, the page of a new entry apart. -/
theorem page_table_store_pages : ∀ (pt : List page_table_entry) (e : page_table_entry),
    (page_table_store pt e).map (fun x => x.page) =
      if e.page ∈ pt.map (fun x => x.page) then pt.map (fun x => x.page)
      else pt.map (fun x => x.page) ++ [e.page] := by
  intro pt e
  induction pt with
  | nil => simp [page_table_store]
  | cons x rest ih =>
    by_cases hx : x.page = e.page
    · simp [page_table_store, hx]
    · simp only [page_table_store, if_neg hx, List.map_cons, ih, List.mem_cons]
      have hx2 : ¬ e.page = x.page := fun c => hx c.symm
      by_cases hm : e.page ∈ rest.map (fun x => x.page)
      · simp [hm]
      · simp [hm, hx2]

/-- C25, as stated, fails for `page_table_insert_frame` on an entry that is in a
file: after `page_table_insert_file (page, file 5, offset 8192)` and
`page_table_insert_frame` for the same page, the entry has the frame, the disk
flag false, and still the file and the offset. -/
theorem insert_frame_keeps_file :
    (page_table_find
      (page_table_insert_frame (page_table_insert_file [] 4096 5 8192) 4096 12288) 4096).map
      (fun e => (e.frame, e.block, e.disk, e.file, e.offset)) =
      some (some 12288, 0, false, some 5, 8192) := by
  decide

/-- C25, amended: after `page_table_insert_file (page, file, offset)` the entry for
`page` has that file and offset, no frame, block 0 and the disk flag false,
whatever it was before.  After `page_table_insert_frame (page, frame)` it has
that frame, block 0 and the disk flag false, and after
`page_table_insert_block (page, slot)` it has no frame and the disk flag true
with that slot; both leave the fields `file` and `offset` as they were (no
file for a new entry).  The entries of the other pages are unchanged. -/
theorem page_table_insert_sets_fields (pt : List page_table_entry) (page : Nat) :
    (∀ file offset,
      page_table_find (page_table_insert_file pt page file offset) page =
        some { page := page, frame := none, block := 0, file := some file, offset := offset,
               disk := false }) ∧
    (∀ frame,
      page_table_find (page_table_insert_frame pt page frame) page =
        some { page := page, frame := some frame, block := 0,
               file := (page_table_entry_for pt page).file,
               offset := (page_table_entry_for pt page).offset, disk := false }) ∧
    (∀ block,
      page_table_find (page_table_insert_block pt page block) page =
        some { page := page, frame := none, block := block,
               file := (page_table_entry_for pt page).file,
               offset := (page_table_entry_for pt page).offset, disk := true }) ∧
    (page_table_find pt page = none → (page_table_entry_for pt page).file = none) ∧
    (∀ e, page_table_find pt page = some e →
      (page_table_entry_for pt page).file = e.file ∧
      (page_table_entry_for pt page).offset = e.offset) ∧
    (∀ q, q ≠ page →
      (∀ file offset,
        page_table_find (page_table_insert_file pt page file offset) q = page_table_find pt q) ∧
      (∀ frame,
        page_table_find (page_table_insert_frame pt page frame) q = page_table_find pt q) ∧
      (∀ block,
        page_table_find (page_table_insert_block pt page block) q = page_table_find pt q)) := by
  refine ⟨?_, ?_, ?_, ?_, ?_, ?_⟩
  · intro file offset
    exact page_table_find_store_same pt _
  · intro frame
    exact page_table_find_store_same pt _
  · intro block
    exact page_table_find_store_same pt _
  · intro h
    simp [page_table_entry_for, h]
  · intro e h
    simp [page_table_entry_for, h]
  · intro q hq
    refine ⟨?_, ?_, ?_⟩
    · intro file offset
      exact page_table_find_store_other pt _ q hq
    · intro frame
      exact page_table_find_store_other pt _ q hq
    · intro block
      exact page_table_find_store_other pt _ q hq

theorem find_of_unique (ft : frame_table) (a : Nat) (e : frame_table_entry) :
    ∀ (l : List Nat), (frames_of ft l).Nodup → a ∈ l → ft.entries a = some e →
    l.find? (fun p =>
      match ft.entries p with
      | some x => x.frame == e.frame
      | none => false) = some a := by
  intro l
  induction l with
  | nil => intro _ h; cases h
  | cons x l ih =>
    intro hnd hm he
    by_cases hx : x = a
    · subst hx
      rw [List.find?_cons_of_pos]
      simp [he]
    · have hal : a ∈ l := by
        rcases List.mem_cons.1 hm with c | c
        · exact absurd c.symm hx
        · exact c
      unfold frames_of at hnd
      rw [List.map_cons, List.nodup_cons] at hnd
      rw [List.find?_cons_of_neg]
      · exact ih hnd.2 hal he
      · cases hex : ft.entries x with
        | none => simp
        | some ex =>
          simp only [beq_iff_eq]
          intro c
          apply hnd.1
          rw [List.mem_map]
          exact ⟨a, hal, by simp only [he, hex, c]⟩

theorem hash_ok_congr (ft ft1 : frame_table) (he : ft1.entries = ft.entries)
    (hh : ft1.hash = ft.hash) (h : hash_ok ft) : hash_ok ft1 := by
  unfold hash_ok at h ⊢
  rw [hh, he]
  refine ⟨?_, h.2⟩
  have : frames_of ft1 ft.hash = frames_of ft ft.hash := by
    unfold frames_of
    rw [he]
  rw [this]
  exact h.1

theorem frame_table_find_unique (ft : frame_table) (a : Nat) (e : frame_table_entry)
    (h : hash_ok ft) (ha : a ∈ ft.hash) (he : ft.entries a = some e) :
    frame_table_find ft e.frame = some a :=
  find_of_unique ft a e ft.hash h.1 ha he

theorem frame_table_entry_of_unique (ft : frame_table) (a : Nat) (e : frame_table_entry)
    (h : hash_ok ft) (ha : a ∈ ft.hash) (he : ft.entries a = some e) :
    frame_table_entry_of ft e.frame = some e := by
  unfold frame_table_entry_of
  rw [frame_table_find_unique ft a e h ha he]
  exact he

/-- The call `list_push_back` for an element that is in the list returns. -/
theorem list_push_back_linked (ft : frame_table) (l : List Nat) (e : Nat) (h : fifo ft l)
    (he : e ∈ l) :
    ∃ ft1, list_push_back ft e = some ft1 ∧ ft1.entries = ft.entries ∧ ft1.hash = ft.hash ∧
      ft1.brk = ft.brk := by
  have hl := h.live e he
  have hlast := chain_last ft.next ft.prev l LIST_HEAD LIST_TAIL h.links
  have hpl : elem_live ft (ft.prev LIST_TAIL) = true := by
    rcases List.mem_cons.1 hlast.1 with c | c
    · rw [c]; exact elem_live_head ft
    · exact elem_live_entry ft _ (h.live _ c).1 (h.live _ c).2
  have hp0 : ft.prev LIST_TAIL ≠ 0 := ((elem_live_iff ft _).1 hpl).1
  have het : e ≠ LIST_TAIL := by simp only [LIST_TAIL]; omega
  refine ⟨{ ft with
    next := Function.update (Function.update ft.next e LIST_TAIL) (ft.prev LIST_TAIL) e,
    prev := Function.update (Function.update ft.prev e (ft.prev LIST_TAIL)) LIST_TAIL e },
    ?_, rfl, rfl, rfl⟩
  unfold list_push_back list_insert
  have hcond : elem_live ft LIST_TAIL = true ∧ elem_live ft e = true ∧
      ft.prev LIST_TAIL ≠ 0 := ⟨elem_live_tail ft, elem_live_entry ft e hl.1 hl.2, hp0⟩
  rw [if_pos hcond]
  simp only
  rw [Function.update_noteq het.symm, if_pos hpl]

theorem frames_of_update (ft : frame_table) (a : Nat) (e e1 : frame_table_entry)
    (he : ft.entries a = some e) (hf : e1.frame = e.frame) (l : List Nat)
    (ent : Nat → Option frame_table_entry) (hent : ent = Function.update ft.entries a (some e1))
    (ft1 : frame_table) (h1 : ft1.entries = ent) : frames_of ft1 l = frames_of ft l := by
  unfold frames_of
  apply List.map_congr_left
  intro p _
  rw [h1, hent]
  by_cases hp : p = a
  · subst hp
    rw [Function.update_same, he]
    exact hf
  · rw [Function.update_noteq hp]

/-- The call `frame_table_insert` for a frame whose entry is in the hash and in the
list (an upsert): it returns, and the hash yields for the frame the entry with
the new owner and page. -/
theorem frame_table_insert_again (ft : frame_table) (l : List Nat) (a : Nat)
    (e : frame_table_entry) (proc page : Nat) (h : fifo ft l) (hh : hash_ok ft)
    (hal : a ∈ l) (hah : a ∈ ft.hash) (he : ft.entries a = some e) :
    ∃ ft1, frame_table_insert ft proc e.frame page = some ft1 ∧
      frame_table_entry_of ft1 e.frame = some { frame := e.frame, owner := proc, page := page } ∧
      hash_ok ft1 := by
  have hf1 := frame_table_find_unique ft a e hh hah he
  have hfr : ∀ (ft1 : frame_table) (l1 : List Nat),
      ft1.entries = Function.update ft.entries a
        (some { frame := e.frame, owner := proc, page := page }) →
      frames_of ft1 l1 = frames_of ft l1 := fun ft1 l1 h1 =>
    frames_of_update ft a e { frame := e.frame, owner := proc, page := page } he rfl l1 _ rfl ft1 h1
  have hsome : ∀ p, (ft.entries p).isSome →
      (Function.update ft.entries a
        (some ({ frame := e.frame, owner := proc, page := page } : frame_table_entry)) p).isSome := by
    intro p hp
    by_cases hpa : p = a
    · subst hpa; simp
    · rw [Function.update_noteq hpa]; exact hp
  have hh1 : hash_ok
      { ft with
          entries := Function.update ft.entries a
            (some { frame := e.frame, owner := proc, page := page }) } := by
    refine ⟨?_, fun p hp => hsome p (hh.2 p hp)⟩
    rw [hfr _ _ rfl]
    exact hh.1
  have hf2 : frame_table_find
      { ft with
          entries := Function.update ft.entries a
            (some { frame := e.frame, owner := proc, page := page }) } e.frame = some a :=
    frame_table_find_unique _ a { frame := e.frame, owner := proc, page := page } hh1 hah
      (by simp)
  have hperm : (ft.hash.erase a ++ [a]).Perm ft.hash :=
    (List.perm_append_comm.trans (List.perm_cons_erase hah).symm)
  have hh2 : hash_ok
      { ft with
          entries := Function.update ft.entries a
            (some { frame := e.frame, owner := proc, page := page }),
          hash := ft.hash.erase a ++ [a] } := by
    refine ⟨?_, ?_⟩
    · rw [hfr _ _ rfl]
      simp only
      have hp2 : (frames_of ft (ft.hash.erase a ++ [a])).Perm (frames_of ft ft.hash) :=
        List.Perm.map _ hperm
      exact (List.Perm.nodup_iff hp2).2 hh.1
    · intro p hp
      exact hsome p (hh.2 p ((List.Perm.mem_iff hperm).1 hp))
  have hfifo : fifo
      { ft with
          entries := Function.update ft.entries a
            (some { frame := e.frame, owner := proc, page := page }),
          hash := ft.hash.erase a ++ [a] } l :=
    ⟨h.links, h.nodup, fun p hp => ⟨(h.live p hp).1, hsome p (h.live p hp).2⟩⟩
  obtain ⟨ft1, p1, p2, p3, _⟩ := list_push_back_linked _ l a hfifo hal
  have hh3 : hash_ok ft1 := hash_ok_congr _ ft1 p2 p3 hh2
  refine ⟨ft1, ?_, ?_, hh3⟩
  · unfold frame_table_insert
    simp only [hf1, hf2]
    exact p1
  · apply frame_table_entry_of_unique ft1 a { frame := e.frame, owner := proc, page := page } hh3
    · rw [p3]; simp
    · rw [p2]; simp

theorem chain_back (next prev : Nat → Nat) : ∀ (l : List Nat) (a b : Nat),
    chain next prev a l b → prev b = l.getLastD a ∧ next (l.getLastD a) = b ∧
      fchain next a l := by
  intro l
  induction l with
  | nil =>
    intro a b h
    exact ⟨h.2, h.1, trivial⟩
  | cons x l ih =>
    intro a b h
    obtain ⟨h1, _, h3⟩ := h
    obtain ⟨i1, i2, i3⟩ := ih x b h3
    rw [List.getLastD_cons]
    exact ⟨i1, i2, h1, i3⟩

/-- A well-formed list is one that the eviction paths keep. -/
theorem fifo_queue (ft : frame_table) (l : List Nat) (h : fifo ft l) : queue ft l := by
  obtain ⟨b1, b2, b3⟩ := chain_back ft.next ft.prev l LIST_HEAD LIST_TAIL h.links
  refine ⟨b3, h.nodup, h.live, b1, ?_, ?_, ?_, ?_⟩
  · intro c
    subst c
    exact h.links.1
  · intro a c
    subst c
    exact Or.inl ⟨h.links.2.1, h.links.2.2.1⟩
  · intro a b rest c
    subst c
    exact h.links.2.1
  · intro a b rest _
    exact Or.inl b2

theorem fchain_congr (next next1 : Nat → Nat) : ∀ (l : List Nat) (a : Nat),
    (a :: l).Nodup → (∀ p ∈ a :: l, p ≠ l.getLastD a → next1 p = next p) →
    fchain next a l → fchain next1 a l := by
  intro l
  induction l with
  | nil => intro _ _ _ _; trivial
  | cons x l ih =>
    intro a hnd hn h
    obtain ⟨hna, hnd2⟩ := List.nodup_cons.1 hnd
    rw [List.getLastD_cons] at hn
    have hlast : l.getLastD x ∈ x :: l := List.getLastD_mem_cons l x
    refine ⟨?_, ih x hnd2 (fun p hp hpl => hn p (List.mem_cons_of_mem _ hp) hpl) h.2⟩
    rw [hn a (List.mem_cons_self _ _) (fun c => hna (c ▸ hlast))]
    exact h.1

theorem fchain_snoc (next : Nat → Nat) (e : Nat) : ∀ (l : List Nat) (a : Nat),
    fchain next a l → next (l.getLastD a) = e → fchain next a (l ++ [e]) := by
  intro l
  induction l with
  | nil =>
    intro a _ h
    exact ⟨h, trivial⟩
  | cons x l ih =>
    intro a h hl
    rw [List.getLastD_cons] at hl
    exact ⟨h.1, ih x h.2 hl⟩

theorem list_push_back_eq (ft : frame_table) (e : Nat) (he : elem_live ft e = true)
    (hz : elem_live ft (ft.prev LIST_TAIL) = true) (het : e ≠ LIST_TAIL) :
    list_push_back ft e = some { ft with
      next := Function.update (Function.update ft.next e LIST_TAIL) (ft.prev LIST_TAIL) e,
      prev := Function.update (Function.update ft.prev e (ft.prev LIST_TAIL)) LIST_TAIL e } := by
  unfold list_push_back list_insert
  have hp0 : ft.prev LIST_TAIL ≠ 0 := ((elem_live_iff ft _).1 hz).1
  have hcond : elem_live ft LIST_TAIL = true ∧ elem_live ft e = true ∧
      ft.prev LIST_TAIL ≠ 0 := ⟨elem_live_tail ft, he, hp0⟩
  rw [if_pos hcond]
  simp only
  rw [Function.update_noteq het.symm, if_pos hz]

theorem list_remove_eq (ft : frame_table) (a : Nat) (ha : elem_live ft a = true)
    (hp : elem_live ft (ft.prev a) = true) (hn : elem_live ft (ft.next a) = true)
    (hpa : ft.prev a ≠ a ∨ ft.next a = a) :
    list_remove ft a = some { ft with
      next := Function.update ft.next (ft.prev a) (ft.next a),
      prev := Function.update ft.prev (ft.next a) (ft.prev a) } := by
  have hn1 : Function.update ft.next (ft.prev a) (ft.next a) a = ft.next a := by
    rcases hpa with c | c
    · rw [Function.update_noteq (fun d => c d.symm)]
    · by_cases d : a = ft.prev a
      · rw [← d, Function.update_same]
      · rw [Function.update_noteq d]
  unfold list_remove
  have hcond : elem_live ft a = true ∧ ft.prev a ≠ 0 ∧ ft.next a ≠ 0 :=
    ⟨ha, ((elem_live_iff ft _).1 hp).1, ((elem_live_iff ft _).1 hn).1⟩
  rw [if_pos hcond, if_pos hp]
  simp only
  rw [hn1, if_pos hn]

theorem queue_not_mem (ft : frame_table) (l : List Nat) (h : queue ft l) :
    LIST_HEAD ∉ l ∧ LIST_TAIL ∉ l ∧ 0 ∉ l := by
  refine ⟨?_, ?_, ?_⟩ <;> intro c <;> have := (h.live _ c).1 <;> simp [LIST_HEAD, LIST_TAIL] at this

theorem queue_congr (ft ft1 : frame_table) (l : List Nat) (h : queue ft l)
    (hn : ft1.next = ft.next) (hp : ft1.prev = ft.prev)
    (he : ∀ p ∈ l, (ft.entries p).isSome → (ft1.entries p).isSome) : queue ft1 l := by
  refine ⟨by rw [hn]; exact h.links, h.nodup, fun p hpm => ⟨(h.live p hpm).1,
    he p hpm (h.live p hpm).2⟩, by rw [hp]; exact h.back, by rw [hn]; exact h.empty,
    by rw [hn, hp]; exact h.single, by rw [hp]; exact h.front, by rw [hn]; exact h.stop⟩

/-- The call `list_push_back` for the entry that is the last of the list: the list
holds the same entries in the same order, and both fields of the last entry
point to the entry itself. -/
theorem list_push_back_last (ft : frame_table) (l : List Nat) (a : Nat)
    (h : queue ft (l ++ [a])) :
    ∃ ft1, list_push_back ft a = some ft1 ∧ queue ft1 (l ++ [a]) ∧
      ft1.entries = ft.entries ∧ ft1.hash = ft.hash ∧ ft1.brk = ft.brk ∧
      ft1.next a = a ∧ ft1.prev a = a := by
  obtain ⟨n1, n2, n3⟩ := queue_not_mem ft _ h
  have hal : a ∈ l ++ [a] := by simp
  have ha := h.live a hal
  have hlive : elem_live ft a = true := elem_live_entry ft a ha.1 ha.2
  have hat : a ≠ LIST_TAIL := fun c => n2 (c ▸ hal)
  have hah : a ≠ LIST_HEAD := fun c => n1 (c ▸ hal)
  have hback : ft.prev LIST_TAIL = a := by rw [h.back, List.getLastD_concat]
  have hnd := List.nodup_append.1 h.nodup
  have hanl : a ∉ l := fun c => hnd.2.2 c (List.mem_singleton_self a)
  refine ⟨_, list_push_back_eq ft a hlive (by rw [hback]; exact hlive) hat, ?_, rfl, rfl, rfl,
    ?_, ?_⟩
  · rw [hback]
    refine ⟨?_, h.nodup, h.live, ?_, ?_, ?_, ?_, ?_⟩
    · apply fchain_congr ft.next _ (l ++ [a]) LIST_HEAD (List.nodup_cons.2 ⟨n1, h.nodup⟩) _ h.links
      intro p _ hpl
      rw [List.getLastD_concat] at hpl
      simp only
      rw [Function.update_noteq hpl, Function.update_noteq hpl]
    · simp only [Function.update_same]
      rw [List.getLastD_concat]
    · intro c
      simp at c
    · intro x c
      have hx : l = [] ∧ a = x := by
        cases l with
        | nil => simpa using c
        | cons y r => simp at c
      obtain ⟨_, hx2⟩ := hx
      subst hx2
      right
      simp only
      exact ⟨by rw [Function.update_noteq hat, Function.update_same],
        by rw [Function.update_same]⟩
    · intro x y rest c
      have hx := h.front x y rest c
      have hxm : x ∈ l := by
        cases l with
        | nil => simp at c
        | cons z r =>
          simp only [List.cons_append, List.cons.injEq] at c
          rw [c.1]
          exact List.mem_cons_self _ _
      have hxa : x ≠ a := fun d => hanl (d ▸ hxm)
      have hxt : x ≠ LIST_TAIL := fun d => n2 (d ▸ List.mem_append_left _ hxm)
      simp only
      rw [Function.update_noteq hxt, Function.update_noteq hxa]
      exact hx
    · intro x y rest _
      right
      rw [List.getLastD_concat]
      simp only [Function.update_same]
  · rw [hback]
    simp only [Function.update_same]
  · rw [hback]
    simp only
    rw [Function.update_noteq hat, Function.update_same]

/-- One call of `frame_table_select_victim` on a list that holds one entry whose fields
point to itself. -/
theorem select_victim_loop (ft : frame_table) (a : Nat) (e : frame_table_entry)
    (h : queue ft [a]) (he : ft.entries a = some e) (hp : ft.prev a = a) (hn : ft.next a = a) :
    ∃ ft1, frame_table_select_victim ft = some (e.frame, ft1) ∧ queue ft1 [a] ∧
      ft1.entries = ft.entries ∧ ft1.hash = ft.hash ∧ ft1.brk = ft.brk := by
  obtain ⟨n1, n2, n3⟩ := queue_not_mem ft _ h
  have ha := h.live a (List.mem_cons_self _ _)
  have hlive : elem_live ft a = true := elem_live_entry ft a ha.1 ha.2
  have hat : a ≠ LIST_TAIL := fun c => n2 (c ▸ List.mem_cons_self _ _)
  have hah : a ≠ LIST_HEAD := fun c => n1 (c ▸ List.mem_cons_self _ _)
  have hback : ft.prev LIST_TAIL = a := h.back
  have hrem := list_remove_eq ft a hlive (by rw [hp]; exact hlive) (by rw [hn]; exact hlive)
    (Or.inr hn)
  rw [hp, hn] at hrem
  have hpop : list_pop_front ft = some (a, { ft with
      next := Function.update ft.next a a, prev := Function.update ft.prev a a }) := by
    show (if ft.next LIST_HEAD = LIST_TAIL then none
      else match list_remove ft (ft.next LIST_HEAD) with
        | none => none
        | some ft1 => some (ft.next LIST_HEAD, ft1)) = _
    rw [h.links.1, if_neg hat, hrem]
  have hb1 : Function.update ft.prev a a LIST_TAIL = a := by
    rw [Function.update_noteq hat.symm]; exact hback
  have hpush := list_push_back_eq
    { ft with next := Function.update ft.next a a, prev := Function.update ft.prev a a } a
    (elem_live_entry _ a ha.1 ha.2) (by simp only [hb1]; exact elem_live_entry _ a ha.1 ha.2) hat
  simp only [hb1] at hpush
  refine ⟨{ ft with
    next := Function.update (Function.update (Function.update ft.next a a) a LIST_TAIL) a a,
    prev := Function.update (Function.update (Function.update ft.prev a a) a a) LIST_TAIL a },
    ?_, ?_, rfl, rfl, rfl⟩
  · unfold frame_table_select_victim
    simp only [hpop, he, hpush]
  · refine ⟨⟨?_, trivial⟩, h.nodup, h.live, ?_, ?_, ?_, ?_, ?_⟩
    · simp only
      rw [Function.update_noteq hah.symm, Function.update_noteq hah.symm,
        Function.update_noteq hah.symm]
      exact h.links.1
    · simp only [Function.update_same]
      rfl
    · intro c; cases c
    · intro x c
      cases c
      right
      simp only
      exact ⟨by rw [Function.update_noteq hat, Function.update_same],
        by rw [Function.update_same]⟩
    · intro x y rest c; cases c
    · intro x y rest c; cases c

/-- One call of `frame_table_select_victim` on a list of two entries or more. -/
theorem select_victim_long (ft : frame_table) (a b : Nat) (r : List Nat)
    (e : frame_table_entry) (h : queue ft (a :: b :: r)) (he : ft.entries a = some e) :
    ∃ ft1, frame_table_select_victim ft = some (e.frame, ft1) ∧ queue ft1 (b :: r ++ [a]) ∧
      ft1.entries = ft.entries ∧ ft1.hash = ft.hash ∧ ft1.brk = ft.brk := by
  obtain ⟨n1, n2, n3⟩ := queue_not_mem ft _ h
  have ha := h.live a (List.mem_cons_self _ _)
  have hbm : b ∈ a :: b :: r := by simp
  have hb := h.live b hbm
  have hlive : elem_live ft a = true := elem_live_entry ft a ha.1 ha.2
  have hat : a ≠ LIST_TAIL := fun c => n2 (c ▸ List.mem_cons_self _ _)
  have hah : a ≠ LIST_HEAD := fun c => n1 (c ▸ List.mem_cons_self _ _)
  have hbt : b ≠ LIST_TAIL := fun c => n2 (c ▸ hbm)
  have hbh : b ≠ LIST_HEAD := fun c => n1 (c ▸ hbm)
  have hnd := List.nodup_cons.1 h.nodup
  have hab : a ≠ b := fun c => hnd.1 (c ▸ List.mem_cons_self _ _)
  have hpa : ft.prev a = LIST_HEAD := h.front a b r rfl
  have hna : ft.next a = b := h.links.2.1
  have hzm : r.getLastD b ∈ b :: r := List.getLastD_mem_cons r b
  have hback : ft.prev LIST_TAIL = r.getLastD b := by
    rw [h.back, List.getLastD_cons, List.getLastD_cons]
  have hz := h.live _ (List.mem_cons_of_mem a hzm)
  have hza : r.getLastD b ≠ a := fun c => hnd.1 (c ▸ hzm)
  have hzh : r.getLastD b ≠ LIST_HEAD := fun c => n1 (c ▸ List.mem_cons_of_mem a hzm)
  have hrem := list_remove_eq ft a hlive (by rw [hpa]; exact elem_live_head ft)
    (by rw [hna]; exact elem_live_entry ft b hb.1 hb.2) (Or.inl (by rw [hpa]; exact hah.symm))
  rw [hpa, hna] at hrem
  have hpop : list_pop_front ft = some (a, { ft with
      next := Function.update ft.next LIST_HEAD b,
      prev := Function.update ft.prev b LIST_HEAD }) := by
    show (if ft.next LIST_HEAD = LIST_TAIL then none
      else match list_remove ft (ft.next LIST_HEAD) with
        | none => none
        | some ft1 => some (ft.next LIST_HEAD, ft1)) = _
    rw [h.links.1, if_neg hat, hrem]
  have hb1 : Function.update ft.prev b LIST_HEAD LIST_TAIL = r.getLastD b := by
    rw [Function.update_noteq hbt.symm]; exact hback
  have hpush := list_push_back_eq
    { ft with next := Function.update ft.next LIST_HEAD b,
              prev := Function.update ft.prev b LIST_HEAD } a
    (elem_live_entry _ a ha.1 ha.2) (by simp only [hb1]; exact elem_live_entry _ _ hz.1 hz.2) hat
  simp only [hb1] at hpush
  have hnd2 : (b :: r ++ [a]).Nodup := by
    rw [List.nodup_append]
    refine ⟨hnd.2, List.nodup_singleton _, ?_⟩
    intro x hx hxa
    rw [List.mem_singleton] at hxa
    exact hnd.1 (hxa ▸ hx)
  refine ⟨{ ft with
    next := Function.update (Function.update (Function.update ft.next LIST_HEAD b) a LIST_TAIL)
      (r.getLastD b) a,
    prev := Function.update (Function.update (Function.update ft.prev b LIST_HEAD) a
      (r.getLastD b)) LIST_TAIL a }, ?_, ?_, rfl, rfl, rfl⟩
  · unfold frame_table_select_victim
    simp only [hpop, he, hpush]
  · refine ⟨⟨?_, ?_⟩, hnd2, ?_, ?_, ?_, ?_, ?_, ?_⟩
    · simp only
      rw [Function.update_noteq hzh.symm, Function.update_noteq hah.symm, Function.update_same]
    · apply fchain_snoc
      · apply fchain_congr ft.next _ r b hnd.2 _ h.links.2.2
        intro p hp hpl
        have hpa2 : p ≠ a := fun c => hnd.1 (c ▸ hp)
        have hph : p ≠ LIST_HEAD := fun c => n1 (c ▸ List.mem_cons_of_mem a hp)
        simp only
        rw [Function.update_noteq hpl, Function.update_noteq hpa2, Function.update_noteq hph]
      · simp only [Function.update_same]
    · intro p hp
      apply h.live p
      rcases List.mem_append.1 hp with c | c
      · exact List.mem_cons_of_mem a c
      · rw [List.mem_singleton] at c
        rw [c]
        exact List.mem_cons_self _ _
    · simp only [Function.update_same]
      rw [List.getLastD_concat]
    · intro c
      simp at c
    · intro x c
      exfalso
      cases r with
      | nil => simp at c
      | cons y r2 => simp at c
    · intro x y rest c
      simp only [List.cons_append, List.cons.injEq] at c
      rw [← c.1]
      simp only
      rw [Function.update_noteq hbt, Function.update_noteq hab.symm, Function.update_same]
    · intro x y rest _
      left
      rw [List.getLastD_concat]
      simp only
      rw [Function.update_noteq hza.symm, Function.update_same]

/-- One call of `frame_table_select_victim` on a list that the eviction paths keep:
the frame of the first entry is returned and the entry is the last afterwards. -/
theorem select_victim_queue (ft : frame_table) (a : Nat) (rest : List Nat)
    (e : frame_table_entry) (h : queue ft (a :: rest)) (he : ft.entries a = some e) :
    ∃ ft1, frame_table_select_victim ft = some (e.frame, ft1) ∧ queue ft1 (rest ++ [a]) ∧
      ft1.entries = ft.entries ∧ ft1.hash = ft.hash ∧ ft1.brk = ft.brk := by
  cases rest with
  | cons b r => exact select_victim_long ft a b r e h he
  | nil =>
    rcases h.single a rfl with c | c
    · have hf : fifo ft [a] :=
        ⟨⟨h.links.1, c.1, c.2, h.back⟩, h.nodup, h.live⟩
      obtain ⟨ft1, p1, p2, p3, p4, p5⟩ := select_victim_fifo ft a [] e hf he
      exact ⟨ft1, p1, fifo_queue ft1 _ p2, p3, p4, p5⟩
    · exact select_victim_loop ft a e h he c.1 c.2

/-- The call `frame_table_insert` for the frame of the entry that is the last of the
list, as every eviction makes it. -/
theorem frame_table_insert_last (ft : frame_table) (l : List Nat) (a : Nat)
    (e : frame_table_entry) (proc page : Nat) (h : queue ft (l ++ [a])) (hh : hash_ok ft)
    (hah : a ∈ ft.hash) (he : ft.entries a = some e) :
    ∃ ft1, frame_table_insert ft proc e.frame page = some ft1 ∧
      frame_table_entry_of ft1 e.frame = some { frame := e.frame, owner := proc, page := page } ∧
      hash_ok ft1 ∧ queue ft1 (l ++ [a]) ∧ a ∈ ft1.hash ∧
      ft1.entries a = some { frame := e.frame, owner := proc, page := page } := by
  have hf1 := frame_table_find_unique ft a e hh hah he
  have hfr : ∀ (ft1 : frame_table) (l1 : List Nat),
      ft1.entries = Function.update ft.entries a
        (some { frame := e.frame, owner := proc, page := page }) →
      frames_of ft1 l1 = frames_of ft l1 := fun ft1 l1 h1 =>
    frames_of_update ft a e { frame := e.frame, owner := proc, page := page } he rfl l1 _ rfl ft1 h1
  have hsome : ∀ p, (ft.entries p).isSome →
      (Function.update ft.entries a
        (some ({ frame := e.frame, owner := proc, page := page } : frame_table_entry)) p).isSome := by
    intro p hp
    by_cases hpa : p = a
    · subst hpa; simp
    · rw [Function.update_noteq hpa]; exact hp
  have hh1 : hash_ok
      { ft with
          entries := Function.update ft.entries a
            (some { frame := e.frame, owner := proc, page := page }) } := by
    refine ⟨?_, fun p hp => hsome p (hh.2 p hp)⟩
    rw [hfr _ _ rfl]
    exact hh.1
  have hf2 : frame_table_find
      { ft with
          entries := Function.update ft.entries a
            (some { frame := e.frame, owner := proc, page := page }) } e.frame = some a :=
    frame_table_find_unique _ a { frame := e.frame, owner := proc, page := page } hh1 hah
      (by simp)
  have hperm : (ft.hash.erase a ++ [a]).Perm ft.hash :=
    (List.perm_append_comm.trans (List.perm_cons_erase hah).symm)
  have hh2 : hash_ok
      { ft with
          entries := Function.update ft.entries a
            (some { frame := e.frame, owner := proc, page := page }),
          hash := ft.hash.erase a ++ [a] } := by
    refine ⟨?_, ?_⟩
    · rw [hfr _ _ rfl]
      simp only
      have hp2 : (frames_of ft (ft.hash.erase a ++ [a])).Perm (frames_of ft ft.hash) :=
        List.Perm.map _ hperm
      exact (List.Perm.nodup_iff hp2).2 hh.1
    · intro p hp
      exact hsome p (hh.2 p ((List.Perm.mem_iff hperm).1 hp))
  have hq : queue
      { ft with
          entries := Function.update ft.entries a
            (some { frame := e.frame, owner := proc, page := page }),
          hash := ft.hash.erase a ++ [a] } (l ++ [a]) :=
    queue_congr ft _ (l ++ [a]) h rfl rfl (fun p _ hp => hsome p hp)
  obtain ⟨ft1, p1, p2, p3, p4, _⟩ := list_push_back_last _ l a hq
  have hh3 : hash_ok ft1 := hash_ok_congr _ ft1 p3 p4 hh2
  have hah1 : a ∈ ft1.hash := by rw [p4]; simp
  have he1 : ft1.entries a = some { frame := e.frame, owner := proc, page := page } := by
    rw [p3]; simp
  refine ⟨ft1, ?_, ?_, hh3, p2, hah1, he1⟩
  · unfold frame_table_insert
    simp only [hf1, hf2]
    exact p1
  · exact frame_table_entry_of_unique ft1 a { frame := e.frame, owner := proc, page := page }
      hh3 hah1 he1

/-- C23: on a list as the insertions and evictions keep it, whose front entry is `e`,
`frame_table_select_victim` returns the frame of `e` and moves that entry to
the back; the entries and the hash are unchanged.  When a second entry with
another frame follows, two consecutive calls return the two frames, which
differ.  After `frame_table_insert` of distinct frames into the empty table,
that many successive calls return the frames in the order of their
insertion. -/
theorem select_victim_is_fifo (ft : frame_table) (a : Nat) (rest : List Nat)
    (e : frame_table_entry) (h : queue ft (a :: rest)) (he : ft.entries a = some e) :
    (∃ ft1, frame_table_select_victim ft = some (e.frame, ft1) ∧ queue ft1 (rest ++ [a]) ∧
      ft1.entries = ft.entries ∧ ft1.hash = ft.hash) ∧
    (∀ b rest1 eb, rest = b :: rest1 → ft.entries b = some eb → eb.frame ≠ e.frame →
      ∃ ft2, victims 2 ft = some ([e.frame, eb.frame], ft2) ∧ queue ft2 (rest1 ++ [a, b]) ∧
        [e.frame, eb.frame].Nodup) ∧
    (∀ rs : List (Nat × Nat × Nat), (rs.map (fun r => r.2.1)).Nodup →
      ∃ ft1 ft2, insert_all frame_table_init rs = some ft1 ∧
        victims rs.length ft1 = some (rs.map (fun r => r.2.1), ft2)) := by
  refine ⟨?_, ?_, ?_⟩
  · obtain ⟨ft1, p1, p2, p3, p4, _⟩ := select_victim_queue ft a rest e h he
    exact ⟨ft1, p1, p2, p3, p4⟩
  · intro b rest1 eb hr hb hne
    subst hr
    obtain ⟨ft1, p1, p2, p3, _⟩ := select_victim_queue ft a (b :: rest1) e h he
    obtain ⟨ft2, q1, q2, _⟩ := select_victim_queue ft1 b (rest1 ++ [a]) eb p2
      (by rw [p3]; exact hb)
    refine ⟨ft2, ?_, by simpa using q2, by simpa using fun c => hne c.symm⟩
    simp only [victims, p1, q1]
  · intro rs hnd
    obtain ⟨ft1, l1, p1, p2, p3⟩ := insert_all_ok rs frame_table_init [] table_ok_init
      (by simpa [frames_of] using hnd)
    simp only [List.nil_append] at p2 p3
    have h3 : fifo ft1 (l1 ++ []) := by simpa using p2.fifo
    obtain ⟨ft2, q1, _, _, _⟩ := victims_fifo l1 [] ft1 h3
    have hlen : l1.length = rs.length := by
      have := congrArg List.length p3
      simpa [frames_of] using this
    refine ⟨ft1, ft2, p1, ?_⟩
    rw [← hlen, q1, p3]
    simp [frames_of]

theorem select_victim_is_fifo_witness :
    queue sample_frames [3, 4, 5] ∧
    sample_frames.entries 3 = some { frame := 4096, owner := 1, page := 100 } ∧
    (victims 3 sample_frames).map Prod.fst = some [4096, 8192, 12288] ∧
    ∃ ft1, frame_table_select_victim sample_frames = some (4096, ft1) ∧
      queue ft1 [4, 5, 3] :=
  ⟨fifo_queue _ _ sample_frames_fifo, rfl, by decide,
    let ⟨ft1, p1, p2, _⟩ :=
      (select_victim_is_fifo sample_frames 3 [4, 5] { frame := 4096, owner := 1, page := 100 }
        (fifo_queue _ _ sample_frames_fifo) rfl).1
    ⟨ft1, p1, p2⟩⟩

theorem write_out_victim_spec (st : vm) (page : Nat) (vfte : frame_table_entry)
    (vpte : page_table_entry)
    (hv : page_table_find (st.procs vfte.owner).page_table vfte.page = some vpte)
    (hb : ∀ file, vpte.file = some file → vpte.frame.isSome) :
    ∃ st1, write_out_victim st vfte.frame (some vfte) = some st1 ∧
      written_out st st1 page vfte vpte := by
  cases hfile : vpte.file with
  | some file =>
    obtain ⟨src0, hfr⟩ := Option.isSome_iff_exists.1 (hb file hfile)
    refine ⟨pagedir_clear_page
      (set_page_table (file_write_at st file (st.mem src0) PGSIZE vpte.offset) vfte.owner
        (page_table_insert_file
          ((file_write_at st file (st.mem src0) PGSIZE vpte.offset).procs
            vfte.owner).page_table vfte.page file vpte.offset)) vfte.owner vfte.page, ?_, ?_⟩
    · simp only [write_out_victim, hv, hfile, hfr, Option.map_some']
    · refine ⟨rfl, rfl, rfl, rfl, ?_, ?_, ?_, ?_, ?_, ?_⟩
      · intro f src hf hsrc
        rw [hfile] at hf
        cases hf
        rw [hfr] at hsrc
        cases hsrc
        refine ⟨rfl, ?_, ?_⟩
        · simp [pagedir_clear_page, set_page_table, set_proc, file_write_at]
        · simp only [pagedir_clear_page, set_page_table, set_proc, file_write_at,
            Function.update_same]
          exact page_table_find_store_same _ _
      · intro h; rw [hfile] at h; cases h
      · simp [pagedir_clear_page, set_page_table, set_proc]
      · intro q p hqp
        by_cases hq : q = vfte.owner
        · subst hq
          have hp : p ≠ vfte.page := fun c => hqp ⟨rfl, c⟩
          simp [pagedir_clear_page, set_page_table, set_proc, file_write_at,
            Function.update_noteq hp]
        · simp [pagedir_clear_page, set_page_table, set_proc, file_write_at,
            Function.update_noteq hq]
      · intro q p hqp
        by_cases hq : q = vfte.owner
        · subst hq
          have hp : p ≠ vfte.page := fun c => hqp ⟨rfl, c⟩
          simp only [pagedir_clear_page, set_page_table, set_proc, file_write_at,
            Function.update_same]
          exact page_table_find_store_other _ _ p hp
        · simp [pagedir_clear_page, set_page_table, set_proc, file_write_at,
            Function.update_noteq hq]
      · intro q
        by_cases hq : q = vfte.owner
        · subst hq
          simp [pagedir_clear_page, set_page_table, set_proc, file_write_at]
        · simp [pagedir_clear_page, set_page_table, set_proc, file_write_at,
            Function.update_noteq hq]
  | none =>
    refine ⟨pagedir_clear_page
      (set_page_table { st with swap := (swap_out st.swap (st.mem vfte.frame)).1 } vfte.owner
        (page_table_insert_block (st.procs vfte.owner).page_table vfte.page
          (swap_out st.swap (st.mem vfte.frame)).2)) vfte.owner vfte.page, ?_, ?_⟩
    · simp only [write_out_victim, hv, hfile, Option.map_some']
    · refine ⟨rfl, rfl, rfl, rfl, ?_, ?_, ?_, ?_, ?_, ?_⟩
      · intro f src hf; rw [hfile] at hf; cases hf
      · intro _
        refine ⟨rfl, rfl, ?_⟩
        simp only [pagedir_clear_page, set_page_table, set_proc, Function.update_same]
        have e := page_table_find_store_same (st.procs vfte.owner).page_table
          { page_table_entry_for (st.procs vfte.owner).page_table vfte.page with
              page := vfte.page, frame := none,
              block := (swap_out st.swap (st.mem vfte.frame)).2, disk := true }
        simp only [page_table_entry_for, hv, hfile] at e
        simpa only [page_table_insert_block, page_table_entry_for, hv, hfile] using e
      · simp [pagedir_clear_page, set_page_table, set_proc]
      · intro q p hqp
        by_cases hq : q = vfte.owner
        · subst hq
          have hp : p ≠ vfte.page := fun c => hqp ⟨rfl, c⟩
          simp [pagedir_clear_page, set_page_table, set_proc, Function.update_noteq hp]
        · simp [pagedir_clear_page, set_page_table, set_proc, Function.update_noteq hq]
      · intro q p hqp
        by_cases hq : q = vfte.owner
        · subst hq
          have hp : p ≠ vfte.page := fun c => hqp ⟨rfl, c⟩
          simp only [pagedir_clear_page, set_page_table, set_proc, Function.update_same]
          exact page_table_find_store_other _ _ p hp
        · simp [pagedir_clear_page, set_page_table, set_proc, Function.update_noteq hq]
      · intro q
        by_cases hq : q = vfte.owner
        · subst hq
          simp [pagedir_clear_page, set_page_table, set_proc]
        · simp [pagedir_clear_page, set_page_table, set_proc, Function.update_noteq hq]

theorem palloc_none (st : vm) (flag : Nat) (h : st.pool = []) (hf : flag % 2 = 0) :
    palloc_get_page st flag = some (none, st) := by
  unfold palloc_get_page
  rw [h]
  simp [hf]

/-- The steps of an eviction up to the clearing of the victim's mapping. -/
theorem evict_steps (st : vm) (page a : Nat) (rest : List Nat) (vfte : frame_table_entry)
    (vpte : page_table_entry) (writable : Bool) (h : evictable st page a rest vfte vpte) :
    ∃ ft1 st3, frame_table_select_victim st.frame_table = some (vfte.frame, ft1) ∧
      frame_table_entry_of ft1 vfte.frame = some vfte ∧
      write_out_victim
        (pagedir_set_page (pagedir_clear_page { st with frame_table := ft1 } st.cur page)
          st.cur page vfte.frame writable) vfte.frame (some vfte) = some st3 ∧
      victim_out st st3 page writable a rest vfte vpte := by
  obtain ⟨ft1, p1, p2, p3, p4, _⟩ := select_victim_queue st.frame_table a rest vfte h.list h.entry
  have hh1 : hash_ok ft1 := hash_ok_congr st.frame_table ft1 p3 p4 h.hashed.1
  have ha1 : a ∈ ft1.hash := by rw [p4]; exact h.hashed.2
  have he1 : ft1.entries a = some vfte := by rw [p3]; exact h.entry
  have hfe : frame_table_entry_of ft1 vfte.frame = some vfte :=
    frame_table_entry_of_unique ft1 a vfte hh1 ha1 he1
  have hpt : ∀ q,
      ((pagedir_set_page (pagedir_clear_page { st with frame_table := ft1 } st.cur page)
        st.cur page vfte.frame writable).procs q).page_table = (st.procs q).page_table := by
    intro q
    by_cases hq : q = st.cur
    · subst hq
      simp [pagedir_set_page, pagedir_clear_page, set_proc]
    · simp [pagedir_set_page, pagedir_clear_page, set_proc, Function.update_noteq hq]
  have hpd :
      ((pagedir_set_page (pagedir_clear_page { st with frame_table := ft1 } st.cur page)
        st.cur page vfte.frame writable).procs st.cur).pagedir page
        = some (vfte.frame, writable) := by
    simp [pagedir_set_page, pagedir_clear_page, set_proc]
  obtain ⟨st3, q1, q2⟩ := write_out_victim_spec
    (pagedir_set_page (pagedir_clear_page { st with frame_table := ft1 } st.cur page)
      st.cur page vfte.frame writable) page vfte vpte (by rw [hpt]; exact h.found)
    (fun file hf => by rw [h.buffer file hf]; rfl)
  refine ⟨ft1, st3, p1, hfe, q1, ?_⟩
  have hft : st3.frame_table = ft1 := q2.frame_table
  refine ⟨q2.cur, by rw [q2.pool]; exact h.pool, by rw [hft]; exact p2,
    ⟨by rw [hft]; exact hh1, by rw [hft]; exact ha1⟩,
    by rw [hft]; exact he1, q2.mem, ?_, ?_, q2.unmapped, ?_, ?_⟩
  · intro file hfile
    obtain ⟨r1, r2, r3⟩ := q2.file_out file vfte.frame hfile (h.buffer file hfile)
    exact ⟨r1, r2, r3⟩
  · intro hfile
    obtain ⟨_, r2, r3⟩ := q2.swapped hfile
    exact ⟨r2, r3⟩
  · rw [q2.pagedir st.cur page (fun c => h.other ⟨c.1.symm, c.2.symm⟩)]
    exact hpd
  · intro q p hqp
    rw [q2.tables q p hqp, hpt]

/-- The two calls that register the frame for the current process and `page`. -/
theorem register_frame_spec (st3 : vm) (page a : Nat) (l : List Nat) (vfte : frame_table_entry)
    (hq : queue st3.frame_table (l ++ [a])) (hh : hash_ok st3.frame_table)
    (hah : a ∈ st3.frame_table.hash) (he : st3.frame_table.entries a = some vfte) :
    ∃ st4, register_frame st3 page vfte.frame = some st4 ∧ st4.cur = st3.cur ∧
      st4.files = st3.files ∧ st4.swap = st3.swap ∧ st4.mem = st3.mem ∧
      st4.pool = st3.pool ∧ queue st4.frame_table (l ++ [a]) ∧
      (hash_ok st4.frame_table ∧ a ∈ st4.frame_table.hash) ∧
      st4.frame_table.entries a = some { frame := vfte.frame, owner := st3.cur, page := page } ∧
      frame_table_entry_of st4.frame_table vfte.frame =
        some { frame := vfte.frame, owner := st3.cur, page := page } ∧
      (∃ e, page_table_find (st4.procs st3.cur).page_table page = some e ∧
        e.frame = some vfte.frame ∧ e.disk = false) ∧
      (∀ q, (st4.procs q).pagedir = (st3.procs q).pagedir) ∧
      (∀ q p, ¬ (q = st3.cur ∧ p = page) →
        page_table_find (st4.procs q).page_table p =
          page_table_find (st3.procs q).page_table p) := by
  obtain ⟨ft1, p1, p2, p3, p4, p5, p6⟩ := frame_table_insert_last st3.frame_table l a vfte
    st3.cur page hq hh hah he
  refine ⟨set_page_table { st3 with frame_table := ft1 } st3.cur
    (page_table_insert_frame (st3.procs st3.cur).page_table page vfte.frame),
    ?_, rfl, rfl, rfl, rfl, rfl, p4, ⟨p3, p5⟩, p6, p2, ?_, ?_, ?_⟩
  · simp only [register_frame, p1]
  · refine ⟨{ page_table_entry_for (st3.procs st3.cur).page_table page with
      page := page, frame := some vfte.frame, block := 0, disk := false }, ?_, rfl, rfl⟩
    simp only [set_page_table, set_proc, Function.update_same]
    exact page_table_find_store_same _ _
  · intro q
    by_cases hq : q = st3.cur
    · subst hq
      simp [set_page_table, set_proc]
    · simp [set_page_table, set_proc, Function.update_noteq hq]
  · intro q p hqp
    by_cases hq : q = st3.cur
    · subst hq
      have hp : p ≠ page := fun c => hqp ⟨rfl, c⟩
      simp only [set_page_table, set_proc, Function.update_same]
      exact page_table_find_store_other _ _ p hp
    · simp [set_page_table, set_proc, Function.update_noteq hq]

/-- From the state after the victim has been written out, the registration of the
frame completes the eviction, whatever has been done to the table of swap
slots and to the contents of the frames in between. -/
theorem evicted_of_victim_out (st st3 s : vm) (page : Nat) (writable : Bool) (a : Nat)
    (rest : List Nat) (vfte : frame_table_entry) (vpte : page_table_entry)
    (h : evictable st page a rest vfte vpte)
    (hv : victim_out st st3 page writable a rest vfte vpte)
    (h1 : s.cur = st3.cur) (h2 : s.frame_table = st3.frame_table) (h3 : s.procs = st3.procs)
    (h6 : s.pool = st3.pool)
    (h4 : s.files = st3.files) (h5 : s.swap.swap_device = st3.swap.swap_device) :
    ∃ st4, register_frame s page vfte.frame = some st4 ∧
      evicted st st4 page writable a rest vfte vpte := by
  obtain ⟨st4, r1, r2, r3, r4, _, t1, t2, t3, t4, r6, r7, r8, r9⟩ :=
    register_frame_spec s page a rest
    vfte (by rw [h2]; exact hv.list) (by rw [h2]; exact hv.hashed.1)
    (by rw [h2]; exact hv.hashed.2) (by rw [h2]; exact hv.entry)
  have hcur : s.cur = st.cur := by rw [h1, hv.cur]
  have hvt : page_table_find (st4.procs vfte.owner).page_table vfte.page =
      page_table_find (st3.procs vfte.owner).page_table vfte.page := by
    rw [r9 vfte.owner vfte.page (by rw [hcur]; exact h.other), h3]
  refine ⟨st4, r1, ⟨by rw [r2, hcur], by rw [t1, h6]; exact hv.pool, t2, t3,
    by rw [t4, hcur], ?_, ?_, ?_, ?_, ?_, ?_⟩⟩
  · intro file hfile
    obtain ⟨_, w2, w3⟩ := hv.file_out file hfile
    exact ⟨by rw [r3, h4, w2], by rw [hvt, w3]⟩
  · intro hfile
    obtain ⟨w1, w2⟩ := hv.swapped hfile
    obtain ⟨hw, hfree⟩ := h.slot hfile
    obtain ⟨i, hi, hf, _, s1, _, _, s4, _⟩ := swap_out_spec st.swap (st.mem vfte.frame) hw hfree
    refine ⟨i, hi, hf, ?_, ?_⟩
    · intro j k hj hk
      rw [r4, h5, w1]
      exact s4 j k hj hk
    · rw [hvt, w2, s1]
  · rw [r8, h3]; exact hv.unmapped
  · rw [hcur] at r6; exact r6
  · rw [hcur] at r7; exact r7
  · rw [r8, h3]; exact hv.mapped

theorem swap_in_some (s : swap) (block : Nat) (frame : Nat → Nat)
    (h : block / block_size < s.swap_table.length) :
    ∃ sw bytes, swap_in s block frame = some (sw, bytes) ∧ sw.swap_device = s.swap_device := by
  refine ⟨{ s with swap_table := s.swap_table.set (block / block_size) false },
    swap_read_loop s block (List.range block_size) frame, ?_, rfl⟩
  simp only [swap_in, bitmap_set, if_pos h]

theorem victim_out_slots (st st3 : vm) (page : Nat) (writable : Bool) (a : Nat)
    (rest : List Nat) (vfte : frame_table_entry) (vpte : page_table_entry)
    (h : evictable st page a rest vfte vpte)
    (hv : victim_out st st3 page writable a rest vfte vpte) :
    st3.swap.swap_table.length = st.swap.swap_table.length := by
  cases hfile : vpte.file with
  | some file => rw [(hv.file_out file hfile).1]
  | none =>
    obtain ⟨hw, hfree⟩ := h.slot hfile
    obtain ⟨i, _, _, _, _, s2, _⟩ := swap_out_spec st.swap (st.mem vfte.frame) hw hfree
    rw [(hv.swapped hfile).1, s2, List.length_set]

theorem obtain_frame_spec (st : vm) (page a : Nat) (rest : List Nat) (vfte : frame_table_entry)
    (vpte : page_table_entry) (h : evictable st page a rest vfte vpte) :
    ∃ st3, obtain_frame st page = some (st3, vfte.frame) ∧
      victim_out st st3 page true a rest vfte vpte := by
  obtain ⟨ft1, st3, p1, p2, p3, p4⟩ := evict_steps st page a rest vfte vpte true h
  refine ⟨st3, ?_, p4⟩
  unfold obtain_frame
  rw [palloc_none st 0 h.pool rfl]
  simp only [p1, p2]
  rw [p3]
  rfl

/-- C26: when no page is free, `allocate_frame` and the swap and file paths of
`page_fault` evict the frame that `frame_table_select_victim` returns, the
frame of the first entry of the list.  If the supplementary entry of the
victim's page has a file, the 4096 bytes of the frame are written to that file
at the offset of the entry and the entry becomes one in that file at that
offset; otherwise the bytes are written to the eight sectors of a free swap
slot and the entry becomes one in swap at that slot.  The hardware mapping of
the victim's page is cleared, and the frame is registered for the new page in
the frame table and, with the disk flag false, in the supplementary table of
the current process. -/
theorem eviction_on_every_path (st : vm) (page a : Nat) (rest : List Nat)
    (vfte : frame_table_entry) (vpte : page_table_entry)
    (h : evictable st page a rest vfte vpte) :
    (∀ writable flag, flag % 2 = 0 →
      ∃ st1, allocate_frame st page writable flag = some (st1, vfte.frame) ∧
        evicted st st1 page writable a rest vfte vpte) ∧
    (∀ (f : intr_frame) fault_addr pte, f.not_present = true →
      pg_round_down fault_addr = page →
      page_table_find (st.procs st.cur).page_table page = some pte → pte.disk = true →
      pte.block / block_size < st.swap.swap_table.length →
      ∃ st1, page_fault st f fault_addr = some st1 ∧ evicted st st1 page true a rest vfte vpte) ∧
    (∀ (f : intr_frame) fault_addr pte, f.not_present = true →
      pg_round_down fault_addr = page →
      page_table_find (st.procs st.cur).page_table page = some pte → pte.disk = false →
      pte.file.isSome = true →
      ∃ st1, page_fault st f fault_addr = some st1 ∧ evicted st st1 page true a rest vfte vpte) := by
  refine ⟨?_, ?_, ?_⟩
  · intro writable flag hflag
    obtain ⟨ft1, st3, p1, p2, p3, p4⟩ := evict_steps st page a rest vfte vpte writable h
    obtain ⟨st4, q1, q2⟩ := evicted_of_victim_out st st3 st3 page writable a rest vfte vpte h p4
      rfl rfl rfl rfl rfl rfl
    refine ⟨st4, ?_, q2⟩
    unfold allocate_frame
    rw [palloc_none st flag h.pool hflag]
    simp only [p1]
    have e : frame_table_entry_of
        (pagedir_set_page (pagedir_clear_page { st with frame_table := ft1 } st.cur page)
          st.cur page vfte.frame writable).frame_table vfte.frame = some vfte := p2
    rw [e, p3]
    simp only [q1, Option.map_some']
  · intro f fault_addr pte hnp hpage hpte hdisk hblock
    obtain ⟨st3, p1, p2⟩ := obtain_frame_spec st page a rest vfte vpte h
    have hfind : page_table_find (st3.procs st3.cur).page_table page = some pte := by
      rw [p2.cur, p2.tables st.cur page (fun c => h.other ⟨c.1.symm, c.2.symm⟩)]
      exact hpte
    have hlen := victim_out_slots st st3 page true a rest vfte vpte h p2
    obtain ⟨sw, bytes, s1, s2⟩ := swap_in_some st3.swap pte.block (st3.mem vfte.frame)
      (by rw [hlen]; exact hblock)
    obtain ⟨st4, q1, q2⟩ := evicted_of_victim_out st st3
      { st3 with swap := sw, mem := Function.update st3.mem vfte.frame bytes }
      page true a rest vfte vpte h p2 rfl rfl rfl rfl rfl s2
    refine ⟨st4, ?_, q2⟩
    unfold page_fault
    simp only [hnp, hpage, hpte, hdisk, p1, hfind, s1, if_true, Bool.true_eq_false, if_false]
    exact q1
  · intro f fault_addr pte hnp hpage hpte hdisk hfile
    obtain ⟨file, hfile2⟩ := Option.isSome_iff_exists.1 hfile
    obtain ⟨st3, p1, p2⟩ := obtain_frame_spec st page a rest vfte vpte h
    have hfind : page_table_find (st3.procs st3.cur).page_table page = some pte := by
      rw [p2.cur, p2.tables st.cur page (fun c => h.other ⟨c.1.symm, c.2.symm⟩)]
      exact hpte
    obtain ⟨st4, q1, q2⟩ := evicted_of_victim_out st st3
      (file_read_at st3 file vfte.frame PGSIZE pte.offset)
      page true a rest vfte vpte h p2 rfl rfl rfl rfl rfl rfl
    refine ⟨st4, ?_, q2⟩
    unfold page_fault
    simp only [hnp, hpage, hpte, hdisk, hfile, p1, hfind, hfile2, if_true, Bool.true_eq_false,
      if_false, Bool.false_eq_true]
    exact q1

theorem sample_busy_evictable : evictable sample_busy 3221209088 3 [4] sample_vfte sample_vpte := by
  refine ⟨by decide, fifo_queue _ _ ⟨?_, by decide, by decide⟩, by decide,
    ⟨⟨by decide, by decide⟩, by decide⟩, by decide, by decide, ?_, ?_⟩
  · simp only [chain]
    decide
  · intro file hf
    cases hf
  · intro _
    exact ⟨by constructor <;> decide, by decide⟩

theorem eviction_on_every_path_witness :
    evictable sample_busy 3221209088 3 [4] sample_vfte sample_vpte ∧
    (allocate_frame sample_busy 3221209088 true PAL_ZERO).map (fun r =>
      (r.2, page_table_find (r.1.procs 1).page_table 3221217280,
        (r.1.procs 1).pagedir 3221217280, (r.1.procs 1).pagedir 3221209088,
        frame_table_entry_of r.1.frame_table 3222274048,
        r.1.swap.swap_table, r.1.swap.swap_device 7 511)) =
      some (3222274048,
        some { page := 3221217280, frame := none, block := 0, file := none, offset := 0,
               disk := true },
        none, some (3222274048, true),
        some { frame := 3222274048, owner := 1, page := 3221209088 },
        [true, false, false, false, false], 9) ∧
    ∃ st1, allocate_frame sample_busy 3221209088 true PAL_ZERO = some (st1, 3222274048) ∧
      evicted sample_busy st1 3221209088 true 3 [4] sample_vfte sample_vpte :=
  ⟨sample_busy_evictable, rfl,
    (eviction_on_every_path sample_busy 3221209088 3 [4] sample_vfte sample_vpte
      sample_busy_evictable).1 true PAL_ZERO (by decide)⟩

/-- C27 after a mapped file page has been loaded into a frame and removed:
`page_table_remove` drops the supplementary entry and leaves the entry of the
frame table, which still names the process and the page; when that frame
becomes the victim, the entry of its page is a null pointer and the fault does
not return. -/
theorem remove_leaves_frame_entry :
    removed_page_frame =
      some (some { frame := 3222274048, owner := 1, page := 268435456 }, none, false) := by
  decide


theorem frame_table_entry_of_frame (ft : frame_table) (frame : Nat) (e : frame_table_entry)
    (h : frame_table_entry_of ft frame = some e) : e.frame = frame := by
  unfold frame_table_entry_of frame_table_find at h
  obtain ⟨p, hp, he⟩ := Option.bind_eq_some.1 h
  have := List.find?_some hp
  rw [he] at this
  simpa using this

theorem write_out_victim_inv (s s3 : vm) (page : Nat) (vfte : frame_table_entry)
    (h : write_out_victim s vfte.frame (some vfte) = some s3) :
    ∃ vpte, page_table_find (s.procs vfte.owner).page_table vfte.page = some vpte ∧
      written_out s s3 page vfte vpte := by
  cases hv : page_table_find (s.procs vfte.owner).page_table vfte.page with
  | none => simp [write_out_victim, hv] at h
  | some vpte =>
    have hb : ∀ file, vpte.file = some file → vpte.frame.isSome := by
      intro file hf
      cases hfr : vpte.frame with
      | none => simp [write_out_victim, hv, hf, hfr] at h
      | some src => rfl
    obtain ⟨s1, e1, w⟩ := write_out_victim_spec s page vfte vpte hv hb
    rw [e1] at h
    cases h
    exact ⟨vpte, rfl, w⟩

theorem register_frame_inv (s s4 : vm) (page frame : Nat)
    (h : register_frame s page frame = some s4) :
    s4.cur = s.cur ∧ s4.mem = s.mem ∧ ∀ q, (s4.procs q).pagedir = (s.procs q).pagedir := by
  unfold register_frame at h
  cases hi : frame_table_insert s.frame_table s.cur frame page with
  | none => simp [hi] at h
  | some ft =>
    simp only [hi, Option.some.injEq] at h
    subst h
    refine ⟨rfl, rfl, ?_⟩
    intro q
    by_cases hq : q = s.cur
    · subst hq
      simp [set_page_table, set_proc]
    · simp [set_page_table, set_proc, Function.update_noteq hq]

theorem pagedir_after_set (s : vm) (page frame : Nat) (writable : Bool) :
    ((pagedir_set_page (pagedir_clear_page s s.cur page) s.cur page frame writable).procs
      s.cur).pagedir page = some (frame, writable) := by
  simp [pagedir_set_page, pagedir_clear_page, set_proc]

theorem page_table_after_set (s : vm) (pid page frame : Nat) (writable : Bool) (q : Nat) :
    ((pagedir_set_page (pagedir_clear_page s pid page) pid page frame writable).procs
      q).page_table = (s.procs q).page_table := by
  by_cases hq : q = pid
  · subst hq
    simp [pagedir_set_page, pagedir_clear_page, set_proc]
  · simp [pagedir_set_page, pagedir_clear_page, set_proc, Function.update_noteq hq]

/-- When `allocate_frame` returns for a page without supplementary entry, the page is
mapped to the frame returned. -/
theorem allocate_frame_maps (st st1 : vm) (page frame : Nat) (writable : Bool) (flag : Nat)
    (hno : page_table_find (st.procs st.cur).page_table page = none)
    (h : allocate_frame st page writable flag = some (st1, frame)) :
    st1.cur = st.cur ∧ (st1.procs st.cur).pagedir page = some (frame, writable) := by
  unfold allocate_frame at h
  cases hp : palloc_get_page st flag with
  | none => simp [hp] at h
  | some r =>
    obtain ⟨fr, st0⟩ := r
    have h0 : st0.cur = st.cur ∧ st0.procs = st.procs ∧ st0.frame_table = st.frame_table := by
      unfold palloc_get_page at hp
      cases hpool : st.pool with
      | nil =>
        rw [hpool] at hp
        simp only at hp
        split_ifs at hp
        simp only [Option.some.injEq, Prod.mk.injEq] at hp
        rw [← hp.2]
        exact ⟨rfl, rfl, rfl⟩
      | cons x rest =>
        rw [hpool] at hp
        simp only [Option.some.injEq, Prod.mk.injEq] at hp
        rw [← hp.2]
        exact ⟨rfl, rfl, rfl⟩
    cases fr with
    | some fr =>
      simp only [hp] at h
      cases hr : register_frame
          (pagedir_set_page (pagedir_clear_page st0 st0.cur page) st0.cur page fr writable)
          page fr with
      | none => simp [hr] at h
      | some s4 =>
        simp only [hr, Option.map_some', Option.some.injEq, Prod.mk.injEq] at h
        obtain ⟨r1, _, r3⟩ := register_frame_inv _ s4 page fr hr
        rw [← h.1, ← h.2]
        refine ⟨by rw [r1]; exact h0.1, ?_⟩
        rw [r3, ← h0.1]
        exact pagedir_after_set st0 page fr writable
    | none =>
      simp only [hp] at h
      cases hs : frame_table_select_victim st0.frame_table with
      | none => simp [hs] at h
      | some r =>
        obtain ⟨vf, ft⟩ := r
        simp only [hs] at h
        cases hfe : frame_table_entry_of
            (pagedir_set_page (pagedir_clear_page { st0 with frame_table := ft } st0.cur page)
              st0.cur page vf writable).frame_table vf with
        | none =>
          rw [hfe] at h
          simp [write_out_victim] at h
        | some vfte =>
          have hvf := frame_table_entry_of_frame _ vf vfte hfe
          rw [hfe] at h
          cases hw : write_out_victim
              (pagedir_set_page (pagedir_clear_page { st0 with frame_table := ft } st0.cur page)
                st0.cur page vf writable) vf (some vfte) with
          | none => simp [hw] at h
          | some s3 =>
            simp only [hw] at h
            cases hr : register_frame s3 page vf with
            | none => simp [hr] at h
            | some s4 =>
              simp only [hr, Option.map_some', Option.some.injEq, Prod.mk.injEq] at h
              rw [← hvf] at hw
              obtain ⟨vpte, hv, w⟩ := write_out_victim_inv _ s3 page vfte hw
              rw [page_table_after_set] at hv
              have hne : ¬ (st.cur = vfte.owner ∧ page = vfte.page) := by
                intro c
                have hv2 : page_table_find (st.procs st.cur).page_table page = some vpte := by
                  rw [c.1, c.2, ← h0.2.1]
                  exact hv
                rw [hno] at hv2
                cases hv2
              obtain ⟨r1, _, r3⟩ := register_frame_inv s3 s4 page vf hr
              rw [← h.1, ← h.2]
              refine ⟨by rw [r1, w.cur]; exact h0.1, ?_⟩
              rw [r3, w.pagedir st.cur page hne, ← h0.1, hvf]
              exact pagedir_after_set { st0 with frame_table := ft } page vf writable


theorem list_push_back_returns (ft : frame_table) (e : Nat) (h3 : 3 ≤ e)
    (he : (ft.entries e).isSome) (hp : elem_live ft (ft.prev LIST_TAIL) = true) :
    ∃ ft1, list_push_back ft e = some ft1 := by
  have hp0 : ft.prev LIST_TAIL ≠ 0 := ((elem_live_iff ft _).1 hp).1
  have het : e ≠ LIST_TAIL := by simp only [LIST_TAIL]; omega
  refine ⟨{ ft with
    next := Function.update (Function.update ft.next e LIST_TAIL) (ft.prev LIST_TAIL) e,
    prev := Function.update (Function.update ft.prev e (ft.prev LIST_TAIL)) LIST_TAIL e }, ?_⟩
  unfold list_push_back list_insert
  have hcond : elem_live ft LIST_TAIL = true ∧ elem_live ft e = true ∧
      ft.prev LIST_TAIL ≠ 0 := ⟨elem_live_tail ft, elem_live_entry ft e h3 he, hp0⟩
  rw [if_pos hcond]
  simp only
  rw [Function.update_noteq het.symm, if_pos hp]

theorem elem_live_mono (ft ft1 : frame_table) (p : Nat)
    (h : ∀ q, (ft.entries q).isSome → (ft1.entries q).isSome) (hp : elem_live ft p = true) :
    elem_live ft1 p = true := by
  rw [elem_live_iff] at hp ⊢
  refine ⟨hp.1, ?_⟩
  rcases hp.2 with c | c | c
  · exact Or.inl c
  · exact Or.inr (Or.inl c)
  · exact Or.inr (Or.inr (h p c))

theorem queue_last_live (ft : frame_table) (l : List Nat) (h : queue ft l) :
    elem_live ft (ft.prev LIST_TAIL) = true := by
  rw [h.back]
  rcases List.mem_cons.1 (List.getLastD_mem_cons l LIST_HEAD) with c | c
  · rw [c]; exact elem_live_head ft
  · exact elem_live_entry ft _ (h.live _ c).1 (h.live _ c).2

/-- The call `frame_table_insert` returns on a table whose list is one that the
insertions and evictions keep. -/
theorem frame_table_insert_returns (ft : frame_table) (l : List Nat) (proc frame page : Nat)
    (h : queue ft l) (hb : 3 ≤ ft.brk) (hh : ∀ p ∈ ft.hash, 3 ≤ p) :
    ∃ ft1, frame_table_insert ft proc frame page = some ft1 := by
  have hlast := queue_last_live ft l h
  have key : ∀ (fte : Nat) (b : Nat) (hs : List Nat), 3 ≤ fte →
      ∃ ft1, list_push_back
        { ft with
            brk := b,
            entries := Function.update ft.entries fte
              (some { frame := frame, owner := proc, page := page }),
            hash := hs } fte = some ft1 := by
    intro fte b hs h3
    apply list_push_back_returns _ fte h3 (by simp)
    apply elem_live_mono ft _ _ _ hlast
    intro q hq
    by_cases hqf : q = fte
    · subst hqf; simp
    · simp only
      rw [Function.update_noteq hqf]; exact hq
  unfold frame_table_insert
  cases hf1 : frame_table_find ft frame with
  | some p =>
    have hp3 : 3 ≤ p := hh p (List.mem_of_find?_eq_some hf1)
    simp only
    split
    · exact key p ft.brk _ hp3
    · exact key p ft.brk _ hp3
  | none =>
    simp only
    split
    · exact key ft.brk (ft.brk + 1) _ hb
    · exact key ft.brk (ft.brk + 1) _ hb

/-- With a free page in the pool, `allocate_frame` returns that page, filled with
zeros when the flag has `PAL_ZERO`. -/
theorem allocate_frame_fresh (st : vm) (page : Nat) (writable : Bool) (flag : Nat)
    (frame : Nat) (rest l : List Nat) (hpool : st.pool = frame :: rest)
    (h : queue st.frame_table l) (hb : 3 ≤ st.frame_table.brk)
    (hh : ∀ p ∈ st.frame_table.hash, 3 ≤ p) :
    ∃ st1, allocate_frame st page writable flag = some (st1, frame) ∧
      (flag / 2 % 2 = 1 → st1.mem frame = zeros) := by
  obtain ⟨ft1, hft⟩ := frame_table_insert_returns st.frame_table l st.cur frame page h hb hh
  have e : allocate_frame st page writable flag =
      (register_frame
        (pagedir_set_page
          (pagedir_clear_page
            { st with
                pool := rest,
                mem := if flag / 2 % 2 = 1 then Function.update st.mem frame zeros
                       else st.mem } st.cur page) st.cur page frame writable) page frame).map
        (fun s => (s, frame)) := by
    unfold allocate_frame palloc_get_page
    simp only [hpool]
  have hr : ∃ s4, register_frame
      (pagedir_set_page
        (pagedir_clear_page
          { st with
              pool := rest,
              mem := if flag / 2 % 2 = 1 then Function.update st.mem frame zeros
                     else st.mem } st.cur page) st.cur page frame writable) page frame
      = some s4 := by
    unfold register_frame
    have hft2 : frame_table_insert
        (pagedir_set_page
          (pagedir_clear_page
            { st with
                pool := rest,
                mem := if flag / 2 % 2 = 1 then Function.update st.mem frame zeros
                       else st.mem } st.cur page) st.cur page frame writable).frame_table
        (pagedir_set_page
          (pagedir_clear_page
            { st with
                pool := rest,
                mem := if flag / 2 % 2 = 1 then Function.update st.mem frame zeros
                       else st.mem } st.cur page) st.cur page frame writable).cur
        frame page = some ft1 := hft
    rw [hft2]
    exact ⟨_, rfl⟩
  obtain ⟨s4, hs4⟩ := hr
  refine ⟨s4, by rw [e, hs4]; rfl, ?_⟩
  intro hz
  obtain ⟨_, r2, _⟩ := register_frame_inv _ s4 page frame hs4
  rw [r2]
  simp [pagedir_set_page, pagedir_clear_page, set_proc, hz]

theorem stack_access_iff (esp fault_addr : Nat) (h1 : 32 ≤ esp) (h2 : esp < 4294967296) :
    stack_access esp fault_addr = true ↔ esp - 32 ≤ fault_addr := by
  unfold stack_access
  rw [decide_eq_true_iff]
  have : (esp + 4294967296 - 32) % 4294967296 = esp - 32 := by omega
  rw [this]

theorem exit_error_spec (st : vm) :
    ((exit_error st).procs st.cur).status = PID_ERROR ∧
    ((exit_error st).procs st.cur).exited = true ∧
    ∀ q, ((exit_error st).procs q).pagedir = (st.procs q).pagedir := by
  refine ⟨by simp [exit_error, thread_exit, set_proc], by simp [exit_error, thread_exit, set_proc],
    ?_⟩
  intro q
  by_cases hq : q = st.cur
  · subst hq
    simp [exit_error, thread_exit, set_proc]
  · simp [exit_error, thread_exit, set_proc, Function.update_noteq hq]

/-- A fault of a kernel access to a page that is not present and has no
supplementary entry: `page_fault` tests the fault address against the saved
`esp` alone, not against `PHYS_BASE`. -/
theorem kernel_fault_allocates (st : vm) (f : intr_frame) (fault_addr : Nat)
    (hnp : f.not_present = true) (hu : f.user = false)
    (hno : page_table_find (st.procs st.cur).page_table (pg_round_down fault_addr) = none)
    (hs : stack_access (st.procs st.cur).esp fault_addr = true) :
    page_fault st f fault_addr =
      (allocate_frame st (pg_round_down fault_addr) true PAL_ZERO).map Prod.fst := by
  unfold page_fault
  simp only [hnp, hu, hno, hs, if_true, Bool.true_eq_false, if_false, Bool.false_eq_true]

/-- C28: for a fault of a user access to a page that is not present and has no
supplementary entry, `page_fault` calls `allocate_frame` for the page
`round_down (fault_addr, 4096)`, writable and zero-filled, exactly when
`fault_addr` is a user address and `fault_addr >= esp - 32` (the subtraction in
32-bit pointer arithmetic, the plain one for `esp >= 32`), and the page is then
mapped to the frame that `allocate_frame` returns, which is the first free
page when there is one; otherwise it sets the status of the process to
`PID_ERROR` and exits, and no mapping changes. -/
theorem stack_growth_decision (st : vm) (f : intr_frame) (fault_addr : Nat)
    (hnp : f.not_present = true) (hu : f.user = true)
    (hno : page_table_find (st.procs st.cur).page_table (pg_round_down fault_addr) = none) :
    (is_user_vaddr fault_addr = true → stack_access f.esp fault_addr = true →
      page_fault st f fault_addr =
        (allocate_frame st (pg_round_down fault_addr) true PAL_ZERO).map Prod.fst ∧
      (∀ st1 frame,
        allocate_frame st (pg_round_down fault_addr) true PAL_ZERO = some (st1, frame) →
        (st1.procs st.cur).pagedir (pg_round_down fault_addr) = some (frame, true)) ∧
      (∀ frame rest l, st.pool = frame :: rest → queue st.frame_table l →
        3 ≤ st.frame_table.brk → (∀ p ∈ st.frame_table.hash, 3 ≤ p) →
        ∃ st1, page_fault st f fault_addr = some st1 ∧
          (st1.procs st.cur).pagedir (pg_round_down fault_addr) = some (frame, true))) ∧
    (¬ (is_user_vaddr fault_addr = true ∧ stack_access f.esp fault_addr = true) →
      page_fault st f fault_addr = some (exit_error st) ∧
      ((exit_error st).procs st.cur).status = PID_ERROR ∧
      ((exit_error st).procs st.cur).exited = true ∧
      ∀ q, ((exit_error st).procs q).pagedir = (st.procs q).pagedir) ∧
    (32 ≤ f.esp → f.esp < 4294967296 →
      (stack_access f.esp fault_addr = true ↔ f.esp - 32 ≤ fault_addr)) := by
  refine ⟨?_, ?_, stack_access_iff f.esp fault_addr⟩
  · intro h1 h2
    have e : page_fault st f fault_addr =
        (allocate_frame st (pg_round_down fault_addr) true PAL_ZERO).map Prod.fst := by
      unfold page_fault
      simp only [hnp, hu, hno, h1, h2, if_true, Bool.true_eq_false, if_false, Bool.and_self]
    refine ⟨e, ?_, ?_⟩
    · intro st1 frame ha
      exact (allocate_frame_maps st st1 _ frame true PAL_ZERO hno ha).2
    · intro frame rest l hpool hf hb hh
      obtain ⟨st1, a1, _⟩ := allocate_frame_fresh st (pg_round_down fault_addr) true PAL_ZERO
        frame rest l hpool hf hb hh
      refine ⟨st1, by rw [e, a1]; rfl, ?_⟩
      exact (allocate_frame_maps st st1 _ frame true PAL_ZERO hno a1).2
  · intro hc
    refine ⟨?_, exit_error_spec st⟩
    have hc2 : (is_user_vaddr fault_addr && stack_access f.esp fault_addr) = false := by
      cases h1 : is_user_vaddr fault_addr <;> cases h2 : stack_access f.esp fault_addr <;>
        simp_all
    unfold page_fault
    simp only [hnp, hu, hno, hc2, if_true, Bool.true_eq_false, if_false, Bool.false_eq_true]

theorem stack_growth_decision_witness :
    sample_fault.not_present = true ∧ sample_fault.user = true ∧
    page_table_find (sample_boot.procs sample_boot.cur).page_table (pg_round_down 3221221344)
      = none ∧
    pg_round_down 3221221344 = 3221217280 ∧
    (page_fault sample_boot sample_fault 3221221344).map
      (fun s => ((s.procs 1).pagedir 3221217280, (s.procs 1).status, (s.procs 1).exited)) =
      some (some (3222274048, true), 0, false) ∧
    (page_fault sample_boot sample_fault 3221221343).map
      (fun s => ((s.procs 1).pagedir 3221217280, (s.procs 1).status, (s.procs 1).exited)) =
      some (none, -1, true) ∧
    page_fault sample_boot sample_fault 3221221344 =
      (allocate_frame sample_boot (pg_round_down 3221221344) true PAL_ZERO).map Prod.fst :=
  ⟨rfl, rfl, by decide, by decide, by decide, by decide,
    ((stack_growth_decision sample_boot sample_fault 3221221344 rfl rfl (by decide)).1
      (by decide) (by decide)).1⟩

/-- C29 at a fault of a kernel access to the address 0xC0400000, above `PHYS_BASE`,
for a process whose saved `esp` is 0xBFFFF000: `page_fault` maps the page
0xC0400000 to the frame 0xC0100000, writable; the status of the process stays 0
and the process does not exit. -/
theorem kernel_fault_maps_kernel_page :
    kernel_fault_result = some (some (3222274048, true), 0, false, false) := by
  decide

/-- C30 at a stack fault that finds no free page: the page is mapped to the frame
0xC0100000 of the victim, whose bytes are still the victim's bytes 9;
`allocate_frame` passes `PAL_ZERO` to `palloc_get_page` alone.  With a free
page the frame holds zeros. -/
theorem evicted_frame_not_zeroed :
    stack_page_bytes sample_busy = some (some (3222274048, true), 9, 9) ∧
    stack_page_bytes sample_boot = some (some (3222274048, true), 0, 0) := by
  constructor <;> decide

theorem page_table_insert_sets_fields_witness :
    page_table_find (page_table_insert_block (page_table_insert_file [] 4096 5 8192) 4096 16)
      4096 =
      some { page := 4096, frame := none, block := 16, file := some 5, offset := 8192,
             disk := true } ∧
    page_table_find (page_table_insert_frame (page_table_insert_file [] 4096 5 8192) 8192 12288)
      4096 =
      some { page := 4096, frame := none, block := 0, file := some 5, offset := 8192,
             disk := false } :=
  ⟨(page_table_insert_sets_fields (page_table_insert_file [] 4096 5 8192) 4096).2.2.1 16,
    ((page_table_insert_sets_fields (page_table_insert_file [] 4096 5 8192) 8192).2.2.2.2.2
      4096 (by decide)).2.1 12288⟩

/-- C31 at the exit of a process with one page in swap slot 0: `page_table_free`
leaves bit 0 of the swap bitmap set (`page_table_entry_destroy` calls
`bitmap_set` with the value `true`), the supplementary table is empty
afterwards, and the next `swap_out` takes slot 1 and returns sector 8. -/
theorem page_table_free_keeps_swap_bit :
    freed_swap_slot =
      some (some { page := 3221217280, frame := none, block := 0, file := none, offset := 0,
                   disk := true },
        [true, false, false, false, false], [true, false, false, false, false], [], 8) := by
  rfl

/-- C32 at the exit of a process with two pages in frames and at the exit of a process
with a mapped file page that was never loaded.  In the first, `page_table_free`
takes the two entries out of the hash and frees them, and the list still links
their addresses 3 and 4: `frame_table_select_victim` then reads a freed entry
and does not return.  In the second, `frame_table_find` yields the null
pointer for the entry without frame, `page_table_entry_destroy` hands it to
`hash_delete`, and `page_table_free` does not return. -/
theorem page_table_free_leaves_list :
    freed_frames = some ([3, 4], [], [3, 4], [false, false], false) ∧
    freed_file_page =
      (some { page := 268435456, frame := none, block := 0, file := some 5, offset := 0,
              disk := false }, none, false) := by
  constructor <;> rfl

/-- C38 after `free_cache` and after `cache_table_destroy`.  A write of sector 5 and
`free_cache (5)` leave the counter at 1 and the list empty, and the next write
leaves 2 and 1.  After 64 writes and `free_cache` of the 64 sectors the
counter stands at 64 and the list is empty: the next miss takes the eviction
branch of `allocate_cache` and `list_pop_front` meets an empty list.
`cache_table_destroy` on the full cache leaves the counter at 64 and the list
empty as well. -/
theorem counter_outruns_list :
    freed_counter = some (1, 0, 2, 1) ∧ emptied_full = some (64, 0, false, 64, 0) := by
  constructor <;> decide

/-- C39 on two sparse files.  With a hole at logical block 0, `free_blocks` hands
`UNUSED_SECTOR` to `free_map_release`, after the sector 3 of block 1 (the inode
is at sector 2).  With no block in the
single-indirect range, the field `indirect` is `UNUSED_SECTOR` and the
iteration for block 139 has the cache read sector `UNUSED_SECTOR`, which
enters the cache. -/
theorem free_blocks_releases_unused :
    hole_release = some (UNUSED_SECTOR, [3, UNUSED_SECTOR]) ∧
    index_release = some (UNUSED_SECTOR, false, [3, 4, 5, UNUSED_SECTOR]) := by
  constructor <;> decide

/-- C40, as stated, fails where the block at the offset is not allocated: a read of
one byte at offset 0 of an empty file returns 0 and takes sector 3 from the
free map for logical block 0, which it stores in `direct[0]`. -/
theorem read_past_end_allocates :
    read_past_end = some (0, 37, 36, UNUSED_SECTOR, 3) := by
  decide

/-- C40, amended: on an open, well-formed inode, `inode_read_at` with `size > 0` at an
offset at or beyond the length (and within the address range of an inode)
returns 0 and leaves the buffer and the length unchanged.  When the logical
block of the offset is allocated, the free map, the data of the inode and the
contents of every sector are unchanged.  When it is not, the call goes
through `allocate_block` for that block before it looks at the length: the
slots on the path to that block that were `UNUSED_SECTOR` take sectors from
the free map (as many as are missing when the free map has them), and every
other slot, and every slot that was set, keeps its value. -/
theorem inode_read_at_past_end (st : filesys) (p : Nat) (i : inode) (buffer : Nat → Nat)
    (size offset : Nat) (hd : inode_deref st p = some i)
    (hok : cache_ok st.cache_table) (hwf : inode_wf st p i.data)
    (hs : 0 < size) (hl : inode_length i.data ≤ (offset : Int)) (hmax : offset < 8460288) :
    ∃ st1 i1, inode_read_at st p buffer size offset = some (st1, buffer, 0) ∧
      inode_deref st1 p = some i1 ∧ inode_length i1.data = inode_length i.data ∧
      (block_slot st i.data (offset / DISK_SECTOR_SIZE) ≠ UNUSED_SECTOR →
        st1.free_map = st.free_map ∧ i1.data = i.data ∧ sector_view st1 = sector_view st) ∧
      (∀ r : slot_id, r.valid → slot_sector st p i.data r ≠ UNUSED_SECTOR →
        slot_sector st1 p i1.data r = slot_sector st p i.data r) ∧
      (∀ r : slot_id, r.valid → r ∉ block_path (offset / DISK_SECTOR_SIZE) →
        slot_sector st1 p i1.data r = slot_sector st p i.data r) ∧
      (missing_levels st i.data (offset / DISK_SECTOR_SIZE) ≤ free_count st.free_map →
        free_count st1.free_map + missing_levels st i.data (offset / DISK_SECTOR_SIZE)
          = free_count st.free_map) ∧
      st1.free_map.released = st.free_map.released := by
  have hpos : offset / DISK_SECTOR_SIZE < MAX_BLOCKS := by
    simp only [DISK_SECTOR_SIZE, MAX_BLOCKS, DIRECT_MAX, SECTOR_MAX]
    omega
  obtain ⟨s, st1, data1, ha, _, hg, _, hcount, hsame⟩ :=
    allocate_block_total p st i.data (offset / DISK_SECTOR_SIZE) hok hwf hpos
  have hlen : inode_length data1 = inode_length i.data := inode_length_eq_of_fields _ _ hg.fields
  obtain ⟨n, hn⟩ : ∃ n, size = n + 1 := ⟨size - 1, by omega⟩
  have hloop : inode_read_loop size st i.data buffer size offset 0 = some (st1, data1, buffer, 0) := by
    have := inode_read_loop_break n st i.data buffer size offset 0 s data1 st1 hs ha
      (by rw [hlen]; exact hl)
    rw [hn] at this ⊢
    exact this
  have hsec := inode_deref_sector st p i hd
  have hd1 : inode_deref st1 p = some i := by
    rw [inode_deref_of_open_inodes st st1 p hg.open_inodes]; exact hd
  refine ⟨inode_store st1 p { i with data := data1 }, { i with data := data1 }, ?_,
    inode_deref_store st1 p i _ hd1 hsec, hlen, ?_, ?_, ?_, ?_, hg.fm_released⟩
  · unfold inode_read_at
    simp only [hd, hloop]
  · intro hb
    obtain ⟨_, h2, h3, h4⟩ := hsame hb
    exact ⟨h4, h2, h3⟩
  · intro r hr hu
    rw [slot_sector_inode_store]
    exact hg.keep r hr hu
  · intro r hr hnot
    rw [slot_sector_inode_store]
    exact hg.untouched r hr hnot
  · intro hm
    exact (hcount hm).2

theorem inode_read_at_past_end_witness :
    inode_deref sample_open 2 = some sample_inode ∧ cache_ok sample_open.cache_table ∧
    inode_wf sample_open 2 sample_inode.data ∧ 0 < 10 ∧
    inode_length sample_inode.data ≤ ((700 : Nat) : Int) ∧ 700 < 8460288 ∧
    ∃ st1 i1, inode_read_at sample_open 2 zeros 10 700 = some (st1, zeros, 0) ∧
      inode_deref st1 2 = some i1 ∧ inode_length i1.data = inode_length sample_inode.data := by
  have hl : inode_length sample_inode.data ≤ ((700 : Nat) : Int) := by decide
  refine ⟨rfl, sample_cache_ok, sample_wf, by decide, hl, by decide, ?_⟩
  obtain ⟨st1, i1, h1, h2, h3, _⟩ :=
    inode_read_at_past_end sample_open 2 sample_inode zeros 10 700 rfl sample_cache_ok sample_wf
      (by decide) hl (by decide)
  exact ⟨st1, i1, h1, h2, h3⟩


theorem mmap_pages_lt (len : Int) (i : Nat) (h : 0 < len) (hs : len % 4096 ≠ 0) :
    i < mmap_pages len ↔ (i : Int) * 4096 < len := by
  unfold mmap_pages
  have e : Int.tdiv len PGSIZE = len / 4096 := by
    rw [Int.tdiv_eq_ediv (le_of_lt h) (by simp [PGSIZE])]
    simp [PGSIZE]
  rw [e]
  omega

theorem pg_round_down_ne (page : Nat) : page ≠ pg_round_down page ↔ page % 4096 ≠ 0 := by
  unfold pg_round_down
  simp only [PGSIZE]
  omega

/-- C33, as stated, fails for the null page as base: `sys_mmap (2, 0)` on an open file
of 100 bytes, with no page mapped, returns -1 and changes nothing, although
descriptor 2 is neither 0 nor 1, the file is not empty, the base 0 is
page-aligned and no page has a supplementary entry. -/
theorem mmap_at_null_rejected :
    mmap_result (sample_mmap 100) 2 0 = some (-1, [], []) ∧
    file_length (sample_mmap 100) 100 = 100 ∧ 0 % 4096 = 0 ∧
    (sample_mmap 100).page_table = [] := by
  refine ⟨by decide, by decide, by decide, rfl⟩

/-- C33, amended: for a descriptor of an open file whose length is not a multiple of
4096 other than 0, `sys_mmap (fd, base)` returns -1 and leaves the state
unchanged exactly when `fd` is 0 or 1, the file is empty, `base` is the null
page, `base` is not page-aligned, or one of the pages `base + i * 4096` with
`i * 4096 < len` (the pages of `[base, base + ceil (len / 4096) * 4096)`,
the addresses in 32-bit arithmetic) has a supplementary entry; in every other
case it returns a mapid, which is not negative, and appends a mapping with
that mapid and base to the `mmap_list`. -/
theorem sys_mmap_rejects (st : mmap_state) (fd : Int) (page file : Nat)
    (hfd : 0 ≤ fd ∧ fd < 128) (hopen : st.files.getD fd.toNat none = some file)
    (hlen : 0 ≤ file_length st file)
    (hrem : file_length st file % 4096 ≠ 0 ∨ file_length st file = 0)
    (hmap : ∀ m ∈ st.mmap_list, 0 ≤ m.mapid) :
    ((fd ≤ 1 ∨ file_length st file = 0 ∨ page = 0 ∨ page % 4096 ≠ 0 ∨
        ∃ i : Nat, (i : Int) * 4096 < file_length st file ∧
          (page_table_find st.page_table (mmap_page page i)).isSome = true) →
      sys_mmap st fd page = some (st, -1)) ∧
    (¬ (fd ≤ 1 ∨ file_length st file = 0 ∨ page = 0 ∨ page % 4096 ≠ 0 ∨
        ∃ i : Nat, (i : Int) * 4096 < file_length st file ∧
          (page_table_find st.page_table (mmap_page page i)).isSome = true) →
      ∃ st1 mapid m, sys_mmap st fd page = some (st1, mapid) ∧ 0 ≤ mapid ∧
        st1.mmap_list = st.mmap_list ++ [m] ∧ m.mapid = mapid ∧ m.page = page ∧
        st1.files = st.files) ∧
    (∀ i : Nat, page + i * 4096 < 4294967296 → mmap_page page i = page + i * 4096) := by
  have hguard : ¬ (fd < 0 ∨ (MAX_FILE_COUNT : Int) ≤ fd) := by
    simp only [MAX_FILE_COUNT]
    omega
  have hany : (List.range (mmap_pages (file_length st file))).any
      (fun i => (page_table_find st.page_table (mmap_page page i)).isSome) = true ↔
      ∃ i, i < mmap_pages (file_length st file) ∧
        (page_table_find st.page_table (mmap_page page i)).isSome = true := by
    rw [List.any_eq_true]
    constructor
    · rintro ⟨i, hi, h⟩
      exact ⟨i, List.mem_range.1 hi, h⟩
    · rintro ⟨i, hi, h⟩
      exact ⟨i, List.mem_range.2 hi, h⟩
  refine ⟨?_, ?_, ?_⟩
  · intro hR
    unfold sys_mmap
    rw [if_neg hguard]
    simp only [hopen]
    by_cases h1 : fd ≤ STDOUT_FILENO ∨ file_length st file = 0 ∨ page = 0 ∨
        page ≠ pg_round_down page
    · rw [if_pos h1]
    · rw [if_neg h1]
      have h1' : ¬ (fd ≤ 1 ∨ file_length st file = 0 ∨ page = 0 ∨ page % 4096 ≠ 0) := by
        intro c
        apply h1
        rcases c with c | c | c | c
        · exact Or.inl c
        · exact Or.inr (Or.inl c)
        · exact Or.inr (Or.inr (Or.inl c))
        · exact Or.inr (Or.inr (Or.inr ((pg_round_down_ne page).2 c)))
      have hl0 : file_length st file ≠ 0 := fun c => h1' (Or.inr (Or.inl c))
      have hpos : 0 < file_length st file := lt_of_le_of_ne hlen (Ne.symm hl0)
      have hr : file_length st file % 4096 ≠ 0 := by
        rcases hrem with c | c
        · exact c
        · exact absurd c hl0
      have hex : ∃ i : Nat, (i : Int) * 4096 < file_length st file ∧
          (page_table_find st.page_table (mmap_page page i)).isSome = true := by
        rcases hR with c | c | c | c | c
        · exact absurd (Or.inl c) h1'
        · exact absurd c hl0
        · exact absurd (Or.inr (Or.inr (Or.inl c))) h1'
        · exact absurd (Or.inr (Or.inr (Or.inr c))) h1'
        · exact c
      obtain ⟨i, hi, hf⟩ := hex
      rw [if_pos (hany.2 ⟨i, (mmap_pages_lt _ i hpos hr).2 hi, hf⟩)]
  · intro hR
    have h1 : ¬ (fd ≤ STDOUT_FILENO ∨ file_length st file = 0 ∨ page = 0 ∨
        page ≠ pg_round_down page) := by
      intro c
      apply hR
      rcases c with c | c | c | c
      · exact Or.inl c
      · exact Or.inr (Or.inl c)
      · exact Or.inr (Or.inr (Or.inl c))
      · exact Or.inr (Or.inr (Or.inr (Or.inl ((pg_round_down_ne page).1 c))))
    have hl0 : file_length st file ≠ 0 := fun c => hR (Or.inr (Or.inl c))
    have hpos : 0 < file_length st file := lt_of_le_of_ne hlen (Ne.symm hl0)
    have hr : file_length st file % 4096 ≠ 0 := by
      rcases hrem with c | c
      · exact c
      · exact absurd c hl0
    have h2 : ¬ ((List.range (mmap_pages (file_length st file))).any
        (fun i => (page_table_find st.page_table (mmap_page page i)).isSome) = true) := by
      rw [hany]
      rintro ⟨i, hi, hf⟩
      exact hR (Or.inr (Or.inr (Or.inr (Or.inr ⟨i, (mmap_pages_lt _ i hpos hr).1 hi, hf⟩))))
    have hid : 0 ≤ next_mapid st.mmap_list := by
      unfold next_mapid
      cases hb : st.mmap_list.getLast? with
      | none => simp
      | some back =>
        have := hmap back (List.mem_of_getLast?_eq_some hb)
        simp only
        omega
    have hrun : sys_mmap st fd page = some
        ({ (file_reopen st file).2 with
            mmap_list := (file_reopen st file).2.mmap_list ++
              [{ mapid := next_mapid st.mmap_list, page := page,
                 file := (file_reopen st file).1 }],
            page_table := (List.range (mmap_pages (file_length st file))).foldl
              (fun pt i => page_table_insert_file pt (mmap_page page i) (file_reopen st file).1
                ((i * PGSIZE : Nat) : Int))
              (file_reopen st file).2.page_table },
          next_mapid st.mmap_list) := by
      unfold sys_mmap
      rw [if_neg hguard]
      simp only [hopen]
      rw [if_neg h1, if_neg h2]
    exact ⟨_, _, _, hrun, hid, rfl, rfl, rfl, rfl⟩
  · intro i hi
    unfold mmap_page
    simp only [PGSIZE]
    omega

theorem sys_mmap_rejects_witness :
    (0 ≤ (2 : Int) ∧ (2 : Int) < 128) ∧
    (sample_mmap 100).files.getD (2 : Int).toNat none = some 100 ∧
    0 ≤ file_length (sample_mmap 100) 100 ∧
    (file_length (sample_mmap 100) 100 % 4096 ≠ 0 ∨ file_length (sample_mmap 100) 100 = 0) ∧
    mmap_result (sample_mmap 100) 2 268435456 =
      some (0, [{ page := 268435456, frame := none, block := 0, file := some 101, offset := 0,
                  disk := false }],
        [{ mapid := 0, page := 268435456, file := 101 }]) ∧
    sys_mmap (sample_mmap 100) 2 268435457 = some (sample_mmap 100, -1) :=
  ⟨by decide, by decide, by decide, by decide, by decide,
    (sys_mmap_rejects (sample_mmap 100) 2 268435457 100 (by decide) (by decide) (by decide)
      (by decide) (fun _ h => by cases h)).1 (Or.inr (Or.inr (Or.inr (Or.inl (by decide)))))⟩

/-- C34 on a file of 4096 bytes, descriptor 2, mapped at 0x10000000 by a process
without mappings: `sys_mmap` returns the mapid 0 and adds two supplementary
entries, for the pages 0x10000000 and 0x10001000 at the offsets 0 and 4096 of
the reopened file, where `ceil (4096 / 4096)` is one: both loops of `sys_mmap`
run `len / PGSIZE + 1` times.  And with a supplementary entry at 0x10001000,
outside the page of the file, the call returns -1. -/
theorem mmap_adds_page_beyond_file :
    mmap_result (sample_mmap 4096) 2 268435456 =
      some (0,
        [{ page := 268435456, frame := none, block := 0, file := some 101, offset := 0,
           disk := false },
         { page := 268439552, frame := none, block := 0, file := some 101, offset := 4096,
           disk := false }],
        [{ mapid := 0, page := 268435456, file := 101 }]) ∧
    mmap_result
      { sample_mmap 4096 with page_table := page_table_insert_frame [] 268439552 3222274048 }
      2 268435456 =
      some (-1, [{ page := 268439552, frame := some 3222274048, block := 0, file := none,
                   offset := 0, disk := false }], []) := by
  constructor <;> decide

theorem split_head : ∀ xs : List Char,
    xs.splitOn '/' = xs.takeWhile (fun c => c != '/') ::
      (match xs.dropWhile (fun c => c != '/') with
        | [] => []
        | _ :: r => r.splitOn '/') := by
  intro xs
  induction xs with
  | nil => rfl
  | cons x xs ih =>
    unfold List.splitOn at ih ⊢
    rw [List.splitOnP_cons]
    by_cases hx : x = '/'
    · subst hx
      simp
    · have h1 : (x == '/') = false := by simpa using hx
      have h2 : (x != '/') = true := by simpa using hx
      rw [if_neg (by simp [h1]), ih]
      simp [List.modifyHead, List.takeWhile_cons, List.dropWhile_cons, h2]

theorem path_components_nil : path_components [] = [] := by decide

theorem path_components_slash (xs : List Char) :
    path_components ('/' :: xs) = path_components xs := by
  unfold path_components List.splitOn
  rw [List.splitOnP_cons]
  simp

theorem path_components_skip : ∀ s : List Char,
    path_components s = path_components (s.dropWhile (fun c => c == '/')) := by
  intro s
  induction s with
  | nil => rfl
  | cons x xs ih =>
    by_cases hx : x = '/'
    · subst hx
      rw [path_components_slash, ih]
      simp [List.dropWhile_cons]
    · have h1 : (x == '/') = false := by simpa using hx
      simp [List.dropWhile_cons, h1]

theorem path_components_token (x : Char) (xs : List Char) (hx : x ≠ '/') :
    path_components (x :: xs) =
      (x :: xs).takeWhile (fun c => c != '/') ::
        path_components ((x :: xs).dropWhile (fun c => c != '/')).tail := by
  have h2 : (x != '/') = true := by simpa using hx
  unfold path_components
  rw [split_head (x :: xs)]
  have hne : (x :: xs).takeWhile (fun c => c != '/') ≠ [] := by
    simp [List.takeWhile_cons, h2]
  rw [List.filter_cons_of_pos (by simpa using hne)]
  congr 1
  cases hd : (x :: xs).dropWhile (fun c => c != '/') with
  | nil => rfl
  | cons y r => rfl

/-- The components of a path are what successive calls of `strtok_r` return. -/
theorem components_strtok (s : List Char) :
    path_components s =
      match (strtok_r s '/').1 with
      | none => []
      | some c => c :: path_components (strtok_r s '/').2 := by
  rw [path_components_skip s]
  unfold strtok_r
  cases hs : s.dropWhile (fun c => c == '/') with
  | nil => simp [path_components_nil]
  | cons x xs =>
    have hx : x ≠ '/' := by
      have := List.head_dropWhile_not (fun c => c == '/') s (by rw [hs]; simp)
      simp only [hs, List.head_cons] at this
      simpa using this
    simp only [List.cons_ne_nil, if_false, reduceCtorEq]
    exact path_components_token x xs hx

theorem strtok_r_length (s : List Char) (c : List Char) (h : (strtok_r s '/').1 = some c) :
    (strtok_r s '/').2.length < s.length := by
  unfold strtok_r at h ⊢
  cases hs : s.dropWhile (fun c => c == '/') with
  | nil => simp [hs] at h
  | cons x xs =>
    have hx : x ≠ '/' := by
      have := List.head_dropWhile_not (fun c => c == '/') s (by rw [hs]; simp)
      simp only [hs, List.head_cons] at this
      simpa using this
    have h2 : (x != '/') = true := by simpa using hx
    have hlen : (x :: xs).length ≤ s.length := by
      rw [← hs]
      exact (List.dropWhile_sublist _).length_le
    have h3 : (xs.dropWhile (fun c => c != '/')).length ≤ xs.length :=
      (List.dropWhile_sublist _).length_le
    simp only [List.cons_ne_nil, if_false, reduceCtorEq, List.dropWhile_cons, h2, if_true,
      List.length_tail]
    simp only [List.length_cons] at hlen
    omega

theorem components_from_strtok (s : List Char) :
    path_components s = components_from (strtok_r s '/').1 (strtok_r s '/').2 := by
  rw [components_strtok s]
  rfl

theorem path_store_mid (x y v : Option (List Char)) (B : List (Option (List Char))) :
    ∀ A : List (Option (List Char)),
    path_store (A ++ x :: y :: B) (A.length + 1) v = some (A ++ x :: v :: B) := by
  intro A
  unfold path_store
  rw [if_pos (by simp)]
  congr 1
  induction A with
  | nil => rfl
  | cons a A ih =>
    simp only [List.cons_append, List.length_cons, List.set_cons_succ]
    rw [ih]

theorem path_getD_mid (x : Option (List Char)) (B : List (Option (List Char))) :
    ∀ A : List (Option (List Char)), (A ++ x :: B).getD A.length none = x := by
  intro A
  induction A with
  | nil => rfl
  | cons a A ih =>
    simp only [List.cons_append, List.length_cons, List.getD_cons_succ]
    exact ih

/-- The loop of `filesys_parse`, entered with the components `done` in the array and
the result `cur` of the last `strtok_r` in the slot behind them. -/
theorem filesys_parse_loop_spec : ∀ (fuel : Nat) (done : List (List Char))
    (cur : Option (List Char)) (next : List Char) (pad : Nat),
    (cur.isSome = true → next.length < fuel) →
    (components_from cur next).length ≤ pad →
    filesys_parse_loop fuel (done.map some ++ cur :: List.replicate pad none) next done.length =
      some ((done ++ (components_from cur next)).map some ++
        none :: List.replicate (pad - (components_from cur next).length) none,
        done.length + (components_from cur next).length) := by
  intro fuel
  induction fuel with
  | zero =>
    intro done cur next pad hf _
    cases cur with
    | none =>
      have hg : (done.map some ++ none :: List.replicate pad none).getD done.length none = none := by
        have := path_getD_mid none (List.replicate pad none) (done.map some)
        rwa [List.length_map] at this
      simp only [filesys_parse_loop, hg, components_from, List.append_nil, List.length_nil,
        Nat.sub_zero, Nat.add_zero]
    | some c => exact absurd (hf rfl) (Nat.not_lt_zero _)
  | succ f ih =>
    intro done cur next pad hf hp
    cases cur with
    | none =>
      have hg : (done.map some ++ none :: List.replicate pad none).getD done.length none = none := by
        have := path_getD_mid none (List.replicate pad none) (done.map some)
        rwa [List.length_map] at this
      simp only [filesys_parse_loop, hg, components_from, List.append_nil, List.length_nil,
        Nat.sub_zero, Nat.add_zero]
    | some c =>
      have hg : (done.map some ++ some c :: List.replicate pad none).getD done.length none
          = some c := by
        have := path_getD_mid (some c) (List.replicate pad none) (done.map some)
        rwa [List.length_map] at this
      simp only [components_from, List.length_cons] at hp
      obtain ⟨pad1, hpad⟩ : ∃ pad1, pad = pad1 + 1 := ⟨pad - 1, by omega⟩
      subst hpad
      have hst : path_store (done.map some ++ some c :: List.replicate (pad1 + 1) none)
          (done.length + 1) (strtok_r next '/').1 =
          some ((done ++ [c]).map some ++ (strtok_r next '/').1 :: List.replicate pad1 none) := by
        have := path_store_mid (some c) none (strtok_r next '/').1 (List.replicate pad1 none)
          (done.map some)
        rw [List.length_map] at this
        rw [List.replicate_succ, this]
        simp
      have hrem := components_from_strtok next
      have hnext : (strtok_r next '/').1.isSome = true → (strtok_r next '/').2.length < f := by
        intro hsome
        obtain ⟨c1, hc1⟩ := Option.isSome_iff_exists.1 hsome
        have h1 := strtok_r_length next c1 hc1
        have h2 := hf rfl
        omega
      have hih := ih (done ++ [c]) (strtok_r next '/').1 (strtok_r next '/').2 pad1 hnext
        (by rw [← hrem]; omega)
      rw [← hrem] at hih
      simp only [filesys_parse_loop, hg, hst]
      rw [List.length_append, List.length_singleton] at hih
      rw [hih]
      have e1 : pad1 + 1 - ((path_components next).length + 1) =
          pad1 - (path_components next).length := by omega
      simp only [components_from, List.append_assoc, List.singleton_append, List.length_cons, e1,
        Nat.add_assoc, Nat.add_comm 1]

/-- The function `filesys_parse` on an array of `DEPTH_MAX` null pointers. -/
theorem filesys_parse_spec (name : List Char) (h : (path_components name).length ≤ 127) :
    filesys_parse (List.replicate DEPTH_MAX none) name 0 =
      some ((path_components name).map some ++
        none :: List.replicate (127 - (path_components name).length) none,
        (path_components name).length) := by
  unfold filesys_parse
  have hst : path_store (List.replicate DEPTH_MAX none) 0 (strtok_r name '/').1 =
      some ((strtok_r name '/').1 :: List.replicate 127 none) := by
    unfold path_store
    simp [DEPTH_MAX, List.replicate_succ]
  have hrem := components_from_strtok name
  have hloop := filesys_parse_loop_spec (name.length + 1) [] (strtok_r name '/').1
    (strtok_r name '/').2 127
    (by
      intro hsome
      obtain ⟨c1, hc1⟩ := Option.isSome_iff_exists.1 hsome
      have := strtok_r_length name c1 hc1
      omega)
    (by rw [← hrem]; exact h)
  rw [← hrem] at hloop
  simp only [hst]
  simpa using hloop

theorem components_free : ∀ (n : Nat) (s : List Char), s.length ≤ n →
    ∀ c ∈ path_components s, c ≠ [] ∧ '/' ∉ c := by
  intro n
  induction n with
  | zero =>
    intro s hs c hc
    have : s = [] := List.eq_nil_of_length_eq_zero (by omega)
    subst this
    rw [path_components_nil] at hc
    cases hc
  | succ n ih =>
    intro s hs c hc
    rw [components_strtok] at hc
    cases ht : (strtok_r s '/').1 with
    | none => rw [ht] at hc; cases hc
    | some c0 =>
      rw [ht] at hc
      rcases List.mem_cons.1 hc with e | e
      · subst e
        unfold strtok_r at ht
        by_cases h1 : s.dropWhile (fun c => c == '/') = []
        · simp [h1] at ht
        · simp only [h1, if_false, Option.some.injEq] at ht
          have hne : c ≠ [] := by
            intro e2
            rw [e2] at ht
            cases hd : s.dropWhile (fun c => c == '/') with
            | nil => exact h1 hd
            | cons x xs =>
              have hx := List.head_dropWhile_not (fun c => c == '/') s (by rw [hd]; simp)
              simp only [hd, List.head_cons] at hx
              rw [hd, List.takeWhile_cons] at ht
              have hx2 : (x != '/') = true := by
                simp only [bne_iff_ne, ne_eq]
                intro e3
                rw [e3] at hx
                simp at hx
              simp [hx2] at ht
          refine ⟨hne, ?_⟩
          intro hm
          rw [← ht] at hm
          have := List.mem_takeWhile_imp hm
          simp at this
      · have hl := strtok_r_length s c0 ht
        exact ih _ (by omega) c e

/-- C35: for every name with at most 127 components, `filesys_parse` with `*depth`
initially 0 returns, sets `*depth` to the number of components, stores the
components in `path[0 .. depth)` in their order in the name and the null
pointer in `path[depth]`.  The components are the pieces between the
separators that are not empty: the pieces contain no `/`, joined by `/` they
give the name, and no component is empty, so leading, trailing and repeated
separators yield none. -/
theorem filesys_parse_components (name : List Char)
    (h : (path_components name).length ≤ 127) :
    ∃ path, filesys_parse (List.replicate DEPTH_MAX none) name 0 =
        some (path, (path_components name).length) ∧
      path.length = DEPTH_MAX ∧
      path.take (path_components name).length = (path_components name).map some ∧
      path.getD (path_components name).length none = none ∧
      path_components name = (name.splitOn '/').filter (fun c => c ≠ []) ∧
      (∀ c ∈ name.splitOn '/', '/' ∉ c) ∧
      ['/'].intercalate (name.splitOn '/') = name ∧
      (∀ c ∈ path_components name, c ≠ []) := by
  refine ⟨_, filesys_parse_spec name h, ?_, ?_, ?_, rfl, ?_, List.intercalate_splitOn name '/', ?_⟩
  · simp only [List.length_append, List.length_map, List.length_cons, List.length_replicate,
      DEPTH_MAX]
    omega
  · have := List.take_left ((path_components name).map some)
      (none :: List.replicate (127 - (path_components name).length) none)
    rwa [List.length_map] at this
  · have := path_getD_mid none (List.replicate (127 - (path_components name).length) none)
      ((path_components name).map some)
    rwa [List.length_map] at this
  · intro c hc
    by_cases hn : c = []
    · rw [hn]; simp
    · have hm : c ∈ path_components name := by
        unfold path_components
        rw [List.mem_filter]
        exact ⟨hc, by simpa using hn⟩
      exact (components_free name.length name (le_refl _) c hm).2
  · intro c hc
    exact (components_free name.length name (le_refl _) c hc).1

set_option maxRecDepth 100000 in
theorem filesys_parse_components_witness :
    (path_components ['/', 'u', 's', 'r', '/', '/', 'b', 'i', 'n', '/']).length ≤ 127 ∧
    path_components ['/', 'u', 's', 'r', '/', '/', 'b', 'i', 'n', '/'] =
      [['u', 's', 'r'], ['b', 'i', 'n']] ∧
    (filesys_parse (List.replicate DEPTH_MAX none)
      ['/', 'u', 's', 'r', '/', '/', 'b', 'i', 'n', '/'] 0).map
        (fun r => (r.1.take 3, r.2)) =
      some ([some ['u', 's', 'r'], some ['b', 'i', 'n'], none], 2) ∧
    ∃ path, filesys_parse (List.replicate DEPTH_MAX none)
        ['/', 'u', 's', 'r', '/', '/', 'b', 'i', 'n', '/'] 0 =
        some (path, (path_components ['/', 'u', 's', 'r', '/', '/', 'b', 'i', 'n', '/']).length) ∧
      path.length = DEPTH_MAX :=
  ⟨by decide, by decide, by decide,
    let ⟨path, h1, h2, _⟩ :=
      filesys_parse_components ['/', 'u', 's', 'r', '/', '/', 'b', 'i', 'n', '/'] (by decide)
    ⟨path, h1, h2⟩⟩

theorem filesys_find_dir_loop_spec (lookup : Nat → List Char → Option Nat)
    (dir_flag : Nat → Bool) (path : List (Option (List Char)))
    (rest : List (Option (List Char))) :
    ∀ (n : Nat) (pre cs : List (List Char)) (dir : Nat),
    path = (pre ++ cs).map some ++ rest → n ≤ cs.length →
    filesys_find_dir_loop lookup dir_flag path n pre.length dir =
      some (follow lookup dir_flag dir (cs.take n)) := by
  intro n
  induction n with
  | zero =>
    intro pre cs dir _ _
    rfl
  | succ n ih =>
    intro pre cs dir hpath hn
    cases cs with
    | nil => simp at hn
    | cons c cs =>
      have hg : path.getD pre.length none = some c := by
        have := path_getD_mid (some c) (cs.map some ++ rest) (pre.map some)
        rw [List.length_map] at this
        rw [hpath]
        simpa using this
      have hrec := ih (pre ++ [c]) cs
      simp only [List.length_append, List.length_singleton] at hrec
      simp only [filesys_find_dir_loop, hg, List.take_succ_cons, follow]
      cases hl : lookup dir c with
      | none => rfl
      | some inode =>
        simp only
        by_cases hf : dir_flag inode = false
        · rw [if_pos hf, if_pos hf]
        · rw [if_neg hf, if_neg hf]
          exact hrec inode (by rw [hpath]; simp) (by simpa using hn)

theorem follow_none_iff (lookup : Nat → List Char → Option Nat) (dir_flag : Nat → Bool) :
    ∀ (cs : List (List Char)) (dir : Nat),
    follow lookup dir_flag dir cs = none ↔
      ∃ i d, i < cs.length ∧ follow lookup dir_flag dir (cs.take i) = some d ∧
        (lookup d (cs.getD i []) = none ∨
          ∃ n, lookup d (cs.getD i []) = some n ∧ dir_flag n = false) := by
  intro cs
  induction cs with
  | nil =>
    intro dir
    simp [follow]
  | cons c cs ih =>
    intro dir
    constructor
    · intro h
      cases hl : lookup dir c with
      | none => exact ⟨0, dir, by simp, rfl, Or.inl (by simpa using hl)⟩
      | some inode =>
        by_cases hf : dir_flag inode = false
        · exact ⟨0, dir, by simp, rfl, Or.inr ⟨inode, by simpa using hl, hf⟩⟩
        · simp only [follow, hl, if_neg hf] at h
          obtain ⟨i, d, h1, h2, h3⟩ := (ih inode).1 h
          refine ⟨i + 1, d, by simpa using h1, ?_, by simpa using h3⟩
          simp only [List.take_succ_cons, follow, hl, if_neg hf]
          exact h2
    · rintro ⟨i, d, h1, h2, h3⟩
      cases i with
      | zero =>
        simp only [List.take_zero, follow, Option.some.injEq] at h2
        subst h2
        simp only [List.getD_cons_zero] at h3
        rcases h3 with h3 | ⟨n, h3, h4⟩
        · simp only [follow, h3]
        · simp only [follow, h3, h4, if_true]
      | succ j =>
        cases hl : lookup dir c with
        | none => simp only [follow, hl]
        | some inode =>
          by_cases hf : dir_flag inode = false
          · simp only [follow, hl, if_pos hf]
          · simp only [follow, hl, if_neg hf]
            simp only [List.take_succ_cons, follow, hl, if_neg hf] at h2
            exact (ih inode).2 ⟨j, d, by simpa using h1, h2, by simpa using h3⟩

/-- C36: for every name with at most 127 components `c0 .. c(k-1)`, `filesys_find_dir`
follows `c0 .. c(k-2)` from the start directory, each looked up in the
directory reached so far.  It returns the null pointer exactly when one of
them is absent from the directory reached so far or names an inode that is
not a directory; otherwise it returns the directory reached and sets `*final`
to `c(k-1)`, or to the empty string when the name has no component.  The
start directory of `filesys_create`, `filesys_open` and `filesys_remove` is
the root directory when the name begins with `/` and the current directory
of the process otherwise. -/
theorem filesys_find_dir_follows (lookup : Nat → List Char → Option Nat)
    (dir_flag : Nat → Bool) (dir : Nat) (name : List Char)
    (h : (path_components name).length ≤ 127) :
    filesys_find_dir lookup dir_flag dir name =
      some ((follow lookup dir_flag dir (path_components name).dropLast).map
        (fun d => (d, some ((path_components name).getLastD [])))) ∧
    (follow lookup dir_flag dir (path_components name).dropLast = none ↔
      ∃ i d, i + 1 < (path_components name).length ∧
        follow lookup dir_flag dir ((path_components name).take i) = some d ∧
        (lookup d ((path_components name).getD i []) = none ∨
          ∃ n, lookup d ((path_components name).getD i []) = some n ∧ dir_flag n = false)) ∧
    (∀ root cur, (name.head? = some '/' → filesys_start_dir root cur name = root) ∧
      (name.head? ≠ some '/' → filesys_start_dir root cur name = cur)) := by
  refine ⟨?_, ?_, ?_⟩
  · unfold filesys_find_dir
    rw [filesys_parse_spec name h]
    simp only
    rcases List.eq_nil_or_concat (path_components name) with e | ⟨L, b, e⟩
    · rw [e]
      rfl
    · rw [e, List.concat_eq_append]
      have hloop := filesys_find_dir_loop_spec lookup dir_flag
        ((L ++ [b]).map some ++ none :: List.replicate (127 - (L ++ [b]).length) none)
        (none :: List.replicate (127 - (L ++ [b]).length) none) L.length [] (L ++ [b]) dir
        (by simp) (by simp)
      simp only [List.length_nil] at hloop
      have hlen : (L ++ [b]).length - 1 = L.length := by simp
      have hg : ((L ++ [b]).map some ++ none ::
          List.replicate (127 - (L ++ [b]).length) none).getD L.length none = some b := by
        have := path_getD_mid (some b)
          (none :: List.replicate (127 - (L ++ [b]).length) none) (L.map some)
        rw [List.length_map] at this
        simpa using this
      have hne : (L ++ [b]).length ≠ 0 := by simp
      rw [hlen, hloop, List.take_left, List.dropLast_concat, List.getLastD_concat, hg, if_neg hne]
      cases follow lookup dir_flag dir L <;> rfl
  · rw [follow_none_iff]
    constructor
    · rintro ⟨i, d, h1, h2, h3⟩
      have hi : i < (path_components name).length - 1 := by
        simpa [List.length_dropLast] using h1
      have ht : (path_components name).dropLast.take i = (path_components name).take i := by
        rw [List.dropLast_eq_take, List.take_take]
        congr 1
        omega
      have hd : (path_components name).dropLast.getD i [] = (path_components name).getD i [] := by
        rw [List.dropLast_eq_take]
        simp only [List.getD_eq_getElem?_getD, List.getElem?_take]
        rw [if_pos hi]
      rw [ht] at h2
      rw [hd] at h3
      exact ⟨i, d, by omega, h2, h3⟩
    · rintro ⟨i, d, h1, h2, h3⟩
      have hi : i < (path_components name).length - 1 := by omega
      have ht : (path_components name).dropLast.take i = (path_components name).take i := by
        rw [List.dropLast_eq_take, List.take_take]
        congr 1
        omega
      have hd : (path_components name).dropLast.getD i [] = (path_components name).getD i [] := by
        rw [List.dropLast_eq_take]
        simp only [List.getD_eq_getElem?_getD, List.getElem?_take]
        rw [if_pos hi]
      refine ⟨i, d, by simpa [List.length_dropLast] using hi, by rw [ht]; exact h2,
        by rw [hd]; exact h3⟩
  · intro root cur
    unfold filesys_start_dir
    constructor
    · intro hh
      rw [if_pos hh]
    · intro hh
      rw [if_neg hh]

set_option maxRecDepth 100000 in
theorem filesys_find_dir_follows_witness :
    (path_components ['/', 'u', 's', 'r', '/', 'b', 'i', 'n', '/', 'l', 's']).length ≤ 127 ∧
    filesys_find_dir sample_lookup sample_dir_flag 1
      ['/', 'u', 's', 'r', '/', 'b', 'i', 'n', '/', 'l', 's'] = some (some (6, some ['l', 's'])) ∧
    filesys_find_dir sample_lookup sample_dir_flag 1 ['/', 'e', 't', 'c', '/', 'x'] = some none ∧
    filesys_find_dir sample_lookup sample_dir_flag 1 ['/', 'v', 'a', 'r', '/', 'x'] = some none ∧
    filesys_find_dir sample_lookup sample_dir_flag 5 ['/'] = some (some (5, some [])) ∧
    filesys_start_dir 1 5 ['b', 'i', 'n', '/', 'l', 's'] = 5 ∧
    filesys_find_dir sample_lookup sample_dir_flag 1
      ['/', 'u', 's', 'r', '/', 'b', 'i', 'n', '/', 'l', 's'] =
      some ((follow sample_lookup sample_dir_flag 1
        (path_components ['/', 'u', 's', 'r', '/', 'b', 'i', 'n', '/', 'l', 's']).dropLast).map
        (fun d => (d, some ((path_components
          ['/', 'u', 's', 'r', '/', 'b', 'i', 'n', '/', 'l', 's']).getLastD [])))) :=
  ⟨by decide, by decide, by decide, by decide, by decide, by decide,
    (filesys_find_dir_follows sample_lookup sample_dir_flag 1
      ['/', 'u', 's', 'r', '/', 'b', 'i', 'n', '/', 'l', 's'] (by decide)).1⟩

/-- C37 on `sys_read` into a buffer whose page is in swap: the thread acquires
`lock_file` in `sys_read` and, at the page fault that `file_read` takes on the
buffer, `frame_table.lock` in `page_fault` (line 184) while it holds
`lock_file`.  Taken from user mode, every way through `page_fault` keeps the
order, and so does `sys_mmap`. -/
theorem read_fault_breaks_lock_order :
    sys_read_locks [fault_path.swap true false] =
      [lock_event.acquire lock_id.lock_file,
        lock_event.acquire lock_id.frame_table_lock, lock_event.release lock_id.frame_table_lock,
        lock_event.acquire lock_id.frame_table_lock,
        lock_event.acquire lock_id.swap_lock, lock_event.release lock_id.swap_lock,
        lock_event.release lock_id.frame_table_lock,
        lock_event.release lock_id.lock_file] ∧
    first_violation [] (sys_read_locks [fault_path.swap true false]) =
      some (lock_id.frame_table_lock, [lock_id.lock_file]) ∧
    (∀ p : fault_path, first_violation [] (sys_read_locks [p]) =
      some (lock_id.frame_table_lock, [lock_id.lock_file])) ∧
    (∀ p : fault_path, first_violation [] (page_fault_locks p) = none) ∧
    first_violation [] sys_mmap_locks = none ∧ first_violation [] (sys_read_locks []) = none := by
  refine ⟨by decide, by decide, ?_, ?_, by decide, by decide⟩
  · intro p
    cases p <;> rfl
  · intro p
    cases p with
    | kill => rfl
    | stack a b => cases a <;> cases b <;> rfl
    | swap a b => cases a <;> cases b <;> rfl
    | file a b => cases a <;> cases b <;> rfl


theorem mmap_page_inj (page i j n : Nat) (hn : n ≤ 524289) (hi : i < n) (hj : j < n)
    (h : mmap_page page i = mmap_page page j) : i = j := by
  unfold mmap_page at h
  simp only [PGSIZE] at h
  omega

/-- The second loop of `sys_mmap`: the entries of the pages `page + i * PGSIZE` with
`i < n` after it, and the entries of the other pages. -/
theorem mmap_fill_spec (page file : Nat) : ∀ (n : Nat) (pt : List page_table_entry),
    n ≤ 524289 →
    (∀ i, i < n →
      page_table_find ((List.range n).foldl
        (fun pt i => page_table_insert_file pt (mmap_page page i) file ((i * PGSIZE : Nat) : Int))
        pt) (mmap_page page i) =
        some { page := mmap_page page i, frame := none, block := 0, file := some file,
               offset := ((i * PGSIZE : Nat) : Int), disk := false }) ∧
    (∀ q, (∀ i, i < n → mmap_page page i ≠ q) →
      page_table_find ((List.range n).foldl
        (fun pt i => page_table_insert_file pt (mmap_page page i) file ((i * PGSIZE : Nat) : Int))
        pt) q = page_table_find pt q) := by
  intro n
  induction n with
  | zero =>
    intro pt _
    exact ⟨fun i hi => absurd hi (Nat.not_lt_zero _), fun q _ => rfl⟩
  | succ n ih =>
    intro pt hn
    obtain ⟨h1, h2⟩ := ih pt (by omega)
    rw [List.range_succ, List.foldl_append]
    simp only [List.foldl_cons, List.foldl_nil]
    constructor
    · intro i hi
      by_cases hin : i = n
      · subst hin
        exact page_table_find_store_same _ _
      · have hlt : i < n := by omega
        have hne : mmap_page page i ≠ mmap_page page n := fun c =>
          hin (mmap_page_inj page i n (n + 1) hn hi (by omega) c)
        unfold page_table_insert_file
        rw [page_table_find_store_other _ _ _ hne]
        exact h1 i hlt
    · intro q hq
      have hne : q ≠ mmap_page page n := fun c => hq n (by omega) c.symm
      unfold page_table_insert_file
      rw [page_table_find_store_other _ _ _ hne]
      exact h2 q (fun i hi => hq i (by omega))

/-- What a call of `sys_mmap` that is not rejected leaves, for a file whose length is
not a multiple of 4096: the pages `base + i * 4096` with `i * 4096 < len`
have an entry for the reopened file at the offset `i * 4096`, without frame
and with the disk flag false; the entry of every other page is as before;
the mapid is 0 for an empty `mmap_list` and otherwise one more than that of
its last mapping. -/
theorem sys_mmap_entries (st st1 : mmap_state) (fd mapid : Int) (page file : Nat)
    (hopen : st.files.getD fd.toNat none = some file)
    (hlen : 0 < file_length st file ∧ file_length st file < 2147483648)
    (hrem : file_length st file % 4096 ≠ 0)
    (hrun : sys_mmap st fd page = some (st1, mapid)) (hok : mapid ≠ -1) :
    (∀ i : Nat, (i : Int) * 4096 < file_length st file →
      page_table_find st1.page_table (mmap_page page i) =
        some { page := mmap_page page i, frame := none, block := 0, file := some st.file_brk,
               offset := ((i * 4096 : Nat) : Int), disk := false }) ∧
    (∀ q, (∀ i : Nat, (i : Int) * 4096 < file_length st file → mmap_page page i ≠ q) →
      page_table_find st1.page_table q = page_table_find st.page_table q) ∧
    st1.file_inode st.file_brk = st.file_inode file ∧
    mapid = next_mapid st.mmap_list := by
  have hn : mmap_pages (file_length st file) ≤ 524289 := by
    unfold mmap_pages
    rw [Int.tdiv_eq_ediv (le_of_lt hlen.1) (by simp [PGSIZE])]
    simp only [PGSIZE]
    omega
  unfold sys_mmap at hrun
  by_cases hguard : fd < 0 ∨ (MAX_FILE_COUNT : Int) ≤ fd
  · rw [if_pos hguard] at hrun
    cases hrun
  · rw [if_neg hguard] at hrun
    simp only [hopen] at hrun
    by_cases h1 : fd ≤ STDOUT_FILENO ∨ file_length st file = 0 ∨ page = 0 ∨
        page ≠ pg_round_down page
    · rw [if_pos h1] at hrun
      simp only [Option.some.injEq, Prod.mk.injEq] at hrun
      exact absurd hrun.2.symm hok
    · rw [if_neg h1] at hrun
      by_cases h2 : (List.range (mmap_pages (file_length st file))).any
          (fun i => (page_table_find st.page_table (mmap_page page i)).isSome) = true
      · rw [if_pos h2] at hrun
        simp only [Option.some.injEq, Prod.mk.injEq] at hrun
        exact absurd hrun.2.symm hok
      · rw [if_neg h2] at hrun
        simp only [Option.some.injEq, Prod.mk.injEq] at hrun
        obtain ⟨e1, e2⟩ := hrun
        obtain ⟨f1, f2⟩ := mmap_fill_spec page st.file_brk (mmap_pages (file_length st file))
          st.page_table hn
        rw [← e1, ← e2]
        refine ⟨?_, ?_, ?_, rfl⟩
        · intro i hi
          have := f1 i ((mmap_pages_lt _ i hlen.1 hrem).2 hi)
          simpa [file_reopen, PGSIZE] using this
        · intro q hq
          have := f2 q (fun i hi => hq i ((mmap_pages_lt _ i hlen.1 hrem).1 hi))
          simpa [file_reopen, PGSIZE] using this
        · simp [file_reopen]

theorem sample_written_eq :
    inode_write_at (inode_open sample_created 2).1 2 (fun _ => 7) 600 0
      = some (sample_written, 600) := by
  obtain ⟨i, hi⟩ := file_reach_inv true _ 2 (sample_created_reach true)
  have e : i = loaded_inode sample_created 2 :=
    Option.some.inj (hi.deref.symm.trans sample_created_deref)
  subst e
  obtain ⟨st1, data1, h1, _⟩ := inode_write_at_spec (inode_open sample_created 2).1 2
    (loaded_inode sample_created 2) (fun _ => 7) 600 0 hi.deref rfl hi.cache hi.wf (by decide)
    (fun _ => by decide)
  unfold sample_written
  rw [h1]

theorem sample_written_reach : file_reach true sample_written 2 :=
  file_reach.write (inode_open sample_created 2).1 2 (loaded_inode sample_created 2)
    (fun _ => 7) 600 0 sample_written 600 (sample_created_reach true) sample_created_deref
    (by decide) (fun _ => by decide) (fun h => by cases h) sample_written_eq

theorem sample_written_inv : file_inv true sample_written 2 sample_written_inode := by
  obtain ⟨i, hi⟩ := file_reach_inv true _ 2 sample_written_reach
  have e : sample_written_inode = i := by
    unfold sample_written_inode
    rw [hi.deref]
  rw [e]
  exact hi

set_option maxRecDepth 100000 in
theorem sample_written_length : inode_length sample_written_inode.data = 600 := by
  decide

set_option maxRecDepth 100000 in
theorem sample_written_bytes :
    ∀ k, k < 5 → file_content sample_written sample_written_inode.data (595 + k) = 7 := by
  decide

set_option maxRecDepth 100000 in
theorem sample_written_free : free_count sample_written.free_map = 35 := by
  decide

theorem inode_read_at_returns_witness :
    inode_deref sample_written 2 = some sample_written_inode ∧
    cache_ok sample_written.cache_table ∧
    inode_wf sample_written 2 sample_written_inode.data ∧
    inode_length sample_written_inode.data = 600 ∧
    (0 < 10 → 595 < 8460288 ∧
      (595 + 10 ≤ 8460288 ∨ inode_length sample_written_inode.data < 8460288)) ∧
    3 * (min 10 ((inode_length sample_written_inode.data).toNat - 595) / 512 + 2)
      ≤ free_count sample_written.free_map ∧
    ∃ st1 buffer1, inode_read_at sample_written 2 (fun _ => 9) 10 595 = some (st1, buffer1, 5) ∧
      (∀ k, k < 5 → buffer1 k = 7) ∧ (∀ k, 5 ≤ k → buffer1 k = 9) := by
  have hl := sample_written_length
  have hfree : 3 * (min 10 ((inode_length sample_written_inode.data).toNat - 595) / 512 + 2)
      ≤ free_count sample_written.free_map := by
    rw [hl, sample_written_free]; decide
  refine ⟨sample_written_inv.deref, sample_written_inv.cache, sample_written_inv.wf, hl,
    fun _ => ⟨by decide, Or.inl (by decide)⟩, hfree, ?_⟩
  obtain ⟨st1, buffer1, i1, n, h1, h2, h3, h4, _⟩ :=
    inode_read_at_returns sample_written 2 sample_written_inode (fun _ => 9) 10 595
      sample_written_inv.deref sample_written_inv.cache sample_written_inv.wf
      (fun _ => ⟨by decide, Or.inl (by decide)⟩) hfree
  rw [hl] at h2
  have hn : n = 5 := by omega
  subst hn
  exact ⟨st1, buffer1, h1, fun k hk => (h3 k hk).trans (sample_written_bytes k hk),
    fun k hk => h4 k hk⟩

theorem bitmap_scan_and_flip_full : ∀ (l : List Bool), (∀ b ∈ l, b = true) →
    bitmap_scan_and_flip l = none := by
  intro l
  induction l with
  | nil => intro _; rfl
  | cons b rest ih =>
    intro h
    have hb : b = true := h b (List.mem_cons_self _ _)
    subst hb
    simp [bitmap_scan_and_flip, ih (fun c hc => h c (List.mem_cons_of_mem _ hc))]

theorem swap_write_loop_checked_eq (frame : Nat → Nat) (block : Nat) :
    ∀ (l : List Nat) (st : swap), (∀ i ∈ l, (block + i) % 4294967296 < st.disk_size) →
    swap_write_loop_checked frame block l st = (swap_write_loop frame block l st, true) := by
  intro l
  induction l with
  | nil => intro st _; rfl
  | cons i rest ih =>
    intro st h
    have h0 : (block + i) % 4294967296 < st.disk_size := h i (List.mem_cons_self _ _)
    simp only [swap_write_loop_checked, swap_disk_write, if_pos h0, swap_write_loop]
    exact ih _ (fun j hj => h j (List.mem_cons_of_mem _ hj))

/-- With a clear bit in the bitmap of a well-formed state every sector of the
slot lies on the device: the driver call stores each of them, and `swap_out`
over the driver is `swap_out`. -/
theorem swap_out_checked_eq (st : swap) (frame : Nat → Nat) (hwf : swap_wf st)
    (hfree : false ∈ st.swap_table) :
    swap_out_checked st frame = ((swap_out st frame).1, some (swap_out st frame).2) := by
  obtain ⟨i, e, hi, _, _⟩ := bitmap_scan_and_flip_spec st.swap_table hfree
  obtain ⟨h1, h2⟩ := hwf
  have hb : block_size = 8 := by decide
  rw [hb] at h1
  have hlt : ∀ j ∈ List.range block_size, (i * block_size % 4294967296 + j) % 4294967296
      < st.disk_size := by
    intro j hj
    rw [hb] at hj ⊢
    have := List.mem_range.1 hj
    omega
  simp only [swap_out_checked, swap_out, e]
  rw [swap_write_loop_checked_eq frame _ _
    { st with swap_table := st.swap_table.set i true } hlt]
  simp

/-- C22: when every bit of the swap bitmap is set (and the device has fewer than
`2 ^ 32 - 8` sectors), `swap_out` stops the kernel: the scan gives `BITMAP_ERROR`,
the slot sector becomes `BITMAP_ERROR * 8 = 4294967288` in `disk_sector_t`
arithmetic, and the first `disk_write` of the loop is for a sector beyond the
device, at which the driver stops the kernel.  The state is as before the
call: no sector of the swap device is written, the bitmap is as it was, and no
slot sector is returned. -/
theorem swap_out_stops_when_full (st : swap) (frame : Nat → Nat)
    (hfull : ∀ b ∈ st.swap_table, b = true) (hsize : st.disk_size ≤ 4294967288) :
    swap_out_checked st frame = (st, none) := by
  have hb : (BITMAP_ERROR * block_size) % 4294967296 = 4294967288 := by decide
  have hr : List.range block_size = 0 :: (List.range 7).map (fun j => j + 1) := by decide
  have hn : ¬ (4294967288 + 0) % 4294967296 < st.disk_size := by omega
  simp only [swap_out_checked, bitmap_scan_and_flip_full st.swap_table hfull, hb, hr,
    swap_write_loop_checked, swap_disk_write, if_neg hn]
  simp

theorem swap_out_stops_when_full_witness :
    sample_swap_full.swap_table = [true, true] ∧ sample_swap_full.disk_size = 16 ∧
    swap_out_checked sample_swap_full (fun _ => 9) = (sample_swap_full, none) :=
  ⟨by decide, by decide,
    swap_out_stops_when_full sample_swap_full (fun _ => 9) (by decide) (by decide)⟩

/-- Without a free-map file the release is the pair of `release_block`. -/
theorem release_block_file_nil (st : filesys) (s : Nat) :
    release_block_file [] st s = some (release_block st s) := rfl

theorem release_block_when_nil (c : Prop) [Decidable c] (st : filesys) (s : Nat) :
    release_block_when [] (decide c) st s = some (if c then release_block st s else st) := by
  by_cases hc : c
  · simp only [release_block_when, decide_eq_true_eq, if_pos hc, release_block_file_nil]
  · simp only [release_block_when, decide_eq_true_eq, if_neg hc]

/-- Without a free-map file the iteration is that of `free_blocks_step`. -/
theorem free_blocks_step_file_nil (st : filesys) (data : inode_disk) (pos : Nat) :
    free_blocks_step_file [] st data pos = free_blocks_step st data pos := by
  unfold free_blocks_step_file free_blocks_step
  by_cases h1 : pos < DIRECT_MAX
  · rw [if_pos h1, if_pos h1, release_block_file_nil]
  · rw [if_neg h1, if_neg h1]
    by_cases h2 : pos < DIRECT_MAX + SECTOR_MAX
    · rw [if_pos h2, if_pos h2]
      dsimp only
      cases cache_table_read st zeros 0 data.indirect ((pos - DIRECT_MAX) * 4) 4 with
      | none => rfl
      | some r =>
        obtain ⟨st1, buf⟩ := r
        dsimp only
        rw [release_block_when_nil]
        dsimp only
        rw [release_block_when_nil]
    · rw [if_neg h2, if_neg h2]
      dsimp only
      cases cache_table_read st zeros 0 data.double_indirect
          ((pos - DIRECT_MAX - SECTOR_MAX) / SECTOR_MAX * 4) 4 with
      | none => rfl
      | some r =>
        obtain ⟨st1, buf⟩ := r
        dsimp only
        by_cases hu : get32 buf 0 ≠ UNUSED_SECTOR
        · rw [if_pos hu, if_pos hu]
          cases cache_table_read st1 zeros 0 (get32 buf 0)
              ((pos - DIRECT_MAX - SECTOR_MAX) % SECTOR_MAX * 4) 4 with
          | none => rfl
          | some r2 =>
            obtain ⟨st2, buf2⟩ := r2
            dsimp only
            rw [release_block_when_nil]
            dsimp only
            rw [release_block_when_nil]
            dsimp only
            rw [release_block_when_nil]
        · rw [if_neg hu, if_neg hu]
          dsimp only
          rw [release_block_when_nil]

theorem free_blocks_loop_file_nil (data : inode_disk) : ∀ (n : Nat) (st : filesys),
    free_blocks_loop_file [] data n st = free_blocks_loop data n st := by
  intro n
  induction n with
  | zero => intro st; rfl
  | succ n ih =>
    intro st
    simp only [free_blocks_loop_file, free_blocks_loop, free_blocks_step_file_nil]
    cases free_blocks_step st data n with
    | none => rfl
    | some st1 => exact ih st1

/-- Without a free-map file, `free_blocks_file` is `free_blocks`. -/
theorem free_blocks_file_nil (st : filesys) (data : inode_disk) :
    free_blocks_file [] st data = free_blocks st data :=
  free_blocks_loop_file_nil data _ st

/-- Without a free-map file, `inode_close_file` is `inode_close`. -/
theorem inode_close_file_nil (st : filesys) (p : Option Nat) :
    inode_close_file [] st p = inode_close st p := by
  unfold inode_close_file inode_close
  cases p with
  | none => rfl
  | some p =>
    dsimp only
    cases inode_deref st p with
    | none => rfl
    | some i =>
      dsimp only
      split_ifs
      · exact free_blocks_file_nil _ _
      · rfl
      · rfl

end Pintos
